import Mathlib

/-!
# Tensor memory-management core: checkpointing and paging

A shallow embedding of `ATen/EntityTensorImpl.{h,cpp}` (cells, alias pools,
rematerializers, external handles, the wrapper tensor impl) and of
`c10/core/EntityStorageImpl.h`, `c10/core/StorageImpl.cpp` (the paging
descriptor).

Objects that the C++ code reaches through `intrusive_ptr` live in a `Heap`,
one table per class, addressed by natural numbers.  A method that can throw
(`TORCH_CHECK`, a failing operator) returns an `Except`, together with the heap
as it is at the moment of the throw: nothing is rolled back.
-/

namespace c10

/-- Placement of an entity's buffer (`enum class EntityStorageStat`). -/
inductive EntityStorageStat
  | kOnline
  | kOffline
  | kTrans
deriving DecidableEq, Repr

/-- Transfer intent of an entity (`enum class TransStat`). -/
inductive TransStat
  | kNone
  | kPgOut
  | kPgIn
deriving DecidableEq, Repr

/-- The fields of `EntityStorageImpl` that its own methods read or write. -/
structure EntityStorageImpl where
  entity_id_ : Nat
  dirty_ : Bool
  trans_stat_ : TransStat
  entity_stat_ : EntityStorageStat
deriving DecidableEq, Repr

/-- Constructor of `EntityStorageImpl`: clean, no transfer, on device. -/
def EntityStorageImpl.mk_fresh (entity_id : Nat) : EntityStorageImpl :=
  { entity_id_ := entity_id, dirty_ := false,
    trans_stat_ := TransStat.kNone, entity_stat_ := EntityStorageStat.kOnline }

/-- Body of `EntityStorageImpl::do_pagein_cb`. -/
def EntityStorageImpl.do_pagein_cb (e : EntityStorageImpl) : EntityStorageImpl :=
  { e with trans_stat_ := TransStat.kNone, entity_stat_ := EntityStorageStat.kOnline }

/-- Body of `EntityStorageImpl::do_pageout_cb`. -/
def EntityStorageImpl.do_pageout_cb (e : EntityStorageImpl) : EntityStorageImpl :=
  { e with trans_stat_ := TransStat.kNone, entity_stat_ := EntityStorageStat.kOffline }

/-- Body of `EntityStorageImpl::pageout_internal`: it calls `do_pageout_cb`. -/
def EntityStorageImpl.pageout_internal (e : EntityStorageImpl) : EntityStorageImpl :=
  e.do_pageout_cb

/-- Body of `EntityStorageImpl::pagein_internal`: it calls `do_pagein_cb`. -/
def EntityStorageImpl.pagein_internal (e : EntityStorageImpl) : EntityStorageImpl :=
  e.do_pagein_cb

/-- Body of `EntityStorageImpl::ensure_data_internal`: takes both mutexes and returns. -/
def EntityStorageImpl.ensure_data_internal (e : EntityStorageImpl) (_sync : Bool) :
    EntityStorageImpl := e

/-- Body of `EntityStorageImpl::ensure_data`. -/
def EntityStorageImpl.ensure_data (e : EntityStorageImpl) : EntityStorageImpl :=
  e.ensure_data_internal true

/-- Body of `EntityStorageImpl::mark_dirty`. -/
def EntityStorageImpl.mark_dirty (e : EntityStorageImpl) : EntityStorageImpl :=
  { e with dirty_ := true }

/-- The part of `StorageImpl` that the paging entry points use: the entity
reference `entity_.impl_`, null when paging is not enabled for the storage. -/
structure StorageImpl where
  entity_ : Option EntityStorageImpl
deriving DecidableEq, Repr

/-- Body of `StorageImpl::atm_enabled`. -/
def StorageImpl.atm_enabled (s : StorageImpl) : Bool := s.entity_.isSome

/-- Body of `StorageImpl::pagein_manual`. -/
def StorageImpl.pagein_manual (s : StorageImpl) : StorageImpl :=
  match s.entity_ with
  | some e => { s with entity_ := some e.pagein_internal }
  | none => s

/-- Body of `StorageImpl::pageout_manual`. -/
def StorageImpl.pageout_manual (s : StorageImpl) : StorageImpl :=
  match s.entity_ with
  | some e => { s with entity_ := some e.pageout_internal }
  | none => s

/-- A dirty entity that is off device with no transfer pending. -/
def dirty_offline_entity : EntityStorageImpl :=
  { entity_id_ := 7, dirty_ := true, trans_stat_ := TransStat.kNone,
    entity_stat_ := EntityStorageStat.kOffline }

end c10

namespace ATen

/-- Size of the value range of `size_t` (64 bits). -/
def SIZE_T_RANGE : Nat := 18446744073709551616

/-- The operation `++n` on a `size_t`: modulo `2^64`. -/
def size_t_inc (n : Nat) : Nat := (n + 1) % SIZE_T_RANGE

/-- The operation `--n` on a `size_t`: modulo `2^64`, so 0 goes to `2^64 - 1`. -/
def size_t_dec (n : Nat) : Nat := if n = 0 then SIZE_T_RANGE - 1 else n - 1

/-- The failures a call can end with. -/
inductive Err
  /-- A `TORCH_CHECK` whose condition is false; the number is the source line in `EntityTensorImpl.{h,cpp}`. -/
  | check (line : Nat)
  /-- The operator (`func`) threw; the number is whatever it threw. -/
  | op_failed (code : Nat)
  /-- Dereference of a null or dangling pointer (undefined behaviour in C++). -/
  | null_deref
  /-- Index outside a `std::vector` (undefined behaviour in C++). -/
  | out_of_range
  /-- The recursion bound of the model was reached: not a behaviour of the code. -/
  | out_of_fuel
deriving DecidableEq, Repr

/-- Equality of results of a call that can throw is decidable. -/
instance instDecidableEqExcept {ε α : Type} [DecidableEq ε] [DecidableEq α] :
    DecidableEq (Except ε α)
  | Except.ok a, Except.ok b =>
    if h : a = b then isTrue (by rw [h]) else isFalse (fun hab => h (by cases hab; rfl))
  | Except.error a, Except.error b =>
    if h : a = b then isTrue (by rw [h]) else isFalse (fun hab => h (by cases hab; rfl))
  | Except.ok _, Except.error _ => isFalse (fun hab => by cases hab)
  | Except.error _, Except.ok _ => isFalse (fun hab => by cases hab)

/-- The dispatch keys this code tests or sets, and the rest of the 64-bit set. -/
structure DispatchKeySet where
  autograd : Bool
  checkpoint : Bool
  rest : Nat
deriving DecidableEq, Repr

/-- Identity of a physical storage; `clone` is the storage of a copy. -/
inductive StorageId
  | base (n : Nat)
  | clone (of : StorageId)
deriving DecidableEq, Repr

/-- Modelled from the spec: the runtime's `Tensor` handle ("From the tensor runtime: `Tensor`
with `detach`, `defined`, `is_alias_of`, `key_set`, `requires_grad`, `dtype`,
`optional_device`, `storage`"), which is not under `src/`.  A tensor is an immutable value.
`impl_ = some i` says that the handle's `TensorImpl` is the `EntityTensorImpl` number `i`
(a checkpointed tensor); its `storage` and `data` are then unused, the code reads them
through `ref_tensor()`. -/
structure Tensor where
  defined : Bool
  storage : StorageId
  data : List Int
  requires_grad : Bool
  key_set : DispatchKeySet
  dtype : Nat
  optional_device : Option Nat
  impl_ : Option Nat
deriving DecidableEq, Repr

abbrev Tensors := List Tensor

/-- Modelled from the spec: `Tensor::detach` "strips gradient tracking". -/
def Tensor.detach (t : Tensor) : Tensor := { t with requires_grad := false }

/-- Modelled from the spec: `Tensor::is_alias_of`, "share a physical storage". -/
def Tensor.is_alias_of (l r : Tensor) : Bool := decide (l.storage = r.storage)

/-- Modelled from the spec: `Tensor::clone`, the same contents on a storage of its own. -/
def Tensor.clone (t : Tensor) : Tensor := { t with storage := StorageId.clone t.storage }

/-- The callable `RematFunc_t = std::function<Tensors(const Tensors&)>`: what it returns
or throws, and how many clock ticks the call takes. -/
structure RematFunc_t where
  run : Tensors → Except Err Tensors
  ticks : Tensors → Nat

/-- The callable `MutateFunc_t = std::function<void(const Tensors&)>`, which writes into
its arguments: `run` gives the arguments as they are after the call (position by
position), or what the call throws. -/
structure MutateFunc_t where
  run : Tensors → Except Err Tensors
  ticks : Tensors → Nat

/-- Fields of `struct Rematerializer`; `inputs` are strong, `outputs` weak references to cells. -/
structure Rematerializer where
  func : RematFunc_t
  inputs : List Nat
  outputs : List Nat
  compute_cost : Nat

/-- Fields of `struct AliasPool`. -/
structure AliasPool where
  tensors_ : List Nat
  neighbors_ : List Nat
  lock_count_ : Nat
  external_count_ : Nat
  head_remat_ : Option Nat
  is_evicted_ : Bool
  memory_ : Nat
  last_used_ : Nat
deriving DecidableEq, Repr

/-- Fields of `struct EntityTensorCell`. -/
structure EntityTensorCell where
  t_ : Option Tensor
  defined_ : Bool
  is_undefined_tensor_ : Bool
  key_set_ : DispatchKeySet
  dtype_ : Nat
  optional_device_ : Option Nat
  pool_ : Nat
  remat_ : Option Nat
deriving DecidableEq, Repr

/-- Fields of `struct External`: the strong reference `value` (null once reset). -/
structure External where
  value : Option Nat
deriving DecidableEq, Repr

/-- The slot of `RefCell<intrusive_ptr<External>>`. -/
structure RefCell where
  value : Option Nat
deriving DecidableEq, Repr

/-- Fields of `struct EntityTensorImpl` proper (the `TensorImpl` base fields travel with
the `Tensor` handle). -/
structure EntityTensorImpl where
  id_ : Nat
  ref : Nat
deriving DecidableEq, Repr

/-- The objects of the process: one table per class, the next free address of each, the
system clock and the static `EntityTensorImpl::counter`.  An address holding `none` is
an object that does not exist (a weak reference to it cannot be locked). -/
structure Heap where
  cells : Nat → Option EntityTensorCell
  pools : Nat → Option AliasPool
  remats : Nat → Option Rematerializer
  externals : Nat → Option External
  refs : Nat → Option RefCell
  impls : Nat → Option EntityTensorImpl
  next_cell : Nat
  next_pool : Nat
  next_remat : Nat
  next_external : Nat
  next_ref : Nat
  next_impl : Nat
  now : Nat
  counter : Nat

/-- The heap of a process that has created nothing yet. -/
def Heap.empty : Heap :=
  { cells := fun _ => none, pools := fun _ => none, remats := fun _ => none,
    externals := fun _ => none, refs := fun _ => none, impls := fun _ => none,
    next_cell := 0, next_pool := 0, next_remat := 0, next_external := 0,
    next_ref := 0, next_impl := 0, now := 0, counter := 0 }

/-- A table with the entry at `i` replaced. -/
def upd {α : Type} (f : Nat → Option α) (i : Nat) (v : α) : Nat → Option α :=
  fun j => if j = i then some v else f j

/-- A call: it ends with a value or a failure, and the heap it leaves. -/
def M (α : Type) : Type := Heap → Except Err α × Heap

/-- Return without touching the heap. -/
def M.pure {α : Type} (a : α) : M α := fun h => (Except.ok a, h)

/-- Sequencing: a failure of the first call ends the whole call, with the heap of that moment. -/
def M.bind {α β : Type} (m : M α) (f : α → M β) : M β := fun h =>
  match m h with
  | (Except.ok a, h1) => f a h1
  | (Except.error e, h1) => (Except.error e, h1)

instance : Monad M where
  pure := M.pure
  bind := M.bind

/-- Throw. -/
def fail {α : Type} (e : Err) : M α := fun h => (Except.error e, h)

/-- A `TORCH_CHECK(cond)` at the given source line. -/
def torch_check (cond : Bool) (line : Nat) : M Unit :=
  if cond then M.pure () else fail (Err.check line)

/-- Lift a method that can only throw. -/
def liftE {α : Type} (x : Except Err α) : M α := fun h => (x, h)

/-- Weakest precondition of a call: `Q` is to hold of the value and heap of a normal
return, `E` of the heap left by a throw. -/
def wp {α : Type} (m : M α) (Q : α → Heap → Prop) (E : Heap → Prop) (h : Heap) : Prop :=
  match m h with
  | (Except.ok a, h1) => Q a h1
  | (Except.error _, h1) => E h1

/-- The call `m` keeps `P`: from a heap with `P` it leaves a heap with `P`, whether it
returns or throws. -/
def Keeps {α : Type} (P : Heap → Prop) (m : M α) : Prop :=
  ∀ h, P h → wp m (fun _ => P) P h

/-! ## Access to the heap -/

/-- Dereference a cell pointer. -/
def cell_at (c : Nat) : M EntityTensorCell := fun h =>
  match h.cells c with
  | some x => (Except.ok x, h)
  | none => (Except.error Err.null_deref, h)

/-- Dereference an alias-pool pointer. -/
def pool_at (p : Nat) : M AliasPool := fun h =>
  match h.pools p with
  | some x => (Except.ok x, h)
  | none => (Except.error Err.null_deref, h)

/-- Dereference a rematerializer pointer. -/
def remat_at (r : Nat) : M Rematerializer := fun h =>
  match h.remats r with
  | some x => (Except.ok x, h)
  | none => (Except.error Err.null_deref, h)

/-- Dereference an `External` pointer. -/
def external_at (e : Nat) : M External := fun h =>
  match h.externals e with
  | some x => (Except.ok x, h)
  | none => (Except.error Err.null_deref, h)

/-- Dereference a `Ref` pointer. -/
def ref_at (r : Nat) : M RefCell := fun h =>
  match h.refs r with
  | some x => (Except.ok x, h)
  | none => (Except.error Err.null_deref, h)

/-- Dereference an `EntityTensorImpl` pointer. -/
def impl_at (i : Nat) : M EntityTensorImpl := fun h =>
  match h.impls i with
  | some x => (Except.ok x, h)
  | none => (Except.error Err.null_deref, h)

/-- Dereference a pointer that may be null. -/
def deref (p : Option Nat) : M Nat := fun h =>
  match p with
  | some x => (Except.ok x, h)
  | none => (Except.error Err.null_deref, h)

/-- Store into a cell. -/
def set_cell (c : Nat) (x : EntityTensorCell) : M Unit := fun h =>
  (Except.ok (), { h with cells := upd h.cells c x })

/-- Store into an alias pool. -/
def set_pool (p : Nat) (x : AliasPool) : M Unit := fun h =>
  (Except.ok (), { h with pools := upd h.pools p x })

/-- Store into a rematerializer. -/
def set_remat (r : Nat) (x : Rematerializer) : M Unit := fun h =>
  (Except.ok (), { h with remats := upd h.remats r x })

/-- Store into an `External`. -/
def set_external (e : Nat) (x : External) : M Unit := fun h =>
  (Except.ok (), { h with externals := upd h.externals e x })

/-- Store into a `Ref` slot. -/
def set_ref (r : Nat) (x : RefCell) : M Unit := fun h =>
  (Except.ok (), { h with refs := upd h.refs r x })

/-- Allocate a cell (`Strong::make`). -/
def new_cell (x : EntityTensorCell) : M Nat := fun h =>
  (Except.ok h.next_cell, { h with cells := upd h.cells h.next_cell x, next_cell := h.next_cell + 1 })

/-- Allocate an alias pool (`intrusive_ptr<AliasPool>::make`). -/
def new_pool (x : AliasPool) : M Nat := fun h =>
  (Except.ok h.next_pool, { h with pools := upd h.pools h.next_pool x, next_pool := h.next_pool + 1 })

/-- Allocate a rematerializer (`intrusive_ptr<Rematerializer>::make`). -/
def new_remat (x : Rematerializer) : M Nat := fun h =>
  (Except.ok h.next_remat, { h with remats := upd h.remats h.next_remat x, next_remat := h.next_remat + 1 })

/-- Allocate an `External` (`intrusive_ptr<External>::make`). -/
def new_external (x : External) : M Nat := fun h =>
  (Except.ok h.next_external,
    { h with externals := upd h.externals h.next_external x, next_external := h.next_external + 1 })

/-- Allocate a `Ref` (`Ref<...>::make`). -/
def new_ref (x : RefCell) : M Nat := fun h =>
  (Except.ok h.next_ref, { h with refs := upd h.refs h.next_ref x, next_ref := h.next_ref + 1 })

/-- Allocate an `EntityTensorImpl` (`intrusive_ptr<EntityTensorImpl>::make`). -/
def new_impl (x : EntityTensorImpl) : M Nat := fun h =>
  (Except.ok h.next_impl, { h with impls := upd h.impls h.next_impl x, next_impl := h.next_impl + 1 })

/-- Read `std::chrono::system_clock::now()`. -/
def clock_now : M Nat := fun h => (Except.ok h.now, h)

/-- Run an operator: the clock advances by the ticks the call takes. -/
def RematFunc_t.call (f : RematFunc_t) (ts : Tensors) : M Tensors := fun h =>
  (f.run ts, { h with now := h.now + f.ticks ts })

/-! ## AliasPool -/

/-- Constructor `AliasPool(const Unsafe&, head_remat, memory)`. -/
def AliasPool.make (head_remat : Option Nat) (memory : Nat) (now : Nat) : AliasPool :=
  { tensors_ := [], neighbors_ := [], lock_count_ := 0, external_count_ := 0,
    head_remat_ := head_remat, is_evicted_ := false, memory_ := memory, last_used_ := now }

/-- Body of `AliasPool::lock`: `++lock_count_` on a `size_t`. -/
def AliasPool.lock (p : AliasPool) : AliasPool :=
  { p with lock_count_ := size_t_inc p.lock_count_ }

/-- Body of `AliasPool::unlock`: `--lock_count_` on a `size_t`. -/
def AliasPool.unlock (p : AliasPool) : AliasPool :=
  { p with lock_count_ := size_t_dec p.lock_count_ }

/-- Body of `AliasPool::evictable`. -/
def AliasPool.evictable (p : AliasPool) : Bool :=
  p.lock_count_ == 0 && p.head_remat_.isSome

/-- Body of `AliasPool::update_last_used`. -/
def AliasPool.update_last_used (p : AliasPool) (now : Nat) : AliasPool :=
  { p with last_used_ := now }

/-- Body of `AliasPool::register_external`. -/
def AliasPool.register_external (p : AliasPool) : AliasPool :=
  { p with external_count_ := size_t_inc p.external_count_ }

/-- Body of `AliasPool::release_external`. -/
def AliasPool.release_external (p : AliasPool) : Except Err AliasPool :=
  let p1 := { p with external_count_ := size_t_dec p.external_count_ }
  if p1.external_count_ == 0 then
    if p1.lock_count_ > 0 then Except.ok p1
    else if p1.lock_count_ == 0 then Except.ok p1 else Except.error (Err.check 127)
  else Except.ok p1

/-- Body of `AliasPool::set_not_evicted`. -/
def AliasPool.set_not_evicted (p : AliasPool) : AliasPool :=
  if p.is_evicted_ then { p with is_evicted_ := false } else p

/-- Body of `AliasPool::release_resources`. -/
def AliasPool.release_resources (p : AliasPool) : AliasPool :=
  { p with tensors_ := [], neighbors_ := [], head_remat_ := none }

/-! ## EntityTensorCell -/

/-- Body of `DispatchKeySet::add(DispatchKey::Autograd)`. -/
def DispatchKeySet.add_autograd (k : DispatchKeySet) : DispatchKeySet := { k with autograd := true }

/-- Body of `DispatchKeySet::add(DispatchKey::Checkpoint)`. -/
def DispatchKeySet.add_checkpoint (k : DispatchKeySet) : DispatchKeySet := { k with checkpoint := true }

/-- Body of `EntityTensorCell::fill`. -/
def EntityTensorCell.fill (c : EntityTensorCell) (t : Tensor) : EntityTensorCell :=
  if c.t_.isSome then c
  else if !c.defined_ then
    { c with
      t_ := some t.detach
      defined_ := true
      is_undefined_tensor_ := !t.defined
      key_set_ := if t.requires_grad then t.key_set.add_autograd else t.key_set
      dtype_ := t.dtype
      optional_device_ := t.optional_device }
  else { c with t_ := some t.detach }

/-- Body of `EntityTensorCell::evict`. -/
def EntityTensorCell.evict (c : EntityTensorCell) : Except Err EntityTensorCell :=
  if c.remat_.isSome then Except.ok { c with t_ := none } else Except.error (Err.check 168)

/-- Constructors of `EntityTensorCell`: `pool_` and `remat_` are set, then `fill(t)` runs
on the cell that holds nothing yet. -/
def EntityTensorCell.make (t : Tensor) (pool : Nat) (remat : Option Nat) : EntityTensorCell :=
  EntityTensorCell.fill
    { t_ := none, defined_ := false, is_undefined_tensor_ := false,
      key_set_ := { autograd := false, checkpoint := false, rest := 0 },
      dtype_ := 0, optional_device_ := none, pool_ := pool, remat_ := remat } t

/-- Body of `EntityTensorCell::release_resources`; the null `pool_` is not represented, the
cell is removed from the heap by whoever runs this. -/
def EntityTensorCell.release_resources (c : EntityTensorCell) : EntityTensorCell :=
  { c with t_ := none, remat_ := none }

/-- Accessor `EntityTensorCell::key_set`. -/
def EntityTensorCell.key_set (c : EntityTensorCell) : Except Err DispatchKeySet :=
  if c.defined_ then Except.ok c.key_set_ else Except.error (Err.check 150)

/-- Accessor `EntityTensorCell::dtype`. -/
def EntityTensorCell.dtype (c : EntityTensorCell) : Except Err Nat :=
  if c.defined_ then Except.ok c.dtype_ else Except.error (Err.check 155)

/-- Accessor `EntityTensorCell::optional_device`. -/
def EntityTensorCell.optional_device (c : EntityTensorCell) : Except Err (Option Nat) :=
  if c.defined_ then Except.ok c.optional_device_ else Except.error (Err.check 160)

/-- Body of `EntityTensorCell::memory`. -/
def EntityTensorCell.memory (c : Nat) : M Nat := do
  let cell ← cell_at c
  torch_check cell.defined_ 122
  let p ← pool_at cell.pool_
  pure p.memory_

/-- The call `s->pool_->lock()` on the cell `s`. -/
def lock_pool_of (s : Nat) : M Unit := do
  let cell ← cell_at s
  let p ← pool_at cell.pool_
  set_pool cell.pool_ p.lock

/-- The call `s->pool_->unlock()` on the cell `s`. -/
def unlock_pool_of (s : Nat) : M Unit := do
  let cell ← cell_at s
  let p ← pool_at cell.pool_
  set_pool cell.pool_ p.unlock

/-- The loop `for (const Strong& s : inputs) s->pool_->lock();`. -/
def lock_inputs : List Nat → M Unit
  | [] => pure ()
  | s :: rest => do
    lock_pool_of s
    lock_inputs rest

/-- The loop `for (const Strong& s : inputs) s->pool_->unlock();`. -/
def unlock_inputs : List Nat → M Unit
  | [] => pure ()
  | s :: rest => do
    unlock_pool_of s
    unlock_inputs rest

/-- Body of `uncheckpoint(const Strongs&)`, with the cell's `get` as a parameter. -/
def uncheckpoint_with (get : Nat → M Tensor) : List Nat → M Tensors
  | [] => pure []
  | input :: rest => do
    let t ← get input
    let ts ← uncheckpoint_with get rest
    pure (t :: ts)

/-- One turn of the loop over `outputs` in `remat`: `if (auto output_cell = outputs[i].lock())
output_cell->fill(ret[i]);`. -/
def fill_output (o : Nat) (t : Tensor) : M Unit := fun h =>
  match h.cells o with
  | some cell => (Except.ok (), { h with cells := upd h.cells o (cell.fill t) })
  | none => (Except.ok (), h)

/-- The loop over `outputs` in `remat`; it runs after the check that both have the same size. -/
def fill_outputs : List Nat → Tensors → M Unit
  | o :: os, t :: ts => do
    fill_output o t
    fill_outputs os ts
  | _, _ => pure ()

/-- Body of `Rematerializer::remat`, with the cells' `get` as a parameter.  Nothing that runs
in between writes the rematerializer, so its fields are read once. -/
def remat_with (get : Nat → M Tensor) (r : Nat) : M Unit := do
  let rm ← remat_at r
  lock_inputs rm.inputs
  let ts ← uncheckpoint_with get rm.inputs
  let _pre_rematerialize ← clock_now
  let ret ← rm.func.call ts
  let _post_rematerialize ← clock_now
  torch_check (ret.length == rm.outputs.length) 99
  fill_outputs rm.outputs ret
  unlock_inputs rm.inputs

/-- The tail of `EntityTensorCell::get`, from `TORCH_CHECK(t_)` on. -/
def get_tail (c : Nat) : M Tensor := do
  let cell ← cell_at c
  match cell.t_ with
  | none => fail (Err.check 131)
  | some t => do
    let p ← pool_at cell.pool_
    let now ← clock_now
    set_pool cell.pool_ (p.update_last_used now)
    pure t

/-- Body of `EntityTensorCell::get`.  The first argument bounds the depth of the nested
replays (`get` calls `remat`, which calls `get` on the inputs). -/
def EntityTensorCell.get : Nat → Nat → M Tensor
  | 0, _ => fail Err.out_of_fuel
  | fuel + 1, c => do
    let cell ← cell_at c
    match cell.t_ with
    | some _ => get_tail c
    | none =>
      match cell.remat_ with
      | none => fail (Err.check 128)
      | some r => do
        remat_with (EntityTensorCell.get fuel) r
        get_tail c

/-- Body of `Rematerializer::remat`. -/
def Rematerializer.remat (fuel : Nat) (r : Nat) : M Unit :=
  remat_with (EntityTensorCell.get fuel) r

/-- Body of `uncheckpoint(const Strongs&)`. -/
def uncheckpoint_strongs (fuel : Nat) (inputs : List Nat) : M Tensors :=
  uncheckpoint_with (EntityTensorCell.get fuel) inputs

/-- Body of `EntityTensorCell::pin`. -/
def EntityTensorCell.pin (fuel : Nat) (c : Nat) : M Unit := do
  let _ ← EntityTensorCell.get fuel c
  let cell ← cell_at c
  let p ← pool_at cell.pool_
  set_pool cell.pool_ { p with head_remat_ := none }
  set_cell c { cell with remat_ := none }

/-- The cell-level calls `fill` and `evict` on the cell at an address. -/
def cell_fill (c : Nat) (t : Tensor) : M Unit := do
  let cell ← cell_at c
  set_cell c (cell.fill t)

/-- The call `evict()` on the cell at an address. -/
def cell_evict (c : Nat) : M Unit := do
  let cell ← cell_at c
  let cell1 ← liftE cell.evict
  set_cell c cell1

/-! ## External and EntityTensorImpl -/

/-- Constructor `External(const Strong& value)`; the call of `register_external` in its body
is commented out in the source. -/
def External.from_strong (value : Nat) : M Nat :=
  new_external { value := some value }

/-- Constructor `External(const Tensor& value)`: a pool without rematerializer and with
memory `-1`, a cell in it, and the handle. -/
def External.from_tensor (value : Tensor) : M Nat := do
  let now ← clock_now
  let pool ← new_pool (AliasPool.make none (SIZE_T_RANGE - 1) now)
  let cell ← new_cell (EntityTensorCell.make value pool none)
  External.from_strong cell

/-- Constructor `External(const Tensor& value, pool, remat)`. -/
def External.from_parts (value : Tensor) (pool : Nat) (remat : Option Nat) : M Nat := do
  let cell ← new_cell (EntityTensorCell.make value pool remat)
  External.from_strong cell

/-- Body of `External::release_resources`: `value->pool_->release_external(); value.reset();`.
What happens to a cell that loses its last strong reference is not represented. -/
def External.release_resources (e : Nat) : M Unit := do
  let ext ← external_at e
  let c ← deref ext.value
  let cell ← cell_at c
  let p ← pool_at cell.pool_
  let p1 ← liftE p.release_external
  set_pool cell.pool_ p1
  set_external e { ext with value := none }

/-- The number of `RefCell` slots whose value is the handle `e`. -/
def slot_count (h : Heap) (e : Nat) : Nat :=
  ((List.range h.next_ref).filter (fun r =>
    match h.refs r with
    | some slot => slot.value == some e
    | none => false)).length

/-- Modelled from the spec: the reference counting of a handle, which in the code is that
of `intrusive_ptr<External>` ("A reference-counted container holding a mutable slot",
"shared ownership"; of `External`: "its destruction decrements the cell's alias-pool
`external_count`").  One `intrusive_ptr<External>` to `e` goes away.  When no `RefCell`
slot holds `e` and `e` is not among `held`, the handles of a vector that is still alive,
this was the last reference, and `External::release_resources` runs before the object is
freed.  The handles in slots are those that `checkpoint`, `make` and `mutate` put there;
these calls keep no other reference to them, and the slots themselves stay (no tensor is
given up). -/
def drop_external (held : List Nat) (e : Nat) : M Unit := fun h =>
  if held.contains e || decide (0 < slot_count h e) then (Except.ok (), h)
  else External.release_resources e h

/-- What an assignment to a slot does to the pointer the slot held: a null pointer
refers to nothing, another one gives up its reference. -/
def drop_handle (held : List Nat) : Option Nat → M Unit
  | none => pure ()
  | some e => drop_external held e

/-- The end of a vector of handles (`ret.outputs` at the end of `mutate`): its entries go
away one after the other.  At the end of `make` every handle of `ret.outputs` is in the
slot of a new impl, so that nothing is released there. -/
def drop_externals : List Nat → M Unit
  | [] => pure ()
  | e :: rest => do
    drop_external rest e
    drop_externals rest

/-- A scope with a local object: its destructor runs when the body returns and when the
body throws. -/
def with_cleanup {α : Type} (body : M α) (cleanup : M Unit) : M α := fun h =>
  match body h with
  | (Except.ok a, h1) =>
    match cleanup h1 with
    | (Except.ok _, h2) => (Except.ok a, h2)
    | (Except.error e, h2) => (Except.error e, h2)
  | (Except.error e, h1) => (Except.error e, (cleanup h1).2)

/-- Body of `convert_key_set`. -/
def convert_key_set (t : DispatchKeySet) : Except Err DispatchKeySet :=
  if !t.checkpoint then Except.ok t.add_checkpoint else Except.error (Err.check 270)

/-- The handle `Tensor(eti)` of an `EntityTensorImpl` whose base `TensorImpl` was built from
the given key set, dtype and device; `set_requires_grad(true)` runs when the key set has
the autograd key. -/
def Tensor.of_impl (eti : Nat) (ks : DispatchKeySet) (dtype : Nat) (dev : Option Nat) : Tensor :=
  { defined := true, storage := StorageId.base 0, data := [], requires_grad := ks.autograd,
    key_set := ks, dtype := dtype, optional_device := dev, impl_ := some eti }

/-- Constructor `EntityTensorImpl(const Ref<intrusive_ptr<External>>& ref)`, giving the
handle of the new impl: the base is built from the cell's cached metadata, then
`id_ = gen_counter()`. -/
def EntityTensorImpl.from_ref (ref : Nat) : M Tensor := do
  let slot ← ref_at ref
  let e ← deref slot.value
  let ext ← external_at e
  let c ← deref ext.value
  let cell ← cell_at c
  let ks0 ← liftE cell.key_set
  let ks ← liftE (convert_key_set ks0)
  let dtype ← liftE cell.dtype
  let dev ← liftE cell.optional_device
  let eti ← (fun h => (Except.ok h.next_impl,
    { h with impls := upd h.impls h.next_impl { id_ := h.counter, ref := ref },
             next_impl := h.next_impl + 1, counter := h.counter + 1 }) : M Nat)
  pure (Tensor.of_impl eti ks dtype dev)

/-- Constructor `EntityTensorImpl(const intrusive_ptr<External>& e)`. -/
def EntityTensorImpl.from_external (e : Nat) : M Tensor := do
  let ref ← new_ref { value := some e }
  EntityTensorImpl.from_ref ref

/-- Constructor `EntityTensorImpl(const Tensor& t)`. -/
def EntityTensorImpl.from_tensor (t : Tensor) : M Tensor := do
  let e ← External.from_tensor t
  EntityTensorImpl.from_external e

/-- Body of `get_entity_tensor_impl`: the `dynamic_cast` and its check. -/
def get_entity_tensor_impl (t : Tensor) : M EntityTensorImpl :=
  match t.impl_ with
  | none => fail (Err.check 261)
  | some i => impl_at i

/-- Body of `get_cell_from_tensor`: the `Ref` of the tensor's impl. -/
def get_cell_from_tensor (t : Tensor) : M Nat := do
  let eti ← get_entity_tensor_impl t
  pure eti.ref

/-- The path `get_entity_tensor_impl(t)->ref->value->value`: the cell behind a tensor. -/
def strong_of (t : Tensor) : M Nat := do
  let eti ← get_entity_tensor_impl t
  let slot ← ref_at eti.ref
  let e ← deref slot.value
  let ext ← external_at e
  deref ext.value

/-- Body of `EntityTensorImpl::ref_tensor` on the impl of `t`. -/
def ref_tensor (fuel : Nat) (t : Tensor) : M Tensor := do
  let c ← strong_of t
  EntityTensorCell.get fuel c

/-- Body of `EntityTensorImpl::shallow_copy_and_detach`. -/
def EntityTensorImpl.shallow_copy_and_detach (t : Tensor) : M Tensor := do
  let eti ← get_entity_tensor_impl t
  EntityTensorImpl.from_ref eti.ref

/-- Body of `EntityTensorImpl::shallow_copy_from`; the `dynamic_cast` of a plain impl
gives a null pointer, which is then dereferenced.  The assignment `ref->value = ...`
gives up the handle that the slot held. -/
def EntityTensorImpl.shallow_copy_from (self impl : Tensor) : M Unit := do
  let me ← get_entity_tensor_impl self
  let i ← deref impl.impl_
  let eti ← impl_at i
  let src ← ref_at eti.ref
  let dst ← ref_at me.ref
  set_ref me.ref { dst with value := src.value }
  drop_handle [] dst.value

/-! ## The functions of `at::native` -/

namespace native

/-- Body of `native::checkpoint`. -/
def checkpoint (t : Tensor) : M Tensor := EntityTensorImpl.from_tensor t

/-- Body of `native::uncheckpoint`. -/
def uncheckpoint (fuel : Nat) (t : Tensor) : M Tensor := ref_tensor fuel t

/-- Body of `native::is_checkpoint`. -/
def is_checkpoint (t : Tensor) : Bool := t.impl_.isSome

/-- Body of `native::decheckpoint`. -/
def decheckpoint (fuel : Nat) (t : Tensor) : M Tensor :=
  if is_checkpoint t then ref_tensor fuel t else pure t

/-- Body of `native::try_checkpoint`. -/
def try_checkpoint (t : Tensor) : M Tensor :=
  if is_checkpoint t then pure t else checkpoint t

/-- Body of `native::evict_checkpoint`. -/
def evict_checkpoint (t : Tensor) : M Bool :=
  if !is_checkpoint t then pure false
  else do
    let c ← strong_of t
    cell_evict c
    pure true

/-- Body of `native::remat_checkpoint`. -/
def remat_checkpoint (fuel : Nat) (t : Tensor) : M Tensor :=
  if is_checkpoint t then ref_tensor fuel t else pure t

end native

/-! ## make_raw, make, mutate -/

/-- Body of `is_alias`. -/
def is_alias (l r : Tensor) : Bool := l.defined && r.defined && l.is_alias_of r

/-- The `for` loop in `get_alias`, from index `i` on. -/
def get_alias_from (t : Tensor) : Tensors → Nat → Int
  | [], _ => -1
  | x :: rest, i => if x.defined && t.is_alias_of x then (i : Int) else get_alias_from t rest (i + 1)

/-- Body of `get_alias`: the loop is under `if (!t.defined())`. -/
def get_alias (ts : Tensors) (t : Tensor) : Int :=
  if !t.defined then get_alias_from t ts 0 else -1

/-- Fields of `struct MakeRawResult`. -/
structure MakeRawResult where
  outputs : List Nat
  aliases : List Int
  time : Nat
  rematerializer : Nat
deriving DecidableEq, Repr

/-- The `else` branch for one output in `make_raw`: the pool of `inputs[alias]`, whose
`head_remat_` (if any) gets the measured time added to its `compute_cost`. -/
def alias_pool_of_input (inputs : List Nat) (alias_ : Int) (dt : Nat) : M Nat := do
  let s ← (fun h => match inputs.get? alias_.toNat with
    | some s => (Except.ok s, h)
    | none => (Except.error Err.out_of_range, h) : M Nat)
  let cell ← cell_at s
  let alias_pool := cell.pool_
  let p ← pool_at alias_pool
  match p.head_remat_ with
  | none => pure alias_pool
  | some hr => do
    let rm ← remat_at hr
    set_remat hr { rm with compute_cost := rm.compute_cost + dt }
    pure alias_pool

/-- The choice of the pool for one output in `make_raw`: a new pool headed by the new
rematerializer when `get_alias` gave `-1` (its memory is the `size_t` value of `-1`), the
pool of `inputs[alias]` otherwise. -/
def pool_for_output (remat : Nat) (inputs : List Nat) (alias_ : Int) (dt : Nat) : M Nat :=
  if alias_ == -1 then do
    let now ← clock_now
    new_pool (AliasPool.make (some remat) (SIZE_T_RANGE - 1) now)
  else alias_pool_of_input inputs alias_ dt

/-- One turn of the loop over `raw_outputs` in `make_raw`: the new `External` and the alias index. -/
def make_raw_output (remat : Nat) (inputs : List Nat) (raw_inputs : Tensors) (dt : Nat)
    (t : Tensor) : M (Nat × Int) := do
  let alias_pool ← pool_for_output remat inputs (get_alias raw_inputs t) dt
  let e ← External.from_parts t alias_pool (some remat)
  let ext ← external_at e
  let c ← deref ext.value
  let p ← pool_at alias_pool
  set_pool alias_pool { p with tensors_ := p.tensors_ ++ [c] }
  pure (e, get_alias raw_inputs t)

/-- The loop over `raw_outputs` in `make_raw`, giving `outputs`, `aliases` and `weak_outputs`. -/
def make_raw_outputs (remat : Nat) (inputs : List Nat) (raw_inputs : Tensors) (dt : Nat) :
    Tensors → M (List Nat × List Int × List Nat)
  | [] => pure ([], [], [])
  | t :: rest => do
    let (e, alias_) ← make_raw_output remat inputs raw_inputs dt t
    let ext ← external_at e
    let c ← deref ext.value
    let (es, as, ws) ← make_raw_outputs remat inputs raw_inputs dt rest
    pure (e :: es, alias_ :: as, c :: ws)

/-- Body of `make_raw`. -/
def make_raw (fuel : Nat) (remat_f : RematFunc_t) (inputs : List Nat) : M MakeRawResult := do
  lock_inputs inputs
  let raw_inputs ← uncheckpoint_strongs fuel inputs
  let pre_rematerialize ← clock_now
  let raw_outputs ← remat_f.call raw_inputs
  let post_rematerialize ← clock_now
  let dt := post_rematerialize - pre_rematerialize
  let remat ← new_remat { func := remat_f, inputs := inputs, outputs := [], compute_cost := dt }
  let (outputs, aliases, weak_outputs) ← make_raw_outputs remat inputs raw_inputs dt raw_outputs
  let rm ← remat_at remat
  set_remat remat { rm with outputs := weak_outputs }
  unlock_inputs inputs
  pure { outputs := outputs, aliases := aliases, time := dt, rematerializer := remat }

/-- Body of `try_checkpoint(const Tensors&)`. -/
def try_checkpoint_all : Tensors → M Tensors
  | [] => pure []
  | input :: rest => do
    let t ← native.try_checkpoint input
    let ts ← try_checkpoint_all rest
    pure (t :: ts)

/-- The loop `input_values.push_back(get_entity_tensor_impl(t)->ref->value->value)`. -/
def input_values_of : Tensors → M (List Nat)
  | [] => pure []
  | t :: rest => do
    let c ← strong_of t
    let cs ← input_values_of rest
    pure (c :: cs)

/-- The loop of `make` that wraps each output `External` in an `EntityTensorImpl`. -/
def wrap_outputs : List Nat → M Tensors
  | [] => pure []
  | e :: rest => do
    let cp ← EntityTensorImpl.from_external e
    let cps ← wrap_outputs rest
    pure (cp :: cps)

/-- Body of `EntityTensorImpl::make` (the `name` argument is not used by the code). -/
def EntityTensorImpl.make (fuel : Nat) (remat : RematFunc_t) (inputs : Tensors) : M Tensors := do
  let checkpointed_inputs ← try_checkpoint_all inputs
  let input_values ← input_values_of checkpointed_inputs
  let ret ← make_raw fuel remat input_values
  wrap_outputs ret.outputs

/-- The loop `new_input_values[idx] = t[idx].clone()` over `mutate_idx`. -/
def clone_at : List Nat → Tensors → Tensors → Except Err Tensors
  | [], _, acc => Except.ok acc
  | idx :: rest, t, acc =>
    match t.get? idx with
    | some x => clone_at rest t (acc.set idx x.clone)
    | none => Except.error Err.out_of_range

/-- The arguments of an in-place call after it: position by position what the callable
left there; the vector keeps its length. -/
def written_back : Tensors → Tensors → Tensors
  | _ :: xs, a :: as => a :: written_back xs as
  | xs, [] => xs
  | [], _ :: _ => []

/-- The lambda `remat` built in `EntityTensorImpl::mutate`: clone the inputs at `mutate_idx`,
run `mutate` on the vector, return the vector. -/
def mutate_lambda (mutate : MutateFunc_t) (mutate_idx : List Nat) : RematFunc_t :=
  { run := fun t =>
      match clone_at mutate_idx t t with
      | Except.error e => Except.error e
      | Except.ok new_input_values =>
        match mutate.run new_input_values with
        | Except.error e => Except.error e
        | Except.ok after => Except.ok (written_back new_input_values after)
    ticks := fun t =>
      match clone_at mutate_idx t t with
      | Except.error _ => 0
      | Except.ok new_input_values => mutate.ticks new_input_values }

/-- The loop `get_cell_from_tensor(inputs[idx])->value = modified[idx]` over `mutate_idx`.
Each assignment gives up the handle that the slot held, while `modified` (the vector
`ret.outputs`) still holds its own handles. -/
def reseat (inputs : Tensors) (modified : List Nat) : List Nat → M Unit
  | [] => pure ()
  | idx :: rest => do
    let t ← liftE (match inputs.get? idx with
      | some t => Except.ok t
      | none => Except.error Err.out_of_range)
    let m ← liftE (match modified.get? idx with
      | some m => Except.ok m
      | none => Except.error Err.out_of_range)
    let ref ← get_cell_from_tensor t
    let slot ← ref_at ref
    set_ref ref { slot with value := some m }
    drop_handle modified slot.value
    reseat inputs modified rest

/-- Body of `EntityTensorImpl::mutate` (the `name` argument is not used by the code).  The
local `ret` ends with the function: the handles of `ret.outputs` that no slot has taken
go away. -/
def EntityTensorImpl.mutate (fuel : Nat) (mutate : MutateFunc_t) (inputs : Tensors)
    (mutate_idx : List Nat) : M Unit := do
  let remat := mutate_lambda mutate mutate_idx
  let checkpointed_inputs ← try_checkpoint_all inputs
  let input_values ← input_values_of checkpointed_inputs
  let ret ← make_raw fuel remat input_values
  with_cleanup (reseat inputs ret.outputs mutate_idx) (drop_externals ret.outputs)

end ATen


namespace ATen

/-! ## Concrete tensors, operators and runs -/

/-- The tensor `ones(4)` on storage 1. -/
def ones4 : Tensor :=
  { defined := true, storage := StorageId.base 1, data := [1, 1, 1, 1], requires_grad := false,
    key_set := { autograd := false, checkpoint := false, rest := 0 }, dtype := 6,
    optional_device := none, impl_ := none }

/-- Elementwise sum of two tensors, on a storage of its own; 5 ticks. -/
def add_op : RematFunc_t :=
  { run := fun ts =>
      match ts with
      | [a, b] => Except.ok [{ a with storage := StorageId.base 100,
                                      data := List.zipWith (fun x y => x + y) a.data b.data }]
      | _ => Except.error (Err.op_failed 1)
    ticks := fun _ => 5 }

/-- A view: it returns its inputs themselves, which alias the inputs; 3 ticks. -/
def view_op : RematFunc_t :=
  { run := fun ts => Except.ok ts, ticks := fun _ => 3 }

/-- An operator that throws; 2 ticks. -/
def failing_op : RematFunc_t :=
  { run := fun _ => Except.error (Err.op_failed 9), ticks := fun _ => 2 }

/-- The heap after `a = checkpoint(ones(4))`. -/
def heap_a : Heap := (native.checkpoint ones4 Heap.empty).2

/-- The checkpointed tensor `a` of `heap_a`: impl 0, whose cell is cell 0. -/
def tensor_a : Tensor :=
  Tensor.of_impl 0 { autograd := false, checkpoint := true, rest := 0 } 6 none

/-- The heap after `a = checkpoint(ones(4)); b = make("add", add, [a, a])`. -/
def heap_ab : Heap := (EntityTensorImpl.make 2 add_op [tensor_a, tensor_a] heap_a).2

/-- The checkpointed tensor `b` of `heap_ab`: impl 1, whose cell is cell 1. -/
def tensor_b : Tensor :=
  Tensor.of_impl 1 { autograd := false, checkpoint := true, rest := 0 } 6 none

end ATen

namespace ATen

/-- The value `2 * ones(4)` that the cell of `b` holds in `heap_ab`. -/
def twos4 : Tensor := { ones4 with storage := StorageId.base 100, data := [2, 2, 2, 2] }

/-- The heap after `a = checkpoint(ones(4)); b = make("add", add, [a, a]);
v = make("view", view, [b])`. -/
def heap_abv : Heap := (EntityTensorImpl.make 3 view_op [tensor_b] heap_ab).2

/-- The checkpointed tensor `v` of `heap_abv`: impl 2, whose cell is cell 2. -/
def tensor_v : Tensor :=
  Tensor.of_impl 2 { autograd := false, checkpoint := true, rest := 0 } 6 none

/-- The heap `heap_ab` in which the operator of the rematerializer of `b` throws when it
is replayed. -/
def heap_ab_failing : Heap :=
  { heap_ab with
    remats := upd heap_ab.remats 0
      { func := failing_op, inputs := [0, 0], outputs := [1], compute_cost := 5 } }

end ATen

namespace ATen

/-- What `get` and `remat` may change between two heaps: a cell that held nothing may have
been filled, a pool may have another lock count and time of last use, the clock may have
advanced; everything else is as it was. -/
structure Grows (h h1 : Heap) : Prop where
  remats : h1.remats = h.remats
  externals : h1.externals = h.externals
  refs : h1.refs = h.refs
  impls : h1.impls = h.impls
  next_cell : h1.next_cell = h.next_cell
  next_pool : h1.next_pool = h.next_pool
  next_remat : h1.next_remat = h.next_remat
  next_external : h1.next_external = h.next_external
  next_ref : h1.next_ref = h.next_ref
  next_impl : h1.next_impl = h.next_impl
  counter : h1.counter = h.counter
  cells_none : ∀ c, h.cells c = none → h1.cells c = none
  cells_some : ∀ c x, h.cells c = some x →
    h1.cells c = some x ∨ (x.t_ = none ∧ ∃ t, h1.cells c = some (x.fill t))
  pools_none : ∀ p, h.pools p = none → h1.pools p = none
  pools_some : ∀ p x, h.pools p = some x →
    ∃ l u, h1.pools p = some { x with lock_count_ := l, last_used_ := u }

/-- The primitive steps of `get` and `remat` keep `P`. -/
structure ReplayKeeps (P : Heap → Prop) : Prop where
  lock : ∀ s, Keeps P (lock_pool_of s)
  unlock : ∀ s, Keeps P (unlock_pool_of s)
  fill : ∀ o t, Keeps P (fill_output o t)
  call : ∀ (f : RematFunc_t) ts, Keeps P (f.call ts)
  tail : ∀ c, Keeps P (get_tail c)

end ATen

namespace ATen

/-- The cell at `o`, if it exists, holds a value. -/
def Holds (h : Heap) (o : Nat) : Prop := ∀ x, h.cells o = some x → x.t_.isSome = true

/-- The cell of `b` as it is in `heap_ab`. -/
def cell_b : EntityTensorCell :=
  { t_ := some twos4, defined_ := true, is_undefined_tensor_ := false,
    key_set_ := { autograd := false, checkpoint := false, rest := 0 }, dtype_ := 6,
    optional_device_ := none, pool_ := 1, remat_ := some 0 }

/-- The cell of `a` as it is in `heap_ab`. -/
def cell_a : EntityTensorCell :=
  { t_ := some ones4, defined_ := true, is_undefined_tensor_ := false,
    key_set_ := { autograd := false, checkpoint := false, rest := 0 }, dtype_ := 6,
    optional_device_ := none, pool_ := 0, remat_ := none }

/-- The heap `heap_ab` after `evict_checkpoint(b)`. -/
def heap_ab_evicted : Heap := (native.evict_checkpoint tensor_b heap_ab).2

end ATen

namespace ATen

/-! ## Runs: sequences of calls from the empty heap -/

/-- The calls that can be made on the heap: the public operations, the methods of the
wrapper impl, and the methods of cells, rematerializers and external handles. -/
inductive Op
  | checkpoint (t : Tensor)
  | try_checkpoint (t : Tensor)
  | uncheckpoint (fuel : Nat) (t : Tensor)
  | decheckpoint (fuel : Nat) (t : Tensor)
  | evict_checkpoint (t : Tensor)
  | remat_checkpoint (fuel : Nat) (t : Tensor)
  | make (fuel : Nat) (f : RematFunc_t) (inputs : Tensors)
  | mutate (fuel : Nat) (f : MutateFunc_t) (inputs : Tensors) (mutate_idx : List Nat)
  | shallow_copy_and_detach (t : Tensor)
  | shallow_copy_from (self impl : Tensor)
  | external_from_tensor (t : Tensor)
  | external_release (e : Nat)
  | make_raw (fuel : Nat) (f : RematFunc_t) (inputs : List Nat)
  | cell_get (fuel : Nat) (c : Nat)
  | cell_fill (c : Nat) (t : Tensor)
  | cell_evict (c : Nat)
  | cell_pin (fuel : Nat) (c : Nat)
  | remat (fuel : Nat) (r : Nat)

/-- The heap a call leaves, whether it returns or throws. -/
def Op.run : Op → Heap → Heap
  | Op.checkpoint t, h => (native.checkpoint t h).2
  | Op.try_checkpoint t, h => (native.try_checkpoint t h).2
  | Op.uncheckpoint fuel t, h => (native.uncheckpoint fuel t h).2
  | Op.decheckpoint fuel t, h => (native.decheckpoint fuel t h).2
  | Op.evict_checkpoint t, h => (native.evict_checkpoint t h).2
  | Op.remat_checkpoint fuel t, h => (native.remat_checkpoint fuel t h).2
  | Op.make fuel f inputs, h => (EntityTensorImpl.make fuel f inputs h).2
  | Op.mutate fuel f inputs idx, h => (EntityTensorImpl.mutate fuel f inputs idx h).2
  | Op.shallow_copy_and_detach t, h => (EntityTensorImpl.shallow_copy_and_detach t h).2
  | Op.shallow_copy_from self impl, h => (EntityTensorImpl.shallow_copy_from self impl h).2
  | Op.external_from_tensor t, h => (External.from_tensor t h).2
  | Op.external_release e, h => (External.release_resources e h).2
  | Op.make_raw fuel f inputs, h => (ATen.make_raw fuel f inputs h).2
  | Op.cell_get fuel c, h => (EntityTensorCell.get fuel c h).2
  | Op.cell_fill c t, h => (ATen.cell_fill c t h).2
  | Op.cell_evict c, h => (ATen.cell_evict c h).2
  | Op.cell_pin fuel c, h => (EntityTensorCell.pin fuel c h).2
  | Op.remat fuel r, h => (Rematerializer.remat fuel r h).2

/-- The heap after a sequence of calls. -/
def run_ops (ops : List Op) (h : Heap) : Heap := ops.foldl (fun h1 o => o.run h1) h

/-- A heap that some sequence of calls builds from the empty heap. -/
def Reachable (h : Heap) : Prop := ∃ ops : List Op, h = run_ops ops Heap.empty

/-- A cell that holds nothing has a rematerializer. -/
def AbsentHasRemat (h : Heap) : Prop :=
  ∀ c x, h.cells c = some x → x.t_ = none → x.remat_.isSome = true

/-- No pool has its evicted flag set. -/
def NoneEvicted (h : Heap) : Prop :=
  ∀ p x, h.pools p = some x → x.is_evicted_ = false

/-- Both of the above. -/
def Sound (h : Heap) : Prop := AbsentHasRemat h ∧ NoneEvicted h

end ATen

namespace ATen

/-- The calls that build `heap_ab_evicted`: `a = checkpoint(ones(4))`,
`b = make("add", add, [a, a])`, `evict_checkpoint(b)`. -/
def ops_ab_evicted : List Op :=
  [Op.checkpoint ones4, Op.make 2 add_op [tensor_a, tensor_a], Op.evict_checkpoint tensor_b]

/-- The pool of `b` as it is in `heap_ab_evicted`. -/
def pool_b : AliasPool :=
  { tensors_ := [1], neighbors_ := [], lock_count_ := 0, external_count_ := 0,
    head_remat_ := some 0, is_evicted_ := false, memory_ := 18446744073709551615,
    last_used_ := 5 }

end ATen

namespace ATen

/-! ## Replay consistency -/

/-- Replay consistency of a heap with respect to `den`, the value that each cell stands
for.  Every cell that holds a value holds `den` of it; every rematerializer, run on what
its inputs stand for, returns one tensor per output, whose detached value is what that
output stands for; inputs exist and were created before the outputs; cells, pools and
rematerializers refer to objects that exist.  `pend` marks a rematerializer under
construction in `make_raw` (its `outputs` are not stored yet), whose cells have addresses
from `n0` on. -/
structure PInv (pend : Nat → Prop) (n0 : Nat) (den : Nat → Tensor) (h : Heap) : Prop where
  cell_lt : ∀ c x, h.cells c = some x → c < h.next_cell
  cell_val : ∀ c x v, h.cells c = some x → x.t_ = some v → v = den c
  cell_remat : ∀ c x, h.cells c = some x → x.t_ = none → x.remat_.isSome = true
  cell_pool : ∀ c x, h.cells c = some x → ∃ p, h.pools x.pool_ = some p
  cell_out : ∀ c x r, h.cells c = some x → x.remat_ = some r →
    (pend r ∧ n0 ≤ c) ∨ ∃ rm, h.remats r = some rm ∧ c ∈ rm.outputs
  remat_lt : ∀ r rm, h.remats r = some rm → r < h.next_remat
  remat_in : ∀ r rm i, h.remats r = some rm → i ∈ rm.inputs → ∃ x, h.cells i = some x
  remat_ord : ∀ r rm i o, h.remats r = some rm → i ∈ rm.inputs → o ∈ rm.outputs → i < o
  remat_out : ∀ r rm o, h.remats r = some rm → o ∈ rm.outputs → o < h.next_cell
  remat_run : ∀ r rm, h.remats r = some rm → ¬ pend r →
    ∃ ret, rm.func.run (rm.inputs.map den) = Except.ok ret ∧
      List.Forall₂ (fun o t => den o = t.detach) rm.outputs ret
  pool_head : ∀ p x r, h.pools p = some x → x.head_remat_ = some r → ∃ rm, h.remats r = some rm

/-- Replay consistency with no rematerializer under construction. -/
def Inv (den : Nat → Tensor) (h : Heap) : Prop := PInv (fun _ => False) 0 den h

/-- A heap is consistent when it is so for some assignment of values to cells. -/
def Consistent (h : Heap) : Prop := ∃ den, Inv den h

end ATen

namespace ATen

/-- Contract of the `get` that `remat` uses for its inputs, on consistent heaps: it returns
what the cell stands for and keeps consistency; it can only throw, on a cell below the
bound `b`, when the cell does not exist; and it changes the heap as a replay does. -/
structure GetOK (den : Nat → Tensor) (g : Nat → M Tensor) (b : Nat) : Prop where
  spec : ∀ c h, Inv den h →
    wp (g c) (fun v h1 => v = den c ∧ Inv den h1)
      (fun h1 => Inv den h1 ∧ (c < b → h.cells c = none)) h
  grows : ∀ c h, Grows h (g c h).2

end ATen

namespace c10

/-- Body of `EntityStorageImpl::pageout_internal_sync` (empty in the base class). -/
def EntityStorageImpl.pageout_internal_sync (e : EntityStorageImpl) : EntityStorageImpl := e

/-- Body of `EntityStorageImpl::pagein_internal_sync` (empty in the base class). -/
def EntityStorageImpl.pagein_internal_sync (e : EntityStorageImpl) : EntityStorageImpl := e

namespace cuda

/-- An `EntityStorageRef` held by a queue: the shared pointer `impl_`, as the address of
the entity it points to. -/
structure EntityStorageRef where
  impl_ : Nat
deriving DecidableEq, Repr

/-- Fields of `CudaEntityTransferQueue` (shared by the evict and the fetch queue); the
mutex and the condition variables are not data. -/
structure CudaEntityTransferQueue where
  actions_ : List EntityStorageRef
  enable_flag_ : Bool
  active_flag_ : Bool
  unique_flag_ : Bool
deriving DecidableEq, Repr

/-- Constructor of `CudaEntityTransferQueue`: no entries, all flags false. -/
def CudaEntityTransferQueue.make : CudaEntityTransferQueue :=
  { actions_ := [], enable_flag_ := false, active_flag_ := false, unique_flag_ := false }

/-- Body of `CudaEntityTransferQueue::enqueue`, under the action mutex.  The new reference
is a copy of `impl->storage_->entity()`, the reference of the storage of `impl` to `impl`. -/
def CudaEntityTransferQueue.enqueue (q : CudaEntityTransferQueue) (impl : Nat) :
    CudaEntityTransferQueue :=
  if q.enable_flag_ then { q with actions_ := q.actions_ ++ [{ impl_ := impl }] } else q

/-- Body of `CudaEntityTransferQueue::dequeue`: the front reference, or null. -/
def CudaEntityTransferQueue.dequeue (q : CudaEntityTransferQueue) :
    Option EntityStorageRef × CudaEntityTransferQueue :=
  match q.actions_ with
  | [] => (none, q)
  | impl_ref :: rest => (some impl_ref, { q with actions_ := rest })

/-- The scan of `erase` over the entries: the entries without the first one whose entity
has the id `id`, or `none` when the scan reaches the end. -/
def erase_scan (ents : Nat → EntityStorageImpl) (id : Nat) :
    List EntityStorageRef → Option (List EntityStorageRef)
  | [] => none
  | i :: rest =>
    if (ents i.impl_).entity_id_ == id then some rest
    else (erase_scan ents id rest).map (fun l => i :: l)

/-- Body of `CudaEntityTransferQueue::erase`; `ents` is the memory the references point into. -/
def CudaEntityTransferQueue.erase (ents : Nat → EntityStorageImpl)
    (q : CudaEntityTransferQueue) (impl : Nat) : Int × CudaEntityTransferQueue :=
  match erase_scan ents (ents impl).entity_id_ q.actions_ with
  | some l => (0, { q with actions_ := l })
  | none => (1, q)

/-- Body of `CudaEntityFetchQueue::enqueue_front`. -/
def CudaEntityFetchQueue.enqueue_front (q : CudaEntityTransferQueue) (impl : Nat) :
    CudaEntityTransferQueue :=
  if q.enable_flag_ then { q with actions_ := { impl_ := impl } :: q.actions_ } else q

/-- Body of `CudaEntityFetchQueue::enable_queue`. -/
def CudaEntityFetchQueue.enable_queue (q : CudaEntityTransferQueue) : CudaEntityTransferQueue :=
  { q with enable_flag_ := true }

/-- Body of `CudaEntityEvictQueue::start_actions`: the queue, and whether a worker thread
was spawned. -/
def CudaEntityEvictQueue.start_actions (q : CudaEntityTransferQueue) :
    CudaEntityTransferQueue × Bool :=
  if q.active_flag_ || q.enable_flag_ || q.unique_flag_ then (q, false)
  else ({ q with active_flag_ := true, enable_flag_ := true }, true)

/-- Body of `CudaEntityFetchQueue::start_actions`: the queue, and whether a worker thread
was spawned. -/
def CudaEntityFetchQueue.start_actions (q : CudaEntityTransferQueue) :
    CudaEntityTransferQueue × Bool :=
  if q.active_flag_ || q.unique_flag_ then (q, false)
  else ({ q with active_flag_ := true }, true)

/-- Body of `wait_and_stop_actions` (the same text in both queues).  While the caller waits
on `empty_cv_` the mutex is free and the worker takes entries off the queue: `left` is
what the queue holds when the wait returns. -/
def CudaEntityTransferQueue.wait_and_stop_actions (q : CudaEntityTransferQueue)
    (left : List EntityStorageRef) : CudaEntityTransferQueue :=
  let q1 := { q with enable_flag_ := false }
  if !q1.active_flag_ then q1
  else
    let q2 := if !q1.actions_.isEmpty then { q1 with actions_ := left } else q1
    { q2 with active_flag_ := false }

/-- Body of `wait_actions` (the same text in both queues); `left` as in
`wait_and_stop_actions`. -/
def CudaEntityTransferQueue.wait_actions (q : CudaEntityTransferQueue)
    (left : List EntityStorageRef) : CudaEntityTransferQueue :=
  if !q.active_flag_ then q
  else
    let q1 := { q with enable_flag_ := false }
    let q2 := if !q1.actions_.isEmpty then { q1 with actions_ := left } else q1
    { q2 with enable_flag_ := true }

/-- The methods of the entity that a worker calls on a dequeued reference. -/
inductive WorkerCall
  | pageout_internal_sync
  | do_pageout_cb
  | pagein_internal_sync
  | do_pagein_cb
deriving DecidableEq, Repr

/-- The step of `thread_do_entity_evict` on a dequeued reference (lines 61-66), with the
mutex released: the entity afterwards and the calls made on it.  `use_count` is that of
the reference's shared pointer. -/
def CudaEntityEvictQueue.process (use_count : Nat) (e : EntityStorageImpl) :
    EntityStorageImpl × List WorkerCall :=
  if use_count > 1 && !e.dirty_ then
    (e.pageout_internal_sync.do_pageout_cb,
      [WorkerCall.pageout_internal_sync, WorkerCall.do_pageout_cb])
  else (e, [])

/-- The step of `thread_do_entity_fetch` on a dequeued reference (lines 142-147). -/
def CudaEntityFetchQueue.process (use_count : Nat) (e : EntityStorageImpl) :
    EntityStorageImpl × List WorkerCall :=
  if use_count > 1 && !e.dirty_ then
    (e.pagein_internal_sync.do_pagein_cb,
      [WorkerCall.pagein_internal_sync, WorkerCall.do_pagein_cb])
  else (e, [])

/-- The queue after `enqueue` of each address of a list, in order. -/
def enqueue_all (q : CudaEntityTransferQueue) (impls : List Nat) : CudaEntityTransferQueue :=
  impls.foldl CudaEntityTransferQueue.enqueue q

/-- The queue after `enqueue_front` of each address of a list, in order. -/
def enqueue_front_all (q : CudaEntityTransferQueue) (impls : List Nat) :
    CudaEntityTransferQueue :=
  impls.foldl CudaEntityFetchQueue.enqueue_front q

/-- The references returned by `n` successive calls of `dequeue`, and the queue they leave. -/
def dequeue_n : Nat → CudaEntityTransferQueue →
    List (Option EntityStorageRef) × CudaEntityTransferQueue
  | 0, q => ([], q)
  | n + 1, q =>
    let r := q.dequeue
    let rest := dequeue_n n r.2
    (r.1 :: rest.1, rest.2)

end cuda
end c10

namespace ATen

/-- The tensor that the loop over `outputs` in `remat` offers to the cell `o` first: the
result paired with the first entry of `outputs` that is `o`, if there is one. -/
def first_fill : List Nat → Tensors → Nat → Option Tensor
  | o1 :: os, t :: ts, o => if o1 = o then some t else first_fill os ts o
  | _, _, _ => none

/-- The cell table after the loop over `outputs` in `remat`: a cell that exists and is
offered a tensor is `fill`ed with the first one offered; nothing else changes. -/
def filled_cells (h : Heap) (os : List Nat) (ts : Tensors) (o : Nat) : Option EntityTensorCell :=
  match h.cells o with
  | none => none
  | some x =>
    match first_fill os ts o with
    | none => some x
    | some t => some (x.fill t)

/-- Every cell of the list exists and its pool exists. -/
def Lockable (h : Heap) (l : List Nat) : Prop :=
  ∀ s ∈ l, ∃ x p, h.cells s = some x ∧ h.pools x.pool_ = some p

end ATen

namespace ATen

/-- The rematerializer of `b`: the addition of `a` and `a`, with the one output `b`. -/
def remat_b : Rematerializer :=
  { func := add_op, inputs := [0, 0], outputs := [1], compute_cost := 5 }

/-- The heap `heap_ab_evicted` with the rematerializer of `b` written out. -/
def heap_ab_replay : Heap :=
  { heap_ab_evicted with remats := upd heap_ab_evicted.remats 0 remat_b }

/-- The rematerializer of `b` with an operator that returns two tensors for its one output. -/
def remat_b_two : Rematerializer :=
  { func := view_op, inputs := [0, 0], outputs := [1], compute_cost := 5 }

/-- The heap `heap_ab_evicted` in which the operator of the rematerializer of `b` returns
two tensors. -/
def heap_ab_two : Heap :=
  { heap_ab_evicted with remats := upd heap_ab_evicted.remats 0 remat_b_two }

end ATen

namespace c10
namespace cuda

/-- A memory of entities in which the entity at address `a` has the id `a % 3`. -/
def ents_mod3 (a : Nat) : EntityStorageImpl := EntityStorageImpl.mk_fresh (a % 3)

/-- An enabled queue holding references to the entities at 3, 4, 5 and 7. -/
def queue_3457 : CudaEntityTransferQueue :=
  { actions_ := [{ impl_ := 3 }, { impl_ := 4 }, { impl_ := 5 }, { impl_ := 7 }],
    enable_flag_ := true, active_flag_ := true, unique_flag_ := true }

end cuda
end c10

namespace ATen

/-- The values that cells stand for after `make_raw` created one cell per raw output, from
address `n0` on: the detached raw outputs for the new cells, `den` for the older ones. -/
def extend_den (den : Nat → Tensor) (n0 : Nat) (outs : Tensors) : Nat → Tensor :=
  fun c =>
    if c < n0 then den c
    else
      match outs[c - n0]? with
      | some t => t.detach
      | none => den c

/-- The state of `make_raw` after `k` turns of its loop over the raw outputs, for the new
rematerializer `r0` (function `f`, the given inputs, outputs not stored yet), the first
new cell `n0` and the first new external `e0`; `h0` is the heap before the loop. -/
structure LoopSt (r0 n0 e0 : Nat) (f : RematFunc_t) (inputs : List Nat) (den : Nat → Tensor)
    (h0 : Heap) (k : Nat) (h : Heap) : Prop where
  inv : PInv (fun r => r = r0) n0 den h
  nc : h.next_cell = n0 + k
  ne : h.next_external = e0 + k
  pend : ∃ cc, h.remats r0
    = some { func := f, inputs := inputs, outputs := [], compute_cost := cc }
  in_lt : ∀ i ∈ inputs, i < n0
  refs : h.refs = h0.refs
  impls : h.impls = h0.impls
  ext_old : ∀ e, e < e0 → h.externals e = h0.externals e
  ext_new : ∀ j, j < k → h.externals (e0 + j) = some { value := some (n0 + j) }
  cells_old : ∀ c, c < n0 → h.cells c = h0.cells c
  cells_new : ∀ j, j < k → ∃ y, h.cells (n0 + j) = some y ∧ y.t_ = some (den (n0 + j))

end ATen

namespace ATen

/-- What a call of `make_raw` that returns `R` has done, on a heap `h` that is consistent
for `den`, when the operator returned `outs`: one new handle and one new cell per raw
output, in order, the new cells holding the detached raw outputs; the inputs hold what
they stand for; handles, wrappers and slots that existed are as they were; and the heap
is consistent for the extended assignment of values. -/
structure MadeRaw (den : Nat → Tensor) (h : Heap) (f : RematFunc_t) (inputs : List Nat)
    (outs : Tensors) (R : MakeRawResult) (h1 : Heap) : Prop where
  run : f.run (inputs.map den) = Except.ok outs
  inv : Inv (extend_den den h.next_cell outs) h1
  outputs : R.outputs = List.range' h.next_external outs.length
  next_cell : h1.next_cell = h.next_cell + outs.length
  next_external : h1.next_external = h.next_external + outs.length
  refs : h1.refs = h.refs
  impls : h1.impls = h.impls
  ext_old : ∀ e, e < h.next_external → h1.externals e = h.externals e
  ext_new : ∀ j, j < outs.length →
    h1.externals (h.next_external + j) = some { value := some (h.next_cell + j) }
  cells_new : ∀ j t, outs[j]? = some t →
    ∃ y, h1.cells (h.next_cell + j) = some y ∧ y.t_ = some t.detach
  cells_old : ∀ c x, h.cells c = some x →
    ∃ y, h1.cells c = some y ∧ ∀ v, x.t_ = some v → y.t_ = some v
  held : ∀ c ∈ inputs, ∃ y, h1.cells c = some y ∧ y.t_ = some (den c)

end ATen

namespace ATen

/-- The call is the raw `fill` of a cell with a tensor chosen by the caller. -/
def Op.is_cell_fill : Op → Bool
  | Op.cell_fill _ _ => true
  | _ => false

/-- A heap that a sequence of calls builds from the empty heap without writing a value
of the caller's choice into a cell: cells are filled by their constructors and by
replays only. -/
def ApiReachable (h : Heap) : Prop :=
  ∃ ops : List Op, (∀ o ∈ ops, o.is_cell_fill = false) ∧ h = run_ops ops Heap.empty

end ATen

namespace ATen

end ATen

namespace ATen

end ATen

namespace c10

/-- The invariant of the paging descriptor: the placement is `kTrans` exactly when a
transfer is pending. -/
def EntityStorageImpl.StatInv (e : EntityStorageImpl) : Prop :=
  e.entity_stat_ = EntityStorageStat.kTrans ↔ e.trans_stat_ ≠ TransStat.kNone

/-- An entity in transit: a page-out is pending. -/
def paging_out_entity : EntityStorageImpl :=
  { entity_id_ := 3, dirty_ := false, trans_stat_ := TransStat.kPgOut,
    entity_stat_ := EntityStorageStat.kTrans }

end c10

namespace ATen

/-- A cell that was never filled: what the constructors start from. -/
def blank_cell : EntityTensorCell :=
  { t_ := none, defined_ := false, is_undefined_tensor_ := false,
    key_set_ := { autograd := false, checkpoint := false, rest := 0 },
    dtype_ := 0, optional_device_ := none, pool_ := 4, remat_ := some 2 }

/-- A tensor that requires grad, of another dtype and on a device. -/
def grad_tensor : Tensor :=
  { defined := true, storage := StorageId.base 9, data := [7], requires_grad := true,
    key_set := { autograd := false, checkpoint := false, rest := 5 }, dtype := 11,
    optional_device := some 1, impl_ := none }

/-- A pool that no external handle was counted for. -/
def uncounted_pool : AliasPool :=
  { tensors_ := [0], neighbors_ := [], lock_count_ := 2, external_count_ := 0,
    head_remat_ := some 1, is_evicted_ := false, memory_ := 16, last_used_ := 3 }

end ATen

namespace c10

/-! ## The intrusive list of `c10/util/IntrusiveList.h` -/

/-- The memory of hooks: the fields `next_` and `prev_` of the `IntrusiveListHook` at each
address (`elem_` is never written after construction and plays no part). -/
structure Hooks where
  next_ : Nat → Nat
  prev_ : Nat → Nat

/-- The assignment `x->next_ = v`. -/
def Hooks.set_next (m : Hooks) (x v : Nat) : Hooks :=
  { m with next_ := fun y => if y = x then v else m.next_ y }

/-- The assignment `x->prev_ = v`. -/
def Hooks.set_prev (m : Hooks) (x v : Nat) : Hooks :=
  { m with prev_ := fun y => if y = x then v else m.prev_ y }

/-- A memory in which every hook is as its constructor leaves it: `next_ = prev_ = this`. -/
def Hooks.fresh : Hooks := { next_ := fun y => y, prev_ := fun y => y }

/-- Body of `IntrusiveListHook::attached`. -/
def Hooks.attached (m : Hooks) (this : Nat) : Bool := m.next_ this != this

/-- Body of `IntrusiveListHook::detached`. -/
def Hooks.detached (m : Hooks) (this : Nat) : Bool := m.next_ this == this

/-- What `AT_ERROR` throws in this file. -/
inductive ListError
  | double_insertion
deriving DecidableEq, Repr

/-- Body of `IntrusiveListHook::insertbefore`: the four assignments in the order of the
source, each reading the memory as the previous ones left it; the memory survives a
throw. -/
def IntrusiveListHook.insertbefore (m : Hooks) (this x : Nat) : Except ListError Unit × Hooks :=
  if m.attached x then (Except.error ListError.double_insertion, m)
  else
    let m1 := m.set_prev x (m.prev_ this)
    let m2 := m1.set_next x this
    let m3 := m2.set_next (m2.prev_ this) x
    let m4 := m3.set_prev this x
    (Except.ok (), m4)

/-- Body of `IntrusiveListHook::remove`; the chained assignment `next_ = prev_ = this`
writes `prev_` first. -/
def IntrusiveListHook.remove (m : Hooks) (this : Nat) : Bool × Hooks :=
  if !m.attached this then (false, m)
  else
    let m1 := m.set_next (m.prev_ this) (m.next_ this)
    let m2 := m1.set_prev (m1.next_ this) (m1.prev_ this)
    let m3 := m2.set_prev this this
    let m4 := m3.set_next this (m3.prev_ this)
    (true, m4)

/-- An `IntrusiveList`: the address of its member hook `anchor_`. -/
structure IntrusiveList where
  anchor_ : Nat
deriving DecidableEq, Repr

/-- Body of `IntrusiveList::empty`. -/
def IntrusiveList.empty (m : Hooks) (l : IntrusiveList) : Bool := m.detached l.anchor_

/-- Body of `IntrusiveList::append`. -/
def IntrusiveList.append (m : Hooks) (l : IntrusiveList) (x : Nat) :
    Except ListError Unit × Hooks :=
  IntrusiveListHook.insertbefore m l.anchor_ x

/-- Body of `IntrusiveList::prepend`. -/
def IntrusiveList.prepend (m : Hooks) (l : IntrusiveList) (x : Nat) :
    Except ListError Unit × Hooks :=
  IntrusiveListHook.insertbefore m (m.next_ l.anchor_) x

/-- Body of `IntrusiveList::head`. -/
def IntrusiveList.head (m : Hooks) (l : IntrusiveList) : Nat := m.next_ l.anchor_

/-- Body of `IntrusiveList::tail`. -/
def IntrusiveList.tail (m : Hooks) (l : IntrusiveList) : Nat := m.prev_ l.anchor_

/-- Body of `IntrusiveList::terminator`. -/
def IntrusiveList.terminator (l : IntrusiveList) : Nat := l.anchor_

/-- The loop `for (h = from; h != terminator(); h = h->next())` of a client, collecting
the hooks it visits; the first argument bounds the number of turns. -/
def IntrusiveList.walk (m : Hooks) (l : IntrusiveList) : Nat → Nat → List Nat
  | 0, _ => []
  | fuel + 1, h => if h = l.terminator then [] else h :: IntrusiveList.walk m l fuel (m.next_ h)

/-- The traversal from `head()` through `next()` up to `terminator()`. -/
def IntrusiveList.traverse (m : Hooks) (l : IntrusiveList) (fuel : Nat) : List Nat :=
  IntrusiveList.walk m l fuel (l.head m)

/-- The calls made on a list and its hooks. -/
inductive ListOp
  | append (x : Nat)
  | prepend (x : Nat)
  | remove (x : Nat)
deriving DecidableEq, Repr

/-- The hook a call is about. -/
def ListOp.hook : ListOp → Nat
  | ListOp.append x => x
  | ListOp.prepend x => x
  | ListOp.remove x => x

/-- The memory a call leaves, whether it returns or throws. -/
def ListOp.run (l : IntrusiveList) : ListOp → Hooks → Hooks
  | ListOp.append x, m => (l.append m x).2
  | ListOp.prepend x, m => (l.prepend m x).2
  | ListOp.remove x, m => (IntrusiveListHook.remove m x).2

/-- The memory after a sequence of calls. -/
def run_list_ops (l : IntrusiveList) (ops : List ListOp) (m : Hooks) : Hooks :=
  ops.foldl (fun m1 o => o.run l m1) m

/-- The abstract sequence: push-back and push-front of a hook that is not in the
sequence (a double insertion throws and changes nothing), deletion of a hook. -/
def ListOp.abs : ListOp → List Nat → List Nat
  | ListOp.append x, s => if x ∈ s then s else s ++ [x]
  | ListOp.prepend x, s => if x ∈ s then s else x :: s
  | ListOp.remove x, s => s.erase x

/-- The abstract sequence after a sequence of calls. -/
def abs_list_ops (ops : List ListOp) (s : List Nat) : List Nat :=
  ops.foldl (fun s1 o => o.abs s1) s

/-- The chain of hooks `s` between `p` and `e`: each `next_` leads to the following
hook, each `prev_` back. -/
def Linked (m : Hooks) : Nat → List Nat → Nat → Prop
  | p, [], e => m.next_ p = e ∧ m.prev_ e = p
  | p, x :: xs, e => m.next_ p = x ∧ m.prev_ x = p ∧ Linked m x xs e

/-- The memory represents the sequence `s` for the list with anchor `a`: the hooks of `s`
are chained in a ring through the anchor, they are distinct and none is the anchor, and
every other hook is detached. -/
structure ListRep (m : Hooks) (a : Nat) (s : List Nat) : Prop where
  linked : Linked m a s a
  nodup : (a :: s).Nodup
  rest : ∀ y, y ≠ a → y ∉ s → m.next_ y = y ∧ m.prev_ y = y

end c10

namespace c10

/-- The last hook of a chain that starts after `p`, or `p` when the chain is empty. -/
def last_or (p : Nat) : List Nat → Nat
  | [] => p
  | x :: xs => last_or x xs

/-- The first hook of a chain that ends before `e`, or `e` when the chain is empty. -/
def head_or (s : List Nat) (e : Nat) : Nat :=
  match s with
  | [] => e
  | x :: _ => x

end c10

namespace c10

/-- A list whose anchor is the hook at address 0. -/
def list0 : IntrusiveList := { anchor_ := 0 }

/-- The memory after `append` of the hook 1 to the empty `list0`. -/
def hooks_1 : Hooks := (list0.append Hooks.fresh 1).2

/-- A sequence of calls: append 1, append 2, prepend 3, append 2 again (which throws),
remove 2, remove 5 (which is detached). -/
def ops_sample : List ListOp :=
  [ListOp.append 1, ListOp.append 2, ListOp.prepend 3, ListOp.append 2, ListOp.remove 2,
   ListOp.remove 5]

end c10

namespace c10
namespace cuda

/-- The first statements of `thread_do_entity_evict` and `thread_do_entity_fetch`, under
the action mutex (lines 45-48 and 126-129): a thread that finds `unique_flag_` set
returns, otherwise it sets the flag and goes on into the service loop.  The result is the
queue and whether the thread went into the loop. -/
def CudaEntityTransferQueue.worker_entry (q : CudaEntityTransferQueue) :
    CudaEntityTransferQueue × Bool :=
  if q.unique_flag_ then (q, false) else ({ q with unique_flag_ := true }, true)

/-- The statement after the labels `post_evict_thread` and `post_fetch_thread` (lines 71
and 152), reached with the mutex held. -/
def CudaEntityTransferQueue.worker_exit (q : CudaEntityTransferQueue) :
    CudaEntityTransferQueue :=
  { q with unique_flag_ := false }

/-- The two queues of the file. -/
inductive QueueKind
  | evict
  | fetch
deriving DecidableEq, Repr

/-- The method `start_actions` of the queue of the given kind. -/
def QueueKind.start_actions (k : QueueKind) (q : CudaEntityTransferQueue) :
    CudaEntityTransferQueue × Bool :=
  match k with
  | QueueKind.evict => CudaEntityEvictQueue.start_actions q
  | QueueKind.fetch => CudaEntityFetchQueue.start_actions q

/-- A queue together with its threads: `spawned` counts the threads that `start_actions`
created and that have not run their first statement yet, `in_loop` the threads that are
inside the service loop. -/
structure QueueSystem where
  q : CudaEntityTransferQueue
  spawned : Nat
  in_loop : Nat
deriving DecidableEq, Repr

/-- What can happen to a queue and its threads; each event is one critical section of the
action mutex (for the waits: the two sections around the wait on `empty_cv_`, with `left`
the entries the queue holds when the wait returns). -/
inductive QueueEvent
  | start_actions
  | worker_entry
  | worker_exit
  | worker_dequeue
  | enqueue (impl : Nat)
  | enable_queue
  | wait_actions (left : List EntityStorageRef)
  | wait_and_stop_actions (left : List EntityStorageRef)
deriving DecidableEq, Repr

/-- The system after an event.  A thread can only start when one was spawned; a worker
leaves the loop only from the inner loop, after it was woken and found `active_flag_`
false (lines 59 and 140); `enable_queue` exists for the fetch queue only. -/
def QueueSystem.step (k : QueueKind) (s : QueueSystem) : QueueEvent → QueueSystem
  | QueueEvent.start_actions =>
    let r := k.start_actions s.q
    { s with q := r.1, spawned := if r.2 then s.spawned + 1 else s.spawned }
  | QueueEvent.worker_entry =>
    if s.spawned = 0 then s
    else
      let r := s.q.worker_entry
      { q := r.1, spawned := s.spawned - 1, in_loop := if r.2 then s.in_loop + 1 else s.in_loop }
  | QueueEvent.worker_exit =>
    if s.in_loop = 0 || s.q.active_flag_ then s
    else { s with q := s.q.worker_exit, in_loop := s.in_loop - 1 }
  | QueueEvent.worker_dequeue =>
    if s.in_loop = 0 then s else { s with q := s.q.dequeue.2 }
  | QueueEvent.enqueue impl => { s with q := s.q.enqueue impl }
  | QueueEvent.enable_queue =>
    match k with
    | QueueKind.fetch => { s with q := CudaEntityFetchQueue.enable_queue s.q }
    | QueueKind.evict => s
  | QueueEvent.wait_actions left => { s with q := s.q.wait_actions left }
  | QueueEvent.wait_and_stop_actions left => { s with q := s.q.wait_and_stop_actions left }

/-- The system after a sequence of events. -/
def QueueSystem.run (k : QueueKind) (es : List QueueEvent) (s : QueueSystem) : QueueSystem :=
  es.foldl (QueueSystem.step k) s

/-- The system of a queue as constructed: no threads. -/
def QueueSystem.init : QueueSystem :=
  { q := CudaEntityTransferQueue.make, spawned := 0, in_loop := 0 }

/-- The flag `unique_flag_` is set exactly when one worker is in the loop, and no more
than one ever is. -/
def QueueSystem.UniqueWorker (s : QueueSystem) : Prop :=
  s.in_loop ≤ 1 ∧ (s.q.unique_flag_ = true ↔ s.in_loop = 1)

/-- Events in which the queue is started twice, both threads start, the queue is stopped,
the worker leaves, and the queue is started again. -/
def events_restart : List QueueEvent :=
  [QueueEvent.start_actions, QueueEvent.wait_and_stop_actions [], QueueEvent.start_actions,
   QueueEvent.worker_entry, QueueEvent.worker_entry, QueueEvent.wait_and_stop_actions [],
   QueueEvent.worker_exit, QueueEvent.start_actions, QueueEvent.worker_entry]

end cuda
end c10

namespace ATen

/-- The steps of `make_raw` that allocate or write objects keep `P`. -/
structure AllocKeeps (P : Heap → Prop) : Prop where
  new_remat : ∀ x, Keeps P (new_remat x)
  set_remat : ∀ r x, Keeps P (set_remat r x)
  new_pool : ∀ r m now, Keeps P (new_pool (AliasPool.make r m now))
  push : ∀ (alias_pool c : Nat) (α : Type) (a : α), Keeps P (do
    let p ← pool_at alias_pool
    set_pool alias_pool { p with tensors_ := p.tensors_ ++ [c] }
    pure a)
  from_parts : ∀ t pool remat, Keeps P (External.from_parts t pool remat)

/-- The calls from which every operation is composed keep `P`. -/
structure CallKeeps (P : Heap → Prop) : Prop where
  replay : ReplayKeeps P
  cell_fill : ∀ c t, Keeps P (cell_fill c t)
  cell_evict : ∀ c, Keeps P (cell_evict c)
  from_tensor : ∀ t, Keeps P (External.from_tensor t)
  release : ∀ e, Keeps P (External.release_resources e)
  new_ref : ∀ x, Keeps P (new_ref x)
  set_ref : ∀ r x y h, P h → h.refs r = some y → P { h with refs := upd h.refs r x }
  from_ref : ∀ ref, Keeps P (EntityTensorImpl.from_ref ref)
  make_raw : ∀ fuel f inputs, Keeps P (make_raw fuel f inputs)

/-- The call is `pin` on a cell. -/
def Op.is_pin : Op → Bool
  | Op.cell_pin _ _ => true
  | _ => false

end ATen

namespace ATen

/-- Each cell is referenced by at most one `External`. -/
def AtMostOneExternal (h : Heap) : Prop :=
  ∀ e1 e2 c, h.externals e1 = some { value := some c } →
    h.externals e2 = some { value := some c } → e1 = e2

/-- The invariant behind `AtMostOneExternal`: external handles refer to cells that were
allocated, and no two of them to the same cell. -/
def OneExternal (h : Heap) : Prop :=
  (∀ e x c, h.externals e = some x → x.value = some c → c < h.next_cell) ∧
  (∀ e1 e2 x1 x2 c, h.externals e1 = some x1 → h.externals e2 = some x2 →
    x1.value = some c → x2.value = some c → e1 = e2)

end ATen

namespace ATen

/-- Cells exist only at addresses that were allocated. -/
def CellsBelow (h : Heap) : Prop := ∀ c x, h.cells c = some x → c < h.next_cell

/-- The cell `c` is a root that holds `v`: it was allocated, holds `v`, and has no
rematerializer. -/
def Rooted (c : Nat) (v : Tensor) (h : Heap) : Prop :=
  c < h.next_cell ∧ ∃ x, h.cells c = some x ∧ x.t_ = some v ∧ x.remat_ = none

/-- The heap `heap_ab` after `pin` on the cell of `b`. -/
def heap_ab_pinned : Heap := (EntityTensorCell.pin 2 1 heap_ab).2

end ATen

namespace ATen

/-- The rematerializer of the cell `x` is `r`; when `pinned` is true the cell may instead
have no rematerializer and hold a value, as `pin` leaves it. -/
def OwnedBy (pinned : Bool) (r : Nat) (x : EntityTensorCell) : Prop :=
  x.remat_ = some r ∨ (pinned = true ∧ x.remat_ = none ∧ x.t_.isSome = true)

/-- The outputs of every rematerializer are cells that were allocated one after the other
(the `i`-th output is the `i`-th of them), and each of these cells exists and is owned by
this rematerializer. -/
def Owned (pinned : Bool) (h : Heap) : Prop :=
  ∀ r rm, h.remats r = some rm →
    (∃ n, rm.outputs = List.range' n rm.outputs.length) ∧
    ∀ o ∈ rm.outputs, o < h.next_cell ∧ ∃ x, h.cells o = some x ∧ OwnedBy pinned r x

/-- An operator with two outputs, each on a storage of its own; 6 ticks. -/
def split_op : RematFunc_t :=
  { run := fun ts =>
      match ts with
      | [a] => Except.ok [{ a with storage := StorageId.base 200 },
                          { a with storage := StorageId.base 201 }]
      | _ => Except.error (Err.op_failed 2)
    ticks := fun _ => 6 }

/-- The calls `External(ones(4))`, `make_raw(split, [cell 0])`, `pin()` on cell 1. -/
def ops_split_pinned : List Op :=
  [Op.external_from_tensor ones4, Op.make_raw 1 split_op [0], Op.cell_pin 1 1]

/-- The heap after `ops_split_pinned`. -/
def heap_split_pinned : Heap := run_ops ops_split_pinned Heap.empty

end ATen

namespace ATen

/-- Pools exist only at addresses that were allocated, and their lock counts are values
of a `size_t`. -/
def PoolsOk (h : Heap) : Prop :=
  ∀ p x, h.pools p = some x → p < h.next_pool ∧ x.lock_count_ < SIZE_T_RANGE

/-- The pool of the cell at `s`, if the cell exists. -/
def pool_of (h : Heap) (s : Nat) : Option Nat := (h.cells s).map (fun x => x.pool_)

/-- How many entries of the list are cells of the pool `p`: the number of times a loop
over the list locks (or unlocks) that pool. -/
def lock_times (h : Heap) : List Nat → Nat → Nat
  | [], _ => 0
  | s :: rest, p => (if pool_of h s = some p then 1 else 0) + lock_times h rest p

/-- Every pool of `h` is still there in `h1`, with a lock count that differs by `d`
modulo `2^64`. -/
def Shifted (d : Nat → Int) (h h1 : Heap) : Prop :=
  ∀ p x, h.pools p = some x → ∃ y, h1.pools p = some y ∧
    (y.lock_count_ : Int) % 18446744073709551616
      = ((x.lock_count_ : Int) + d p) % 18446744073709551616

/-- Every pool of `h` is still there in `h1`, with the same lock count. -/
def LockSame (h h1 : Heap) : Prop :=
  ∀ p x, h.pools p = some x → ∃ y, h1.pools p = some y ∧ y.lock_count_ = x.lock_count_

end ATen

namespace ATen

/-- Every cell of `h` is still there in `h1` and belongs to the same pool. -/
def PoolKept (h h1 : Heap) : Prop := ∀ s q, pool_of h s = some q → pool_of h1 s = some q

end ATen

namespace ATen

/-- The heap `h` comes from `h0` by steps that allocate, and that leave the lock counts
and the pools of the cells of `h0` alone. -/
def Framed (h0 h : Heap) : Prop :=
  CellsBelow h ∧ PoolsOk h ∧ Shifted (fun _ => 0) h0 h ∧ PoolKept h0 h

end ATen

namespace ATen

/-- The calls that build `heap_chain_evicted`: `a = checkpoint(ones(4))`,
`b = make("add", add, [a, a])`, a `make_raw` of `add` on the cell of `b` twice, which gives
the cell 2 with the rematerializer 1, and the eviction of the cells 1 and 2. -/
def ops_chain_evicted : List Op :=
  [Op.checkpoint ones4, Op.make 2 add_op [tensor_a, tensor_a], Op.make_raw 3 add_op [1, 1],
    Op.cell_evict 1, Op.cell_evict 2]

/-- A heap with a chain of two evicted cells: the replay of the rematerializer 1 has the
evicted cell 1 as both of its inputs, so it replays the rematerializer 0 first. -/
def heap_chain_evicted : Heap := run_ops ops_chain_evicted Heap.empty

end ATen

namespace ATen

end ATen

namespace ATen

end ATen
/-! # Theorems -/

namespace ATen

/-! ## Rules of the weakest precondition -/

theorem wp_bind {α β : Type} (m : M α) (f : α → M β) (Q : β → Heap → Prop) (E : Heap → Prop)
    (h : Heap) : wp (m >>= f) Q E h ↔ wp m (fun a h1 => wp (f a) Q E h1) E h := by
  show wp (M.bind m f) Q E h ↔ _
  unfold wp M.bind
  rcases m h with ⟨r, h1⟩
  cases r <;> simp

theorem wp_pure {α : Type} (a : α) (Q : α → Heap → Prop) (E : Heap → Prop) (h : Heap) :
    wp (pure a : M α) Q E h ↔ Q a h := Iff.rfl

theorem wp_mpure {α : Type} (a : α) (Q : α → Heap → Prop) (E : Heap → Prop) (h : Heap) :
    wp (M.pure a : M α) Q E h ↔ Q a h := Iff.rfl

theorem wp_fail {α : Type} (e : Err) (Q : α → Heap → Prop) (E : Heap → Prop) (h : Heap) :
    wp (fail e : M α) Q E h ↔ E h := Iff.rfl

theorem wp_liftE {α : Type} (x : Except Err α) (Q : α → Heap → Prop) (E : Heap → Prop)
    (h : Heap) : wp (liftE x) Q E h ↔ match x with | Except.ok a => Q a h | Except.error _ => E h := by
  unfold wp liftE
  cases x <;> simp

theorem wp_torch_check (c : Bool) (n : Nat) (Q : Unit → Heap → Prop) (E : Heap → Prop)
    (h : Heap) : wp (torch_check c n) Q E h ↔ if c then Q () h else E h := by
  unfold torch_check
  cases c <;> simp [wp_mpure, wp_fail]

theorem wp_cell_at (c : Nat) (Q : EntityTensorCell → Heap → Prop) (E : Heap → Prop) (h : Heap) :
    wp (cell_at c) Q E h ↔ match h.cells c with | some x => Q x h | none => E h := by
  unfold wp cell_at
  cases h.cells c <;> simp

theorem wp_pool_at (p : Nat) (Q : AliasPool → Heap → Prop) (E : Heap → Prop) (h : Heap) :
    wp (pool_at p) Q E h ↔ match h.pools p with | some x => Q x h | none => E h := by
  unfold wp pool_at
  cases h.pools p <;> simp

theorem wp_remat_at (r : Nat) (Q : Rematerializer → Heap → Prop) (E : Heap → Prop) (h : Heap) :
    wp (remat_at r) Q E h ↔ match h.remats r with | some x => Q x h | none => E h := by
  unfold wp remat_at
  cases h.remats r <;> simp

theorem wp_external_at (e : Nat) (Q : External → Heap → Prop) (E : Heap → Prop) (h : Heap) :
    wp (external_at e) Q E h ↔ match h.externals e with | some x => Q x h | none => E h := by
  unfold wp external_at
  cases h.externals e <;> simp

theorem wp_ref_at (r : Nat) (Q : RefCell → Heap → Prop) (E : Heap → Prop) (h : Heap) :
    wp (ref_at r) Q E h ↔ match h.refs r with | some x => Q x h | none => E h := by
  unfold wp ref_at
  cases h.refs r <;> simp

theorem wp_impl_at (i : Nat) (Q : EntityTensorImpl → Heap → Prop) (E : Heap → Prop) (h : Heap) :
    wp (impl_at i) Q E h ↔ match h.impls i with | some x => Q x h | none => E h := by
  unfold wp impl_at
  cases h.impls i <;> simp

theorem wp_deref (p : Option Nat) (Q : Nat → Heap → Prop) (E : Heap → Prop) (h : Heap) :
    wp (deref p) Q E h ↔ match p with | some x => Q x h | none => E h := by
  unfold wp deref
  cases p <;> simp

theorem wp_set_cell (c : Nat) (x : EntityTensorCell) (Q : Unit → Heap → Prop) (E : Heap → Prop)
    (h : Heap) : wp (set_cell c x) Q E h ↔ Q () { h with cells := upd h.cells c x } := Iff.rfl

theorem wp_set_pool (p : Nat) (x : AliasPool) (Q : Unit → Heap → Prop) (E : Heap → Prop)
    (h : Heap) : wp (set_pool p x) Q E h ↔ Q () { h with pools := upd h.pools p x } := Iff.rfl

theorem wp_set_remat (r : Nat) (x : Rematerializer) (Q : Unit → Heap → Prop) (E : Heap → Prop)
    (h : Heap) : wp (set_remat r x) Q E h ↔ Q () { h with remats := upd h.remats r x } := Iff.rfl

theorem wp_set_external (e : Nat) (x : External) (Q : Unit → Heap → Prop) (E : Heap → Prop)
    (h : Heap) : wp (set_external e x) Q E h ↔ Q () { h with externals := upd h.externals e x } :=
  Iff.rfl

theorem wp_set_ref (r : Nat) (x : RefCell) (Q : Unit → Heap → Prop) (E : Heap → Prop)
    (h : Heap) : wp (set_ref r x) Q E h ↔ Q () { h with refs := upd h.refs r x } := Iff.rfl

theorem wp_new_cell (x : EntityTensorCell) (Q : Nat → Heap → Prop) (E : Heap → Prop) (h : Heap) :
    wp (new_cell x) Q E h ↔
      Q h.next_cell { h with cells := upd h.cells h.next_cell x, next_cell := h.next_cell + 1 } :=
  Iff.rfl

theorem wp_new_pool (x : AliasPool) (Q : Nat → Heap → Prop) (E : Heap → Prop) (h : Heap) :
    wp (new_pool x) Q E h ↔
      Q h.next_pool { h with pools := upd h.pools h.next_pool x, next_pool := h.next_pool + 1 } :=
  Iff.rfl

theorem wp_new_remat (x : Rematerializer) (Q : Nat → Heap → Prop) (E : Heap → Prop) (h : Heap) :
    wp (new_remat x) Q E h ↔
      Q h.next_remat { h with remats := upd h.remats h.next_remat x, next_remat := h.next_remat + 1 } :=
  Iff.rfl

theorem wp_new_external (x : External) (Q : Nat → Heap → Prop) (E : Heap → Prop) (h : Heap) :
    wp (new_external x) Q E h ↔
      Q h.next_external
        { h with externals := upd h.externals h.next_external x,
                 next_external := h.next_external + 1 } :=
  Iff.rfl

theorem wp_new_ref (x : RefCell) (Q : Nat → Heap → Prop) (E : Heap → Prop) (h : Heap) :
    wp (new_ref x) Q E h ↔
      Q h.next_ref { h with refs := upd h.refs h.next_ref x, next_ref := h.next_ref + 1 } :=
  Iff.rfl

theorem wp_clock_now (Q : Nat → Heap → Prop) (E : Heap → Prop) (h : Heap) :
    wp clock_now Q E h ↔ Q h.now h := Iff.rfl

theorem wp_call (f : RematFunc_t) (ts : Tensors) (Q : Tensors → Heap → Prop) (E : Heap → Prop)
    (h : Heap) : wp (f.call ts) Q E h ↔
      match f.run ts with
      | Except.ok r => Q r { h with now := h.now + f.ticks ts }
      | Except.error _ => E { h with now := h.now + f.ticks ts } := by
  unfold wp RematFunc_t.call
  cases f.run ts <;> simp

theorem wp_fill_output (o : Nat) (t : Tensor) (Q : Unit → Heap → Prop) (E : Heap → Prop)
    (h : Heap) : wp (fill_output o t) Q E h ↔
      match h.cells o with
      | some cell => Q () { h with cells := upd h.cells o (cell.fill t) }
      | none => Q () h := by
  unfold wp fill_output
  cases h.cells o <;> simp

theorem wp_mono {α : Type} {m : M α} {Q Q1 : α → Heap → Prop} {E E1 : Heap → Prop} {h : Heap}
    (hw : wp m Q E h) (hq : ∀ a h1, Q a h1 → Q1 a h1) (he : ∀ h1, E h1 → E1 h1) :
    wp m Q1 E1 h := by
  unfold wp at *
  generalize m h = x at *
  rcases x with ⟨r, h1⟩
  cases r
  · exact he _ hw
  · exact hq _ _ hw

theorem wp_and {α : Type} {m : M α} {Q Q1 : α → Heap → Prop} {E E1 : Heap → Prop} {h : Heap}
    (hw : wp m Q E h) (hw1 : wp m Q1 E1 h) :
    wp m (fun a h1 => Q a h1 ∧ Q1 a h1) (fun h1 => E h1 ∧ E1 h1) h := by
  unfold wp at *
  generalize m h = x at *
  rcases x with ⟨r, h1⟩
  cases r
  · exact ⟨hw, hw1⟩
  · exact ⟨hw, hw1⟩

theorem wp_ok {α : Type} {m : M α} {Q : α → Heap → Prop} {E : Heap → Prop} {h h1 : Heap} {a : α}
    (hw : wp m Q E h) (hm : m h = (Except.ok a, h1)) : Q a h1 := by
  unfold wp at hw
  rw [hm] at hw
  exact hw

theorem wp_error {α : Type} {m : M α} {Q : α → Heap → Prop} {E : Heap → Prop} {h h1 : Heap}
    {e : Err} (hw : wp m Q E h) (hm : m h = (Except.error e, h1)) : E h1 := by
  unfold wp at hw
  rw [hm] at hw
  exact hw

theorem wp_snd {α : Type} {m : M α} {P : Heap → Prop} {h : Heap}
    (hw : wp m (fun _ => P) P h) : P (m h).2 := by
  unfold wp at hw
  generalize m h = x at *
  rcases x with ⟨r, h1⟩
  cases r
  · exact hw
  · exact hw

theorem upd_same {α : Type} (f : Nat → Option α) (i : Nat) (v : α) : upd f i v i = some v := by
  simp [upd]

theorem upd_other {α : Type} (f : Nat → Option α) (i j : Nat) (v : α) (hne : j ≠ i) :
    upd f i v j = f j := by
  simp [upd, hne]

end ATen

namespace c10

/-- C10, as stated, fails: on a dirty entity that is Offline, `do_pagein_cb` and
`pagein_manual` (through `pagein_internal`) both flip the placement state to Online. -/
theorem C10_dirty_callback_flips_state :
    dirty_offline_entity.dirty_ = true ∧
    dirty_offline_entity.entity_stat_ = EntityStorageStat.kOffline ∧
    dirty_offline_entity.do_pagein_cb.entity_stat_ = EntityStorageStat.kOnline ∧
    (StorageImpl.pagein_manual { entity_ := some dirty_offline_entity }).entity_
      = some { dirty_offline_entity with entity_stat_ := EntityStorageStat.kOnline } := by
  refine ⟨rfl, rfl, rfl, rfl⟩

/-- C10, amended: whatever the dirty flag, `do_pagein_cb` ends with transfer state None and
placement Online, `do_pageout_cb` with None and Offline; `pagein_manual` and
`pageout_manual` on a storage with an entity do exactly that to the entity; and none of
them changes the dirty flag or the entity id. -/
theorem C10_callbacks_ignore_dirty (e : EntityStorageImpl) :
    e.do_pagein_cb = { e with trans_stat_ := TransStat.kNone,
                              entity_stat_ := EntityStorageStat.kOnline } ∧
    e.do_pageout_cb = { e with trans_stat_ := TransStat.kNone,
                               entity_stat_ := EntityStorageStat.kOffline } ∧
    e.do_pagein_cb.dirty_ = e.dirty_ ∧ e.do_pageout_cb.dirty_ = e.dirty_ ∧
    (StorageImpl.pagein_manual { entity_ := some e }).entity_ = some e.do_pagein_cb ∧
    (StorageImpl.pageout_manual { entity_ := some e }).entity_ = some e.do_pageout_cb := by
  refine ⟨rfl, rfl, rfl, rfl, rfl, rfl⟩

end c10

namespace ATen

theorem bind_ok {α β : Type} {m : M α} {f : α → M β} {h h1 : Heap} {a : α}
    (hm : m h = (Except.ok a, h1)) : (m >>= f) h = f a h1 := by
  show M.bind m f h = _
  unfold M.bind
  rw [hm]

theorem bind_error {α β : Type} {m : M α} {f : α → M β} {h h1 : Heap} {e : Err}
    (hm : m h = (Except.error e, h1)) : (m >>= f) h = (Except.error e, h1) := by
  show M.bind m f h = _
  unfold M.bind
  rw [hm]

/-- The path from a tensor to its cell only reads the heap. -/
theorem strong_of_heap (t : Tensor) (h : Heap) : (strong_of t h).2 = h := by
  have hw : wp (strong_of t) (fun _ h1 => h1 = h) (fun h1 => h1 = h) h := by
    unfold strong_of get_entity_tensor_impl
    cases t.impl_ with
    | none => simp [wp_bind, wp_fail]
    | some i =>
      simp only [wp_bind, wp_impl_at, wp_ref_at, wp_deref, wp_external_at]
      repeat' split
      all_goals trivial
  exact wp_snd hw

/-- C4, as stated, fails: `a = checkpoint(ones(4))` is checkpointed, yet `evict_checkpoint(a)`
does not return true (the check `TORCH_CHECK(remat_)` of `evict` throws) and the cell of
`a` still holds `ones(4)` afterwards. -/
theorem C4_evict_of_root_throws :
    (native.checkpoint ones4 Heap.empty).1 = Except.ok tensor_a ∧
    native.is_checkpoint tensor_a = true ∧
    (strong_of tensor_a heap_a).1 = Except.ok 0 ∧
    (native.evict_checkpoint tensor_a heap_a).1 = Except.error (Err.check 168) ∧
    ((native.evict_checkpoint tensor_a heap_a).2.cells 0).map (fun x => x.t_)
      = some (some ones4) := by
  decide!

/-- C4, amended: `evict_checkpoint(t)` returns false and changes nothing when `t` is not
checkpointed; when `t` is checkpointed and its cell has a rematerializer it returns true and
the cell holds no value afterwards (nothing else changes); when the cell has no
rematerializer it throws and changes nothing. -/
theorem C4_evict_checkpoint (t : Tensor) (h : Heap) :
    (native.is_checkpoint t = false → native.evict_checkpoint t h = (Except.ok false, h)) ∧
    (∀ c x, native.is_checkpoint t = true → (strong_of t h).1 = Except.ok c →
      h.cells c = some x →
      (x.remat_.isSome = true → native.evict_checkpoint t h
          = (Except.ok true, { h with cells := upd h.cells c { x with t_ := none } })) ∧
      (x.remat_ = none → native.evict_checkpoint t h = (Except.error (Err.check 168), h))) := by
  constructor
  · intro hc
    simp [native.evict_checkpoint, hc]
    rfl
  · intro c x hc hs hx
    have hs1 : strong_of t h = (Except.ok c, h) := by
      have h2 := strong_of_heap t h
      rcases hst : strong_of t h with ⟨r, h1⟩
      rw [hst] at hs h2
      simp at hs h2
      rw [hs, h2]
    constructor
    · intro hr
      simp only [native.evict_checkpoint, hc, Bool.not_true, Bool.false_eq_true, ↓reduceIte]
      rw [bind_ok hs1]
      have he : cell_evict c h = (Except.ok (), { h with cells := upd h.cells c { x with t_ := none } }) := by
        unfold cell_evict
        have h1 : cell_at c h = (Except.ok x, h) := by simp [cell_at, hx]
        rw [bind_ok h1]
        have h2 : liftE x.evict h = (Except.ok { x with t_ := none }, h) := by
          simp [liftE, EntityTensorCell.evict, hr]
        rw [bind_ok h2]
        rfl
      rw [bind_ok he]
      rfl
    · intro hr
      simp only [native.evict_checkpoint, hc, Bool.not_true, Bool.false_eq_true, ↓reduceIte]
      rw [bind_ok hs1]
      have he : cell_evict c h = (Except.error (Err.check 168), h) := by
        unfold cell_evict
        have h1 : cell_at c h = (Except.ok x, h) := by simp [cell_at, hx]
        rw [bind_ok h1]
        have h2 : liftE x.evict h = (Except.error (Err.check 168), h) := by
          simp [liftE, EntityTensorCell.evict, hr]
        rw [bind_error h2]
      rw [bind_error he]

/-- C4 at concrete inputs: the plain `ones(4)` is left alone, the output `b` of an addition
is evicted, and the root `a` makes `evict_checkpoint` throw. -/
theorem C4_evict_checkpoint_witness :
    native.evict_checkpoint ones4 heap_ab = (Except.ok false, heap_ab) ∧
    (native.evict_checkpoint tensor_b heap_ab).1 = Except.ok true ∧
    ((native.evict_checkpoint tensor_b heap_ab).2.cells 1).map (fun x => x.t_) = some none ∧
    native.evict_checkpoint tensor_a heap_ab = (Except.error (Err.check 168), heap_ab) := by
  have hb := (C4_evict_checkpoint tensor_b heap_ab).2 1
    { t_ := some twos4
      defined_ := true, is_undefined_tensor_ := false,
      key_set_ := { autograd := false, checkpoint := false, rest := 0 }, dtype_ := 6,
      optional_device_ := none, pool_ := 1, remat_ := some 0 }
    (by decide!) (by decide!) (by decide!)
  have ha := (C4_evict_checkpoint tensor_a heap_ab).2 0
    { t_ := some ones4
      defined_ := true, is_undefined_tensor_ := false,
      key_set_ := { autograd := false, checkpoint := false, rest := 0 }, dtype_ := 6,
      optional_device_ := none, pool_ := 0, remat_ := none }
    (by decide!) (by decide!) (by decide!)
  refine ⟨(C4_evict_checkpoint ones4 heap_ab).1 (by decide!), ?_, ?_, ha.2 rfl⟩
  · rw [hb.1 rfl]
  · rw [hb.1 rfl]
    decide!

end ATen

namespace ATen

/-- C5 at the failing input: `make` with an operator that throws, then `remat()` of a
rematerializer whose operator throws.  The pool of the input `a` has lock count 0 before;
after the failed `make` it is 1, and after the failed `remat` (which locks the pool of `a`
twice, `a` being both inputs of the addition) it is 2: the unlock loop is not reached. -/
theorem C5_locks_stay_after_throw :
    (heap_a.pools 0).map (fun p => p.lock_count_) = some 0 ∧
    (EntityTensorImpl.make 2 failing_op [tensor_a] heap_a).1 = Except.error (Err.op_failed 9) ∧
    ((EntityTensorImpl.make 2 failing_op [tensor_a] heap_a).2.pools 0).map (fun p => p.lock_count_)
      = some 1 ∧
    (heap_ab_failing.pools 0).map (fun p => p.lock_count_) = some 0 ∧
    (Rematerializer.remat 1 0 heap_ab_failing).1 = Except.error (Err.op_failed 9) ∧
    ((Rematerializer.remat 1 0 heap_ab_failing).2.pools 0).map (fun p => p.lock_count_)
      = some 2 := by
  decide!

/-- C6 at the failing input: `v = make("view", view, [b])`, whose raw output is the very
tensor held by the cell of `b` (defined, and an alias of the input).  `get_alias` answers
`-1`, the cell of `v` gets the fresh pool 2 instead of pool 1 of `b`, and the
`compute_cost` of the `head_remat_` of pool 1 stays 5 (the view took 3 ticks). -/
theorem C6_defined_alias_gets_fresh_pool :
    (EntityTensorImpl.make 3 view_op [tensor_b] heap_ab).1 = Except.ok [tensor_v] ∧
    (heap_abv.cells 1).map (fun x => x.t_) = some (some twos4) ∧
    (heap_abv.cells 2).map (fun x => x.t_) = some (some twos4) ∧
    is_alias twos4 twos4 = true ∧
    get_alias [twos4] twos4 = -1 ∧
    (heap_abv.cells 1).map (fun x => x.pool_) = some 1 ∧
    (heap_abv.cells 2).map (fun x => x.pool_) = some 2 ∧
    (heap_abv.pools 1).map (fun p => p.head_remat_) = some (some 0) ∧
    (heap_ab.remats 0).map (fun r => r.compute_cost) = some 5 ∧
    (heap_abv.remats 0).map (fun r => r.compute_cost) = some 5 ∧
    (heap_abv.remats 1).map (fun r => r.compute_cost) = some 3 := by
  decide!

/-- C9 at the failing input: after `a = checkpoint(ones(4))` one `External` (number 0) is
alive and refers to cell 0 of pool 0, yet the pool's `external_count_` is 0: the
constructor did not count it.  Destroying that `External` then takes the count to
`2^64 - 1`. -/
theorem C9_external_not_counted :
    heap_a.externals 0 = some { value := some 0 } ∧
    (heap_a.cells 0).map (fun x => x.pool_) = some 0 ∧
    (heap_a.pools 0).map (fun p => p.external_count_) = some 0 ∧
    (External.release_resources 0 heap_a).1 = Except.ok () ∧
    ((External.release_resources 0 heap_a).2.pools 0).map (fun p => p.external_count_)
      = some 18446744073709551615 := by
  decide!

end ATen

namespace ATen

/-! ## Calls that keep a property of the heap -/

theorem keeps_bind {α β : Type} {P : Heap → Prop} {m : M α} {f : α → M β}
    (hm : Keeps P m) (hf : ∀ a, Keeps P (f a)) : Keeps P (m >>= f) := by
  intro h hp
  rw [wp_bind]
  exact wp_mono (hm h hp) (fun a h1 hp1 => hf a h1 hp1) (fun _ hp1 => hp1)

theorem keeps_pure {α : Type} {P : Heap → Prop} (a : α) : Keeps P (pure a : M α) :=
  fun _ hp => hp

theorem keeps_fail {α : Type} {P : Heap → Prop} (e : Err) : Keeps P (fail e : M α) :=
  fun _ hp => hp

theorem keeps_read {α : Type} {P : Heap → Prop} (m : M α) (hm : ∀ h, (m h).2 = h) :
    Keeps P m := by
  intro h hp
  have h2 := hm h
  unfold wp
  rcases hmh : m h with ⟨r, h1⟩
  rw [hmh] at h2
  simp at h2
  subst h2
  cases r <;> exact hp

theorem keeps_liftE {α : Type} {P : Heap → Prop} (x : Except Err α) : Keeps P (liftE x) :=
  keeps_read _ (fun _ => rfl)

theorem keeps_torch_check {P : Heap → Prop} (c : Bool) (n : Nat) : Keeps P (torch_check c n) := by
  apply keeps_read
  intro h
  cases c <;> rfl

theorem keeps_cell_at {P : Heap → Prop} (c : Nat) : Keeps P (cell_at c) := by
  apply keeps_read
  intro h
  unfold cell_at
  cases h.cells c <;> rfl

theorem keeps_pool_at {P : Heap → Prop} (c : Nat) : Keeps P (pool_at c) := by
  apply keeps_read
  intro h
  unfold pool_at
  cases h.pools c <;> rfl

theorem keeps_remat_at {P : Heap → Prop} (c : Nat) : Keeps P (remat_at c) := by
  apply keeps_read
  intro h
  unfold remat_at
  cases h.remats c <;> rfl

theorem keeps_external_at {P : Heap → Prop} (c : Nat) : Keeps P (external_at c) := by
  apply keeps_read
  intro h
  unfold external_at
  cases h.externals c <;> rfl

theorem keeps_ref_at {P : Heap → Prop} (c : Nat) : Keeps P (ref_at c) := by
  apply keeps_read
  intro h
  unfold ref_at
  cases h.refs c <;> rfl

theorem keeps_impl_at {P : Heap → Prop} (c : Nat) : Keeps P (impl_at c) := by
  apply keeps_read
  intro h
  unfold impl_at
  cases h.impls c <;> rfl

theorem keeps_deref {P : Heap → Prop} (p : Option Nat) : Keeps P (deref p) := by
  apply keeps_read
  intro h
  unfold deref
  cases p <;> rfl

theorem keeps_clock_now {P : Heap → Prop} : Keeps P clock_now :=
  keeps_read _ (fun _ => rfl)

theorem wp_drop_external (held : List Nat) (e : Nat) (Q : Unit → Heap → Prop)
    (E : Heap → Prop) (h : Heap) : wp (drop_external held e) Q E h ↔
      if (held.contains e || decide (0 < slot_count h e)) = true then Q () h
      else wp (External.release_resources e) Q E h := by
  unfold wp drop_external
  by_cases hc : (held.contains e || decide (0 < slot_count h e)) = true
  · simp only [hc, if_true]
  · simp only [hc, if_false]
    rfl

/-- A property that the release of a handle keeps is kept when a handle is given up. -/
theorem keeps_drop_external {P : Heap → Prop} (hr : ∀ e, Keeps P (External.release_resources e))
    (held : List Nat) (e : Nat) : Keeps P (drop_external held e) := by
  intro h hs
  rw [wp_drop_external]
  split
  · exact hs
  · exact hr e h hs

theorem keeps_drop_handle {P : Heap → Prop} (hr : ∀ e, Keeps P (External.release_resources e))
    (held : List Nat) : ∀ o : Option Nat, Keeps P (drop_handle held o)
  | none => keeps_pure ()
  | some e => keeps_drop_external hr held e

theorem keeps_drop_externals {P : Heap → Prop}
    (hr : ∀ e, Keeps P (External.release_resources e)) :
    ∀ es : List Nat, Keeps P (drop_externals es)
  | [] => keeps_pure ()
  | e :: rest => keeps_bind (keeps_drop_external hr rest e)
      (fun _ => keeps_drop_externals hr rest)

theorem keeps_with_cleanup {α : Type} {P : Heap → Prop} {body : M α} {cleanup : M Unit}
    (hb : Keeps P body) (hc : Keeps P cleanup) : Keeps P (with_cleanup body cleanup) := by
  intro h hs
  have h1 := hb h hs
  unfold wp at h1 ⊢
  unfold with_cleanup
  rcases hbody : body h with ⟨r, hh⟩
  rw [hbody] at h1
  cases r with
  | error e => exact wp_snd (hc hh h1)
  | ok a =>
    have h2 := hc hh h1
    unfold wp at h2
    dsimp only
    rcases hcl : cleanup hh with ⟨r2, h3⟩
    rw [hcl] at h2
    cases r2 <;> exact h2

theorem keeps_lock_inputs {P : Heap → Prop} (hl : ∀ s, Keeps P (lock_pool_of s)) (l : List Nat) :
    Keeps P (lock_inputs l) := by
  induction l with
  | nil => exact keeps_pure ()
  | cons s rest ih => exact keeps_bind (hl s) (fun _ => ih)

theorem keeps_unlock_inputs {P : Heap → Prop} (hl : ∀ s, Keeps P (unlock_pool_of s))
    (l : List Nat) : Keeps P (unlock_inputs l) := by
  induction l with
  | nil => exact keeps_pure ()
  | cons s rest ih => exact keeps_bind (hl s) (fun _ => ih)

theorem keeps_uncheckpoint_with {P : Heap → Prop} {get : Nat → M Tensor}
    (hg : ∀ c, Keeps P (get c)) (l : List Nat) : Keeps P (uncheckpoint_with get l) := by
  induction l with
  | nil => exact keeps_pure []
  | cons s rest ih =>
    exact keeps_bind (hg s) (fun _ => keeps_bind ih (fun _ => keeps_pure _))

theorem keeps_fill_outputs {P : Heap → Prop} (hf : ∀ o t, Keeps P (fill_output o t)) :
    ∀ (os : List Nat) (ts : Tensors), Keeps P (fill_outputs os ts)
  | [], _ => keeps_pure ()
  | _ :: _, [] => keeps_pure ()
  | o :: os, t :: ts => keeps_bind (hf o t) (fun _ => keeps_fill_outputs hf os ts)

theorem keeps_remat_with {P : Heap → Prop} (hp : ReplayKeeps P) {get : Nat → M Tensor}
    (hg : ∀ c, Keeps P (get c)) (r : Nat) : Keeps P (remat_with get r) := by
  unfold remat_with
  refine keeps_bind (keeps_remat_at r) (fun rm => ?_)
  refine keeps_bind (keeps_lock_inputs hp.lock _) (fun _ => ?_)
  refine keeps_bind (keeps_uncheckpoint_with hg _) (fun ts => ?_)
  refine keeps_bind keeps_clock_now (fun _ => ?_)
  refine keeps_bind (hp.call _ _) (fun ret => ?_)
  refine keeps_bind keeps_clock_now (fun _ => ?_)
  refine keeps_bind (keeps_torch_check _ _) (fun _ => ?_)
  refine keeps_bind (keeps_fill_outputs hp.fill _ _) (fun _ => ?_)
  exact keeps_unlock_inputs hp.unlock _

theorem keeps_get {P : Heap → Prop} (hp : ReplayKeeps P) :
    ∀ (fuel c : Nat), Keeps P (EntityTensorCell.get fuel c)
  | 0, _ => keeps_fail _
  | fuel + 1, c => by
    unfold EntityTensorCell.get
    refine keeps_bind (keeps_cell_at c) (fun cell => ?_)
    cases cell.t_ with
    | some v => exact hp.tail c
    | none =>
      cases cell.remat_ with
      | none => exact keeps_fail _
      | some r =>
        exact keeps_bind (keeps_remat_with hp (keeps_get hp fuel) r) (fun _ => hp.tail c)

theorem keeps_remat {P : Heap → Prop} (hp : ReplayKeeps P) (fuel r : Nat) :
    Keeps P (Rematerializer.remat fuel r) :=
  keeps_remat_with hp (keeps_get hp fuel) r

end ATen

namespace ATen

/-! ## What a replay changes -/

theorem Grows.refl (h : Heap) : Grows h h :=
  { remats := rfl, externals := rfl, refs := rfl, impls := rfl, next_cell := rfl,
    next_pool := rfl, next_remat := rfl, next_external := rfl, next_ref := rfl,
    next_impl := rfl, counter := rfl
    cells_none := fun _ hc => hc
    cells_some := fun _ _ hc => Or.inl hc
    pools_none := fun _ hp => hp
    pools_some := fun _ x hp => ⟨x.lock_count_, x.last_used_, hp⟩ }

theorem fill_of_some (x : EntityTensorCell) (t : Tensor) (hx : x.t_.isSome = true) :
    x.fill t = x := by
  simp [EntityTensorCell.fill, hx]

theorem fill_holds (x : EntityTensorCell) (t : Tensor) : (x.fill t).t_.isSome = true := by
  unfold EntityTensorCell.fill
  split
  · assumption
  · split <;> rfl

theorem fill_pool (x : EntityTensorCell) (t : Tensor) : (x.fill t).pool_ = x.pool_ := by
  unfold EntityTensorCell.fill
  split
  · rfl
  · split <;> rfl

theorem fill_remat (x : EntityTensorCell) (t : Tensor) : (x.fill t).remat_ = x.remat_ := by
  unfold EntityTensorCell.fill
  split
  · rfl
  · split <;> rfl

theorem fill_value (x : EntityTensorCell) (t : Tensor) (hx : x.t_ = none) :
    (x.fill t).t_ = some t.detach := by
  unfold EntityTensorCell.fill
  simp [hx]
  split <;> rfl

theorem Grows.trans {h h1 h2 : Heap} (a : Grows h h1) (b : Grows h1 h2) : Grows h h2 :=
  { remats := b.remats.trans a.remats
    externals := b.externals.trans a.externals
    refs := b.refs.trans a.refs
    impls := b.impls.trans a.impls
    next_cell := b.next_cell.trans a.next_cell
    next_pool := b.next_pool.trans a.next_pool
    next_remat := b.next_remat.trans a.next_remat
    next_external := b.next_external.trans a.next_external
    next_ref := b.next_ref.trans a.next_ref
    next_impl := b.next_impl.trans a.next_impl
    counter := b.counter.trans a.counter
    cells_none := fun c hc => b.cells_none c (a.cells_none c hc)
    cells_some := by
      intro c x hc
      rcases a.cells_some c x hc with h1c | ⟨hx, t, h1c⟩
      · exact b.cells_some c x h1c
      · right
        refine ⟨hx, t, ?_⟩
        rcases b.cells_some c _ h1c with h2c | ⟨hy, _, _⟩
        · exact h2c
        · have := fill_holds x t
          rw [hy] at this
          simp at this
    pools_none := fun p hp => b.pools_none p (a.pools_none p hp)
    pools_some := by
      intro p x hp
      rcases a.pools_some p x hp with ⟨l, u, h1p⟩
      rcases b.pools_some p _ h1p with ⟨l2, u2, h2p⟩
      exact ⟨l2, u2, h2p⟩ }

theorem grows_set_pool (h : Heap) (p : Nat) (x : AliasPool) (l u : Nat)
    (hp : h.pools p = some x) :
    Grows h { h with pools := upd h.pools p { x with lock_count_ := l, last_used_ := u } } :=
  { remats := rfl, externals := rfl, refs := rfl, impls := rfl, next_cell := rfl,
    next_pool := rfl, next_remat := rfl, next_external := rfl, next_ref := rfl,
    next_impl := rfl, counter := rfl
    cells_none := fun _ hc => hc
    cells_some := fun _ _ hc => Or.inl hc
    pools_none := by
      intro q hq
      by_cases hqp : q = p
      · subst hqp
        rw [hp] at hq
        cases hq
      · simp [upd, hqp, hq]
    pools_some := by
      intro q y hq
      by_cases hqp : q = p
      · subst hqp
        rw [hp] at hq
        cases hq
        exact ⟨l, u, by simp [upd]⟩
      · exact ⟨y.lock_count_, y.last_used_, by simp [upd, hqp, hq]⟩ }

theorem grows_now (h : Heap) (n : Nat) : Grows h { h with now := n } :=
  { remats := rfl, externals := rfl, refs := rfl, impls := rfl, next_cell := rfl,
    next_pool := rfl, next_remat := rfl, next_external := rfl, next_ref := rfl,
    next_impl := rfl, counter := rfl
    cells_none := fun _ hc => hc
    cells_some := fun _ _ hc => Or.inl hc
    pools_none := fun _ hp => hp
    pools_some := fun _ x hp => ⟨x.lock_count_, x.last_used_, hp⟩ }

theorem grows_fill (h : Heap) (o : Nat) (x : EntityTensorCell) (t : Tensor)
    (ho : h.cells o = some x) : Grows h { h with cells := upd h.cells o (x.fill t) } :=
  { remats := rfl, externals := rfl, refs := rfl, impls := rfl, next_cell := rfl,
    next_pool := rfl, next_remat := rfl, next_external := rfl, next_ref := rfl,
    next_impl := rfl, counter := rfl
    cells_none := by
      intro c hc
      by_cases hco : c = o
      · subst hco
        rw [ho] at hc
        cases hc
      · simp [upd, hco, hc]
    cells_some := by
      intro c y hc
      by_cases hco : c = o
      · subst hco
        rw [ho] at hc
        cases hc
        cases hx : x.t_ with
        | none => exact Or.inr ⟨rfl, t, by simp [upd]⟩
        | some v =>
          left
          have : x.fill t = x := fill_of_some x t (by simp [hx])
          simp [upd, this]
      · left
        simp [upd, hco, hc]
    pools_none := fun _ hp => hp
    pools_some := fun _ x hp => ⟨x.lock_count_, x.last_used_, hp⟩ }

theorem keeps_of_step {α : Type} {R : Heap → Heap → Prop}
    (htrans : ∀ a b c, R a b → R b c → R a c) (m : M α) (hm : ∀ h, R h (m h).2) (h0 : Heap) :
    Keeps (R h0) m := by
  intro h hp
  have h2 := hm h
  unfold wp
  rcases hmh : m h with ⟨r, h1⟩
  rw [hmh] at h2
  cases r <;> exact htrans _ _ _ hp h2

theorem lock_pool_of_grows (s : Nat) (h : Heap) : Grows h (lock_pool_of s h).2 := by
  have hw : wp (lock_pool_of s) (fun _ => Grows h) (Grows h) h := by
    unfold lock_pool_of
    simp only [wp_bind, wp_cell_at, wp_pool_at, wp_set_pool]
    split
    · split
      · rename_i x _ _ p hp
        exact grows_set_pool h _ p _ _ hp
      · exact Grows.refl h
    · exact Grows.refl h
  exact wp_snd hw

theorem unlock_pool_of_grows (s : Nat) (h : Heap) : Grows h (unlock_pool_of s h).2 := by
  have hw : wp (unlock_pool_of s) (fun _ => Grows h) (Grows h) h := by
    unfold unlock_pool_of
    simp only [wp_bind, wp_cell_at, wp_pool_at, wp_set_pool]
    split
    · split
      · rename_i x _ _ p hp
        exact grows_set_pool h _ p _ _ hp
      · exact Grows.refl h
    · exact Grows.refl h
  exact wp_snd hw

theorem fill_output_grows (o : Nat) (t : Tensor) (h : Heap) : Grows h (fill_output o t h).2 := by
  have hw : wp (fill_output o t) (fun _ => Grows h) (Grows h) h := by
    rw [wp_fill_output]
    split
    · rename_i x hx
      exact grows_fill h o x t hx
    · exact Grows.refl h
  exact wp_snd hw

theorem call_grows (f : RematFunc_t) (ts : Tensors) (h : Heap) : Grows h (f.call ts h).2 :=
  grows_now h _

theorem get_tail_grows (c : Nat) (h : Heap) : Grows h (get_tail c h).2 := by
  have hw : wp (get_tail c) (fun _ => Grows h) (Grows h) h := by
    unfold get_tail
    simp only [wp_bind, wp_cell_at]
    split
    · rename_i x hx
      cases hv : x.t_ with
      | none => exact Grows.refl h
      | some v =>
        simp only [wp_bind, wp_pool_at, wp_clock_now, wp_set_pool, wp_pure]
        split
        · rename_i p hp
          exact grows_set_pool h _ p _ _ hp
        · exact Grows.refl h
    · exact Grows.refl h
  exact wp_snd hw

theorem replayKeeps_grows (h0 : Heap) : ReplayKeeps (Grows h0) :=
  { lock := fun s => keeps_of_step (R := Grows) (fun _ _ _ => Grows.trans) _ (lock_pool_of_grows s) h0
    unlock := fun s => keeps_of_step (R := Grows) (fun _ _ _ => Grows.trans) _ (unlock_pool_of_grows s) h0
    fill := fun o t => keeps_of_step (R := Grows) (fun _ _ _ => Grows.trans) _ (fill_output_grows o t) h0
    call := fun f ts => keeps_of_step (R := Grows) (fun _ _ _ => Grows.trans) _ (call_grows f ts) h0
    tail := fun c => keeps_of_step (R := Grows) (fun _ _ _ => Grows.trans) _ (get_tail_grows c) h0 }

/-- A call of `get` only fills cells, moves lock counts and times of last use. -/
theorem get_grows (fuel c : Nat) (h : Heap) : Grows h (EntityTensorCell.get fuel c h).2 :=
  wp_snd (keeps_get (replayKeeps_grows h) fuel c h (Grows.refl h))

/-- A call of `remat` only fills cells, moves lock counts and times of last use. -/
theorem remat_grows (fuel r : Nat) (h : Heap) : Grows h (Rematerializer.remat fuel r h).2 :=
  wp_snd (keeps_remat (replayKeeps_grows h) fuel r h (Grows.refl h))

end ATen

namespace ATen

theorem wp_any {α : Type} {m : M α} {Q : α → Heap → Prop} {E : Heap → Prop} {h : Heap}
    (hq : ∀ a h1, Q a h1) (he : ∀ h1, E h1) : wp m Q E h := by
  unfold wp
  rcases m h with ⟨r, h1⟩
  cases r
  · exact he _
  · exact hq _ _

theorem holds_of_grows {h h1 : Heap} (g : Grows h h1) {o : Nat} (ho : Holds h o) : Holds h1 o := by
  intro y hy
  cases hc : h.cells o with
  | none =>
    rw [g.cells_none o hc] at hy
    cases hy
  | some x =>
    rcases g.cells_some o x hc with h1c | ⟨_, t, h1c⟩
    · have hyx : y = x := by
        rw [h1c] at hy
        exact (Option.some.inj hy).symm
      rw [hyx]
      exact ho x hc
    · have hyx : y = x.fill t := by
        rw [h1c] at hy
        exact (Option.some.inj hy).symm
      rw [hyx]
      exact fill_holds x t

theorem fill_outputs_grows (os : List Nat) (ts : Tensors) (h : Heap) :
    Grows h (fill_outputs os ts h).2 :=
  wp_snd (keeps_fill_outputs (replayKeeps_grows h).fill os ts h (Grows.refl h))

theorem unlock_inputs_grows (l : List Nat) (h : Heap) : Grows h (unlock_inputs l h).2 :=
  wp_snd (keeps_unlock_inputs (replayKeeps_grows h).unlock l h (Grows.refl h))

theorem lock_inputs_grows (l : List Nat) (h : Heap) : Grows h (lock_inputs l h).2 :=
  wp_snd (keeps_lock_inputs (replayKeeps_grows h).lock l h (Grows.refl h))

theorem wp_of_snd {α : Type} {m : M α} {P : Heap → Prop} {h : Heap} (hp : P (m h).2) :
    wp m (fun _ => P) P h := by
  unfold wp
  rcases hm : m h with ⟨r, h1⟩
  rw [hm] at hp
  cases r <;> exact hp

/-- After the loop that fills the outputs, every output cell that exists holds a value. -/
theorem fill_outputs_holds : ∀ (os : List Nat) (ts : Tensors) (h : Heap),
    os.length = ts.length →
    wp (fill_outputs os ts) (fun _ h1 => ∀ o ∈ os, Holds h1 o) (fun _ => True) h
  | [], _, h, _ => by
    unfold fill_outputs
    intro o ho
    cases ho
  | o :: os, [], h, hl => by simp at hl
  | o :: os, t :: ts, h, hl => by
    unfold fill_outputs
    rw [wp_bind]
    have hstep : wp (fill_output o t) (fun _ h1 => Holds h1 o) (fun _ => True) h := by
      rw [wp_fill_output]
      split
      · rename_i x hx
        intro y hy
        simp [upd] at hy
        rw [← hy]
        exact fill_holds x t
      · rename_i hx
        intro y hy
        rw [hx] at hy
        cases hy
    refine wp_mono hstep ?_ (fun _ hq => hq)
    intro _ h1 ho
    have ih := fill_outputs_holds os ts h1 (by simpa using hl)
    have hg := fill_outputs_grows os ts h1
    have hboth := wp_and ih (wp_of_snd hg)
    refine wp_mono hboth ?_ (fun _ _ => trivial)
    intro _ h2 ⟨hrest, hg2⟩ o1 ho1
    rcases List.mem_cons.mp ho1 with rfl | hmem
    · exact holds_of_grows hg2 ho
    · exact hrest o1 hmem

/-- After a replay that returns, every output cell of the rematerializer that exists holds a
value, whatever `get` does for the inputs. -/
theorem remat_with_holds (get : Nat → M Tensor) (r : Nat) (h : Heap) (rm : Rematerializer)
    (hr : h.remats r = some rm) :
    wp (remat_with get r) (fun _ h1 => ∀ o ∈ rm.outputs, Holds h1 o) (fun _ => True) h := by
  unfold remat_with
  simp only [wp_bind, wp_remat_at, hr, wp_clock_now, wp_torch_check]
  refine wp_any (fun _ h1 => ?_) (fun _ => trivial)
  refine wp_any (fun ts h2 => ?_) (fun _ => trivial)
  refine wp_any (fun ret h3 => ?_) (fun _ => trivial)
  split
  · rename_i hlen
    have hlen1 : rm.outputs.length = ret.length := by
      have := beq_iff_eq.mp hlen
      exact this.symm
    refine wp_mono (fill_outputs_holds rm.outputs ret h3 hlen1) ?_ (fun _ hq => hq)
    intro _ h4 hall
    have hg := unlock_inputs_grows rm.inputs h4
    refine wp_mono (wp_of_snd hg) ?_ (fun _ _ => trivial)
    intro _ h5 hg5 o ho
    exact holds_of_grows hg5 (hall o ho)
  · trivial

end ATen

namespace ATen

theorem cell_at_ok {h : Heap} {c : Nat} {x : EntityTensorCell} (hx : h.cells c = some x) :
    cell_at c h = (Except.ok x, h) := by
  simp [cell_at, hx]

theorem pool_at_ok {h : Heap} {p : Nat} {x : AliasPool} (hx : h.pools p = some x) :
    pool_at p h = (Except.ok x, h) := by
  simp [pool_at, hx]

/-- The tail of `get` on a cell that holds `v`: it returns `v` and stamps the pool. -/
theorem get_tail_ok {h : Heap} {c : Nat} {x : EntityTensorCell} {v : Tensor} {p : AliasPool}
    (hx : h.cells c = some x) (hv : x.t_ = some v) (hp : h.pools x.pool_ = some p) :
    get_tail c h
      = (Except.ok v, { h with pools := upd h.pools x.pool_ (p.update_last_used h.now) }) := by
  unfold get_tail
  rw [bind_ok (cell_at_ok hx)]
  simp only [hv]
  rw [bind_ok (pool_at_ok hp)]
  rfl

/-- C3: `get()` on a cell whose pool exists.  If the cell holds `v`, `get` returns `v` and
the only change is the pool's time of last use (no replay runs).  If it holds nothing and
has no rematerializer, `get` throws and changes nothing.  If it holds nothing and the
replay of its rematerializer, which lists the cell among its outputs, returns, then `get`
returns the value the cell holds after that replay, and the cell holds it afterwards (the
heap after `get` is the heap after the replay with the pool's time of last use set). -/
theorem C3_get (fuel c : Nat) (h : Heap) (x : EntityTensorCell) (p : AliasPool)
    (hx : h.cells c = some x) (hp : h.pools x.pool_ = some p) :
    (∀ v, x.t_ = some v → EntityTensorCell.get (fuel + 1) c h
        = (Except.ok v, { h with pools := upd h.pools x.pool_ (p.update_last_used h.now) })) ∧
    (x.t_ = none → x.remat_ = none →
      EntityTensorCell.get (fuel + 1) c h = (Except.error (Err.check 128), h)) ∧
    (∀ r rm h1, x.t_ = none → x.remat_ = some r → h.remats r = some rm → c ∈ rm.outputs →
      Rematerializer.remat fuel r h = (Except.ok (), h1) →
      ∃ x1 v p1, h1.cells c = some x1 ∧ x1.t_ = some v ∧ h1.pools x.pool_ = some p1 ∧
        EntityTensorCell.get (fuel + 1) c h
          = (Except.ok v,
             { h1 with pools := upd h1.pools x.pool_ (p1.update_last_used h1.now) })) := by
  refine ⟨?_, ?_, ?_⟩
  · intro v hv
    unfold EntityTensorCell.get
    rw [bind_ok (cell_at_ok hx)]
    simp only [hv]
    exact get_tail_ok hx hv hp
  · intro hv hr
    unfold EntityTensorCell.get
    rw [bind_ok (cell_at_ok hx)]
    simp only [hv, hr]
    rfl
  · intro r rm h1 hv hr hrm hmem hrun
    have hg : Grows h h1 := by
      have := remat_grows fuel r h
      rw [hrun] at this
      exact this
    have hholds : Holds h1 c := by
      have hw := remat_with_holds (EntityTensorCell.get fuel) r h rm hrm
      have := wp_ok hw hrun
      exact this c hmem
    obtain ⟨x1, hx1, hpool⟩ : ∃ x1, h1.cells c = some x1 ∧ x1.pool_ = x.pool_ := by
      rcases hg.cells_some c x hx with h1c | ⟨_, t, h1c⟩
      · exact ⟨x, h1c, rfl⟩
      · exact ⟨x.fill t, h1c, fill_pool x t⟩
    have hsome := hholds x1 hx1
    obtain ⟨v, hv1⟩ : ∃ v, x1.t_ = some v := Option.isSome_iff_exists.mp hsome
    obtain ⟨l, u, hp1⟩ := hg.pools_some _ p hp
    refine ⟨x1, v, _, hx1, hv1, hp1, ?_⟩
    unfold EntityTensorCell.get
    rw [bind_ok (cell_at_ok hx)]
    simp only [hv, hr]
    have hrun1 : remat_with (EntityTensorCell.get fuel) r h = (Except.ok (), h1) := hrun
    rw [bind_ok hrun1]
    have := get_tail_ok hx1 hv1 (by rw [hpool]; exact hp1)
    rw [this, hpool]

/-- C3 at concrete inputs: the three cases on the cells of `a` and `b`. -/
theorem C3_get_witness :
    heap_ab.cells 1 = some cell_b ∧
    (EntityTensorCell.get 1 1 heap_ab).1 = Except.ok twos4 ∧
    heap_ab_evicted.cells 1 = some { cell_b with t_ := none } ∧
    (EntityTensorCell.get 2 1 heap_ab_evicted).1 = Except.ok twos4 ∧
    ((EntityTensorCell.get 2 1 heap_ab_evicted).2.cells 1) = some cell_b := by
  have hp : heap_ab.pools cell_b.pool_ = some
      { tensors_ := [1], neighbors_ := [], lock_count_ := 0, external_count_ := 0,
        head_remat_ := some 0, is_evicted_ := false, memory_ := 18446744073709551615,
        last_used_ := 5 } := by decide!
  have hx : heap_ab.cells 1 = some cell_b := by decide!
  have h1 := (C3_get 0 1 heap_ab cell_b _ hx hp).1 twos4 rfl
  refine ⟨hx, ?_, by decide!, by decide!, by decide!⟩
  rw [h1]

end ATen

namespace ATen

/-! ## Every call keeps `Sound` -/

theorem sound_of {h h1 : Heap} (hs : Sound h)
    (hc : ∀ c x, h1.cells c = some x → h.cells c = some x ∨ (x.t_ = none → x.remat_.isSome = true))
    (hp : ∀ p x, h1.pools p = some x → h.pools p = some x ∨ x.is_evicted_ = false) :
    Sound h1 := by
  constructor
  · intro c x hx hv
    rcases hc c x hx with h0 | h0
    · exact hs.1 c x h0 hv
    · exact h0 hv
  · intro p x hx
    rcases hp p x hx with h0 | h0
    · exact hs.2 p x h0
    · exact h0

theorem upd_cases {α : Type} {f : Nat → Option α} {i j : Nat} {v x : α}
    (hu : upd f i v j = some x) : (j = i ∧ x = v) ∨ (j ≠ i ∧ f j = some x) := by
  by_cases hji : j = i
  · left
    subst hji
    simp [upd] at hu
    exact ⟨rfl, hu.symm⟩
  · right
    simp [upd, hji] at hu
    exact ⟨hji, hu⟩

theorem sound_upd_cell {h : Heap} (hs : Sound h) (c : Nat) (x : EntityTensorCell)
    (hx : x.t_ = none → x.remat_.isSome = true) :
    Sound { h with cells := upd h.cells c x } := by
  refine sound_of hs ?_ (fun _ _ hp => Or.inl hp)
  intro c1 x1 h1
  by_cases hc : c1 = c
  · subst hc
    simp [upd] at h1
    subst h1
    exact Or.inr hx
  · simp [upd, hc] at h1
    exact Or.inl h1

theorem sound_upd_pool {h : Heap} (hs : Sound h) (p : Nat) (x : AliasPool)
    (hx : x.is_evicted_ = false) :
    Sound { h with pools := upd h.pools p x } := by
  refine sound_of hs (fun _ _ hc => Or.inl hc) ?_
  intro p1 x1 h1
  by_cases hc : p1 = p
  · subst hc
    simp [upd] at h1
    subst h1
    exact Or.inr hx
  · simp [upd, hc] at h1
    exact Or.inl h1

theorem sound_same {h h1 : Heap} (hs : Sound h) (hc : h1.cells = h.cells)
    (hp : h1.pools = h.pools) : Sound h1 :=
  sound_of hs (fun c x hx => Or.inl (by rw [← hc]; exact hx))
    (fun p x hx => Or.inl (by rw [← hp]; exact hx))

theorem lock_is_evicted (p : AliasPool) : p.lock.is_evicted_ = p.is_evicted_ := by
  simp [AliasPool.lock]

theorem unlock_is_evicted (p : AliasPool) : p.unlock.is_evicted_ = p.is_evicted_ := by
  simp [AliasPool.unlock]

theorem keeps_sound_lock (s : Nat) : Keeps Sound (lock_pool_of s) := by
  intro h hs
  unfold lock_pool_of
  simp only [wp_bind, wp_cell_at, wp_pool_at, wp_set_pool]
  split
  · split
    · rename_i p hp
      exact sound_upd_pool hs _ p.lock ((lock_is_evicted p).trans (hs.2 _ p hp))
    · exact hs
  · exact hs

theorem keeps_sound_unlock (s : Nat) : Keeps Sound (unlock_pool_of s) := by
  intro h hs
  unfold unlock_pool_of
  simp only [wp_bind, wp_cell_at, wp_pool_at, wp_set_pool]
  split
  · split
    · rename_i p hp
      exact sound_upd_pool hs _ p.unlock ((unlock_is_evicted p).trans (hs.2 _ p hp))
    · exact hs
  · exact hs

theorem keeps_sound_fill_output (o : Nat) (t : Tensor) : Keeps Sound (fill_output o t) := by
  intro h hs
  rw [wp_fill_output]
  split
  · rename_i x hx
    refine sound_upd_cell hs _ _ (fun hv => ?_)
    have := fill_holds x t
    simp [hv] at this
  · exact hs

theorem keeps_sound_call (f : RematFunc_t) (ts : Tensors) : Keeps Sound (f.call ts) := by
  intro h hs
  rw [wp_call]
  split <;> exact sound_same hs rfl rfl

theorem keeps_sound_get_tail (c : Nat) : Keeps Sound (get_tail c) := by
  intro h hs
  unfold get_tail
  simp only [wp_bind, wp_cell_at]
  split
  · rename_i x hx
    cases hv : x.t_ with
    | none => exact hs
    | some v =>
      simp only [wp_bind, wp_pool_at, wp_clock_now, wp_set_pool, wp_pure]
      split
      · rename_i p hp
        exact sound_upd_pool hs _ (p.update_last_used h.now) (hs.2 _ p hp)
      · exact hs
  · exact hs

theorem replayKeeps_sound : ReplayKeeps Sound :=
  { lock := keeps_sound_lock, unlock := keeps_sound_unlock, fill := keeps_sound_fill_output,
    call := keeps_sound_call, tail := keeps_sound_get_tail }

theorem keeps_sound_cell_fill (c : Nat) (t : Tensor) : Keeps Sound (cell_fill c t) := by
  intro h hs
  unfold cell_fill
  simp only [wp_bind, wp_cell_at, wp_set_cell]
  split
  · rename_i x hx
    refine sound_upd_cell hs _ _ (fun hv => ?_)
    have := fill_holds x t
    simp [hv] at this
  · exact hs

theorem keeps_sound_cell_evict (c : Nat) : Keeps Sound (cell_evict c) := by
  intro h hs
  unfold cell_evict
  simp only [wp_bind, wp_cell_at, wp_liftE, wp_set_cell]
  split
  · rename_i x hx
    cases hr : x.remat_ with
    | none =>
      simp only [EntityTensorCell.evict, hr, Option.isSome_none, Bool.false_eq_true, ↓reduceIte]
      exact hs
    | some r =>
      simp only [EntityTensorCell.evict, hr, Option.isSome_some, ↓reduceIte]
      exact sound_upd_cell hs _ _ (fun _ => by simp [hr])
  · exact hs

/-- When `get_tail` returns `v`, the cell holds `v`. -/
theorem get_tail_returns_held (c : Nat) (h : Heap) :
    wp (get_tail c) (fun v h1 => ∃ x, h1.cells c = some x ∧ x.t_ = some v) (fun _ => True) h := by
  unfold get_tail
  simp only [wp_bind, wp_cell_at]
  split
  · rename_i x hx
    cases hv : x.t_ with
    | none => trivial
    | some v =>
      simp only [wp_bind, wp_pool_at, wp_clock_now, wp_set_pool, wp_pure]
      split
      · exact ⟨x, hx, hv⟩
      · trivial
  · trivial

/-- When `get` returns `v`, the cell holds `v`. -/
theorem get_returns_held (fuel c : Nat) (h : Heap) :
    wp (EntityTensorCell.get fuel c)
      (fun v h1 => ∃ x, h1.cells c = some x ∧ x.t_ = some v) (fun _ => True) h := by
  cases fuel with
  | zero => trivial
  | succ fuel =>
    unfold EntityTensorCell.get
    simp only [wp_bind, wp_cell_at]
    split
    · rename_i x hx
      cases hv : x.t_ with
      | some v => exact get_tail_returns_held c h
      | none =>
        cases hr : x.remat_ with
        | none => trivial
        | some r =>
          simp only [wp_bind]
          exact wp_any (fun _ h1 => get_tail_returns_held c h1) (fun _ => trivial)
    · trivial

theorem keeps_sound_pin (fuel c : Nat) : Keeps Sound (EntityTensorCell.pin fuel c) := by
  intro h hs
  unfold EntityTensorCell.pin
  rw [wp_bind]
  have h1 := wp_and (keeps_get replayKeeps_sound fuel c h hs) (get_returns_held fuel c h)
  refine wp_mono h1 ?_ (fun _ hq => hq.1)
  intro v h2 ⟨hs2, x, hx, hv⟩
  simp only [wp_bind, wp_cell_at, hx, wp_pool_at, wp_set_pool, wp_set_cell]
  split
  · rename_i p hp
    refine sound_of hs2 ?_ ?_
    · intro c1 x1 hc1
      rcases upd_cases hc1 with ⟨_, rfl⟩ | ⟨_, h0⟩
      · right
        intro hn
        simp [hv] at hn
      · exact Or.inl h0
    · intro p1 x1 hp1
      rcases upd_cases hp1 with ⟨_, rfl⟩ | ⟨_, h0⟩
      · exact Or.inr (hs2.2 _ p hp)
      · exact Or.inl h0
  · exact hs2

end ATen

namespace ATen

theorem keeps_sound_same {α : Type} (m : M α)
    (hm : ∀ h, (m h).2.cells = h.cells ∧ (m h).2.pools = h.pools) : Keeps Sound m := by
  intro h hs
  exact wp_of_snd (sound_same hs (hm h).1 (hm h).2)

theorem keeps_sound_set_remat (r : Nat) (x : Rematerializer) : Keeps Sound (set_remat r x) :=
  keeps_sound_same _ (fun _ => ⟨rfl, rfl⟩)

theorem keeps_sound_new_remat (x : Rematerializer) : Keeps Sound (new_remat x) :=
  keeps_sound_same _ (fun _ => ⟨rfl, rfl⟩)

theorem keeps_sound_set_ref (r : Nat) (x : RefCell) : Keeps Sound (set_ref r x) :=
  keeps_sound_same _ (fun _ => ⟨rfl, rfl⟩)

theorem keeps_sound_new_ref (x : RefCell) : Keeps Sound (new_ref x) :=
  keeps_sound_same _ (fun _ => ⟨rfl, rfl⟩)

theorem keeps_sound_set_external (e : Nat) (x : External) : Keeps Sound (set_external e x) :=
  keeps_sound_same _ (fun _ => ⟨rfl, rfl⟩)

theorem keeps_sound_new_external (x : External) : Keeps Sound (new_external x) :=
  keeps_sound_same _ (fun _ => ⟨rfl, rfl⟩)

theorem make_holds (t : Tensor) (pool : Nat) (remat : Option Nat) :
    (EntityTensorCell.make t pool remat).t_.isSome = true :=
  fill_holds _ t

theorem keeps_sound_new_cell_make (t : Tensor) (pool : Nat) (remat : Option Nat) :
    Keeps Sound (new_cell (EntityTensorCell.make t pool remat)) := by
  intro h hs
  rw [wp_new_cell]
  refine sound_of hs ?_ (fun _ _ hp => Or.inl hp)
  intro c x hc
  rcases upd_cases hc with ⟨_, rfl⟩ | ⟨_, h0⟩
  · right
    intro hn
    have := make_holds t pool remat
    simp [hn] at this
  · exact Or.inl h0

theorem keeps_sound_new_pool_make (r : Option Nat) (m now : Nat) :
    Keeps Sound (new_pool (AliasPool.make r m now)) := by
  intro h hs
  rw [wp_new_pool]
  refine sound_of hs (fun _ _ hc => Or.inl hc) ?_
  intro p x hp
  rcases upd_cases hp with ⟨_, rfl⟩ | ⟨_, h0⟩
  · exact Or.inr rfl
  · exact Or.inl h0

theorem keeps_sound_from_strong (v : Nat) : Keeps Sound (External.from_strong v) :=
  keeps_sound_new_external _

theorem keeps_sound_from_tensor (t : Tensor) : Keeps Sound (External.from_tensor t) := by
  unfold External.from_tensor
  refine keeps_bind keeps_clock_now (fun now => ?_)
  refine keeps_bind (keeps_sound_new_pool_make _ _ _) (fun pool => ?_)
  exact keeps_bind (keeps_sound_new_cell_make _ _ _) (fun cell => keeps_sound_from_strong cell)

theorem keeps_sound_from_parts (t : Tensor) (pool : Nat) (remat : Option Nat) :
    Keeps Sound (External.from_parts t pool remat) := by
  unfold External.from_parts
  exact keeps_bind (keeps_sound_new_cell_make _ _ _) (fun cell => keeps_sound_from_strong cell)

theorem release_external_is_evicted (p p1 : AliasPool)
    (hp : p.release_external = Except.ok p1) : p1.is_evicted_ = p.is_evicted_ := by
  unfold AliasPool.release_external at hp
  simp only at hp
  split at hp
  · split at hp
    · cases hp
      rfl
    · split at hp
      · cases hp
        rfl
      · cases hp
  · cases hp
    rfl

theorem keeps_sound_release (e : Nat) : Keeps Sound (External.release_resources e) := by
  unfold External.release_resources
  refine keeps_bind (keeps_external_at e) (fun ext => ?_)
  refine keeps_bind (keeps_deref _) (fun c => ?_)
  refine keeps_bind (keeps_cell_at c) (fun cell => ?_)
  intro h hs
  simp only [wp_bind, wp_pool_at, wp_liftE]
  split
  · rename_i p hp
    split
    · rename_i p1 hp1
      simp only [wp_set_pool, wp_set_external]
      have he : p1.is_evicted_ = false :=
        (release_external_is_evicted p p1 hp1).trans (hs.2 _ p hp)
      exact sound_same (sound_upd_pool hs cell.pool_ p1 he) rfl rfl
    · exact hs
  · exact hs

theorem keeps_sound_from_ref (ref : Nat) : Keeps Sound (EntityTensorImpl.from_ref ref) := by
  unfold EntityTensorImpl.from_ref
  refine keeps_bind (keeps_ref_at _) (fun slot => ?_)
  refine keeps_bind (keeps_deref _) (fun e => ?_)
  refine keeps_bind (keeps_external_at _) (fun ext => ?_)
  refine keeps_bind (keeps_deref _) (fun c => ?_)
  refine keeps_bind (keeps_cell_at _) (fun cell => ?_)
  refine keeps_bind (keeps_liftE _) (fun ks0 => ?_)
  refine keeps_bind (keeps_liftE _) (fun ks => ?_)
  refine keeps_bind (keeps_liftE _) (fun dtype => ?_)
  refine keeps_bind (keeps_liftE _) (fun dev => ?_)
  refine keeps_bind (keeps_sound_same _ (fun _ => ⟨rfl, rfl⟩)) (fun eti => ?_)
  exact keeps_pure _

theorem keeps_sound_from_external (e : Nat) : Keeps Sound (EntityTensorImpl.from_external e) := by
  unfold EntityTensorImpl.from_external
  exact keeps_bind (keeps_sound_new_ref _) (fun ref => keeps_sound_from_ref ref)

theorem keeps_sound_impl_from_tensor (t : Tensor) : Keeps Sound (EntityTensorImpl.from_tensor t) := by
  unfold EntityTensorImpl.from_tensor
  exact keeps_bind (keeps_sound_from_tensor t) (fun e => keeps_sound_from_external e)

theorem keeps_get_entity_tensor_impl {P : Heap → Prop} (t : Tensor) :
    Keeps P (get_entity_tensor_impl t) := by
  unfold get_entity_tensor_impl
  cases t.impl_ with
  | none => exact keeps_fail _
  | some i => exact keeps_impl_at i

theorem keeps_get_cell_from_tensor {P : Heap → Prop} (t : Tensor) :
    Keeps P (get_cell_from_tensor t) := by
  unfold get_cell_from_tensor
  exact keeps_bind (keeps_get_entity_tensor_impl t) (fun _ => keeps_pure _)

theorem keeps_strong_of {P : Heap → Prop} (t : Tensor) : Keeps P (strong_of t) := by
  unfold strong_of
  refine keeps_bind (keeps_get_entity_tensor_impl t) (fun eti => ?_)
  refine keeps_bind (keeps_ref_at _) (fun slot => ?_)
  refine keeps_bind (keeps_deref _) (fun e => ?_)
  refine keeps_bind (keeps_external_at _) (fun ext => ?_)
  exact keeps_deref _

theorem keeps_ref_tensor {P : Heap → Prop} (hp : ReplayKeeps P) (fuel : Nat) (t : Tensor) :
    Keeps P (ref_tensor fuel t) := by
  unfold ref_tensor
  exact keeps_bind (keeps_strong_of t) (fun c => keeps_get hp fuel c)

theorem keeps_sound_shallow_copy_and_detach (t : Tensor) :
    Keeps Sound (EntityTensorImpl.shallow_copy_and_detach t) := by
  unfold EntityTensorImpl.shallow_copy_and_detach
  exact keeps_bind (keeps_get_entity_tensor_impl t) (fun eti => keeps_sound_from_ref _)

theorem keeps_sound_shallow_copy_from (self impl : Tensor) :
    Keeps Sound (EntityTensorImpl.shallow_copy_from self impl) := by
  unfold EntityTensorImpl.shallow_copy_from
  refine keeps_bind (keeps_get_entity_tensor_impl _) (fun me => ?_)
  refine keeps_bind (keeps_deref _) (fun i => ?_)
  refine keeps_bind (keeps_impl_at _) (fun eti => ?_)
  refine keeps_bind (keeps_ref_at _) (fun src => ?_)
  refine keeps_bind (keeps_ref_at _) (fun dst => ?_)
  exact keeps_bind (keeps_sound_set_ref _ _)
    (fun _ => keeps_drop_handle keeps_sound_release _ _)

theorem keeps_sound_checkpoint (t : Tensor) : Keeps Sound (native.checkpoint t) :=
  keeps_sound_impl_from_tensor t

theorem keeps_sound_try_checkpoint (t : Tensor) : Keeps Sound (native.try_checkpoint t) := by
  unfold native.try_checkpoint
  split
  · exact keeps_pure t
  · exact keeps_sound_checkpoint t

theorem keeps_sound_evict_checkpoint (t : Tensor) : Keeps Sound (native.evict_checkpoint t) := by
  unfold native.evict_checkpoint
  split
  · exact keeps_pure _
  · refine keeps_bind (keeps_strong_of t) (fun c => ?_)
    exact keeps_bind (keeps_sound_cell_evict c) (fun _ => keeps_pure _)

theorem keeps_sound_decheckpoint (fuel : Nat) (t : Tensor) :
    Keeps Sound (native.decheckpoint fuel t) := by
  unfold native.decheckpoint
  split
  · exact keeps_ref_tensor replayKeeps_sound fuel t
  · exact keeps_pure t

theorem keeps_sound_remat_checkpoint (fuel : Nat) (t : Tensor) :
    Keeps Sound (native.remat_checkpoint fuel t) := by
  unfold native.remat_checkpoint
  split
  · exact keeps_ref_tensor replayKeeps_sound fuel t
  · exact keeps_pure t

end ATen

namespace ATen

theorem keeps_sound_alias_pool_of_input (inputs : List Nat) (a : Int) (dt : Nat) :
    Keeps Sound (alias_pool_of_input inputs a dt) := by
  unfold alias_pool_of_input
  refine keeps_bind (keeps_read _ (fun h => ?_)) (fun s => ?_)
  · cases inputs.get? a.toNat <;> rfl
  refine keeps_bind (keeps_cell_at _) (fun cell => ?_)
  refine keeps_bind (keeps_pool_at _) (fun p => ?_)
  cases p.head_remat_ with
  | none => exact keeps_pure _
  | some hr =>
    refine keeps_bind (keeps_remat_at _) (fun rm => ?_)
    exact keeps_bind (keeps_sound_set_remat _ _) (fun _ => keeps_pure _)

theorem keeps_sound_push_tensor (alias_pool c : Nat) {α : Type} (a : α) :
    Keeps Sound (do
      let p ← pool_at alias_pool
      set_pool alias_pool { p with tensors_ := p.tensors_ ++ [c] }
      pure a) := by
  intro h hs
  simp only [wp_bind, wp_pool_at, wp_set_pool, wp_pure]
  split
  · rename_i p hp
    exact sound_upd_pool hs alias_pool { p with tensors_ := p.tensors_ ++ [c] } (hs.2 _ p hp)
  · exact hs

theorem keeps_sound_make_raw_output (remat : Nat) (inputs : List Nat) (raw_inputs : Tensors)
    (dt : Nat) (t : Tensor) : Keeps Sound (make_raw_output remat inputs raw_inputs dt t) := by
  unfold make_raw_output
  refine keeps_bind ?_ (fun alias_pool => ?_)
  · unfold pool_for_output
    split
    · exact keeps_bind keeps_clock_now (fun now => keeps_sound_new_pool_make _ _ _)
    · exact keeps_sound_alias_pool_of_input _ _ _
  refine keeps_bind (keeps_sound_from_parts _ _ _) (fun e => ?_)
  refine keeps_bind (keeps_external_at _) (fun ext => ?_)
  refine keeps_bind (keeps_deref _) (fun c => ?_)
  exact keeps_sound_push_tensor alias_pool c _

theorem keeps_sound_make_raw_outputs (remat : Nat) (inputs : List Nat) (raw_inputs : Tensors)
    (dt : Nat) : ∀ ts : Tensors, Keeps Sound (make_raw_outputs remat inputs raw_inputs dt ts)
  | [] => keeps_pure _
  | t :: rest => by
    unfold make_raw_outputs
    refine keeps_bind (keeps_sound_make_raw_output _ _ _ _ t) (fun ea => ?_)
    refine keeps_bind (keeps_external_at _) (fun ext => ?_)
    refine keeps_bind (keeps_deref _) (fun c => ?_)
    refine keeps_bind (keeps_sound_make_raw_outputs remat inputs raw_inputs dt rest) (fun r => ?_)
    exact keeps_pure _

theorem keeps_sound_make_raw (fuel : Nat) (f : RematFunc_t) (inputs : List Nat) :
    Keeps Sound (make_raw fuel f inputs) := by
  unfold make_raw
  refine keeps_bind (keeps_lock_inputs keeps_sound_lock _) (fun _ => ?_)
  refine keeps_bind
    (keeps_uncheckpoint_with (fun c => keeps_get replayKeeps_sound fuel c) _) (fun raw => ?_)
  refine keeps_bind keeps_clock_now (fun pre => ?_)
  refine keeps_bind (keeps_sound_call _ _) (fun outs => ?_)
  refine keeps_bind keeps_clock_now (fun post => ?_)
  refine keeps_bind (keeps_sound_new_remat _) (fun remat => ?_)
  refine keeps_bind (keeps_sound_make_raw_outputs _ _ _ _ _) (fun r => ?_)
  refine keeps_bind (keeps_remat_at _) (fun rm => ?_)
  refine keeps_bind (keeps_sound_set_remat _ _) (fun _ => ?_)
  refine keeps_bind (keeps_unlock_inputs keeps_sound_unlock _) (fun _ => ?_)
  exact keeps_pure _

theorem keeps_sound_try_checkpoint_all : ∀ ts : Tensors, Keeps Sound (try_checkpoint_all ts)
  | [] => keeps_pure _
  | t :: rest => by
    unfold try_checkpoint_all
    refine keeps_bind (keeps_sound_try_checkpoint t) (fun _ => ?_)
    exact keeps_bind (keeps_sound_try_checkpoint_all rest) (fun _ => keeps_pure _)

theorem keeps_input_values_of {P : Heap → Prop} : ∀ ts : Tensors, Keeps P (input_values_of ts)
  | [] => keeps_pure _
  | t :: rest => by
    unfold input_values_of
    refine keeps_bind (keeps_strong_of t) (fun _ => ?_)
    exact keeps_bind (keeps_input_values_of rest) (fun _ => keeps_pure _)

theorem keeps_sound_wrap_outputs : ∀ es : List Nat, Keeps Sound (wrap_outputs es)
  | [] => keeps_pure _
  | e :: rest => by
    unfold wrap_outputs
    refine keeps_bind (keeps_sound_from_external e) (fun _ => ?_)
    exact keeps_bind (keeps_sound_wrap_outputs rest) (fun _ => keeps_pure _)

theorem keeps_sound_make (fuel : Nat) (f : RematFunc_t) (inputs : Tensors) :
    Keeps Sound (EntityTensorImpl.make fuel f inputs) := by
  unfold EntityTensorImpl.make
  refine keeps_bind (keeps_sound_try_checkpoint_all _) (fun cps => ?_)
  refine keeps_bind (keeps_input_values_of _) (fun vals => ?_)
  refine keeps_bind (keeps_sound_make_raw _ _ _) (fun ret => ?_)
  exact keeps_sound_wrap_outputs _

theorem keeps_sound_reseat (inputs : Tensors) (modified : List Nat) :
    ∀ idx : List Nat, Keeps Sound (reseat inputs modified idx)
  | [] => keeps_pure _
  | i :: rest => by
    unfold reseat
    refine keeps_bind (keeps_liftE _) (fun t => ?_)
    refine keeps_bind (keeps_liftE _) (fun m => ?_)
    refine keeps_bind (keeps_get_cell_from_tensor _) (fun ref => ?_)
    refine keeps_bind (keeps_ref_at _) (fun slot => ?_)
    refine keeps_bind (keeps_sound_set_ref _ _) (fun _ => ?_)
    refine keeps_bind (keeps_drop_handle keeps_sound_release _ _) (fun _ => ?_)
    exact keeps_sound_reseat inputs modified rest

theorem keeps_sound_mutate (fuel : Nat) (f : MutateFunc_t) (inputs : Tensors) (idx : List Nat) :
    Keeps Sound (EntityTensorImpl.mutate fuel f inputs idx) := by
  unfold EntityTensorImpl.mutate
  refine keeps_bind (keeps_sound_try_checkpoint_all _) (fun cps => ?_)
  refine keeps_bind (keeps_input_values_of _) (fun vals => ?_)
  refine keeps_bind (keeps_sound_make_raw _ _ _) (fun ret => ?_)
  exact keeps_with_cleanup (keeps_sound_reseat _ _ _)
    (keeps_drop_externals keeps_sound_release _)

/-- Every call leaves a sound heap sound. -/
theorem sound_run (o : Op) (h : Heap) (hs : Sound h) : Sound (o.run h) := by
  cases o with
  | checkpoint t => exact wp_snd (keeps_sound_checkpoint t h hs)
  | try_checkpoint t => exact wp_snd (keeps_sound_try_checkpoint t h hs)
  | uncheckpoint fuel t => exact wp_snd (keeps_ref_tensor replayKeeps_sound fuel t h hs)
  | decheckpoint fuel t => exact wp_snd (keeps_sound_decheckpoint fuel t h hs)
  | evict_checkpoint t => exact wp_snd (keeps_sound_evict_checkpoint t h hs)
  | remat_checkpoint fuel t => exact wp_snd (keeps_sound_remat_checkpoint fuel t h hs)
  | make fuel f inputs => exact wp_snd (keeps_sound_make fuel f inputs h hs)
  | mutate fuel f inputs idx => exact wp_snd (keeps_sound_mutate fuel f inputs idx h hs)
  | shallow_copy_and_detach t => exact wp_snd (keeps_sound_shallow_copy_and_detach t h hs)
  | shallow_copy_from self impl => exact wp_snd (keeps_sound_shallow_copy_from self impl h hs)
  | external_from_tensor t => exact wp_snd (keeps_sound_from_tensor t h hs)
  | external_release e => exact wp_snd (keeps_sound_release e h hs)
  | make_raw fuel f inputs => exact wp_snd (keeps_sound_make_raw fuel f inputs h hs)
  | cell_get fuel c => exact wp_snd (keeps_get replayKeeps_sound fuel c h hs)
  | cell_fill c t => exact wp_snd (keeps_sound_cell_fill c t h hs)
  | cell_evict c => exact wp_snd (keeps_sound_cell_evict c h hs)
  | cell_pin fuel c => exact wp_snd (keeps_sound_pin fuel c h hs)
  | remat fuel r => exact wp_snd (keeps_remat replayKeeps_sound fuel r h hs)

theorem sound_run_ops (ops : List Op) : ∀ h : Heap, Sound h → Sound (run_ops ops h) := by
  induction ops with
  | nil => exact fun _ hs => hs
  | cons o rest ih => exact fun h hs => ih (o.run h) (sound_run o h hs)

theorem sound_empty : Sound Heap.empty := by
  constructor <;> intro _ _ hc <;> cases hc

theorem sound_of_reachable {h : Heap} (hr : Reachable h) : Sound h := by
  obtain ⟨ops, rfl⟩ := hr
  exact sound_run_ops ops _ sound_empty

end ATen

namespace ATen

theorem reachable_ab_evicted : Reachable heap_ab_evicted := ⟨ops_ab_evicted, rfl⟩

/-- C2: in every heap reachable by any sequence of calls (among them `get`, `fill`,
`evict`, `pin`, `remat` and the constructions of cells by `External` and `make_raw`), a
cell that holds no value has a rematerializer, and so a cell without rematerializer
holds its value. -/
theorem C2_absent_value_has_remat (h : Heap) (hr : Reachable h) (c : Nat)
    (x : EntityTensorCell) (hc : h.cells c = some x) :
    (x.t_ = none → x.remat_.isSome = true) ∧ (x.remat_ = none → x.t_.isSome = true) := by
  have hs := (sound_of_reachable hr).1 c x hc
  constructor
  · exact hs
  · intro hn
    cases hv : x.t_ with
    | some v => rfl
    | none =>
      have := hs hv
      simp [hn] at this

/-- C2 at a concrete input: the evicted cell of `b` has a rematerializer, the root cell of
`a` holds its value. -/
theorem C2_absent_value_has_remat_witness :
    heap_ab_evicted.cells 1 = some { cell_b with t_ := none } ∧
    ({ cell_b with t_ := none } : EntityTensorCell).remat_.isSome = true ∧
    heap_ab_evicted.cells 0 = some cell_a ∧
    cell_a.remat_ = none ∧ cell_a.t_.isSome = true := by
  have h1 : heap_ab_evicted.cells 1 = some { cell_b with t_ := none } := by decide!
  have h0 : heap_ab_evicted.cells 0 = some cell_a := by decide!
  exact ⟨h1, (C2_absent_value_has_remat _ reachable_ab_evicted 1 _ h1).1 rfl, h0, rfl,
    (C2_absent_value_has_remat _ reachable_ab_evicted 0 _ h0).2 rfl⟩

/-- C8, as stated, fails: after `a = checkpoint(ones(4)); b = make("add", add, [a, a]);
evict_checkpoint(b)` the pool of `b` (pool 1, evictable before the eviction) has the one
member cell 1, no cell of the pool holds a value, and the pool's evicted flag is false. -/
theorem C8_flag_false_after_evict :
    (heap_ab.pools 1).map (fun p => p.evictable) = some true ∧
    heap_ab_evicted.pools 1 = some pool_b ∧
    pool_b.tensors_ = [1] ∧
    (heap_ab_evicted.cells 1).map (fun x => (x.pool_, x.t_)) = some (1, none) ∧
    (heap_ab_evicted.cells 0).map (fun x => x.pool_) = some 0 ∧
    heap_ab_evicted.cells 2 = none ∧
    pool_b.is_evicted_ = false := by
  decide!

/-- C8, amended: in every reachable heap the evicted flag of every pool is false, so
"evicted implies that no member cell holds a value" holds of every pool, while the
converse does not (see `C8_flag_false_after_evict`). -/
theorem C8_evicted_flag (h : Heap) (hr : Reachable h) (p : Nat) (x : AliasPool)
    (hp : h.pools p = some x) :
    x.is_evicted_ = false ∧
    (x.is_evicted_ = true → ∀ c ∈ x.tensors_, ∀ y, h.cells c = some y → y.t_ = none) := by
  have hf := (sound_of_reachable hr).2 p x hp
  refine ⟨hf, fun ht => ?_⟩
  rw [hf] at ht
  cases ht

/-- C8 at a concrete input: the pool of `b` after the eviction and after the
re-materialization by `uncheckpoint(b)`. -/
theorem C8_evicted_flag_witness :
    heap_ab_evicted.pools 1 = some pool_b ∧ pool_b.is_evicted_ = false ∧
    ((native.uncheckpoint 2 tensor_b heap_ab_evicted).2.pools 1).map (fun p => p.is_evicted_)
      = some false := by
  have hp : heap_ab_evicted.pools 1 = some pool_b := by decide!
  exact ⟨hp, (C8_evicted_flag _ reachable_ab_evicted 1 pool_b hp).1, by decide!⟩

end ATen

namespace ATen

/-! ## Steps that keep replay consistency -/

theorem pinv_other {pend : Nat → Prop} {n0 : Nat} {den : Nat → Tensor} {h h1 : Heap}
    (hi : PInv pend n0 den h) (hc : h1.cells = h.cells) (hp : h1.pools = h.pools)
    (hr : h1.remats = h.remats) (hnc : h1.next_cell = h.next_cell)
    (hnr : h1.next_remat = h.next_remat) : PInv pend n0 den h1 :=
  { cell_lt := by rw [hc, hnc]; exact hi.cell_lt
    cell_val := by rw [hc]; exact hi.cell_val
    cell_remat := by rw [hc]; exact hi.cell_remat
    cell_pool := by rw [hc, hp]; exact hi.cell_pool
    cell_out := by rw [hc, hr]; exact hi.cell_out
    remat_lt := by rw [hr, hnr]; exact hi.remat_lt
    remat_in := by rw [hr, hc]; exact hi.remat_in
    remat_ord := by rw [hr]; exact hi.remat_ord
    remat_out := by rw [hr, hnc]; exact hi.remat_out
    remat_run := by rw [hr]; exact hi.remat_run
    pool_head := by rw [hp, hr]; exact hi.pool_head }

theorem pinv_pools {pend : Nat → Prop} {n0 : Nat} {den : Nat → Tensor} {h h1 : Heap}
    (hi : PInv pend n0 den h) (hc : h1.cells = h.cells)
    (hr : h1.remats = h.remats) (hnc : h1.next_cell = h.next_cell)
    (hnr : h1.next_remat = h.next_remat)
    (hex : ∀ p x, h.pools p = some x → ∃ y, h1.pools p = some y)
    (hhd : ∀ p y r, h1.pools p = some y → y.head_remat_ = some r → ∃ rm, h.remats r = some rm) :
    PInv pend n0 den h1 :=
  { cell_lt := by rw [hc, hnc]; exact hi.cell_lt
    cell_val := by rw [hc]; exact hi.cell_val
    cell_remat := by rw [hc]; exact hi.cell_remat
    cell_pool := by
      rw [hc]
      intro c x hx
      obtain ⟨p, hp⟩ := hi.cell_pool c x hx
      exact hex _ p hp
    cell_out := by rw [hc, hr]; exact hi.cell_out
    remat_lt := by rw [hr, hnr]; exact hi.remat_lt
    remat_in := by rw [hr, hc]; exact hi.remat_in
    remat_ord := by rw [hr]; exact hi.remat_ord
    remat_out := by rw [hr, hnc]; exact hi.remat_out
    remat_run := by rw [hr]; exact hi.remat_run
    pool_head := by rw [hr]; exact hhd }

/-- Replacing a pool by one with the same head rematerializer, or none. -/
theorem pinv_upd_pool {pend : Nat → Prop} {n0 : Nat} {den : Nat → Tensor} {h : Heap}
    (hi : PInv pend n0 den h) (p : Nat) (x y : AliasPool) (hp : h.pools p = some x)
    (hy : y.head_remat_ = x.head_remat_ ∨ y.head_remat_ = none) :
    PInv pend n0 den { h with pools := upd h.pools p y } := by
  refine pinv_pools hi rfl rfl rfl rfl ?_ ?_
  · intro q z hq
    by_cases hqp : q = p
    · exact ⟨y, by simp [upd, hqp]⟩
    · exact ⟨z, by simp [upd, hqp, hq]⟩
  · intro q z r hq hz
    rcases upd_cases hq with ⟨_, rfl⟩ | ⟨_, h0⟩
    · rcases hy with hy | hy
      · rw [hy] at hz
        exact hi.pool_head p x r hp hz
      · rw [hy] at hz
        cases hz
    · exact hi.pool_head q z r h0 hz

/-- Replacing a cell by one in the same pool, with the same rematerializer or (when it
holds a value) none, whose value, if any, is what the cell stands for. -/
theorem pinv_upd_cell {pend : Nat → Prop} {n0 : Nat} {den : Nat → Tensor} {h : Heap}
    (hi : PInv pend n0 den h) (c : Nat) (x y : EntityTensorCell) (hx : h.cells c = some x)
    (hpool : y.pool_ = x.pool_) (hrem : y.remat_ = x.remat_ ∨ y.remat_ = none)
    (hval : ∀ v, y.t_ = some v → v = den c) (habs : y.t_ = none → y.remat_.isSome = true) :
    PInv pend n0 den { h with cells := upd h.cells c y } :=
  { cell_lt := by
      intro c1 x1 h1
      rcases upd_cases h1 with ⟨rfl, _⟩ | ⟨_, h0⟩
      · exact hi.cell_lt _ x hx
      · exact hi.cell_lt _ x1 h0
    cell_val := by
      intro c1 x1 v h1 hv
      rcases upd_cases h1 with ⟨rfl, rfl⟩ | ⟨_, h0⟩
      · exact hval v hv
      · exact hi.cell_val _ x1 v h0 hv
    cell_remat := by
      intro c1 x1 h1 hv
      rcases upd_cases h1 with ⟨rfl, rfl⟩ | ⟨_, h0⟩
      · exact habs hv
      · exact hi.cell_remat _ x1 h0 hv
    cell_pool := by
      intro c1 x1 h1
      rcases upd_cases h1 with ⟨rfl, rfl⟩ | ⟨_, h0⟩
      · rw [hpool]
        exact hi.cell_pool _ x hx
      · exact hi.cell_pool _ x1 h0
    cell_out := by
      intro c1 x1 r h1 hr
      rcases upd_cases h1 with ⟨rfl, rfl⟩ | ⟨_, h0⟩
      · rcases hrem with hrem | hrem
        · rw [hrem] at hr
          exact hi.cell_out _ x r hx hr
        · rw [hrem] at hr
          cases hr
      · exact hi.cell_out _ x1 r h0 hr
    remat_lt := hi.remat_lt
    remat_in := by
      intro r rm i hr hmem
      obtain ⟨x1, h1⟩ := hi.remat_in r rm i hr hmem
      by_cases hic : i = c
      · exact ⟨y, by simp [upd, hic]⟩
      · exact ⟨x1, by simp [upd, hic, h1]⟩
    remat_ord := hi.remat_ord
    remat_out := hi.remat_out
    remat_run := hi.remat_run
    pool_head := hi.pool_head }

theorem pinv_now {pend : Nat → Prop} {n0 : Nat} {den : Nat → Tensor} {h : Heap}
    (hi : PInv pend n0 den h) (n : Nat) : PInv pend n0 den { h with now := n } :=
  pinv_other hi rfl rfl rfl rfl rfl

theorem pinv_fill {pend : Nat → Prop} {n0 : Nat} {den : Nat → Tensor} {h : Heap}
    (hi : PInv pend n0 den h) (o : Nat) (x : EntityTensorCell) (t : Tensor)
    (hx : h.cells o = some x) (ht : den o = t.detach) :
    PInv pend n0 den { h with cells := upd h.cells o (x.fill t) } := by
  refine pinv_upd_cell hi o x _ hx (fill_pool x t) (Or.inl (fill_remat x t)) ?_ ?_
  · intro v hv
    cases hxt : x.t_ with
    | some w =>
      rw [fill_of_some x t (by simp [hxt])] at hv
      exact hi.cell_val o x v hx hv
    | none =>
      rw [fill_value x t hxt] at hv
      cases hv
      exact ht.symm
  · intro hn
    have := fill_holds x t
    simp [hn] at this

theorem lock_head (p : AliasPool) : p.lock.head_remat_ = p.head_remat_ := by
  unfold AliasPool.lock
  rfl

theorem unlock_head (p : AliasPool) : p.unlock.head_remat_ = p.head_remat_ := by
  unfold AliasPool.unlock
  rfl

/-- Locking the pool of an existing cell keeps consistency and does not throw. -/
theorem lock_pool_of_spec {pend : Nat → Prop} {n0 : Nat} {den : Nat → Tensor} (s : Nat)
    (h : Heap) (hi : PInv pend n0 den h) :
    wp (lock_pool_of s) (fun _ h1 => PInv pend n0 den h1)
      (fun h1 => PInv pend n0 den h1 ∧ h.cells s = none) h := by
  unfold lock_pool_of
  simp only [wp_bind, wp_cell_at, wp_pool_at, wp_set_pool]
  split
  · rename_i x hx
    split
    · rename_i p hp
      exact pinv_upd_pool hi _ p p.lock hp (Or.inl (lock_head p))
    · rename_i hp
      obtain ⟨p, hp1⟩ := hi.cell_pool s x hx
      rw [hp1] at hp
      cases hp
  · rename_i hx
    exact ⟨hi, hx⟩

/-- Unlocking the pool of an existing cell keeps consistency and does not throw. -/
theorem unlock_pool_of_spec {pend : Nat → Prop} {n0 : Nat} {den : Nat → Tensor} (s : Nat)
    (h : Heap) (hi : PInv pend n0 den h) :
    wp (unlock_pool_of s) (fun _ h1 => PInv pend n0 den h1)
      (fun h1 => PInv pend n0 den h1 ∧ h.cells s = none) h := by
  unfold unlock_pool_of
  simp only [wp_bind, wp_cell_at, wp_pool_at, wp_set_pool]
  split
  · rename_i x hx
    split
    · rename_i p hp
      exact pinv_upd_pool hi _ p p.unlock hp (Or.inl (unlock_head p))
    · rename_i hp
      obtain ⟨p, hp1⟩ := hi.cell_pool s x hx
      rw [hp1] at hp
      cases hp
  · rename_i hx
    exact ⟨hi, hx⟩

end ATen

namespace ATen

theorem grows_live {h h1 : Heap} (g : Grows h h1) {c : Nat} {x : EntityTensorCell}
    (hx : h.cells c = some x) : ∃ y, h1.cells c = some y := by
  rcases g.cells_some c x hx with h1c | ⟨_, t, h1c⟩
  · exact ⟨x, h1c⟩
  · exact ⟨_, h1c⟩

theorem lock_inputs_spec {den : Nat → Tensor} : ∀ (l : List Nat) (h : Heap), Inv den h →
    wp (lock_inputs l) (fun _ h1 => Inv den h1)
      (fun h1 => Inv den h1 ∧ ∃ s ∈ l, h.cells s = none) h
  | [], h, hi => hi
  | s :: rest, h, hi => by
    unfold lock_inputs
    rw [wp_bind]
    have h1 := wp_and (lock_pool_of_spec s h hi) (wp_of_snd (lock_pool_of_grows s h))
    refine wp_mono h1 ?_ ?_
    · intro _ h2 ⟨hi2, hg2⟩
      refine wp_mono (lock_inputs_spec rest h2 hi2) (fun _ _ hq => hq) ?_
      intro h3 ⟨hi3, s1, hs1, hn⟩
      refine ⟨hi3, s1, List.mem_cons_of_mem _ hs1, ?_⟩
      cases hc : h.cells s1 with
      | none => rfl
      | some x =>
        obtain ⟨y, hy⟩ := grows_live hg2 hc
        rw [hy] at hn
        cases hn
    · intro h2 ⟨⟨hi2, hn⟩, _⟩
      exact ⟨hi2, s, List.mem_cons_self _ _, hn⟩

theorem unlock_inputs_spec {den : Nat → Tensor} : ∀ (l : List Nat) (h : Heap), Inv den h →
    wp (unlock_inputs l) (fun _ h1 => Inv den h1)
      (fun h1 => Inv den h1 ∧ ∃ s ∈ l, h.cells s = none) h
  | [], h, hi => hi
  | s :: rest, h, hi => by
    unfold unlock_inputs
    rw [wp_bind]
    have h1 := wp_and (unlock_pool_of_spec s h hi) (wp_of_snd (unlock_pool_of_grows s h))
    refine wp_mono h1 ?_ ?_
    · intro _ h2 ⟨hi2, hg2⟩
      refine wp_mono (unlock_inputs_spec rest h2 hi2) (fun _ _ hq => hq) ?_
      intro h3 ⟨hi3, s1, hs1, hn⟩
      refine ⟨hi3, s1, List.mem_cons_of_mem _ hs1, ?_⟩
      cases hc : h.cells s1 with
      | none => rfl
      | some x =>
        obtain ⟨y, hy⟩ := grows_live hg2 hc
        rw [hy] at hn
        cases hn
    · intro h2 ⟨⟨hi2, hn⟩, _⟩
      exact ⟨hi2, s, List.mem_cons_self _ _, hn⟩

theorem uncheckpoint_with_grows {g : Nat → M Tensor} (hg : ∀ c h, Grows h (g c h).2)
    (l : List Nat) (h : Heap) : Grows h (uncheckpoint_with g l h).2 :=
  wp_snd (keeps_uncheckpoint_with
    (fun c => keeps_of_step (R := Grows) (fun _ _ _ => Grows.trans) _ (hg c) h) l h
    (Grows.refl h))

theorem uncheckpoint_with_spec {den : Nat → Tensor} {g : Nat → M Tensor} {b : Nat}
    (hg : GetOK den g b) : ∀ (l : List Nat) (h : Heap), Inv den h →
    wp (uncheckpoint_with g l) (fun ts h1 => ts = l.map den ∧ Inv den h1)
      (fun h1 => Inv den h1 ∧ ∃ c ∈ l, c < b → h.cells c = none) h
  | [], h, hi => ⟨rfl, hi⟩
  | c :: rest, h, hi => by
    unfold uncheckpoint_with
    rw [wp_bind]
    have h1 := wp_and (hg.spec c h hi) (wp_of_snd (hg.grows c h))
    refine wp_mono h1 ?_ ?_
    · intro v h2 ⟨⟨hv, hi2⟩, hg2⟩
      rw [wp_bind]
      refine wp_mono (uncheckpoint_with_spec hg rest h2 hi2) ?_ ?_
      · intro ts h3 ⟨hts, hi3⟩
        exact ⟨by simp [hv, hts], hi3⟩
      · intro h3 ⟨hi3, c1, hc1, hn⟩
        refine ⟨hi3, c1, List.mem_cons_of_mem _ hc1, fun hlt => ?_⟩
        cases hc : h.cells c1 with
        | none => rfl
        | some x =>
          obtain ⟨y, hy⟩ := grows_live hg2 hc
          rw [hy] at hn
          cases hn hlt
    · intro h2 ⟨⟨hi2, hn⟩, _⟩
      exact ⟨hi2, c, List.mem_cons_self _ _, hn⟩

theorem fill_outputs_spec {den : Nat → Tensor} : ∀ (os : List Nat) (ts : Tensors) (h : Heap),
    Inv den h → List.Forall₂ (fun o t => den o = t.detach) os ts →
    wp (fill_outputs os ts) (fun _ h1 => Inv den h1) (fun _ => False) h
  | [], _, h, hi, _ => by
    unfold fill_outputs
    exact hi
  | o :: os, [], h, hi, hf => by cases hf
  | o :: os, t :: ts, h, hi, hf => by
    unfold fill_outputs
    rw [wp_bind, wp_fill_output]
    cases hf with
    | cons hot hrest =>
      split
      · rename_i x hx
        exact fill_outputs_spec os ts _ (pinv_fill hi o x t hx hot) hrest
      · exact fill_outputs_spec os ts _ hi hrest

theorem get_tail_spec {den : Nat → Tensor} (c : Nat) (h : Heap) (hi : Inv den h) :
    wp (get_tail c) (fun v h1 => v = den c ∧ Inv den h1)
      (fun h1 => Inv den h1 ∧ ∀ x, h.cells c = some x → x.t_ = none) h := by
  unfold get_tail
  simp only [wp_bind, wp_cell_at]
  split
  · rename_i x hx
    cases hv : x.t_ with
    | none =>
      refine ⟨hi, fun y hy => ?_⟩
      rw [hx] at hy
      cases hy
      exact hv
    | some v =>
      simp only [wp_bind, wp_pool_at, wp_clock_now, wp_set_pool, wp_pure]
      split
      · rename_i p hp
        exact ⟨hi.cell_val c x v hx hv, pinv_upd_pool hi _ p (p.update_last_used h.now) hp (Or.inl rfl)⟩
      · rename_i hp
        obtain ⟨p, hp1⟩ := hi.cell_pool c x hx
        rw [hp1] at hp
        cases hp
  · rename_i hx
    refine ⟨hi, fun y hy => ?_⟩
    rw [hx] at hy
    cases hy

end ATen

namespace c10
namespace cuda

/-! ## Transfer queues -/

/-- C11: the worker's step on a dequeued reference.  When the reference's use count is
above 1 and the entity is not dirty, the step calls the synchronous transfer and then the
completion callback, and the entity ends Offline (evict worker) or Online (fetch worker)
with transfer state None; otherwise it makes no call and the entity is unchanged. -/
theorem C11_worker_step (use_count : Nat) (e : EntityStorageImpl) :
    (use_count > 1 ∧ e.dirty_ = false →
      CudaEntityEvictQueue.process use_count e
        = ({ e with trans_stat_ := TransStat.kNone, entity_stat_ := EntityStorageStat.kOffline },
           [WorkerCall.pageout_internal_sync, WorkerCall.do_pageout_cb]) ∧
      CudaEntityFetchQueue.process use_count e
        = ({ e with trans_stat_ := TransStat.kNone, entity_stat_ := EntityStorageStat.kOnline },
           [WorkerCall.pagein_internal_sync, WorkerCall.do_pagein_cb])) ∧
    (¬ (use_count > 1 ∧ e.dirty_ = false) →
      CudaEntityEvictQueue.process use_count e = (e, []) ∧
      CudaEntityFetchQueue.process use_count e = (e, [])) := by
  constructor
  · intro ⟨hu, hd⟩
    simp [CudaEntityEvictQueue.process, CudaEntityFetchQueue.process, hu, hd,
      EntityStorageImpl.pageout_internal_sync, EntityStorageImpl.pagein_internal_sync,
      EntityStorageImpl.do_pageout_cb, EntityStorageImpl.do_pagein_cb]
  · intro hn
    have hc : (decide (use_count > 1) && !e.dirty_) = false := by
      cases hd : e.dirty_
      · simp only [Bool.not_false, Bool.and_true, decide_eq_false_iff_not]
        intro hu
        exact hn ⟨hu, hd⟩
      · simp
    simp [CudaEntityEvictQueue.process, CudaEntityFetchQueue.process, hc]

/-- C11 at concrete inputs: a clean entity referenced twice is paged out, a dirty one and
one whose only reference is the queue's are left alone. -/
theorem C11_worker_step_witness :
    (CudaEntityEvictQueue.process 2 (EntityStorageImpl.mk_fresh 3)).1.entity_stat_
      = EntityStorageStat.kOffline ∧
    CudaEntityEvictQueue.process 2 dirty_offline_entity = (dirty_offline_entity, []) ∧
    CudaEntityFetchQueue.process 1 (EntityStorageImpl.mk_fresh 3)
      = (EntityStorageImpl.mk_fresh 3, []) := by
  refine ⟨?_, ((C11_worker_step 2 dirty_offline_entity).2 (by decide)).1,
    ((C11_worker_step 1 (EntityStorageImpl.mk_fresh 3)).2 (by decide)).2⟩
  rw [((C11_worker_step 2 (EntityStorageImpl.mk_fresh 3)).1 ⟨by decide, rfl⟩).1]

theorem enqueue_all_enabled (impls : List Nat) : ∀ q : CudaEntityTransferQueue,
    q.enable_flag_ = true →
    enqueue_all q impls
      = { q with actions_ := q.actions_ ++ impls.map (fun i => { impl_ := i }) } := by
  induction impls with
  | nil => intro q _; simp [enqueue_all]
  | cons i rest ih =>
    intro q hq
    have h1 : enqueue_all q (i :: rest) = enqueue_all (q.enqueue i) rest := rfl
    have h2 : q.enqueue i = { q with actions_ := q.actions_ ++ [{ impl_ := i }] } := by
      simp [CudaEntityTransferQueue.enqueue, hq]
    rw [h1, h2, ih]
    · simp
    · exact hq

theorem enqueue_front_all_enabled (impls : List Nat) : ∀ q : CudaEntityTransferQueue,
    q.enable_flag_ = true →
    enqueue_front_all q impls
      = { q with actions_ := (impls.map (fun i => { impl_ := i })).reverse ++ q.actions_ } := by
  induction impls with
  | nil => intro q _; simp [enqueue_front_all]
  | cons i rest ih =>
    intro q hq
    have h1 : enqueue_front_all q (i :: rest)
        = enqueue_front_all (CudaEntityFetchQueue.enqueue_front q i) rest := rfl
    have h2 : CudaEntityFetchQueue.enqueue_front q i
        = { q with actions_ := { impl_ := i } :: q.actions_ } := by
      simp [CudaEntityFetchQueue.enqueue_front, hq]
    rw [h1, h2, ih]
    · simp
    · exact hq

theorem dequeue_n_prefix (l : List EntityStorageRef) : ∀ (q : CudaEntityTransferQueue)
    (rest : List EntityStorageRef), q.actions_ = l ++ rest →
    dequeue_n l.length q = (l.map some, { q with actions_ := rest }) := by
  induction l with
  | nil =>
    intro q rest hq
    simp only [List.nil_append] at hq
    simp [dequeue_n, ← hq]
  | cons r l ih =>
    intro q rest hq
    have hd : q.dequeue = (some r, { q with actions_ := l ++ rest }) := by
      simp [CudaEntityTransferQueue.dequeue, hq]
    simp only [List.length_cons, dequeue_n, hd, List.map_cons]
    rw [ih { q with actions_ := l ++ rest } rest rfl]

/-- C12: on an enabled queue that is empty, after `enqueue` of `e1..en` the next `n` calls
of `dequeue` return references to `e1..en` in that order and leave the queue empty; after
`enqueue_front` of `e1..en` they return `en..e1`; and `dequeue` on an empty queue returns
null and leaves the queue as it is. -/
theorem C12_queue_order (q : CudaEntityTransferQueue) (impls : List Nat)
    (he : q.enable_flag_ = true) (hq : q.actions_ = []) :
    dequeue_n impls.length (enqueue_all q impls)
      = (impls.map (fun i => some { impl_ := i }), q) ∧
    dequeue_n impls.length (enqueue_front_all q impls)
      = (impls.reverse.map (fun i => some { impl_ := i }), q) ∧
    q.dequeue = (none, q) := by
  have hqq : ({ q with actions_ := [] } : CudaEntityTransferQueue) = q := by
    cases q
    simp only [CudaEntityTransferQueue.mk.injEq, and_self, and_true]
    exact hq.symm
  refine ⟨?_, ?_, ?_⟩
  · rw [enqueue_all_enabled impls q he, hq]
    have := dequeue_n_prefix (impls.map (fun i => ({ impl_ := i } : EntityStorageRef)))
      { q with actions_ := [] ++ impls.map (fun i => { impl_ := i }) } [] (by simp)
    simp only [List.length_map] at this
    rw [this]
    simp [hqq, Function.comp_def]
  · rw [enqueue_front_all_enabled impls q he, hq]
    have := dequeue_n_prefix (impls.map (fun i => ({ impl_ := i } : EntityStorageRef))).reverse
      { q with actions_ := (impls.map (fun i => { impl_ := i })).reverse ++ [] } [] (by simp)
    simp only [List.length_reverse, List.length_map] at this
    rw [this]
    simp [hqq, Function.comp_def, List.map_reverse]
  · simp [CudaEntityTransferQueue.dequeue, hq]

/-- C12 at a concrete input: three entities on a started evict queue. -/
theorem C12_queue_order_witness :
    dequeue_n 3 (enqueue_all (CudaEntityEvictQueue.start_actions CudaEntityTransferQueue.make).1
        [4, 5, 6])
      = ([some { impl_ := 4 }, some { impl_ := 5 }, some { impl_ := 6 }],
         (CudaEntityEvictQueue.start_actions CudaEntityTransferQueue.make).1) ∧
    dequeue_n 3 (enqueue_front_all
        (CudaEntityFetchQueue.enable_queue CudaEntityTransferQueue.make) [4, 5, 6])
      = ([some { impl_ := 6 }, some { impl_ := 5 }, some { impl_ := 4 }],
         CudaEntityFetchQueue.enable_queue CudaEntityTransferQueue.make) :=
  ⟨(C12_queue_order (CudaEntityEvictQueue.start_actions CudaEntityTransferQueue.make).1
      [4, 5, 6] rfl rfl).1,
   (C12_queue_order (CudaEntityFetchQueue.enable_queue CudaEntityTransferQueue.make)
      [4, 5, 6] rfl rfl).2.1⟩

end cuda
end c10

namespace c10
namespace cuda

/-- C13, as stated, fails for the fetch queue: `start_actions` on a fresh fetch queue sets
the active flag only, the enabled flag stays false, and an immediately following `enqueue`
or `enqueue_front` adds nothing. -/
theorem C13_fetch_start_not_enabled :
    (CudaEntityFetchQueue.start_actions CudaEntityTransferQueue.make).1.active_flag_ = true ∧
    (CudaEntityFetchQueue.start_actions CudaEntityTransferQueue.make).1.enable_flag_ = false ∧
    (CudaEntityFetchQueue.enqueue_front
      (CudaEntityFetchQueue.start_actions CudaEntityTransferQueue.make).1 4).actions_ = [] ∧
    ((CudaEntityFetchQueue.start_actions CudaEntityTransferQueue.make).1.enqueue 4).actions_
      = [] := by
  decide

/-- C13, amended: on a fresh queue, `start_actions` of the evict queue sets the active and
the enabled flag and spawns the worker, and a following `enqueue` of `impl` leaves exactly
the one entry `impl`; `start_actions` of the fetch queue sets the active flag and spawns the
worker but leaves the enabled flag false, so a following `enqueue` or `enqueue_front`
leaves the queue as it is, and only after `enable_queue` do they leave exactly one entry. -/
theorem C13_start_actions (impl : Nat) :
    CudaEntityEvictQueue.start_actions CudaEntityTransferQueue.make
      = ({ actions_ := [], enable_flag_ := true, active_flag_ := true, unique_flag_ := false },
         true) ∧
    ((CudaEntityEvictQueue.start_actions CudaEntityTransferQueue.make).1.enqueue impl).actions_
      = [{ impl_ := impl }] ∧
    CudaEntityFetchQueue.start_actions CudaEntityTransferQueue.make
      = ({ actions_ := [], enable_flag_ := false, active_flag_ := true, unique_flag_ := false },
         true) ∧
    (CudaEntityFetchQueue.start_actions CudaEntityTransferQueue.make).1.enqueue impl
      = (CudaEntityFetchQueue.start_actions CudaEntityTransferQueue.make).1 ∧
    CudaEntityFetchQueue.enqueue_front
        (CudaEntityFetchQueue.start_actions CudaEntityTransferQueue.make).1 impl
      = (CudaEntityFetchQueue.start_actions CudaEntityTransferQueue.make).1 ∧
    ((CudaEntityFetchQueue.enable_queue
        (CudaEntityFetchQueue.start_actions CudaEntityTransferQueue.make).1).enqueue impl).actions_
      = [{ impl_ := impl }] ∧
    (CudaEntityFetchQueue.enqueue_front (CudaEntityFetchQueue.enable_queue
        (CudaEntityFetchQueue.start_actions CudaEntityTransferQueue.make).1) impl).actions_
      = [{ impl_ := impl }] := by
  refine ⟨rfl, rfl, rfl, rfl, rfl, rfl, rfl⟩

/-- C14: after `wait_and_stop_actions` (on either queue, whatever the worker left in the
queue while the caller waited) the enabled and the active flag are false, and every later
`enqueue` or `enqueue_front`, hence every sequence of them, leaves the queue as it is. -/
theorem C14_wait_and_stop (q : CudaEntityTransferQueue) (left : List EntityStorageRef) :
    (q.wait_and_stop_actions left).enable_flag_ = false ∧
    (q.wait_and_stop_actions left).active_flag_ = false ∧
    (∀ impl, (q.wait_and_stop_actions left).enqueue impl = q.wait_and_stop_actions left) ∧
    (∀ impl, CudaEntityFetchQueue.enqueue_front (q.wait_and_stop_actions left) impl
      = q.wait_and_stop_actions left) ∧
    (∀ impls, enqueue_all (q.wait_and_stop_actions left) impls = q.wait_and_stop_actions left) ∧
    (∀ impls, enqueue_front_all (q.wait_and_stop_actions left) impls
      = q.wait_and_stop_actions left) := by
  have he : (q.wait_and_stop_actions left).enable_flag_ = false := by
    unfold CudaEntityTransferQueue.wait_and_stop_actions
    simp only
    split
    · rfl
    · split <;> rfl
  have ha : (q.wait_and_stop_actions left).active_flag_ = false := by
    unfold CudaEntityTransferQueue.wait_and_stop_actions
    simp only
    split
    · rename_i h
      simpa using h
    · rfl
  have h1 : ∀ (q1 : CudaEntityTransferQueue), q1.enable_flag_ = false →
      ∀ impl, q1.enqueue impl = q1 := by
    intro q1 h impl
    simp [CudaEntityTransferQueue.enqueue, h]
  have h2 : ∀ (q1 : CudaEntityTransferQueue), q1.enable_flag_ = false →
      ∀ impl, CudaEntityFetchQueue.enqueue_front q1 impl = q1 := by
    intro q1 h impl
    simp [CudaEntityFetchQueue.enqueue_front, h]
  refine ⟨he, ha, h1 _ he, h2 _ he, ?_, ?_⟩
  · intro impls
    induction impls with
    | nil => rfl
    | cons i rest ih =>
      show enqueue_all ((q.wait_and_stop_actions left).enqueue i) rest = _
      rw [h1 _ he, ih]
  · intro impls
    induction impls with
    | nil => rfl
    | cons i rest ih =>
      show enqueue_front_all
        (CudaEntityFetchQueue.enqueue_front (q.wait_and_stop_actions left) i) rest = _
      rw [h2 _ he, ih]

theorem erase_scan_none (ents : Nat → EntityStorageImpl) (id : Nat) :
    ∀ l : List EntityStorageRef,
    erase_scan ents id l = none ↔ ∀ r ∈ l, (ents r.impl_).entity_id_ ≠ id := by
  intro l
  induction l with
  | nil => simp [erase_scan]
  | cons i rest ih =>
    unfold erase_scan
    by_cases hi : (ents i.impl_).entity_id_ = id
    · simp [hi]
    · simp [hi, ih]

theorem erase_scan_some (ents : Nat → EntityStorageImpl) (id : Nat) :
    ∀ (l l1 : List EntityStorageRef), erase_scan ents id l = some l1 →
    ∃ front r back, l = front ++ r :: back ∧ l1 = front ++ back ∧
      (ents r.impl_).entity_id_ = id ∧ ∀ x ∈ front, (ents x.impl_).entity_id_ ≠ id := by
  intro l
  induction l with
  | nil => intro l1 h; simp [erase_scan] at h
  | cons i rest ih =>
    intro l1 h
    unfold erase_scan at h
    by_cases hi : (ents i.impl_).entity_id_ = id
    · simp only [hi, beq_self_eq_true, ↓reduceIte, Option.some.injEq] at h
      exact ⟨[], i, rest, by simp, by simp [h], hi, by simp⟩
    · have hb : ((ents i.impl_).entity_id_ == id) = false := by simpa using hi
      simp only [hb, Bool.false_eq_true, ↓reduceIte, Option.map_eq_some'] at h
      obtain ⟨l2, hl2, rfl⟩ := h
      obtain ⟨front, r, back, h1, h2, h3, h4⟩ := ih l2 hl2
      refine ⟨i :: front, r, back, by simp [h1], by simp [h2], h3, ?_⟩
      intro x hx
      rcases List.mem_cons.mp hx with rfl | hx
      · exact hi
      · exact h4 x hx

/-- C15: `erase(impl)` returns 0 exactly when some queued reference points to an entity
with the entity id of `impl`; then exactly the first such entry is removed and the other
entries keep their order (the flags are untouched); otherwise it returns 1 and the
queue is unchanged. -/
theorem C15_erase (ents : Nat → EntityStorageImpl) (q : CudaEntityTransferQueue) (impl : Nat) :
    ((q.erase ents impl).1 = 0 ↔
      ∃ r ∈ q.actions_, (ents r.impl_).entity_id_ = (ents impl).entity_id_) ∧
    ((q.erase ents impl).1 = 0 →
      ∃ front r back, q.actions_ = front ++ r :: back ∧
        (ents r.impl_).entity_id_ = (ents impl).entity_id_ ∧
        (∀ x ∈ front, (ents x.impl_).entity_id_ ≠ (ents impl).entity_id_) ∧
        (q.erase ents impl).2 = { q with actions_ := front ++ back }) ∧
    ((q.erase ents impl).1 ≠ 0 → q.erase ents impl = (1, q)) := by
  unfold CudaEntityTransferQueue.erase
  cases hs : erase_scan ents (ents impl).entity_id_ q.actions_ with
  | none =>
    have hall := (erase_scan_none ents _ _).mp hs
    refine ⟨?_, ?_, ?_⟩
    · simp only [one_ne_zero, false_iff, not_exists, not_and]
      intro r hr
      exact hall r hr
    · intro h
      simp at h
    · intro _
      rfl
  | some l1 =>
    obtain ⟨front, r, back, h1, h2, h3, h4⟩ := erase_scan_some ents _ _ l1 hs
    refine ⟨?_, ?_, ?_⟩
    · simp only [true_iff]
      exact ⟨r, by simp [h1], h3⟩
    · intro _
      exact ⟨front, r, back, h1, h3, h4, by simp [h2]⟩
    · intro h
      simp at h

end cuda
end c10

namespace ATen

/-- C18: `fill(t')` on a cell that already holds a value changes nothing in the cell (value,
defined flag and cached metadata alike), so `fill(t); fill(t')` leaves the cell as
`fill(t)` does. -/
theorem C18_fill_idempotent (x : EntityTensorCell) (t t' : Tensor) :
    (x.t_.isSome = true → x.fill t' = x) ∧ (x.fill t).fill t' = x.fill t :=
  ⟨fill_of_some x t', fill_of_some (x.fill t) t' (fill_holds x t)⟩

/-- C18 at a concrete input: the cell of `b`, which holds `2 * ones(4)`, is not changed by
`fill(ones(4))`. -/
theorem C18_fill_idempotent_witness : cell_b.fill ones4 = cell_b :=
  (C18_fill_idempotent cell_b ones4 ones4).1 rfl

theorem wp_to_ok {α : Type} {m : M α} {Q : α → Heap → Prop} {h : Heap}
    (hw : wp m Q (fun _ => False) h) : ∃ a h1, m h = (Except.ok a, h1) ∧ Q a h1 := by
  unfold wp at hw
  rcases hm : m h with ⟨r, h1⟩
  rw [hm] at hw
  cases r with
  | error e => exact hw.elim
  | ok a => exact ⟨a, h1, rfl, hw⟩

/-- `get` with fuel on a cell that holds `v`, in a pool that exists. -/
theorem get_of_held {h : Heap} {c : Nat} {x : EntityTensorCell} {v : Tensor} {p : AliasPool}
    (fuel : Nat) (hx : h.cells c = some x) (hv : x.t_ = some v) (hp : h.pools x.pool_ = some p) :
    EntityTensorCell.get (fuel + 1) c h
      = (Except.ok v, { h with pools := upd h.pools x.pool_ (p.update_last_used h.now) }) := by
  unfold EntityTensorCell.get
  rw [bind_ok (cell_at_ok hx)]
  simp only [hv]
  exact get_tail_ok hx hv hp

theorem make_value (t : Tensor) (pool : Nat) (remat : Option Nat) :
    (EntityTensorCell.make t pool remat).t_ = some t.detach := by
  unfold EntityTensorCell.make
  exact fill_value _ t rfl

theorem make_pool (t : Tensor) (pool : Nat) (remat : Option Nat) :
    (EntityTensorCell.make t pool remat).pool_ = pool := by
  unfold EntityTensorCell.make
  rw [fill_pool]

theorem make_remat (t : Tensor) (pool : Nat) (remat : Option Nat) :
    (EntityTensorCell.make t pool remat).remat_ = remat := by
  unfold EntityTensorCell.make
  rw [fill_remat]

theorem make_defined (t : Tensor) (pool : Nat) (remat : Option Nat) :
    (EntityTensorCell.make t pool remat).defined_ = true := by
  simp [EntityTensorCell.make, EntityTensorCell.fill]

theorem make_key_set (t : Tensor) (pool : Nat) (remat : Option Nat) :
    (EntityTensorCell.make t pool remat).key_set_.checkpoint = t.key_set.checkpoint := by
  simp only [EntityTensorCell.make, EntityTensorCell.fill, Option.isSome_none,
    Bool.false_eq_true, ↓reduceIte, Bool.not_false]
  split <;> rfl

/-- What `checkpoint(t)` builds for a tensor whose key set has no Checkpoint key: a pool, a
cell holding the detached `t`, an `External`, a `Ref` and an impl, each at the next free
address, and the handle of the impl. -/
theorem checkpoint_spec (t : Tensor) (h : Heap) (hk : t.key_set.checkpoint = false) :
    ∃ t1 h1, native.checkpoint t h = (Except.ok t1, h1) ∧
      t1.impl_ = some h.next_impl ∧
      (∃ i, h1.impls h.next_impl = some { id_ := i, ref := h.next_ref }) ∧
      h1.refs h.next_ref = some { value := some h.next_external } ∧
      h1.externals h.next_external = some { value := some h.next_cell } ∧
      h1.cells h.next_cell = some (EntityTensorCell.make t h.next_pool none) ∧
      h1.pools h.next_pool = some (AliasPool.make none (SIZE_T_RANGE - 1) h.now) ∧
      h1.now = h.now := by
  apply wp_to_ok
  unfold native.checkpoint EntityTensorImpl.from_tensor External.from_tensor
    External.from_strong EntityTensorImpl.from_external EntityTensorImpl.from_ref
  simp only [wp_bind, wp_clock_now, wp_new_pool, wp_new_cell, wp_new_external, wp_new_ref,
    wp_ref_at, wp_deref, wp_external_at, wp_cell_at, wp_liftE, upd_same, wp_pure]
  simp only [EntityTensorCell.key_set, EntityTensorCell.dtype, EntityTensorCell.optional_device,
    make_defined, ↓reduceIte, convert_key_set, make_key_set, hk, Bool.not_false]
  simp only [wp, upd_same, Tensor.of_impl]
  exact ⟨trivial, ⟨_, rfl⟩, trivial, trivial, trivial, trivial, trivial⟩


theorem strong_of_ok {h : Heap} {t : Tensor} {i r e c : Nat} {eti : EntityTensorImpl}
    (ht : t.impl_ = some i) (hi : h.impls i = some eti)
    (hr : h.refs eti.ref = some { value := some e })
    (he : h.externals e = some { value := some c }) (_hr : r = eti.ref) :
    strong_of t h = (Except.ok c, h) := by
  unfold strong_of get_entity_tensor_impl
  simp only [ht]
  have h1 : impl_at i h = (Except.ok eti, h) := by simp [impl_at, hi]
  rw [bind_ok h1]
  have h2 : ref_at eti.ref h = (Except.ok { value := some e }, h) := by simp [ref_at, hr]
  rw [bind_ok h2]
  have h3 : deref (some e) h = (Except.ok e, h) := rfl
  rw [bind_ok h3]
  have h4 : external_at e h = (Except.ok { value := some c }, h) := by simp [external_at, he]
  rw [bind_ok h4]
  rfl

/-- C19: `try_checkpoint` returns a checkpointed tensor unchanged (and leaves the heap
alone), and wraps a plain tensor (one whose impl is not an `EntityTensorImpl` and whose
key set has no Checkpoint key) in a checkpointed one; in both cases a second
`try_checkpoint` on the result returns the very same tensor and changes nothing more, and
the result is checkpointed. -/
theorem C19_try_checkpoint_idempotent (t : Tensor) (h : Heap)
    (ht : native.is_checkpoint t = true ∨ t.key_set.checkpoint = false) :
    ∃ t1 h1, native.try_checkpoint t h = (Except.ok t1, h1) ∧
      native.is_checkpoint t1 = true ∧
      (native.try_checkpoint t >>= native.try_checkpoint) h = (Except.ok t1, h1) ∧
      (native.is_checkpoint t = true → t1 = t ∧ h1 = h) := by
  have hid : ∀ (t2 : Tensor) (h2 : Heap), native.is_checkpoint t2 = true →
      native.try_checkpoint t2 h2 = (Except.ok t2, h2) := by
    intro t2 h2 h
    simp only [native.try_checkpoint, h, ↓reduceIte]
    rfl
  cases hc : native.is_checkpoint t with
  | true =>
    refine ⟨t, h, hid t h hc, hc, ?_, fun _ => ⟨rfl, rfl⟩⟩
    rw [bind_ok (hid t h hc)]
    exact hid t h hc
  | false =>
    have hk : t.key_set.checkpoint = false := by
      rcases ht with ht | ht
      · rw [hc] at ht
        cases ht
      · exact ht
    obtain ⟨t1, h1, hrun, himpl, _⟩ := checkpoint_spec t h hk
    have htry : native.try_checkpoint t h = (Except.ok t1, h1) := by
      simp only [native.try_checkpoint, hc, Bool.false_eq_true, ↓reduceIte]
      exact hrun
    have hc1 : native.is_checkpoint t1 = true := by
      simp [native.is_checkpoint, himpl]
    refine ⟨t1, h1, htry, hc1, ?_, fun hf => by cases hf⟩
    rw [bind_ok htry]
    exact hid t1 h1 hc1

/-- C19 at concrete inputs: the plain `ones(4)` and the checkpointed `a`. -/
theorem C19_try_checkpoint_idempotent_witness :
    (∃ t1 h1, native.try_checkpoint ones4 Heap.empty = (Except.ok t1, h1) ∧
      native.is_checkpoint t1 = true ∧
      (native.try_checkpoint ones4 >>= native.try_checkpoint) Heap.empty = (Except.ok t1, h1) ∧
      (native.is_checkpoint ones4 = true → t1 = ones4 ∧ h1 = Heap.empty)) ∧
    (∃ t1 h1, native.try_checkpoint tensor_a heap_a = (Except.ok t1, h1) ∧
      native.is_checkpoint t1 = true ∧
      (native.try_checkpoint tensor_a >>= native.try_checkpoint) heap_a = (Except.ok t1, h1) ∧
      (native.is_checkpoint tensor_a = true → t1 = tensor_a ∧ h1 = heap_a)) :=
  ⟨C19_try_checkpoint_idempotent ones4 Heap.empty (Or.inr rfl),
   C19_try_checkpoint_idempotent tensor_a heap_a (Or.inl rfl)⟩

/-- C20: for a plain tensor `t` (not checkpointed, no Checkpoint key in its key set),
`checkpoint(t)` returns a checkpointed tensor on which `uncheckpoint` and `decheckpoint`
both return the detached `t`, and `decheckpoint(t)` returns `t` itself, changing nothing. -/
theorem C20_checkpoint_roundtrip (t : Tensor) (h : Heap) (fuel : Nat)
    (hp : native.is_checkpoint t = false) (hk : t.key_set.checkpoint = false) :
    (∃ t1 h1, native.checkpoint t h = (Except.ok t1, h1) ∧
      native.is_checkpoint t1 = true ∧
      (native.uncheckpoint (fuel + 1) t1 h1).1 = Except.ok t.detach ∧
      (native.decheckpoint (fuel + 1) t1 h1).1 = Except.ok t.detach) ∧
    native.decheckpoint (fuel + 1) t h = (Except.ok t, h) := by
  constructor
  · obtain ⟨t1, h1, hrun, himpl, ⟨i, hi⟩, href, hext, hcell, hpool, _⟩ := checkpoint_spec t h hk
    have hc1 : native.is_checkpoint t1 = true := by
      simp [native.is_checkpoint, himpl]
    have hs : strong_of t1 h1 = (Except.ok h.next_cell, h1) :=
      strong_of_ok himpl hi href hext rfl
    have hg := get_of_held fuel hcell (make_value t _ _) (by rw [make_pool]; exact hpool)
    have hu : (ref_tensor (fuel + 1) t1 h1).1 = Except.ok t.detach := by
      unfold ref_tensor
      rw [bind_ok hs, hg]
    refine ⟨t1, h1, hrun, hc1, hu, ?_⟩
    simp only [native.decheckpoint, hc1, ↓reduceIte]
    exact hu
  · simp only [native.decheckpoint, hp, Bool.false_eq_true, ↓reduceIte]
    rfl

/-- C20 at a concrete input: `ones(4)` on the empty heap. -/
theorem C20_checkpoint_roundtrip_witness :
    native.is_checkpoint ones4 = false ∧ ones4.key_set.checkpoint = false ∧
    native.decheckpoint 1 ones4 Heap.empty = (Except.ok ones4, Heap.empty) ∧
    (native.uncheckpoint 1 tensor_a heap_a).1 = Except.ok ones4.detach :=
  ⟨rfl, rfl, (C20_checkpoint_roundtrip ones4 Heap.empty 0 rfl rfl).2, by decide!⟩

end ATen

namespace ATen

/-! ## The replay step by step -/

theorem fill_output_run (o : Nat) (t : Tensor) (h : Heap) :
    ∃ h1, fill_output o t h = (Except.ok (), h1) ∧
      ∀ c, h1.cells c = if c = o then (h.cells o).map (fun x => x.fill t) else h.cells c := by
  unfold fill_output
  cases ho : h.cells o with
  | none =>
    refine ⟨h, rfl, fun c => ?_⟩
    by_cases hc : c = o
    · simp [hc, ho]
    · simp [hc]
  | some x =>
    refine ⟨_, rfl, fun c => ?_⟩
    by_cases hc : c = o
    · simp [hc, upd]
    · simp [hc, upd]

/-- The loop over `outputs` does not throw, and it leaves the cell table `filled_cells`. -/
theorem fill_outputs_run : ∀ (os : List Nat) (ts : Tensors) (h : Heap),
    ∃ h1, fill_outputs os ts h = (Except.ok (), h1) ∧ ∀ c, h1.cells c = filled_cells h os ts c
  | [], ts, h => by
    refine ⟨h, by unfold fill_outputs; rfl, fun c => ?_⟩
    unfold filled_cells first_fill
    cases h.cells c <;> rfl
  | o :: os, [], h => by
    refine ⟨h, by unfold fill_outputs; rfl, fun c => ?_⟩
    unfold filled_cells first_fill
    cases h.cells c <;> rfl
  | o :: os, t :: ts, h => by
    obtain ⟨h1, hrun1, hc1⟩ := fill_output_run o t h
    obtain ⟨h2, hrun2, hc2⟩ := fill_outputs_run os ts h1
    refine ⟨h2, ?_, fun c => ?_⟩
    · unfold fill_outputs
      rw [bind_ok hrun1]
      exact hrun2
    · rw [hc2 c]
      unfold filled_cells
      rw [hc1 c]
      by_cases hco : c = o
      · subst hco
        simp only [↓reduceIte, first_fill]
        cases hx : h.cells c with
        | none => rfl
        | some x =>
          simp only [Option.map_some']
          cases first_fill os ts c with
          | none => rfl
          | some t1 =>
            show some ((x.fill t).fill t1) = some (x.fill t)
            rw [fill_of_some (x.fill t) t1 (fill_holds x t)]
      · have hoc : ¬ o = c := fun h => hco h.symm
        simp only [hco, ↓reduceIte, first_fill, hoc]

theorem first_fill_none_of_not_mem : ∀ (os : List Nat) (ts : Tensors) (o : Nat),
    o ∉ os → first_fill os ts o = none
  | [], _, _, _ => by unfold first_fill; rfl
  | _ :: _, [], _, _ => by unfold first_fill; rfl
  | o1 :: os, t :: ts, o, hn => by
    unfold first_fill
    have h1 : ¬ o1 = o := fun h => hn (by simp [h])
    simp only [h1, ↓reduceIte]
    exact first_fill_none_of_not_mem os ts o (fun hm => hn (List.mem_cons_of_mem _ hm))

/-- The tensor first offered to the cell at the earliest index where it occurs. -/
theorem first_fill_at : ∀ (os : List Nat) (ts : Tensors) (i o : Nat) (t : Tensor),
    os[i]? = some o → ts[i]? = some t → (∀ j, j < i → os[j]? ≠ some o) →
    first_fill os ts o = some t
  | [], _, i, o, t, ho, _, _ => by simp at ho
  | _ :: _, [], i, o, t, _, ht, _ => by simp at ht
  | o1 :: os, t1 :: ts, 0, o, t, ho, ht, _ => by
    simp only [List.getElem?_cons_zero, Option.some.injEq] at ho ht
    simp [first_fill, ho, ht]
  | o1 :: os, t1 :: ts, i + 1, o, t, ho, ht, hfirst => by
    simp only [List.getElem?_cons_succ] at ho ht
    have h0 := hfirst 0 (Nat.succ_pos i)
    simp only [List.getElem?_cons_zero, ne_eq, Option.some.injEq] at h0
    simp only [first_fill, h0, ↓reduceIte]
    refine first_fill_at os ts i o t ho ht (fun j hj => ?_)
    have := hfirst (j + 1) (Nat.succ_lt_succ hj)
    simpa using this

theorem lockable_of_grows {h h1 : Heap} (g : Grows h h1) {l : List Nat} (hl : Lockable h l) :
    Lockable h1 l := by
  intro s hs
  obtain ⟨x, p, hx, hp⟩ := hl s hs
  obtain ⟨lk, u, hp1⟩ := g.pools_some _ p hp
  rcases g.cells_some s x hx with h1c | ⟨_, t, h1c⟩
  · exact ⟨x, _, h1c, hp1⟩
  · exact ⟨x.fill t, _, h1c, by rw [fill_pool]; exact hp1⟩

theorem lockable_back {h h1 : Heap} (g : Grows h h1) {l : List Nat} (hl : Lockable h1 l) :
    Lockable h l := by
  intro s hs
  obtain ⟨y, q, hy, hq⟩ := hl s hs
  cases hx : h.cells s with
  | none =>
    rw [g.cells_none s hx] at hy
    cases hy
  | some x =>
    have hpool : y.pool_ = x.pool_ := by
      rcases g.cells_some s x hx with h1c | ⟨_, t, h1c⟩
      · rw [h1c] at hy
        cases hy
        rfl
      · rw [h1c] at hy
        cases hy
        exact fill_pool x t
    cases hp : h.pools x.pool_ with
    | none =>
      rw [hpool, g.pools_none _ hp] at hq
      cases hq
    | some p => exact ⟨x, p, rfl, hp⟩

theorem lock_pool_of_run (s : Nat) (h : Heap) :
    (∀ h1, lock_pool_of s h = (Except.ok (), h1) → Lockable h [s]) ∧
    (Lockable h [s] → ∃ h1, lock_pool_of s h = (Except.ok (), h1)) := by
  unfold lock_pool_of
  constructor
  · intro h1 hrun
    cases hx : h.cells s with
    | none =>
      have : cell_at s h = (Except.error Err.null_deref, h) := by simp [cell_at, hx]
      rw [bind_error this] at hrun
      cases hrun
    | some x =>
      rw [bind_ok (cell_at_ok hx)] at hrun
      cases hp : h.pools x.pool_ with
      | none =>
        have : pool_at x.pool_ h = (Except.error Err.null_deref, h) := by simp [pool_at, hp]
        rw [bind_error this] at hrun
        cases hrun
      | some p =>
        intro s1 hs1
        simp only [List.mem_singleton] at hs1
        subst hs1
        exact ⟨x, p, hx, hp⟩
  · intro hl
    obtain ⟨x, p, hx, hp⟩ := hl s (List.mem_singleton.mpr rfl)
    rw [bind_ok (cell_at_ok hx), bind_ok (pool_at_ok hp)]
    exact ⟨_, rfl⟩

theorem unlock_pool_of_run (s : Nat) (h : Heap) (hl : Lockable h [s]) :
    ∃ h1, unlock_pool_of s h = (Except.ok (), h1) := by
  unfold unlock_pool_of
  obtain ⟨x, p, hx, hp⟩ := hl s (List.mem_singleton.mpr rfl)
  rw [bind_ok (cell_at_ok hx), bind_ok (pool_at_ok hp)]
  exact ⟨_, rfl⟩

/-- When the loop that locks the inputs returns, every input exists and has a pool. -/
theorem lockable_of_lock_inputs : ∀ (l : List Nat) (h h1 : Heap),
    lock_inputs l h = (Except.ok (), h1) → Lockable h l
  | [], _, _, _ => fun _ hs => by cases hs
  | s :: rest, h, h1, hrun => by
    unfold lock_inputs at hrun
    rcases hstep : lock_pool_of s h with ⟨res, h2⟩
    cases res with
    | error e =>
      rw [bind_error hstep] at hrun
      cases hrun
    | ok u =>
      rw [bind_ok hstep] at hrun
      have hs := (lock_pool_of_run s h).1 h2 hstep
      have hg : Grows h h2 := by
        have := lock_pool_of_grows s h
        rw [hstep] at this
        exact this
      have hrest := lockable_back hg (lockable_of_lock_inputs rest h2 h1 hrun)
      intro s1 hs1
      rcases List.mem_cons.mp hs1 with rfl | hm
      · exact hs s1 (List.mem_singleton.mpr rfl)
      · exact hrest s1 hm

/-- The loop that unlocks the inputs does not throw when every input exists and has a pool. -/
theorem unlock_inputs_run : ∀ (l : List Nat) (h : Heap), Lockable h l →
    ∃ h1, unlock_inputs l h = (Except.ok (), h1)
  | [], h, _ => ⟨h, rfl⟩
  | s :: rest, h, hl => by
    obtain ⟨h2, hstep⟩ := unlock_pool_of_run s h
      (fun s1 hs1 => hl s1 (by rw [List.mem_singleton.mp hs1]; exact List.mem_cons_self _ _))
    have hg : Grows h h2 := by
      have := unlock_pool_of_grows s h
      rw [hstep] at this
      exact this
    have hrest : Lockable h2 rest :=
      lockable_of_grows hg (fun s1 hs1 => hl s1 (List.mem_cons_of_mem _ hs1))
    obtain ⟨h3, hrun⟩ := unlock_inputs_run rest h2 hrest
    refine ⟨h3, ?_⟩
    unfold unlock_inputs
    rw [bind_ok hstep]
    exact hrun

theorem keeps_cells_unlock (cs : Nat → Option EntityTensorCell) (s : Nat) :
    Keeps (fun h => h.cells = cs) (unlock_pool_of s) := by
  intro h hc
  unfold unlock_pool_of
  simp only [wp_bind, wp_cell_at, wp_pool_at, wp_set_pool]
  split
  · split
    · exact hc
    · exact hc
  · exact hc

/-- The loop that unlocks the inputs leaves the cell table alone. -/
theorem unlock_inputs_cells (l : List Nat) (h : Heap) : (unlock_inputs l h).2.cells = h.cells :=
  wp_snd (keeps_unlock_inputs (keeps_cells_unlock h.cells) l h rfl)

end ATen

namespace ATen

theorem run_eq {α : Type} {m : M α} {h : Heap} {a : α} (hm : (m h).1 = Except.ok a) :
    m h = (Except.ok a, (m h).2) := by
  rcases hmh : m h with ⟨res, h1⟩
  rw [hmh] at hm
  simp only at hm
  rw [hm]

/-- The replay after its inputs were locked and materialized and the operator returned:
it throws at the cardinality check, leaving the heap of that moment, or it runs the loop
over the outputs and the unlock loop and returns. -/
theorem remat_run (fuel r : Nat) (h h1 h2 : Heap) (rm : Rematerializer) (ts ret : Tensors)
    (hr : h.remats r = some rm)
    (hl : lock_inputs rm.inputs h = (Except.ok (), h1))
    (hu : uncheckpoint_strongs fuel rm.inputs h1 = (Except.ok ts, h2))
    (hf : rm.func.run ts = Except.ok ret) :
    (ret.length ≠ rm.outputs.length →
      Rematerializer.remat fuel r h
        = (Except.error (Err.check 99), { h2 with now := h2.now + rm.func.ticks ts })) ∧
    (ret.length = rm.outputs.length →
      ∃ h3, Rematerializer.remat fuel r h = (Except.ok (), h3) ∧
        ∀ c, h3.cells c = filled_cells h2 rm.outputs ret c) := by
  have hra : remat_at r h = (Except.ok rm, h) := by simp [remat_at, hr]
  have hcall : rm.func.call ts h2
      = (Except.ok ret, { h2 with now := h2.now + rm.func.ticks ts }) := by
    simp [RematFunc_t.call, hf]
  have hstart : Rematerializer.remat fuel r h
      = (do
          torch_check (ret.length == rm.outputs.length) 99
          fill_outputs rm.outputs ret
          unlock_inputs rm.inputs : M Unit) { h2 with now := h2.now + rm.func.ticks ts } := by
    unfold Rematerializer.remat remat_with
    rw [bind_ok hra, bind_ok hl]
    have hu1 : uncheckpoint_with (EntityTensorCell.get fuel) rm.inputs h1 = (Except.ok ts, h2) := hu
    rw [bind_ok hu1]
    have hnow : clock_now h2 = (Except.ok h2.now, h2) := rfl
    rw [bind_ok hnow, bind_ok hcall]
    rfl
  constructor
  · intro hne
    rw [hstart]
    have hb : (ret.length == rm.outputs.length) = false := by simpa using hne
    have : torch_check (ret.length == rm.outputs.length) 99
        { h2 with now := h2.now + rm.func.ticks ts }
        = (Except.error (Err.check 99), { h2 with now := h2.now + rm.func.ticks ts }) := by
      simp [torch_check, hb, fail]
    rw [bind_error this]
  · intro heq
    rw [hstart]
    have hb : (ret.length == rm.outputs.length) = true := by simpa using heq
    have hchk : torch_check (ret.length == rm.outputs.length) 99
        { h2 with now := h2.now + rm.func.ticks ts }
        = (Except.ok (), { h2 with now := h2.now + rm.func.ticks ts }) := by
      simp [torch_check, hb, M.pure]
    rw [bind_ok hchk]
    obtain ⟨h3, hfill, hcells⟩ :=
      fill_outputs_run rm.outputs ret { h2 with now := h2.now + rm.func.ticks ts }
    rw [bind_ok hfill]
    have hg : Grows h h3 := by
      have g1 : Grows h h1 := by
        have := lock_inputs_grows rm.inputs h
        rw [hl] at this
        exact this
      have g2 : Grows h1 h2 := by
        have := uncheckpoint_with_grows (fun c h => get_grows fuel c h) rm.inputs h1
        have hu1 : uncheckpoint_with (EntityTensorCell.get fuel) rm.inputs h1
            = (Except.ok ts, h2) := hu
        rw [hu1] at this
        exact this
      have g3 : Grows { h2 with now := h2.now + rm.func.ticks ts } h3 := by
        have := fill_outputs_grows rm.outputs ret { h2 with now := h2.now + rm.func.ticks ts }
        rw [hfill] at this
        exact this
      exact Grows.trans (Grows.trans (Grows.trans g1 g2) (grows_now h2 _)) g3
    have hlk : Lockable h3 rm.inputs :=
      lockable_of_grows hg (lockable_of_lock_inputs rm.inputs h h1 hl)
    obtain ⟨h4, hun⟩ := unlock_inputs_run rm.inputs h3 hlk
    refine ⟨h4, hun, fun c => ?_⟩
    have := unlock_inputs_cells rm.inputs h3
    rw [hun] at this
    simp only at this
    rw [this, hcells c]
    rfl

/-- C16: let the inputs of `remat()` be locked and materialized and let `func` return
`ret`.  Then `remat()` throws if and only if the number of tensors in `ret` differs from the
number of entries of `outputs`; and when it throws, the heap is the one left by the
materialization of the inputs, the clock apart: no cell, so no output cell, is changed by
the rest of `remat()`. -/
theorem C16_remat_cardinality (fuel r : Nat) (h h1 h2 : Heap) (rm : Rematerializer)
    (ts ret : Tensors)
    (hr : h.remats r = some rm)
    (hl : lock_inputs rm.inputs h = (Except.ok (), h1))
    (hu : uncheckpoint_strongs fuel rm.inputs h1 = (Except.ok ts, h2))
    (hf : rm.func.run ts = Except.ok ret) :
    ((∃ e h3, Rematerializer.remat fuel r h = (Except.error e, h3))
      ↔ ret.length ≠ rm.outputs.length) ∧
    (ret.length ≠ rm.outputs.length →
      Rematerializer.remat fuel r h
        = (Except.error (Err.check 99), { h2 with now := h2.now + rm.func.ticks ts }) ∧
      (Rematerializer.remat fuel r h).2.cells = h2.cells) := by
  have hrun := remat_run fuel r h h1 h2 rm ts ret hr hl hu hf
  refine ⟨⟨?_, ?_⟩, ?_⟩
  · intro ⟨e, h3, he⟩ heq
    obtain ⟨h4, hok, _⟩ := hrun.2 heq
    rw [hok] at he
    cases he
  · intro hne
    exact ⟨_, _, hrun.1 hne⟩
  · intro hne
    refine ⟨hrun.1 hne, ?_⟩
    rw [hrun.1 hne]

/-- C16 at a concrete input: the replay of the rematerializer of `b` when its operator
returns two tensors for the one output throws at the check, and the evicted cell of `b`
still holds nothing. -/
theorem C16_remat_cardinality_witness :
    (Rematerializer.remat 1 0 heap_ab_two).1 = Except.error (Err.check 99) ∧
    ((Rematerializer.remat 1 0 heap_ab_two).2.cells 1).map (fun x => x.t_) = some none := by
  have hl : lock_inputs remat_b_two.inputs heap_ab_two
      = (Except.ok (), (lock_inputs remat_b_two.inputs heap_ab_two).2) :=
    run_eq (by decide!)
  have hu : uncheckpoint_strongs 1 remat_b_two.inputs (lock_inputs remat_b_two.inputs heap_ab_two).2
      = (Except.ok [ones4, ones4],
         (uncheckpoint_strongs 1 remat_b_two.inputs
           (lock_inputs remat_b_two.inputs heap_ab_two).2).2) :=
    run_eq (by decide!)
  have hc := (C16_remat_cardinality 1 0 heap_ab_two _ _ remat_b_two [ones4, ones4]
    [ones4, ones4] (by simp [heap_ab_two, upd]) hl hu rfl).2 (by decide)
  refine ⟨by rw [hc.1], ?_⟩
  rw [hc.2]
  decide!

/-- C17: let the inputs of `remat()` be locked and materialized and let `func` return as
many tensors as there are outputs.  Then `remat()` returns, and of the cells as they were
after the materialization of the inputs: an output cell that exists and held no value holds
the detached `ret[i]`, `i` being the first index at which `outputs` names it; a cell that
held a value is unchanged; an expired output stays absent; and no cell outside `outputs`
is changed. -/
theorem C17_remat_fills (fuel r : Nat) (h h1 h2 : Heap) (rm : Rematerializer)
    (ts ret : Tensors)
    (hr : h.remats r = some rm)
    (hl : lock_inputs rm.inputs h = (Except.ok (), h1))
    (hu : uncheckpoint_strongs fuel rm.inputs h1 = (Except.ok ts, h2))
    (hf : rm.func.run ts = Except.ok ret)
    (hlen : ret.length = rm.outputs.length) :
    ∃ h3, Rematerializer.remat fuel r h = (Except.ok (), h3) ∧
      (∀ (i o : Nat) (t : Tensor) (x : EntityTensorCell),
        rm.outputs[i]? = some o → ret[i]? = some t →
        (∀ j, j < i → rm.outputs[j]? ≠ some o) → h2.cells o = some x → x.t_ = none →
        ∃ y, h3.cells o = some y ∧ y.t_ = some t.detach) ∧
      (∀ o x, h2.cells o = some x → x.t_.isSome = true → h3.cells o = some x) ∧
      (∀ o, h2.cells o = none → h3.cells o = none) ∧
      (∀ c, c ∉ rm.outputs → h3.cells c = h2.cells c) := by
  obtain ⟨h3, hok, hcells⟩ := (remat_run fuel r h h1 h2 rm ts ret hr hl hu hf).2 hlen
  refine ⟨h3, hok, ?_, ?_, ?_, ?_⟩
  · intro i o t x ho ht hfirst hx hv
    refine ⟨x.fill t, ?_, fill_value x t hv⟩
    rw [hcells o]
    unfold filled_cells
    rw [hx, first_fill_at rm.outputs ret i o t ho ht hfirst]
  · intro o x hx hv
    rw [hcells o]
    unfold filled_cells
    rw [hx]
    cases first_fill rm.outputs ret o with
    | none => rfl
    | some t =>
      show some (x.fill t) = some x
      rw [fill_of_some x t hv]
  · intro o hx
    rw [hcells o]
    unfold filled_cells
    rw [hx]
  · intro c hc
    rw [hcells c]
    unfold filled_cells
    rw [first_fill_none_of_not_mem rm.outputs ret c hc]
    cases h2.cells c <;> rfl

/-- C17 at a concrete input: the replay of the rematerializer of `b` after
`evict_checkpoint(b)` returns and the cell of `b` holds `2 * ones(4)` again. -/
theorem C17_remat_fills_witness :
    heap_ab_replay.remats 0 = some remat_b ∧
    (heap_ab_replay.cells 1).map (fun x => x.t_) = some none ∧
    ∃ h3, Rematerializer.remat 1 0 heap_ab_replay = (Except.ok (), h3) ∧
      ∃ y, h3.cells 1 = some y ∧ y.t_ = some twos4 := by
  have hr : heap_ab_replay.remats 0 = some remat_b := by simp [heap_ab_replay, upd]
  have hl : lock_inputs remat_b.inputs heap_ab_replay
      = (Except.ok (), (lock_inputs remat_b.inputs heap_ab_replay).2) :=
    run_eq (by decide!)
  have hu : uncheckpoint_strongs 1 remat_b.inputs (lock_inputs remat_b.inputs heap_ab_replay).2
      = (Except.ok [ones4, ones4],
         (uncheckpoint_strongs 1 remat_b.inputs
           (lock_inputs remat_b.inputs heap_ab_replay).2).2) :=
    run_eq (by decide!)
  obtain ⟨h3, hok, hfill, _⟩ := C17_remat_fills 1 0 heap_ab_replay _ _ remat_b
    [ones4, ones4] [twos4] hr hl hu (by decide) rfl
  refine ⟨hr, by decide!, h3, hok, ?_⟩
  exact hfill 0 1 twos4 { cell_b with t_ := none } rfl rfl (fun j hj => by omega)
    (by decide!) rfl

end ATen

namespace c10
namespace cuda

/-- C15 at concrete inputs: `erase` of the entity at 7 (id 1) removes the first entry with
id 1, the reference to the entity at 4, and keeps the others in order; `erase` of the
entity at 9 (id 0) removes the reference to 3; on the emptied queue it returns 1. -/
theorem C15_erase_witness :
    queue_3457.erase ents_mod3 7
      = (0, { queue_3457 with actions_ := [{ impl_ := 3 }, { impl_ := 5 }, { impl_ := 7 }] }) ∧
    queue_3457.erase ents_mod3 9
      = (0, { queue_3457 with actions_ := [{ impl_ := 4 }, { impl_ := 5 }, { impl_ := 7 }] }) ∧
    CudaEntityTransferQueue.erase ents_mod3 { queue_3457 with actions_ := [] } 7
      = (1, { queue_3457 with actions_ := [] }) := by
  refine ⟨by decide, by decide, ?_⟩
  exact (C15_erase ents_mod3 { queue_3457 with actions_ := [] } 7).2.2 (by decide)

end cuda
end c10

namespace ATen

/-- A replay on a consistent heap keeps consistency whether it returns or throws, and it
throws only when some input is not below the bound of the input `get`. -/
theorem remat_with_spec {den : Nat → Tensor} {g : Nat → M Tensor} {b : Nat}
    (hg : GetOK den g b) (r : Nat) (h : Heap) (hi : Inv den h) (rm : Rematerializer)
    (hr : h.remats r = some rm) :
    wp (remat_with g r) (fun _ h1 => Inv den h1)
      (fun h1 => Inv den h1 ∧ ∃ i ∈ rm.inputs, ¬ i < b) h := by
  unfold remat_with
  simp only [wp_bind, wp_remat_at, hr, wp_clock_now, wp_torch_check]
  have hlive : ∀ i ∈ rm.inputs, ∃ x, h.cells i = some x := fun i hm => hi.remat_in r rm i hr hm
  have h1 := wp_and (lock_inputs_spec rm.inputs h hi) (wp_of_snd (lock_inputs_grows rm.inputs h))
  refine wp_mono h1 ?_ ?_
  · intro _ h2 ⟨hi2, hg2⟩
    have h3 := wp_and (uncheckpoint_with_spec hg rm.inputs h2 hi2)
      (wp_of_snd (uncheckpoint_with_grows hg.grows rm.inputs h2))
    refine wp_mono h3 ?_ ?_
    · intro ts h4 ⟨⟨hts, hi4⟩, hg4⟩
      rw [wp_call]
      obtain ⟨ret, hrun, hfor⟩ := hi.remat_run r rm hr (fun hf => hf)
      rw [hts, hrun]
      simp only
      have hlen : (ret.length == rm.outputs.length) = true := by
        rw [beq_iff_eq]
        exact (List.Forall₂.length_eq hfor).symm
      rw [if_pos hlen]
      have hi5 : Inv den { h4 with now := h4.now + rm.func.ticks (rm.inputs.map den) } :=
        pinv_now hi4 _
      have h6 := wp_and (fill_outputs_spec rm.outputs ret _ hi5 hfor)
        (wp_of_snd (fill_outputs_grows rm.outputs ret _))
      refine wp_mono h6 ?_ (fun _ hq => hq.1.elim)
      intro _ h7 ⟨hi7, hg7⟩
      refine wp_mono (unlock_inputs_spec rm.inputs h7 hi7) (fun _ _ hq => hq) ?_
      intro h8 ⟨_, s, hs, hn⟩
      exfalso
      obtain ⟨x, hx⟩ := hlive s hs
      have hgall : Grows h h7 :=
        Grows.trans (Grows.trans (Grows.trans hg2 hg4) (grows_now h4 _)) hg7
      obtain ⟨y, hy⟩ := grows_live hgall hx
      rw [hy] at hn
      cases hn
    · intro h4 ⟨⟨hi4, c, hc, hn⟩, _⟩
      refine ⟨hi4, c, hc, fun hlt => ?_⟩
      obtain ⟨x, hx⟩ := hlive c hc
      obtain ⟨y, hy⟩ := grows_live hg2 hx
      rw [hy] at hn
      cases hn hlt
  · intro h2 ⟨⟨_, s, hs, hn⟩, _⟩
    exfalso
    obtain ⟨x, hx⟩ := hlive s hs
    rw [hx] at hn
    cases hn

theorem remat_with_grows {g : Nat → M Tensor} (hg : ∀ c h, Grows h (g c h).2)
    (r : Nat) (h : Heap) : Grows h (remat_with g r h).2 :=
  wp_snd (keeps_remat_with (replayKeeps_grows h)
    (fun c => keeps_of_step (R := Grows) (fun _ _ _ => Grows.trans) _ (hg c) h) r h
    (Grows.refl h))

/-- On a consistent heap `get` returns what the cell stands for and keeps consistency;
with fuel above the cell's address it throws only when the cell does not exist. -/
theorem get_ok (den : Nat → Tensor) : ∀ fuel : Nat, GetOK den (EntityTensorCell.get fuel) fuel
  | 0 =>
    { spec := fun c h hi => ⟨hi, fun hlt => absurd hlt (Nat.not_lt_zero c)⟩
      grows := fun c h => get_grows 0 c h }
  | fuel + 1 =>
    { grows := fun c h => get_grows (fuel + 1) c h
      spec := by
        intro c h hi
        have ih := get_ok den fuel
        unfold EntityTensorCell.get
        simp only [wp_bind, wp_cell_at]
        split
        · rename_i x hx
          cases hv : x.t_ with
          | some v =>
            refine wp_mono (get_tail_spec c h hi) (fun _ _ hq => hq) ?_
            intro h1 ⟨_, hn⟩
            have := hn x hx
            rw [hv] at this
            cases this
          | none =>
            have hsome := hi.cell_remat c x hx hv
            obtain ⟨r, hr⟩ : ∃ r, x.remat_ = some r := Option.isSome_iff_exists.mp hsome
            simp only [hr, wp_bind]
            rcases hi.cell_out c x r hx hr with ⟨hf, _⟩ | ⟨rm, hrm, hmem⟩
            · exact hf.elim
            · have h1 := wp_and (wp_and (remat_with_spec ih r h hi rm hrm)
                (wp_of_snd (remat_with_grows ih.grows r h)))
                (remat_with_holds (EntityTensorCell.get fuel) r h rm hrm)
              refine wp_mono h1 ?_ ?_
              · intro _ h2 ⟨⟨hi2, hg2⟩, hholds⟩
                refine wp_mono (get_tail_spec c h2 hi2) (fun _ _ hq => hq) ?_
                intro h3 ⟨_, hn⟩
                exfalso
                obtain ⟨y, hy⟩ := grows_live hg2 hx
                have h4 := hholds c hmem y hy
                rw [hn y hy] at h4
                cases h4
              · intro h2 ⟨⟨⟨hi2, i, him, hnb⟩, _⟩, _⟩
                refine ⟨hi2, fun hlt => ?_⟩
                exfalso
                have hord := hi.remat_ord r rm i c hrm him hmem
                omega
        · rename_i hx
          exact ⟨hi, fun _ => hx⟩ }

/-- On a consistent heap, `get` with enough fuel on an existing cell returns what the cell
stands for, leaves a consistent heap, and changes the heap only as a replay does. -/
theorem get_spec {den : Nat → Tensor} {fuel c : Nat} {h : Heap} {x : EntityTensorCell}
    (hi : Inv den h) (hx : h.cells c = some x) (hf : c < fuel) :
    ∃ h1, EntityTensorCell.get fuel c h = (Except.ok (den c), h1) ∧ Inv den h1 ∧ Grows h h1 := by
  have hw := (get_ok den fuel).spec c h hi
  have hg := get_grows fuel c h
  rcases hrun : EntityTensorCell.get fuel c h with ⟨res, h1⟩
  rw [hrun] at hg
  cases res with
  | error e =>
    have := wp_error hw hrun
    have hn := this.2 hf
    rw [hx] at hn
    cases hn
  | ok v =>
    have := wp_ok hw hrun
    exact ⟨h1, by rw [this.1], this.2, hg⟩

end ATen

namespace ATen

/-! ## make_raw on a consistent heap -/

theorem extend_den_old (den : Nat → Tensor) (n0 : Nat) (outs : Tensors) {c : Nat}
    (hc : c < n0) : extend_den den n0 outs c = den c := by
  simp [extend_den, hc]

theorem extend_den_new (den : Nat → Tensor) (n0 : Nat) (outs : Tensors) {j : Nat} {t : Tensor}
    (ht : outs[j]? = some t) : extend_den den n0 outs (n0 + j) = t.detach := by
  simp [extend_den, ht]

theorem map_congr_lt {den den1 : Nat → Tensor} {n0 : Nat} (hd : ∀ c, c < n0 → den1 c = den c)
    (l : List Nat) (hl : ∀ i ∈ l, i < n0) : l.map den1 = l.map den := by
  apply List.map_congr_left
  intro i hi
  exact hd i (hl i hi)

theorem forall2_congr_lt {den den1 : Nat → Tensor} {n0 : Nat}
    (hd : ∀ c, c < n0 → den1 c = den c) :
    ∀ (os : List Nat) (ret : Tensors), (∀ o ∈ os, o < n0) →
    List.Forall₂ (fun o t => den o = t.detach) os ret →
    List.Forall₂ (fun o t => den1 o = t.detach) os ret
  | _, _, _, List.Forall₂.nil => List.Forall₂.nil
  | o :: os, _ :: ts, hl, List.Forall₂.cons h1 h2 =>
    List.Forall₂.cons ((hd o (hl o (List.mem_cons_self _ _))).trans h1)
      (forall2_congr_lt hd os ts (fun o1 ho1 => hl o1 (List.mem_cons_of_mem _ ho1)) h2)

/-- A consistent heap stays so, with a rematerializer pending, when `make_raw` allocates
its rematerializer and the cells from `next_cell` on are given new values. -/
theorem pinv_new_remat {den : Nat → Tensor} {h : Heap} (hi : Inv den h) (f : RematFunc_t)
    (inputs : List Nat) (dt : Nat) (outs : Tensors)
    (hlive : ∀ s ∈ inputs, ∃ x, h.cells s = some x) :
    PInv (fun r => r = h.next_remat) h.next_cell (extend_den den h.next_cell outs)
      { h with
        remats := upd h.remats h.next_remat
          { func := f, inputs := inputs, outputs := [], compute_cost := dt }
        next_remat := h.next_remat + 1 } := by
  have hd : ∀ c, c < h.next_cell → extend_den den h.next_cell outs c = den c :=
    fun c hc => extend_den_old den _ outs hc
  have hold : ∀ r rm, h.remats r = some rm →
      upd h.remats h.next_remat
        { func := f, inputs := inputs, outputs := [], compute_cost := dt } r = some rm := by
    intro r rm hr
    have := hi.remat_lt r rm hr
    rw [upd_other _ _ _ _ (by omega)]
    exact hr
  exact
  { cell_lt := hi.cell_lt
    cell_val := by
      intro c x v hx hv
      rw [hd c (hi.cell_lt c x hx)]
      exact hi.cell_val c x v hx hv
    cell_remat := hi.cell_remat
    cell_pool := hi.cell_pool
    cell_out := by
      intro c x r hx hr
      rcases hi.cell_out c x r hx hr with ⟨hf, _⟩ | ⟨rm, hrm, hmem⟩
      · exact hf.elim
      · exact Or.inr ⟨rm, hold r rm hrm, hmem⟩
    remat_lt := by
      intro r rm hr
      rcases upd_cases hr with ⟨rfl, _⟩ | ⟨_, h0⟩
      · exact Nat.lt_succ_self _
      · exact Nat.lt_succ_of_lt (hi.remat_lt r rm h0)
    remat_in := by
      intro r rm i hr hm
      rcases upd_cases hr with ⟨_, rfl⟩ | ⟨_, h0⟩
      · exact hlive i hm
      · exact hi.remat_in r rm i h0 hm
    remat_ord := by
      intro r rm i o hr hm ho
      rcases upd_cases hr with ⟨_, rfl⟩ | ⟨_, h0⟩
      · cases ho
      · exact hi.remat_ord r rm i o h0 hm ho
    remat_out := by
      intro r rm o hr ho
      rcases upd_cases hr with ⟨_, rfl⟩ | ⟨_, h0⟩
      · cases ho
      · exact hi.remat_out r rm o h0 ho
    remat_run := by
      intro r rm hr hnp
      rcases upd_cases hr with ⟨rfl, _⟩ | ⟨_, h0⟩
      · exact (hnp rfl).elim
      · obtain ⟨ret, hrun, hfor⟩ := hi.remat_run r rm h0 (fun hf => hf)
        refine ⟨ret, ?_, forall2_congr_lt hd _ _ (fun o ho => hi.remat_out r rm o h0 ho) hfor⟩
        rw [map_congr_lt hd rm.inputs (fun i him => by
          obtain ⟨x, hx⟩ := hi.remat_in r rm i h0 him
          exact hi.cell_lt i x hx)]
        exact hrun
    pool_head := by
      intro p x r hp hr
      obtain ⟨rm, hrm⟩ := hi.pool_head p x r hp hr
      exact ⟨rm, hold r rm hrm⟩ }

end ATen

namespace ATen

/-- Consistency only reads `den` below `next_cell`. -/
theorem pinv_den_congr {pend : Nat → Prop} {n0 : Nat} {den den1 : Nat → Tensor} {h : Heap}
    (hi : PInv pend n0 den h) (hd : ∀ c, c < h.next_cell → den1 c = den c) :
    PInv pend n0 den1 h :=
  { cell_lt := hi.cell_lt
    cell_val := by
      intro c x v hx hv
      rw [hd c (hi.cell_lt c x hx)]
      exact hi.cell_val c x v hx hv
    cell_remat := hi.cell_remat
    cell_pool := hi.cell_pool
    cell_out := hi.cell_out
    remat_lt := hi.remat_lt
    remat_in := hi.remat_in
    remat_ord := hi.remat_ord
    remat_out := hi.remat_out
    remat_run := by
      intro r rm hr hnp
      obtain ⟨ret, hrun, hfor⟩ := hi.remat_run r rm hr hnp
      refine ⟨ret, ?_, forall2_congr_lt hd _ _ (fun o ho => hi.remat_out r rm o hr ho) hfor⟩
      rw [map_congr_lt hd rm.inputs (fun i him => by
        obtain ⟨x, hx⟩ := hi.remat_in r rm i hr him
        exact hi.cell_lt i x hx)]
      exact hrun
    pool_head := hi.pool_head }

/-- Allocating a cell that holds what it stands for (or has a pending rematerializer). -/
theorem pinv_new_cell {pend : Nat → Prop} {n0 : Nat} {den : Nat → Tensor} {h : Heap}
    (hi : PInv pend n0 den h) (y : EntityTensorCell)
    (hval : ∀ v, y.t_ = some v → v = den h.next_cell)
    (habs : y.t_ = none → y.remat_.isSome = true)
    (hrem : ∀ r, y.remat_ = some r → pend r ∧ n0 ≤ h.next_cell)
    (hpool : ∃ p, h.pools y.pool_ = some p) :
    PInv pend n0 den
      { h with cells := upd h.cells h.next_cell y, next_cell := h.next_cell + 1 } :=
  { cell_lt := by
      intro c x hx
      rcases upd_cases hx with ⟨rfl, _⟩ | ⟨_, h0⟩
      · exact Nat.lt_succ_self _
      · exact Nat.lt_succ_of_lt (hi.cell_lt c x h0)
    cell_val := by
      intro c x v hx hv
      rcases upd_cases hx with ⟨rfl, rfl⟩ | ⟨_, h0⟩
      · exact hval v hv
      · exact hi.cell_val c x v h0 hv
    cell_remat := by
      intro c x hx hv
      rcases upd_cases hx with ⟨rfl, rfl⟩ | ⟨_, h0⟩
      · exact habs hv
      · exact hi.cell_remat c x h0 hv
    cell_pool := by
      intro c x hx
      rcases upd_cases hx with ⟨rfl, rfl⟩ | ⟨_, h0⟩
      · exact hpool
      · exact hi.cell_pool c x h0
    cell_out := by
      intro c x r hx hr
      rcases upd_cases hx with ⟨rfl, rfl⟩ | ⟨_, h0⟩
      · exact Or.inl (hrem r hr)
      · exact hi.cell_out c x r h0 hr
    remat_lt := hi.remat_lt
    remat_in := by
      intro r rm i hr hm
      obtain ⟨x, hx⟩ := hi.remat_in r rm i hr hm
      have := hi.cell_lt i x hx
      exact ⟨x, by
        show upd h.cells h.next_cell y i = some x
        rw [upd_other _ _ _ _ (by omega)]
        exact hx⟩
    remat_ord := hi.remat_ord
    remat_out := by
      intro r rm o hr ho
      exact Nat.lt_succ_of_lt (hi.remat_out r rm o hr ho)
    remat_run := hi.remat_run
    pool_head := hi.pool_head }

/-- Allocating a pool whose head rematerializer, if any, exists. -/
theorem pinv_new_pool {pend : Nat → Prop} {n0 : Nat} {den : Nat → Tensor} {h : Heap}
    (hi : PInv pend n0 den h) (q : Nat) (x : AliasPool)
    (hx : ∀ r, x.head_remat_ = some r → ∃ rm, h.remats r = some rm) :
    PInv pend n0 den { h with pools := upd h.pools q x, next_pool := h.next_pool + 1 } := by
  refine pinv_pools hi rfl rfl rfl rfl ?_ ?_
  · intro p z hp
    by_cases hpq : p = q
    · exact ⟨x, by simp [upd, hpq]⟩
    · exact ⟨z, by simp [upd, hpq, hp]⟩
  · intro p z r hp hz
    rcases upd_cases hp with ⟨_, rfl⟩ | ⟨_, h0⟩
    · exact hx r hz
    · exact hi.pool_head p z r h0 hz

/-- Replacing a rematerializer by one with the same function, inputs and outputs. -/
theorem pinv_upd_remat {pend : Nat → Prop} {n0 : Nat} {den : Nat → Tensor} {h : Heap}
    (hi : PInv pend n0 den h) (r : Nat) (x y : Rematerializer) (hx : h.remats r = some x)
    (hf : y.func = x.func) (hin : y.inputs = x.inputs) (hout : y.outputs = x.outputs) :
    PInv pend n0 den { h with remats := upd h.remats r y } :=
  { cell_lt := hi.cell_lt
    cell_val := hi.cell_val
    cell_remat := hi.cell_remat
    cell_pool := hi.cell_pool
    cell_out := by
      intro c z r1 hz hr1
      rcases hi.cell_out c z r1 hz hr1 with hl | ⟨rm, hrm, hm⟩
      · exact Or.inl hl
      · by_cases hrr : r1 = r
        · subst hrr
          rw [hx] at hrm
          cases hrm
          exact Or.inr ⟨y, upd_same _ _ _, by rw [hout]; exact hm⟩
        · exact Or.inr ⟨rm, by
            show upd h.remats r y r1 = some rm
            rw [upd_other _ _ _ _ hrr]
            exact hrm, hm⟩
    remat_lt := by
      intro r1 rm hr1
      rcases upd_cases hr1 with ⟨rfl, _⟩ | ⟨_, h0⟩
      · exact hi.remat_lt _ x hx
      · exact hi.remat_lt r1 rm h0
    remat_in := by
      intro r1 rm i hr1 hm
      rcases upd_cases hr1 with ⟨rfl, rfl⟩ | ⟨_, h0⟩
      · rw [hin] at hm
        exact hi.remat_in _ x i hx hm
      · exact hi.remat_in r1 rm i h0 hm
    remat_ord := by
      intro r1 rm i o hr1 hm ho
      rcases upd_cases hr1 with ⟨rfl, rfl⟩ | ⟨_, h0⟩
      · rw [hin] at hm
        rw [hout] at ho
        exact hi.remat_ord _ x i o hx hm ho
      · exact hi.remat_ord r1 rm i o h0 hm ho
    remat_out := by
      intro r1 rm o hr1 ho
      rcases upd_cases hr1 with ⟨rfl, rfl⟩ | ⟨_, h0⟩
      · rw [hout] at ho
        exact hi.remat_out _ x o hx ho
      · exact hi.remat_out r1 rm o h0 ho
    remat_run := by
      intro r1 rm hr1 hnp
      rcases upd_cases hr1 with ⟨rfl, rfl⟩ | ⟨_, h0⟩
      · rw [hf, hin, hout]
        exact hi.remat_run _ x hx hnp
      · exact hi.remat_run r1 rm h0 hnp
    pool_head := by
      intro p z r1 hp hz
      obtain ⟨rm, hrm⟩ := hi.pool_head p z r1 hp hz
      by_cases hrr : r1 = r
      · exact ⟨y, by simp [upd, hrr]⟩
      · exact ⟨rm, by simp [upd, hrr, hrm]⟩ }

/-- The loop of `get_alias` gives `-1` or an index into the list it went through. -/
theorem get_alias_from_range (t : Tensor) : ∀ (ts : Tensors) (i : Nat),
    get_alias_from t ts i = -1 ∨
      ∃ j, j < ts.length ∧ get_alias_from t ts i = ((i + j : Nat) : Int)
  | [], _ => Or.inl rfl
  | x :: rest, i => by
    unfold get_alias_from
    split
    · exact Or.inr ⟨0, by simp, rfl⟩
    · rcases get_alias_from_range t rest (i + 1) with hl | ⟨j, hj, he⟩
      · exact Or.inl hl
      · refine Or.inr ⟨j + 1, by simp; omega, ?_⟩
        rw [he]
        congr 1
        omega

/-- The result of `get_alias` is `-1` or an index into the raw inputs. -/
theorem get_alias_range (ts : Tensors) (t : Tensor) :
    get_alias ts t = -1 ∨ ∃ j, j < ts.length ∧ get_alias ts t = (j : Int) := by
  unfold get_alias
  split
  · rcases get_alias_from_range t ts 0 with hl | ⟨j, hj, he⟩
    · exact Or.inl hl
    · exact Or.inr ⟨j, hj, by rw [he]; simp⟩
  · exact Or.inl rfl

end ATen

namespace ATen

/-- A step that leaves cells, handles and counters alone keeps the state of the loop. -/
theorem LoopSt.frame {r0 n0 e0 : Nat} {f : RematFunc_t} {inputs : List Nat}
    {den : Nat → Tensor} {h0 : Heap} {k : Nat} {h h1 : Heap}
    (hs : LoopSt r0 n0 e0 f inputs den h0 k h) (hi : PInv (fun r => r = r0) n0 den h1)
    (hc : h1.cells = h.cells) (he : h1.externals = h.externals) (hr : h1.refs = h.refs)
    (him : h1.impls = h.impls) (hnc : h1.next_cell = h.next_cell)
    (hne : h1.next_external = h.next_external)
    (hp : ∃ cc, h1.remats r0
      = some { func := f, inputs := inputs, outputs := [], compute_cost := cc }) :
    LoopSt r0 n0 e0 f inputs den h0 k h1 :=
  { inv := hi
    nc := by rw [hnc]; exact hs.nc
    ne := by rw [hne]; exact hs.ne
    pend := hp
    in_lt := hs.in_lt
    refs := by rw [hr]; exact hs.refs
    impls := by rw [him]; exact hs.impls
    ext_old := by rw [he]; exact hs.ext_old
    ext_new := by rw [he]; exact hs.ext_new
    cells_old := by rw [hc]; exact hs.cells_old
    cells_new := by rw [hc]; exact hs.cells_new }

/-- The inputs of the rematerializer under construction exist. -/
theorem LoopSt.live {r0 n0 e0 : Nat} {f : RematFunc_t} {inputs : List Nat}
    {den : Nat → Tensor} {h0 : Heap} {k : Nat} {h : Heap}
    (hs : LoopSt r0 n0 e0 f inputs den h0 k h) {s : Nat} (hm : s ∈ inputs) :
    ∃ x, h.cells s = some x := by
  obtain ⟨cc, hcc⟩ := hs.pend
  exact hs.inv.remat_in r0 _ s hcc hm

/-- The choice of the pool for an output keeps the state of the loop, gives a pool that
exists, and does not throw when the alias index is `-1` or an index into the inputs. -/
theorem pool_for_output_spec {r0 n0 e0 : Nat} {f : RematFunc_t} {inputs : List Nat}
    {den : Nat → Tensor} {h0 : Heap} {k : Nat} {h : Heap}
    (hs : LoopSt r0 n0 e0 f inputs den h0 k h) (a : Int) (dt : Nat)
    (ha : a = -1 ∨ ∃ j, j < inputs.length ∧ a = (j : Int)) :
    wp (pool_for_output r0 inputs a dt)
      (fun p h1 => LoopSt r0 n0 e0 f inputs den h0 k h1 ∧ ∃ pl, h1.pools p = some pl)
      (fun _ => False) h := by
  unfold pool_for_output
  split
  · simp only [wp_bind, wp_clock_now, wp_new_pool]
    obtain ⟨cc, hcc⟩ := hs.pend
    refine ⟨hs.frame (pinv_new_pool hs.inv _ _ ?_) rfl rfl rfl rfl rfl rfl ⟨cc, hcc⟩,
      ⟨_, upd_same _ _ _⟩⟩
    intro r hr
    cases hr
    exact ⟨_, hcc⟩
  · rename_i hne
    rcases ha with ha | ⟨j, hj, ha⟩
    · subst ha
      exact (hne rfl).elim
    · subst ha
      unfold alias_pool_of_input
      have hget : inputs.get? (j : Int).toNat = some (inputs.get ⟨j, hj⟩) := by
        simp [List.getElem?_eq_getElem hj]
      obtain ⟨x, hx⟩ := hs.live (List.get_mem inputs j hj)
      obtain ⟨p, hp⟩ := hs.inv.cell_pool _ x hx
      simp only [wp_bind, hget]
      change wp (pure (inputs.get ⟨j, hj⟩) : M Nat) _ _ h
      simp only [wp_pure, wp_cell_at, hx, wp_pool_at, hp]
      cases hhd : p.head_remat_ with
      | none =>
        simp only [wp_pure]
        exact ⟨hs, p, hp⟩
      | some hr =>
        obtain ⟨rm, hrm⟩ := hs.inv.pool_head _ p hr hp hhd
        simp only [wp_bind, wp_remat_at, hrm, wp_set_remat, wp_pure]
        refine ⟨hs.frame (pinv_upd_remat hs.inv hr rm _ hrm rfl rfl rfl) rfl rfl rfl rfl rfl rfl
          ?_, p, hp⟩
        obtain ⟨cc, hcc⟩ := hs.pend
        by_cases hrr : r0 = hr
        · subst hrr
          rw [hcc] at hrm
          cases hrm
          exact ⟨_, upd_same _ _ _⟩
        · exact ⟨cc, by
            show upd h.remats hr _ r0 = _
            rw [upd_other _ _ _ _ hrr]
            exact hcc⟩

end ATen

namespace ATen

/-- One turn of the loop of `make_raw`: the new handle is the next one, its cell the next
cell, and the state of the loop is kept. -/
theorem make_raw_output_spec {r0 n0 e0 : Nat} {f : RematFunc_t} {inputs : List Nat}
    {den : Nat → Tensor} {h0 : Heap} {k : Nat} {h : Heap}
    (hs : LoopSt r0 n0 e0 f inputs den h0 k h) (raw : Tensors) (dt : Nat) (t : Tensor)
    (hlen : raw.length = inputs.length) (hd : den (n0 + k) = t.detach) :
    wp (make_raw_output r0 inputs raw dt t)
      (fun ea h1 => ea = (e0 + k, get_alias raw t) ∧
        LoopSt r0 n0 e0 f inputs den h0 (k + 1) h1)
      (fun _ => False) h := by
  unfold make_raw_output
  rw [wp_bind]
  refine wp_mono (pool_for_output_spec hs (get_alias raw t) dt
    (by rw [← hlen]; exact get_alias_range raw t)) ?_ (fun _ hf => hf)
  intro p h1 ⟨hs1, pl, hpl⟩
  unfold External.from_parts External.from_strong
  simp only [wp_bind, wp_new_cell, wp_new_external, wp_external_at, upd_same, wp_deref,
    wp_pool_at, hpl, wp_set_pool, wp_pure]
  have hnc := hs1.nc
  have hne := hs1.ne
  refine ⟨by rw [hne], ?_⟩
  have hi1 := pinv_new_cell hs1.inv (EntityTensorCell.make t p (some r0))
    (by
      intro v hv
      rw [make_value] at hv
      cases hv
      rw [hnc]
      exact hd.symm)
    (by
      intro hv
      rw [make_value] at hv
      cases hv)
    (by
      intro r hr
      rw [make_remat] at hr
      cases hr
      exact ⟨rfl, by omega⟩)
    (by rw [make_pool]; exact ⟨pl, hpl⟩)
  have hi2 : PInv (fun r => r = r0) n0 den
      { h1 with
        cells := upd h1.cells h1.next_cell (EntityTensorCell.make t p (some r0))
        next_cell := h1.next_cell + 1
        externals := upd h1.externals h1.next_external { value := some h1.next_cell }
        next_external := h1.next_external + 1 } :=
    pinv_other hi1 rfl rfl rfl rfl rfl
  have hi3 := pinv_upd_pool hi2 p pl { pl with tensors_ := pl.tensors_ ++ [h1.next_cell] }
    hpl (Or.inl rfl)
  exact
  { inv := hi3
    nc := by show h1.next_cell + 1 = _; omega
    ne := by show h1.next_external + 1 = _; omega
    pend := hs1.pend
    in_lt := hs1.in_lt
    refs := hs1.refs
    impls := hs1.impls
    ext_old := by
      intro e he
      show upd h1.externals h1.next_external _ e = _
      rw [upd_other _ _ _ _ (by omega)]
      exact hs1.ext_old e he
    ext_new := by
      intro j hj
      show upd h1.externals h1.next_external _ (e0 + j) = _
      by_cases hjk : j = k
      · subst hjk
        rw [← hne, upd_same, hnc]
      · rw [upd_other _ _ _ _ (by omega)]
        exact hs1.ext_new j (by omega)
    cells_old := by
      intro c hc
      show upd h1.cells h1.next_cell _ c = _
      rw [upd_other _ _ _ _ (by omega)]
      exact hs1.cells_old c hc
    cells_new := by
      intro j hj
      show ∃ y, upd h1.cells h1.next_cell _ (n0 + j) = some y ∧ _
      by_cases hjk : j = k
      · subst hjk
        rw [← hnc, upd_same]
        exact ⟨_, rfl, by rw [make_value, hnc, hd]⟩
      · rw [upd_other _ _ _ _ (by omega)]
        exact hs1.cells_new j (by omega) }

end ATen

namespace ATen

/-- The loop of `make_raw` over the raw outputs: the handles and cells it creates are the
next ones in order, and the state of the loop is kept; it does not throw. -/
theorem make_raw_outputs_spec {r0 n0 e0 : Nat} {f : RematFunc_t} {inputs : List Nat}
    {den : Nat → Tensor} {h0 : Heap} (raw : Tensors) (dt : Nat)
    (hlen : raw.length = inputs.length) :
    ∀ (ts : Tensors) (k : Nat) (h : Heap), LoopSt r0 n0 e0 f inputs den h0 k h →
    (∀ j t, ts[j]? = some t → den (n0 + (k + j)) = t.detach) →
    wp (make_raw_outputs r0 inputs raw dt ts)
      (fun r h1 => LoopSt r0 n0 e0 f inputs den h0 (k + ts.length) h1 ∧
        r.1 = List.range' (e0 + k) ts.length ∧ r.2.2 = List.range' (n0 + k) ts.length)
      (fun _ => False) h
  | [], k, h, hs, _ => by
    unfold make_raw_outputs
    exact ⟨hs, rfl, rfl⟩
  | t :: rest, k, h, hs, hd => by
    unfold make_raw_outputs
    rw [wp_bind]
    refine wp_mono (make_raw_output_spec hs raw dt t hlen
      (by simpa using hd 0 t (by simp))) ?_ (fun _ hf => hf)
    intro ea h1 ⟨hea, hs1⟩
    subst hea
    simp only [wp_bind, wp_external_at, hs1.ext_new k (Nat.lt_succ_self k), wp_deref]
    refine wp_mono (make_raw_outputs_spec raw dt hlen rest (k + 1) h1 hs1 ?_) ?_
      (fun _ hf => hf)
    · intro j t1 hj
      have := hd (j + 1) t1 (by simpa using hj)
      rw [show n0 + (k + 1 + j) = n0 + (k + (j + 1)) by omega]
      exact this
    · intro r h2 ⟨hs2, hes, hws⟩
      rcases r with ⟨es, as, ws⟩
      have hes1 : es = List.range' (e0 + (k + 1)) rest.length := hes
      have hws1 : ws = List.range' (n0 + (k + 1)) rest.length := hws
      simp only [wp_pure]
      refine ⟨?_, ?_, ?_⟩
      · rw [show k + (t :: rest).length = k + 1 + rest.length by simp; omega]
        exact hs2
      · show (e0 + k) :: es = _
        rw [hes1]
        simp [List.range'_succ, Nat.add_assoc]
      · show (n0 + k) :: ws = _
        rw [hws1]
        simp [List.range'_succ, Nat.add_assoc]

end ATen

namespace ATen

theorem wp_of_run {α : Type} {m : M α} {Q : α → Heap → Prop} {E : Heap → Prop} {h : Heap}
    (hq : ∀ a h1, m h = (Except.ok a, h1) → Q a h1)
    (he : ∀ e h1, m h = (Except.error e, h1) → E h1) : wp m Q E h := by
  unfold wp
  rcases hm : m h with ⟨r, h1⟩
  cases r with
  | error e => exact he e h1 hm
  | ok a => exact hq a h1 hm

/-- A cell that holds a value is not changed by a replay. -/
theorem held_of_grows {h h1 : Heap} (g : Grows h h1) {c : Nat} {x : EntityTensorCell}
    {v : Tensor} (hx : h.cells c = some x) (hv : x.t_ = some v) : h1.cells c = some x := by
  rcases g.cells_some c x hx with h1c | ⟨hn, _⟩
  · exact h1c
  · rw [hv] at hn
    cases hn

/-- A cell that exists still exists after a replay, with the value it held, if any. -/
theorem kept_of_grows {h h1 : Heap} (g : Grows h h1) {c : Nat} {x : EntityTensorCell}
    (hx : h.cells c = some x) :
    ∃ y, h1.cells c = some y ∧ ∀ v, x.t_ = some v → y.t_ = some v := by
  rcases g.cells_some c x hx with h1c | ⟨hn, t, h1c⟩
  · exact ⟨x, h1c, fun _ hv => hv⟩
  · refine ⟨_, h1c, fun v hv => ?_⟩
    rw [hv] at hn
    cases hn

/-- After `uncheckpoint` of a list of cells, each of them holds a value. -/
theorem uncheckpoint_with_held (fuel : Nat) : ∀ (l : List Nat) (h : Heap),
    wp (uncheckpoint_with (EntityTensorCell.get fuel) l)
      (fun _ h1 => ∀ c ∈ l, ∃ x v, h1.cells c = some x ∧ x.t_ = some v) (fun _ => True) h
  | [], h => by
    intro c hc
    cases hc
  | c :: rest, h => by
    unfold uncheckpoint_with
    rw [wp_bind]
    refine wp_mono (get_returns_held fuel c h) ?_ (fun _ _ => trivial)
    intro v h2 ⟨x, hx, hv⟩
    rw [wp_bind]
    have hg := uncheckpoint_with_grows (get_grows fuel) rest h2
    refine wp_mono (wp_and (uncheckpoint_with_held fuel rest h2) (wp_of_snd hg)) ?_
      (fun _ _ => trivial)
    intro ts h3 ⟨hall, hg3⟩
    intro c1 hc1
    rcases List.mem_cons.1 hc1 with rfl | hm
    · exact ⟨x, v, held_of_grows hg3 hx hv, hv⟩
    · exact hall c1 hm

theorem forall2_range {den : Nat → Tensor} : ∀ (outs : Tensors) (n0 : Nat),
    (∀ j t, outs[j]? = some t → den (n0 + j) = t.detach) →
    List.Forall₂ (fun o t => den o = t.detach) (List.range' n0 outs.length) outs
  | [], _, _ => List.Forall₂.nil
  | t :: rest, n0, hd => by
    rw [List.length_cons, List.range'_succ]
    refine List.Forall₂.cons (by simpa using hd 0 t (by simp)) ?_
    refine forall2_range rest (n0 + 1) ?_
    intro j t1 hj
    have := hd (j + 1) t1 (by simpa using hj)
    rw [show n0 + 1 + j = n0 + (j + 1) by omega]
    exact this

/-- The state of the loop of `make_raw` before its first turn. -/
theorem loopSt_init {den : Nat → Tensor} {h : Heap} (hi : Inv den h) (f : RematFunc_t)
    (inputs : List Nat) (dt : Nat) (outs : Tensors)
    (hlive : ∀ s ∈ inputs, ∃ x, h.cells s = some x) {n0 e0 : Nat}
    (hn : h.next_cell = n0) (he : h.next_external = e0) :
    LoopSt h.next_remat n0 e0 f inputs (extend_den den n0 outs)
      { h with
        remats := upd h.remats h.next_remat
          { func := f, inputs := inputs, outputs := [], compute_cost := dt }
        next_remat := h.next_remat + 1 } 0
      { h with
        remats := upd h.remats h.next_remat
          { func := f, inputs := inputs, outputs := [], compute_cost := dt }
        next_remat := h.next_remat + 1 } := by
  subst hn
  subst he
  exact
  { inv := pinv_new_remat hi f inputs dt outs hlive
    nc := rfl
    ne := rfl
    pend := ⟨dt, upd_same _ _ _⟩
    in_lt := by
      intro i hm
      obtain ⟨x, hx⟩ := hlive i hm
      exact hi.cell_lt i x hx
    refs := rfl
    impls := rfl
    ext_old := fun _ _ => rfl
    ext_new := fun j hj => absurd hj (Nat.not_lt_zero j)
    cells_old := fun _ _ => rfl
    cells_new := fun j hj => absurd hj (Nat.not_lt_zero j) }

/-- Storing the outputs in the rematerializer after the loop of `make_raw` gives a
consistent heap. -/
theorem pinv_close {r0 n0 e0 : Nat} {f : RematFunc_t} {inputs : List Nat}
    {den : Nat → Tensor} {h0 : Heap} {h : Heap} {outs : Tensors}
    (hs : LoopSt r0 n0 e0 f inputs den h0 outs.length h) (rm : Rematerializer)
    (hrm : h.remats r0 = some rm)
    (hrun : f.run (inputs.map den) = Except.ok outs)
    (hd : ∀ j t, outs[j]? = some t → den (n0 + j) = t.detach) :
    Inv den { h with
      remats := upd h.remats r0 { rm with outputs := List.range' n0 outs.length } } := by
  obtain ⟨cc, hcc⟩ := hs.pend
  have hrm1 : rm = { func := f, inputs := inputs, outputs := [], compute_cost := cc } := by
    rw [hrm] at hcc
    exact Option.some.inj hcc
  subst hrm1
  have hi := hs.inv
  exact
  { cell_lt := hi.cell_lt
    cell_val := hi.cell_val
    cell_remat := hi.cell_remat
    cell_pool := hi.cell_pool
    cell_out := by
      intro c x r hx hr
      right
      rcases hi.cell_out c x r hx hr with ⟨hr0, hn0⟩ | ⟨rm1, hrm1, hm⟩
      · have hr00 : r = r0 := hr0
        subst hr00
        refine ⟨_, upd_same _ _ _, ?_⟩
        have := hi.cell_lt c x hx
        rw [hs.nc] at this
        exact List.mem_range'_1.2 ⟨hn0, this⟩
      · by_cases hrr : r = r0
        · subst hrr
          rw [hrm] at hrm1
          cases hrm1
          cases hm
        · exact ⟨rm1, by
            show upd h.remats r0 _ r = some rm1
            rw [upd_other _ _ _ _ hrr]
            exact hrm1, hm⟩
    remat_lt := by
      intro r rm1 hr
      rcases upd_cases hr with ⟨rfl, _⟩ | ⟨_, h1⟩
      · exact hi.remat_lt _ _ hrm
      · exact hi.remat_lt r rm1 h1
    remat_in := by
      intro r rm1 i hr hm
      rcases upd_cases hr with ⟨rfl, rfl⟩ | ⟨_, h1⟩
      · exact hs.live hm
      · exact hi.remat_in r rm1 i h1 hm
    remat_ord := by
      intro r rm1 i o hr hm ho
      rcases upd_cases hr with ⟨rfl, rfl⟩ | ⟨_, h1⟩
      · have h1 := hs.in_lt i hm
        have h2 := (List.mem_range'_1.1 ho).1
        omega
      · exact hi.remat_ord r rm1 i o h1 hm ho
    remat_out := by
      intro r rm1 o hr ho
      rcases upd_cases hr with ⟨rfl, rfl⟩ | ⟨_, h1⟩
      · have h2 := (List.mem_range'_1.1 ho).2
        show o < h.next_cell
        rw [hs.nc]
        exact h2
      · exact hi.remat_out r rm1 o h1 ho
    remat_run := by
      intro r rm1 hr _
      rcases upd_cases hr with ⟨rfl, rfl⟩ | ⟨hne, h1⟩
      · exact ⟨outs, hrun, forall2_range outs n0 hd⟩
      · exact hi.remat_run r rm1 h1 hne
    pool_head := by
      intro p z r hp hz
      obtain ⟨rm1, hrm1⟩ := hi.pool_head p z r hp hz
      by_cases hrr : r = r0
      · subst hrr
        exact ⟨_, upd_same _ _ _⟩
      · exact ⟨rm1, by
          show upd h.remats r0 _ r = some rm1
          rw [upd_other _ _ _ _ hrr]
          exact hrm1⟩ }

end ATen

namespace ATen

/-- When the lock loop returns, every cell of the list exists. -/
theorem lock_inputs_live (l : List Nat) (h : Heap) :
    wp (lock_inputs l) (fun _ _ => ∀ s ∈ l, ∃ x, h.cells s = some x) (fun _ => True) h := by
  refine wp_of_run ?_ (fun _ _ _ => trivial)
  intro a h1 hrun
  intro s hs
  obtain ⟨x, _, hx, _⟩ := lockable_of_lock_inputs l h h1 hrun s hs
  exact ⟨x, hx⟩

/-- Specification of `make_raw` on a consistent heap.  It returns when the inputs exist,
the fuel exceeds their addresses and the operator returns on what the inputs stand for;
if it throws, the heap is still consistent. -/
theorem make_raw_spec {den : Nat → Tensor} (fuel : Nat) (f : RematFunc_t) (inputs : List Nat)
    (h : Heap) (hi : Inv den h) :
    wp (make_raw fuel f inputs)
      (fun R h1 => ∃ outs, MadeRaw den h f inputs outs R h1)
      (fun h1 => Inv den h1 ∧
        ¬ ((∀ s ∈ inputs, (∃ x, h.cells s = some x) ∧ s < fuel) ∧
          ∃ outs, f.run (inputs.map den) = Except.ok outs)) h := by
  unfold make_raw
  rw [wp_bind]
  have hL := wp_and (wp_and (lock_inputs_spec inputs h hi)
    (wp_of_snd (lock_inputs_grows inputs h))) (lock_inputs_live inputs h)
  refine wp_mono hL ?_ ?_
  · intro _ h1 ⟨⟨hi1, hg1⟩, hlive⟩
    unfold uncheckpoint_strongs
    rw [wp_bind]
    have hU := wp_and (wp_and (uncheckpoint_with_spec (get_ok den fuel) inputs h1 hi1)
      (wp_of_snd (uncheckpoint_with_grows (get_grows fuel) inputs h1)))
      (uncheckpoint_with_held fuel inputs h1)
    refine wp_mono hU ?_ ?_
    · intro raw h2 ⟨⟨⟨hraw, hi2⟩, hg2⟩, hheld⟩
      subst hraw
      simp only [wp_bind, wp_clock_now, wp_call]
      cases hrun : f.run (inputs.map den) with
      | error e =>
        exact ⟨pinv_now hi2 _, fun hc => by
          obtain ⟨outs, ho⟩ := hc.2
          cases ho⟩
      | ok outs =>
        simp only [wp_new_remat]
        have hg02 := hg1.trans hg2
        have hi2n := pinv_now hi2 (h2.now + f.ticks (inputs.map den))
        have hlive2 : ∀ s ∈ inputs, ∃ x, h2.cells s = some x := by
          intro s hs
          obtain ⟨x, hx⟩ := hlive s hs
          exact grows_live hg02 hx
        have hs0 := loopSt_init hi2n f inputs
          (h2.now + f.ticks (inputs.map den) - h2.now) outs hlive2 hg02.next_cell
          hg02.next_external
        have hd : ∀ j t, outs[j]? = some t →
            extend_den den h.next_cell outs (h.next_cell + j) = t.detach :=
          fun j t hj => extend_den_new den _ outs hj
        refine wp_mono (make_raw_outputs_spec (inputs.map den) _ (List.length_map _ _) outs 0 _
          hs0 (fun j t hj => by rw [Nat.zero_add]; exact hd j t hj)) ?_ (fun _ hf => hf.elim)
        intro r h4 ⟨hs4, hes, hws⟩
        rcases r with ⟨es, as, ws⟩
        have hes1 : es = List.range' h.next_external outs.length := by
          simpa using hes
        have hws1 : ws = List.range' h.next_cell outs.length := by
          simpa using hws
        subst hes1
        subst hws1
        rw [Nat.zero_add] at hs4
        obtain ⟨cc, hcc⟩ := hs4.pend
        simp only [wp_remat_at, hcc, wp_set_remat]
        have hi5 := pinv_close hs4 _ hcc
          (by rw [map_congr_lt (fun c hc => extend_den_old den _ outs hc) inputs hs4.in_lt]
              exact hrun) hd
        have hU5 := wp_and (unlock_inputs_spec inputs _ hi5)
          (wp_and (wp_of_snd (unlock_inputs_grows inputs _))
            (wp_of_snd (P := fun hh => hh.cells = h4.cells) (unlock_inputs_cells inputs _)))
        refine wp_mono hU5 ?_ ?_
        · intro _ h6 ⟨hi6, hg6, hc6⟩
          simp only [wp_pure]
          have hc42 : ∀ c, c < h.next_cell → h4.cells c = h2.cells c :=
            fun c hc => hs4.cells_old c hc
          refine ⟨outs,
            { run := hrun
              inv := hi6
              outputs := rfl
              next_cell := by rw [hg6.next_cell]; exact hs4.nc
              next_external := by rw [hg6.next_external]; exact hs4.ne
              refs := by rw [hg6.refs]; exact hs4.refs.trans hg02.refs
              impls := by rw [hg6.impls]; exact hs4.impls.trans hg02.impls
              ext_old := ?_
              ext_new := ?_
              cells_new := ?_
              cells_old := ?_
              held := ?_ }⟩
          · intro e he
            rw [hg6.externals]
            exact (hs4.ext_old e he).trans (congrFun hg02.externals e)
          · intro j hj
            rw [hg6.externals]
            exact hs4.ext_new j hj
          · intro j t hj
            have hjl : j < outs.length := by
              rcases Nat.lt_or_ge j outs.length with hl | hl
              · exact hl
              · rw [List.getElem?_eq_none hl] at hj
                cases hj
            obtain ⟨y, hy, hyv⟩ := hs4.cells_new j hjl
            rw [hc6]
            exact ⟨y, hy, by rw [hyv, hd j t hj]⟩
          · intro c x hx
            obtain ⟨y, hy, hyv⟩ := kept_of_grows hg02 hx
            rw [hc6, hc42 c (hi.cell_lt c x hx)]
            exact ⟨y, hy, hyv⟩
          · intro c hc
            obtain ⟨x, v, hx, hv⟩ := hheld c hc
            obtain ⟨x0, hx0⟩ := hlive c hc
            rw [hc6, hc42 c (hi.cell_lt c x0 hx0)]
            exact ⟨x, hx, by rw [hv, hi2.cell_val c x v hx hv]⟩
        · intro h6 ⟨⟨_, s, hs, hn⟩, _, _⟩
          obtain ⟨x, hx⟩ := hs4.live hs
          have hn1 : h4.cells s = none := hn
          rw [hn1] at hx
          cases hx
    · intro h2 ⟨⟨⟨hi2, c, hc, hn⟩, _⟩, _⟩
      refine ⟨hi2, fun hcond => ?_⟩
      obtain ⟨⟨x, hx⟩, hlt⟩ := hcond.1 c hc
      obtain ⟨y, hy⟩ := grows_live hg1 hx
      rw [hn hlt] at hy
      cases hy
  · intro h1 ⟨⟨⟨hi1, s, hs, hn⟩, _⟩, _⟩
    refine ⟨hi1, fun hcond => ?_⟩
    obtain ⟨⟨x, hx⟩, _⟩ := hcond.1 s hs
    rw [hn] at hx
    cases hx

end ATen

namespace ATen

/-! ## Every call but the raw `fill` keeps replay consistency -/

theorem keeps_cons_same {α : Type} (m : M α)
    (hm : ∀ h, (m h).2.cells = h.cells ∧ (m h).2.pools = h.pools ∧ (m h).2.remats = h.remats ∧
      (m h).2.next_cell = h.next_cell ∧ (m h).2.next_remat = h.next_remat) :
    Keeps Consistent m := by
  intro h ⟨den, hi⟩
  obtain ⟨h1, h2, h3, h4, h5⟩ := hm h
  exact wp_of_snd ⟨den, pinv_other hi h1 h2 h3 h4 h5⟩

theorem keeps_cons_get (fuel c : Nat) : Keeps Consistent (EntityTensorCell.get fuel c) := by
  intro h ⟨den, hi⟩
  exact wp_mono ((get_ok den fuel).spec c h hi) (fun _ _ hq => ⟨den, hq.2⟩)
    (fun _ hq => ⟨den, hq.1⟩)

theorem keeps_cons_remat (fuel r : Nat) : Keeps Consistent (Rematerializer.remat fuel r) := by
  intro h ⟨den, hi⟩
  unfold Rematerializer.remat
  cases hr : h.remats r with
  | none =>
    unfold remat_with
    simp only [wp_bind, wp_remat_at, hr]
    exact ⟨den, hi⟩
  | some rm =>
    exact wp_mono (remat_with_spec (get_ok den fuel) r h hi rm hr) (fun _ _ hq => ⟨den, hq⟩)
      (fun _ hq => ⟨den, hq.1⟩)

theorem keeps_cons_ref_tensor (fuel : Nat) (t : Tensor) :
    Keeps Consistent (ref_tensor fuel t) := by
  unfold ref_tensor
  exact keeps_bind (keeps_strong_of t) (fun c => keeps_cons_get fuel c)

theorem keeps_cons_cell_evict (c : Nat) : Keeps Consistent (cell_evict c) := by
  intro h ⟨den, hi⟩
  unfold cell_evict
  simp only [wp_bind, wp_cell_at, wp_liftE]
  split
  · rename_i x hx
    cases hr : x.remat_ with
    | none =>
      simp only [EntityTensorCell.evict, hr, Option.isSome_none]
      exact ⟨den, hi⟩
    | some r =>
      simp only [EntityTensorCell.evict, hr, Option.isSome_some, if_true, wp_set_cell]
      exact ⟨den, pinv_upd_cell hi c x _ hx rfl (Or.inl hr.symm) (fun v hv => by cases hv)
        (fun _ => rfl)⟩
  · exact ⟨den, hi⟩

theorem keeps_cons_pin (fuel c : Nat) : Keeps Consistent (EntityTensorCell.pin fuel c) := by
  intro h ⟨den, hi⟩
  unfold EntityTensorCell.pin
  rw [wp_bind]
  have h1 := wp_and ((get_ok den fuel).spec c h hi) (get_returns_held fuel c h)
  refine wp_mono h1 ?_ (fun _ hq => ⟨den, hq.1.1⟩)
  intro v h2 ⟨⟨_, hi2⟩, x, hx, hv⟩
  simp only [wp_bind, wp_cell_at, hx, wp_pool_at, wp_set_pool, wp_set_cell]
  split
  · rename_i p hp
    have hi3 := pinv_upd_pool hi2 x.pool_ p { p with head_remat_ := none } hp (Or.inr rfl)
    exact ⟨den, pinv_upd_cell hi3 c x { x with remat_ := none } hx rfl (Or.inr rfl)
      (fun w hw => hi2.cell_val c x w hx hw)
      (fun hn => by
        have hn1 : x.t_ = none := hn
        rw [hv] at hn1
        cases hn1)⟩
  · exact ⟨den, hi2⟩

theorem keeps_cons_from_strong (v : Nat) : Keeps Consistent (External.from_strong v) :=
  keeps_cons_same _ (fun _ => ⟨rfl, rfl, rfl, rfl, rfl⟩)

theorem keeps_cons_from_tensor (t : Tensor) : Keeps Consistent (External.from_tensor t) := by
  intro h ⟨den, hi⟩
  unfold External.from_tensor External.from_strong
  simp only [wp_bind, wp_clock_now, wp_new_pool, wp_new_cell, wp_new_external]
  have hi1 : Inv (fun c => if c = h.next_cell then t.detach else den c) h :=
    pinv_den_congr hi (fun c hc => by simp [Nat.ne_of_lt hc])
  have hi2 := pinv_new_pool hi1 h.next_pool (AliasPool.make none (SIZE_T_RANGE - 1) h.now)
    (fun r hr => by cases hr)
  have hi3 := pinv_new_cell hi2 (EntityTensorCell.make t h.next_pool none)
    (by
      intro v hv
      rw [make_value] at hv
      cases hv
      simp)
    (by
      intro hv
      rw [make_value] at hv
      cases hv)
    (by
      intro r hr
      rw [make_remat] at hr
      cases hr)
    (by rw [make_pool]; exact ⟨_, upd_same _ _ _⟩)
  exact ⟨_, pinv_other hi3 rfl rfl rfl rfl rfl⟩

theorem release_external_head (p p1 : AliasPool) (hp : p.release_external = Except.ok p1) :
    p1.head_remat_ = p.head_remat_ := by
  unfold AliasPool.release_external at hp
  simp only at hp
  split at hp
  · split at hp
    · cases hp
      rfl
    · split at hp
      · cases hp
        rfl
      · cases hp
  · cases hp
    rfl

theorem keeps_cons_release (e : Nat) : Keeps Consistent (External.release_resources e) := by
  unfold External.release_resources
  refine keeps_bind (keeps_external_at e) (fun ext => ?_)
  refine keeps_bind (keeps_deref _) (fun c => ?_)
  refine keeps_bind (keeps_cell_at c) (fun cell => ?_)
  intro h ⟨den, hi⟩
  simp only [wp_bind, wp_pool_at, wp_liftE]
  split
  · rename_i p hp
    split
    · rename_i p1 hp1
      simp only [wp_set_pool, wp_set_external]
      have hi1 := pinv_upd_pool hi cell.pool_ p p1 hp (Or.inl (release_external_head p p1 hp1))
      exact ⟨den, pinv_other hi1 rfl rfl rfl rfl rfl⟩
    · exact ⟨den, hi⟩
  · exact ⟨den, hi⟩

theorem keeps_cons_from_ref (ref : Nat) : Keeps Consistent (EntityTensorImpl.from_ref ref) := by
  unfold EntityTensorImpl.from_ref
  refine keeps_bind (keeps_ref_at _) (fun slot => ?_)
  refine keeps_bind (keeps_deref _) (fun e => ?_)
  refine keeps_bind (keeps_external_at _) (fun ext => ?_)
  refine keeps_bind (keeps_deref _) (fun c => ?_)
  refine keeps_bind (keeps_cell_at _) (fun cell => ?_)
  refine keeps_bind (keeps_liftE _) (fun ks0 => ?_)
  refine keeps_bind (keeps_liftE _) (fun ks => ?_)
  refine keeps_bind (keeps_liftE _) (fun dtype => ?_)
  refine keeps_bind (keeps_liftE _) (fun dev => ?_)
  refine keeps_bind (keeps_cons_same _ (fun _ => ⟨rfl, rfl, rfl, rfl, rfl⟩)) (fun eti => ?_)
  exact keeps_pure _

theorem keeps_cons_from_external (e : Nat) :
    Keeps Consistent (EntityTensorImpl.from_external e) := by
  unfold EntityTensorImpl.from_external
  exact keeps_bind (keeps_cons_same _ (fun _ => ⟨rfl, rfl, rfl, rfl, rfl⟩))
    (fun ref => keeps_cons_from_ref ref)

theorem keeps_cons_checkpoint (t : Tensor) : Keeps Consistent (native.checkpoint t) := by
  unfold native.checkpoint EntityTensorImpl.from_tensor
  exact keeps_bind (keeps_cons_from_tensor t) (fun e => keeps_cons_from_external e)

theorem keeps_cons_try_checkpoint (t : Tensor) :
    Keeps Consistent (native.try_checkpoint t) := by
  unfold native.try_checkpoint
  split
  · exact keeps_pure t
  · exact keeps_cons_checkpoint t

theorem keeps_cons_evict_checkpoint (t : Tensor) :
    Keeps Consistent (native.evict_checkpoint t) := by
  unfold native.evict_checkpoint
  split
  · exact keeps_pure _
  · refine keeps_bind (keeps_strong_of t) (fun c => ?_)
    exact keeps_bind (keeps_cons_cell_evict c) (fun _ => keeps_pure _)

theorem keeps_cons_decheckpoint (fuel : Nat) (t : Tensor) :
    Keeps Consistent (native.decheckpoint fuel t) := by
  unfold native.decheckpoint
  split
  · exact keeps_cons_ref_tensor fuel t
  · exact keeps_pure t

theorem keeps_cons_remat_checkpoint (fuel : Nat) (t : Tensor) :
    Keeps Consistent (native.remat_checkpoint fuel t) := by
  unfold native.remat_checkpoint
  split
  · exact keeps_cons_ref_tensor fuel t
  · exact keeps_pure t

theorem keeps_cons_shallow_copy_and_detach (t : Tensor) :
    Keeps Consistent (EntityTensorImpl.shallow_copy_and_detach t) := by
  unfold EntityTensorImpl.shallow_copy_and_detach
  exact keeps_bind (keeps_get_entity_tensor_impl t) (fun eti => keeps_cons_from_ref _)

theorem keeps_cons_shallow_copy_from (self impl : Tensor) :
    Keeps Consistent (EntityTensorImpl.shallow_copy_from self impl) := by
  unfold EntityTensorImpl.shallow_copy_from
  refine keeps_bind (keeps_get_entity_tensor_impl _) (fun me => ?_)
  refine keeps_bind (keeps_deref _) (fun i => ?_)
  refine keeps_bind (keeps_impl_at _) (fun eti => ?_)
  refine keeps_bind (keeps_ref_at _) (fun src => ?_)
  refine keeps_bind (keeps_ref_at _) (fun dst => ?_)
  exact keeps_bind (keeps_cons_same _ (fun _ => ⟨rfl, rfl, rfl, rfl, rfl⟩))
    (fun _ => keeps_drop_handle keeps_cons_release _ _)

theorem keeps_cons_make_raw (fuel : Nat) (f : RematFunc_t) (inputs : List Nat) :
    Keeps Consistent (make_raw fuel f inputs) := by
  intro h ⟨den, hi⟩
  refine wp_mono (make_raw_spec fuel f inputs h hi) ?_ (fun _ hq => ⟨den, hq.1⟩)
  intro R h1 ⟨outs, hm⟩
  exact ⟨_, hm.inv⟩

theorem keeps_cons_try_checkpoint_all :
    ∀ ts : Tensors, Keeps Consistent (try_checkpoint_all ts)
  | [] => keeps_pure _
  | t :: rest => by
    unfold try_checkpoint_all
    refine keeps_bind (keeps_cons_try_checkpoint t) (fun _ => ?_)
    exact keeps_bind (keeps_cons_try_checkpoint_all rest) (fun _ => keeps_pure _)

theorem keeps_cons_wrap_outputs : ∀ es : List Nat, Keeps Consistent (wrap_outputs es)
  | [] => keeps_pure _
  | e :: rest => by
    unfold wrap_outputs
    refine keeps_bind (keeps_cons_from_external e) (fun _ => ?_)
    exact keeps_bind (keeps_cons_wrap_outputs rest) (fun _ => keeps_pure _)

theorem keeps_cons_make (fuel : Nat) (f : RematFunc_t) (inputs : Tensors) :
    Keeps Consistent (EntityTensorImpl.make fuel f inputs) := by
  unfold EntityTensorImpl.make
  refine keeps_bind (keeps_cons_try_checkpoint_all _) (fun cps => ?_)
  refine keeps_bind (keeps_input_values_of _) (fun vals => ?_)
  refine keeps_bind (keeps_cons_make_raw _ _ _) (fun ret => ?_)
  exact keeps_cons_wrap_outputs _

theorem keeps_cons_reseat (inputs : Tensors) (modified : List Nat) :
    ∀ idx : List Nat, Keeps Consistent (reseat inputs modified idx)
  | [] => keeps_pure _
  | i :: rest => by
    unfold reseat
    refine keeps_bind (keeps_liftE _) (fun t => ?_)
    refine keeps_bind (keeps_liftE _) (fun m => ?_)
    refine keeps_bind (keeps_get_cell_from_tensor _) (fun ref => ?_)
    refine keeps_bind (keeps_ref_at _) (fun slot => ?_)
    refine keeps_bind (keeps_cons_same _ (fun _ => ⟨rfl, rfl, rfl, rfl, rfl⟩)) (fun _ => ?_)
    refine keeps_bind (keeps_drop_handle keeps_cons_release _ _) (fun _ => ?_)
    exact keeps_cons_reseat inputs modified rest

theorem keeps_cons_mutate (fuel : Nat) (f : MutateFunc_t) (inputs : Tensors)
    (idx : List Nat) : Keeps Consistent (EntityTensorImpl.mutate fuel f inputs idx) := by
  unfold EntityTensorImpl.mutate
  refine keeps_bind (keeps_cons_try_checkpoint_all _) (fun cps => ?_)
  refine keeps_bind (keeps_input_values_of _) (fun vals => ?_)
  refine keeps_bind (keeps_cons_make_raw _ _ _) (fun ret => ?_)
  exact keeps_with_cleanup (keeps_cons_reseat _ _ _)
    (keeps_drop_externals keeps_cons_release _)

/-- Every call but the raw `fill` leaves a consistent heap consistent. -/
theorem consistent_run (o : Op) (ho : o.is_cell_fill = false) (h : Heap)
    (hs : Consistent h) : Consistent (o.run h) := by
  cases o with
  | checkpoint t => exact wp_snd (keeps_cons_checkpoint t h hs)
  | try_checkpoint t => exact wp_snd (keeps_cons_try_checkpoint t h hs)
  | uncheckpoint fuel t => exact wp_snd (keeps_cons_ref_tensor fuel t h hs)
  | decheckpoint fuel t => exact wp_snd (keeps_cons_decheckpoint fuel t h hs)
  | evict_checkpoint t => exact wp_snd (keeps_cons_evict_checkpoint t h hs)
  | remat_checkpoint fuel t => exact wp_snd (keeps_cons_remat_checkpoint fuel t h hs)
  | make fuel f inputs => exact wp_snd (keeps_cons_make fuel f inputs h hs)
  | mutate fuel f inputs idx => exact wp_snd (keeps_cons_mutate fuel f inputs idx h hs)
  | shallow_copy_and_detach t => exact wp_snd (keeps_cons_shallow_copy_and_detach t h hs)
  | shallow_copy_from self impl => exact wp_snd (keeps_cons_shallow_copy_from self impl h hs)
  | external_from_tensor t => exact wp_snd (keeps_cons_from_tensor t h hs)
  | external_release e => exact wp_snd (keeps_cons_release e h hs)
  | make_raw fuel f inputs => exact wp_snd (keeps_cons_make_raw fuel f inputs h hs)
  | cell_get fuel c => exact wp_snd (keeps_cons_get fuel c h hs)
  | cell_fill c t => cases ho
  | cell_evict c => exact wp_snd (keeps_cons_cell_evict c h hs)
  | cell_pin fuel c => exact wp_snd (keeps_cons_pin fuel c h hs)
  | remat fuel r => exact wp_snd (keeps_cons_remat fuel r h hs)

theorem consistent_run_ops : ∀ (ops : List Op) (h : Heap),
    (∀ o ∈ ops, o.is_cell_fill = false) → Consistent h → Consistent (run_ops ops h)
  | [], _, _, hs => hs
  | o :: rest, h, hall, hs =>
    consistent_run_ops rest (o.run h) (fun o1 ho1 => hall o1 (List.mem_cons_of_mem _ ho1))
      (consistent_run o (hall o (List.mem_cons_self _ _)) h hs)

theorem consistent_empty : Consistent Heap.empty :=
  ⟨fun _ => ones4,
    { cell_lt := fun _ _ hc => by cases hc
      cell_val := fun _ _ _ hc => by cases hc
      cell_remat := fun _ _ hc => by cases hc
      cell_pool := fun _ _ hc => by cases hc
      cell_out := fun _ _ _ hc => by cases hc
      remat_lt := fun _ _ hc => by cases hc
      remat_in := fun _ _ _ hc => by cases hc
      remat_ord := fun _ _ _ _ hc => by cases hc
      remat_out := fun _ _ _ hc => by cases hc
      remat_run := fun _ _ hc => by cases hc
      pool_head := fun _ _ _ hc => by cases hc }⟩

/-- A heap built by calls other than the raw `fill` is replay consistent. -/
theorem consistent_of_reachable {h : Heap} (hr : ApiReachable h) : Consistent h := by
  obtain ⟨ops, hall, rfl⟩ := hr
  exact consistent_run_ops ops _ hall consistent_empty

end ATen

namespace ATen

/-! ## The round trip evict, remat, uncheckpoint -/

/-- What `strong_of` went through when it returns. -/
theorem strong_of_cases {t : Tensor} {h h1 : Heap} {c : Nat}
    (hs : strong_of t h = (Except.ok c, h1)) :
    ∃ i eti e, t.impl_ = some i ∧ h.impls i = some eti ∧
      h.refs eti.ref = some { value := some e } ∧
      h.externals e = some { value := some c } := by
  have hw : wp (strong_of t) (fun c _ => ∃ i eti e, t.impl_ = some i ∧ h.impls i = some eti ∧
      h.refs eti.ref = some { value := some e } ∧
      h.externals e = some { value := some c }) (fun _ => True) h := by
    unfold strong_of get_entity_tensor_impl
    cases ht : t.impl_ with
    | none => trivial
    | some i =>
      simp only [wp_bind, wp_impl_at]
      cases hi : h.impls i with
      | none => trivial
      | some eti =>
        simp only [wp_ref_at]
        cases hr : h.refs eti.ref with
        | none => trivial
        | some slot =>
          rcases slot with ⟨sv⟩
          simp only [wp_deref]
          cases sv with
          | none => trivial
          | some e =>
            simp only [wp_external_at]
            cases he : h.externals e with
            | none => trivial
            | some ext =>
              rcases ext with ⟨ev⟩
              cases ev with
              | none => trivial
              | some c1 => exact ⟨i, eti, e, rfl, hi, hr, he⟩
  exact wp_ok hw hs

/-- The cell behind a tensor is found through wrappers, slots and handles only. -/
theorem strong_of_congr {t : Tensor} {h h0 h1 : Heap} {c : Nat}
    (hs : strong_of t h = (Except.ok c, h0)) (hi : h1.impls = h.impls)
    (hr : h1.refs = h.refs) (he : h1.externals = h.externals) :
    strong_of t h1 = (Except.ok c, h1) := by
  obtain ⟨i, eti, e, ht, himp, href, hext⟩ := strong_of_cases hs
  exact strong_of_ok (r := eti.ref) ht (by rw [hi]; exact himp) (by rw [hr]; exact href)
    (by rw [he]; exact hext) rfl

theorem strong_of_run {t : Tensor} {h : Heap} {c : Nat}
    (hs : (strong_of t h).1 = Except.ok c) : strong_of t h = (Except.ok c, h) := by
  have h1 := run_eq hs
  rw [strong_of_heap] at h1
  exact h1

theorem is_checkpoint_of_strong {t : Tensor} {h h1 : Heap} {c : Nat}
    (hs : strong_of t h = (Except.ok c, h1)) : native.is_checkpoint t = true := by
  obtain ⟨i, _, _, ht, _⟩ := strong_of_cases hs
  simp [native.is_checkpoint, ht]

/-- The run of `evict_checkpoint` on a tensor whose cell has a rematerializer. -/
theorem evict_checkpoint_run {t : Tensor} {h : Heap} {c : Nat} {x : EntityTensorCell}
    (hs : strong_of t h = (Except.ok c, h)) (hx : h.cells c = some x)
    (hr : x.remat_.isSome = true) :
    native.evict_checkpoint t h
      = (Except.ok true, { h with cells := upd h.cells c { x with t_ := none } }) := by
  have hc := is_checkpoint_of_strong hs
  simp only [native.evict_checkpoint, hc, Bool.not_true, Bool.false_eq_true, ↓reduceIte]
  rw [bind_ok hs]
  have he : cell_evict c h
      = (Except.ok (), { h with cells := upd h.cells c { x with t_ := none } }) := by
    unfold cell_evict
    have h1 : cell_at c h = (Except.ok x, h) := by simp [cell_at, hx]
    rw [bind_ok h1]
    have h2 : liftE x.evict h = (Except.ok { x with t_ := none }, h) := by
      simp [liftE, EntityTensorCell.evict, hr]
    rw [bind_ok h2]
    rfl
  rw [bind_ok he]
  rfl

/-- On a consistent heap, `ref_tensor` with enough fuel returns what the cell behind the
tensor stands for, and changes the heap only as a replay does. -/
theorem ref_tensor_spec {den : Nat → Tensor} {fuel c : Nat} {h h0 : Heap} {t : Tensor}
    {x : EntityTensorCell} (hi : Inv den h) (hs : strong_of t h = (Except.ok c, h0))
    (hx : h.cells c = some x) (hf : c < fuel) :
    ∃ h1, ref_tensor fuel t h = (Except.ok (den c), h1) ∧ Inv den h1 ∧ Grows h h1 := by
  have hs1 : strong_of t h = (Except.ok c, h) := strong_of_congr hs rfl rfl rfl
  obtain ⟨h1, hg, hi1, hgr⟩ := get_spec hi hx hf
  refine ⟨h1, ?_, hi1, hgr⟩
  unfold ref_tensor
  rw [bind_ok hs1]
  exact hg

theorem api_reachable_a : ApiReachable heap_a :=
  ⟨[Op.checkpoint ones4], by
    intro o ho
    rcases List.mem_singleton.1 ho with rfl
    rfl, rfl⟩

theorem api_reachable_ab : ApiReachable heap_ab :=
  ⟨[Op.checkpoint ones4, Op.make 2 add_op [tensor_a, tensor_a]], by
    intro o ho
    simp only [List.mem_cons, List.mem_singleton, List.not_mem_nil, or_false] at ho
    rcases ho with rfl | rfl <;> rfl, rfl⟩

/-- C1, as stated, fails: `a = checkpoint(ones(4))` is a checkpointed tensor of a heap
built by the public calls and its cell holds `ones(4)`, yet the round trip
`evict_checkpoint(a); remat_checkpoint(a); uncheckpoint(a)` throws at the check
`TORCH_CHECK(remat_)` of `evict`: the cell of a tensor wrapped by `checkpoint` has no
rematerializer. -/
theorem C1_root_roundtrip_throws :
    ApiReachable heap_a ∧
    ((strong_of tensor_a heap_a).1 = Except.ok 0 ∧
     (heap_a.cells 0).map (fun x => x.t_) = some (some ones4) ∧
     ((do
        let _ ← native.evict_checkpoint tensor_a
        let _ ← native.remat_checkpoint 1 tensor_a
        native.uncheckpoint 1 tensor_a : M Tensor) heap_a).1
      = Except.error (Err.check 168)) :=
  ⟨api_reachable_a, by decide!⟩

/-- C1, amended: in a heap built by the calls of the interface (cells are filled by their
constructors and by replays only), let `t` be a checkpointed tensor whose cell `c` has a
rematerializer and holds `v`.  Then `evict_checkpoint(t)` returns true and leaves the
cell without value, after which `remat_checkpoint(t)` returns `v` and then
`uncheckpoint(t)` returns `v`, for every depth of nested replays `fuel` above `c`. -/
theorem C1_roundtrip (h : Heap) (t : Tensor) (c fuel : Nat) (x : EntityTensorCell)
    (v : Tensor) (hr : ApiReachable h) (hs : (strong_of t h).1 = Except.ok c)
    (hx : h.cells c = some x) (hv : x.t_ = some v) (hrem : x.remat_.isSome = true)
    (hf : c < fuel) :
    ∃ h1 h2 h3, native.evict_checkpoint t h = (Except.ok true, h1) ∧
      h1.cells c = some { x with t_ := none } ∧
      native.remat_checkpoint fuel t h1 = (Except.ok v, h2) ∧
      native.uncheckpoint fuel t h2 = (Except.ok v, h3) := by
  obtain ⟨den, hi⟩ := consistent_of_reachable hr
  have hvd : v = den c := hi.cell_val c x v hx hv
  have hs0 := strong_of_run hs
  have hc := is_checkpoint_of_strong hs0
  have he := evict_checkpoint_run hs0 hx hrem
  have hi1 : Inv den { h with cells := upd h.cells c { x with t_ := none } } :=
    pinv_upd_cell hi c x _ hx rfl (Or.inl rfl) (fun w hw => by cases hw) (fun _ => hrem)
  obtain ⟨h2, hg2, hi2, hgr2⟩ := ref_tensor_spec (t := t) hi1
    (strong_of_congr hs0 rfl rfl rfl) (upd_same _ _ _) hf
  obtain ⟨y, hy⟩ := grows_live hgr2 (upd_same h.cells c { x with t_ := none })
  obtain ⟨h3, hg3, _, _⟩ := ref_tensor_spec (t := t) hi2
    (strong_of_congr hs0 hgr2.impls hgr2.refs hgr2.externals) hy hf
  refine ⟨_, h2, h3, he, upd_same _ _ _, ?_, ?_⟩
  · simp only [native.remat_checkpoint, hc, ↓reduceIte]
    rw [hvd]
    exact hg2
  · unfold native.uncheckpoint
    rw [hvd]
    exact hg3

/-- C1 at a concrete input: `b = make("add", add, [a, a])` with `a = checkpoint(ones(4))`;
the round trip on `b` returns `2 * ones(4)` twice. -/
theorem C1_roundtrip_witness :
    ApiReachable heap_ab ∧ (strong_of tensor_b heap_ab).1 = Except.ok 1 ∧
    heap_ab.cells 1 = some cell_b ∧
    ∃ h1 h2 h3, native.evict_checkpoint tensor_b heap_ab = (Except.ok true, h1) ∧
      h1.cells 1 = some { cell_b with t_ := none } ∧
      native.remat_checkpoint 2 tensor_b h1 = (Except.ok twos4, h2) ∧
      native.uncheckpoint 2 tensor_b h2 = (Except.ok twos4, h3) :=
  ⟨api_reachable_ab, by decide!, by decide!,
    C1_roundtrip heap_ab tensor_b 1 2 cell_b twos4 api_reachable_ab (by decide!) (by decide!)
      rfl rfl (by decide)⟩

end ATen

namespace ATen

/-! ## mutate -/

theorem bind_inv {α β : Type} {m : M α} {f : α → M β} {h h2 : Heap} {b : β}
    (hb : (m >>= f) h = (Except.ok b, h2)) :
    ∃ a h1, m h = (Except.ok a, h1) ∧ f a h1 = (Except.ok b, h2) := by
  rcases hm : m h with ⟨r, h1⟩
  cases r with
  | error e =>
    rw [bind_error hm] at hb
    cases hb
  | ok a =>
    rw [bind_ok hm] at hb
    exact ⟨a, h1, rfl, hb⟩

/-- The list `input_values` holds, position by position, the cells behind the tensors. -/
theorem input_values_of_get : ∀ (ts : Tensors) (cs : List Nat) (h h1 : Heap),
    input_values_of ts h = (Except.ok cs, h1) →
    List.Forall₂ (fun t c => strong_of t h = (Except.ok c, h)) ts cs
  | [], cs, h, h1, hrun => by
    unfold input_values_of at hrun
    cases hrun
    exact List.Forall₂.nil
  | t :: rest, cs, h, h1, hrun => by
    unfold input_values_of at hrun
    obtain ⟨c, h2, hs, hrest⟩ := bind_inv hrun
    have h2h : h2 = h := by
      have := strong_of_heap t h
      rw [hs] at this
      exact this
    subst h2h
    obtain ⟨cs1, h3, hrec, hp⟩ := bind_inv hrest
    cases hp
    exact List.Forall₂.cons hs (input_values_of_get rest cs1 _ _ hrec)

end ATen

namespace ATen

end ATen

namespace c10

/-- C24: the constructor of the paging descriptor establishes the invariant "the
placement is `kTrans` if and only if the transfer state is not `kNone`"; `do_pagein_cb`,
`do_pageout_cb`, `pagein_internal` and `pageout_internal` establish it from any state
(they set `kNone` and an end placement); `ensure_data` and `mark_dirty` preserve it
(they write neither field). -/
theorem C24_stat_invariant (id : Nat) (e : EntityStorageImpl) (hinv : e.StatInv) :
    (EntityStorageImpl.mk_fresh id).StatInv ∧
    e.do_pagein_cb.StatInv ∧ e.do_pageout_cb.StatInv ∧
    e.pagein_internal.StatInv ∧ e.pageout_internal.StatInv ∧
    e.ensure_data.StatInv ∧ e.mark_dirty.StatInv := by
  refine ⟨?_, ?_, ?_, ?_, ?_, hinv, hinv⟩ <;>
    simp [EntityStorageImpl.StatInv, EntityStorageImpl.mk_fresh,
      EntityStorageImpl.do_pagein_cb, EntityStorageImpl.do_pageout_cb,
      EntityStorageImpl.pagein_internal, EntityStorageImpl.pageout_internal]

/-- C24 at concrete inputs: an entity with a page-out pending, which satisfies the
invariant, and the entity each method leaves. -/
theorem C24_stat_invariant_witness :
    paging_out_entity.StatInv ∧
    (EntityStorageImpl.mk_fresh 1).StatInv ∧
    paging_out_entity.do_pagein_cb.StatInv ∧ paging_out_entity.do_pageout_cb.StatInv ∧
    paging_out_entity.pagein_internal.StatInv ∧ paging_out_entity.pageout_internal.StatInv ∧
    paging_out_entity.ensure_data.StatInv ∧ paging_out_entity.mark_dirty.StatInv :=
  ⟨by simp [EntityStorageImpl.StatInv, paging_out_entity],
    C24_stat_invariant 1 paging_out_entity
      (by simp [EntityStorageImpl.StatInv, paging_out_entity])⟩

end c10

namespace ATen

/-- C27: `fill(t)` on a cell that holds no value stores the detached `t` and leaves pool
and rematerializer alone.  If the cell was not defined, it becomes defined and caches the
dtype, device and undefined flag of `t`, and the key set of `t` with the Autograd key
added exactly when `t.requires_grad()`.  If the cell was defined, only the value changes:
the cached metadata stay as they were, whatever the metadata of `t`. -/
theorem C27_fill (x : EntityTensorCell) (t : Tensor) (hx : x.t_ = none) :
    (x.fill t).t_ = some t.detach ∧ (x.fill t).pool_ = x.pool_ ∧
    (x.fill t).remat_ = x.remat_ ∧
    (x.defined_ = false →
      (x.fill t).defined_ = true ∧ (x.fill t).dtype_ = t.dtype ∧
      (x.fill t).optional_device_ = t.optional_device ∧
      (x.fill t).is_undefined_tensor_ = !t.defined ∧
      (x.fill t).key_set_.autograd = (t.key_set.autograd || t.requires_grad) ∧
      (x.fill t).key_set_.checkpoint = t.key_set.checkpoint ∧
      (x.fill t).key_set_.rest = t.key_set.rest) ∧
    (x.defined_ = true → x.fill t = { x with t_ := some t.detach }) := by
  refine ⟨fill_value x t hx, fill_pool x t, fill_remat x t, ?_, ?_⟩
  · intro hd
    cases hg : t.requires_grad <;>
      simp [EntityTensorCell.fill, hx, hd, hg, DispatchKeySet.add_autograd]
  · intro hd
    simp [EntityTensorCell.fill, hx, hd]

/-- C27 at concrete inputs: a cell never filled, and the evicted cell of `b` refilled with
a tensor of other metadata. -/
theorem C27_fill_witness :
    (blank_cell.fill grad_tensor).t_ = some grad_tensor.detach ∧
    (blank_cell.fill grad_tensor).defined_ = true ∧
    (blank_cell.fill grad_tensor).dtype_ = 11 ∧
    (blank_cell.fill grad_tensor).key_set_ = { autograd := true, checkpoint := false, rest := 5 } ∧
    ({ cell_b with t_ := none } : EntityTensorCell).fill grad_tensor
      = { cell_b with t_ := some grad_tensor.detach } ∧
    (({ cell_b with t_ := none } : EntityTensorCell).fill grad_tensor).dtype_ = 6 :=
  ⟨(C27_fill blank_cell grad_tensor rfl).1, by decide, by decide, by decide,
    (C27_fill { cell_b with t_ := none } grad_tensor rfl).2.2.2.2 rfl, by decide⟩

theorem size_t_dec_zero : size_t_dec 0 = 18446744073709551615 := by
  simp [size_t_dec, SIZE_T_RANGE]

/-- C29: `release_external` on a pool whose `external_count_` is 0 returns normally and
leaves the count at `2^64 - 1` (the decrement of a `size_t` wraps), every other field of
the pool as it was; so does `External::release_resources` on a handle whose cell is in
such a pool, which then also resets the handle. -/
theorem C29_release_external_wraps (p : AliasPool) (h0 : p.external_count_ = 0) :
    p.release_external = Except.ok { p with external_count_ := 18446744073709551615 } ∧
    (∀ (h : Heap) (e c : Nat) (x : EntityTensorCell),
      h.externals e = some { value := some c } → h.cells c = some x →
      h.pools x.pool_ = some p →
      External.release_resources e h = (Except.ok (),
        { h with
          pools := upd h.pools x.pool_ { p with external_count_ := 18446744073709551615 }
          externals := upd h.externals e { value := none } })) := by
  have hrel : p.release_external
      = Except.ok { p with external_count_ := 18446744073709551615 } := by
    simp [AliasPool.release_external, h0, size_t_dec_zero]
  refine ⟨hrel, ?_⟩
  intro h e c x he hc hp
  unfold External.release_resources
  have h1 : external_at e h = (Except.ok { value := some c }, h) := by simp [external_at, he]
  rw [bind_ok h1]
  have h2 : deref (some c) h = (Except.ok c, h) := rfl
  rw [bind_ok h2, bind_ok (cell_at_ok hc), bind_ok (pool_at_ok hp)]
  have h3 : liftE p.release_external h
      = (Except.ok { p with external_count_ := 18446744073709551615 }, h) := by
    rw [hrel]
    rfl
  rw [bind_ok h3]
  rfl

/-- C29 at a concrete input: a pool with lock count 2, a head rematerializer and no
external handle counted. -/
theorem C29_release_external_wraps_witness :
    uncounted_pool.external_count_ = 0 ∧
    uncounted_pool.release_external
      = Except.ok { uncounted_pool with external_count_ := 18446744073709551615 } ∧
    uncounted_pool.release_external.map (fun p => (p.lock_count_, p.head_remat_, p.is_evicted_))
      = Except.ok (2, some 1, false) :=
  ⟨rfl, (C29_release_external_wraps uncounted_pool rfl).1, by decide!⟩

end ATen

namespace c10

/-! ## The intrusive list -/

@[simp] theorem set_next_next (m : Hooks) (x v y : Nat) :
    (m.set_next x v).next_ y = if y = x then v else m.next_ y := rfl

@[simp] theorem set_next_prev (m : Hooks) (x v y : Nat) :
    (m.set_next x v).prev_ y = m.prev_ y := rfl

@[simp] theorem set_prev_prev (m : Hooks) (x v y : Nat) :
    (m.set_prev x v).prev_ y = if y = x then v else m.prev_ y := rfl

@[simp] theorem set_prev_next (m : Hooks) (x v y : Nat) :
    (m.set_prev x v).next_ y = m.next_ y := rfl

theorem last_or_mem (p : Nat) : ∀ s : List Nat, last_or p s ∈ p :: s
  | [] => List.mem_cons_self _ _
  | x :: xs => List.mem_cons_of_mem _ (last_or_mem x xs)

theorem head_or_mem (s : List Nat) (e : Nat) : head_or s e ∈ s ++ [e] := by
  cases s with
  | nil => simp [head_or]
  | cons x xs => simp [head_or]

theorem last_or_append (p x : Nat) : ∀ s : List Nat, last_or p (s ++ [x]) = x
  | [] => rfl
  | y :: ys => last_or_append y x ys

theorem last_or_eq (p : Nat) : ∀ s : List Nat, last_or p s = s.getLast?.getD p
  | [] => rfl
  | [x] => rfl
  | x :: y :: ys => by
    have := last_or_eq x (y :: ys)
    rw [List.getLast?_cons_cons]
    show last_or x (y :: ys) = _
    rw [this]
    cases h : (y :: ys).getLast? with
    | none => simp at h
    | some z => rfl

/-- A chain only depends on the `next_` of its start and hooks and on the `prev_` of its
hooks and end. -/
theorem linked_congr {m m1 : Hooks} : ∀ (s : List Nat) (p e : Nat),
    (∀ y ∈ p :: s, m1.next_ y = m.next_ y) → (∀ y ∈ s ++ [e], m1.prev_ y = m.prev_ y) →
    Linked m p s e → Linked m1 p s e
  | [], p, e, hn, hp, hl => by
    unfold Linked at *
    rw [hn p (List.mem_cons_self _ _), hp e (by simp)]
    exact hl
  | x :: xs, p, e, hn, hp, hl => by
    unfold Linked at *
    rw [hn p (List.mem_cons_self _ _), hp x (by simp)]
    refine ⟨hl.1, hl.2.1, linked_congr xs x e ?_ ?_ hl.2.2⟩
    · intro y hy
      exact hn y (List.mem_cons_of_mem _ hy)
    · intro y hy
      exact hp y (by simp at hy ⊢; tauto)

/-- The ends of a chain. -/
theorem linked_ends {m : Hooks} : ∀ (s : List Nat) (p e : Nat), Linked m p s e →
    m.next_ p = head_or s e ∧ m.prev_ e = last_or p s
  | [], p, e, hl => by
    unfold Linked at hl
    exact hl
  | x :: xs, p, e, hl => by
    unfold Linked at hl
    exact ⟨hl.1, (linked_ends xs x e hl.2.2).2⟩

/-- The neighbours of a hook inside a chain. -/
theorem linked_mid {m : Hooks} (x : Nat) (s2 : List Nat) : ∀ (s1 : List Nat) (p e : Nat),
    Linked m p (s1 ++ x :: s2) e → m.prev_ x = last_or p s1 ∧ m.next_ x = head_or s2 e
  | [], p, e, hl => by
    simp only [List.nil_append] at hl
    unfold Linked at hl
    exact ⟨hl.2.1, (linked_ends s2 x e hl.2.2).1⟩
  | y :: ys, p, e, hl => by
    simp only [List.cons_append] at hl
    unfold Linked at hl
    exact linked_mid x s2 ys y e hl.2.2

/-- Linking a hook in at the end of a chain. -/
theorem linked_snoc {m m1 : Hooks} (x e : Nat) : ∀ (s : List Nat) (p : Nat),
    Linked m p s e → (p :: s).Nodup →
    m1.next_ (last_or p s) = x → m1.prev_ x = last_or p s → m1.next_ x = e → m1.prev_ e = x →
    (∀ y ∈ p :: s, y ≠ last_or p s → m1.next_ y = m.next_ y) →
    (∀ y ∈ s, m1.prev_ y = m.prev_ y) →
    Linked m1 p (s ++ [x]) e
  | [], p, _, _, h1, h2, h3, h4, _, _ => by
    simp only [List.nil_append]
    unfold Linked
    exact ⟨h1, h2, by unfold Linked; exact ⟨h3, h4⟩⟩
  | y :: ys, p, hl, hnd, h1, h2, h3, h4, hn, hp => by
    simp only [List.cons_append]
    unfold Linked at hl ⊢
    have hnd1 : (y :: ys).Nodup := (List.nodup_cons.1 hnd).2
    have hpl : p ≠ last_or y ys := by
      intro heq
      have := last_or_mem y ys
      rw [← heq] at this
      exact (List.nodup_cons.1 hnd).1 this
    refine ⟨?_, ?_, linked_snoc x e ys y hl.2.2 hnd1 h1 h2 h3 h4 ?_ ?_⟩
    · rw [hn p (List.mem_cons_self _ _) hpl]
      exact hl.1
    · rw [hp y (List.mem_cons_self _ _)]
      exact hl.2.1
    · intro z hz hzl
      exact hn z (List.mem_cons_of_mem _ hz) hzl
    · intro z hz
      exact hp z (List.mem_cons_of_mem _ hz)

/-- Unlinking a hook from a chain. -/
theorem linked_remove {m m1 : Hooks} (x e : Nat) (s2 : List Nat) :
    ∀ (s1 : List Nat) (p : Nat),
    Linked m p (s1 ++ x :: s2) e → (p :: (s1 ++ x :: s2)).Nodup → e ∉ s1 ++ x :: s2 →
    (∀ y, y ≠ x → m1.next_ y = if y = last_or p s1 then head_or s2 e else m.next_ y) →
    (∀ y, y ≠ x → m1.prev_ y = if y = head_or s2 e then last_or p s1 else m.prev_ y) →
    Linked m1 p (s1 ++ s2) e
  | [], p, hl, hnd, he, hn, hp => by
    simp only [List.nil_append] at *
    unfold Linked at hl
    have hpx : p ≠ x := fun h => (List.nodup_cons.1 hnd).1 (h ▸ List.mem_cons_self _ _)
    have hex : e ≠ x := fun h => he (h ▸ List.mem_cons_self _ _)
    have hnd2 : (x :: s2).Nodup := (List.nodup_cons.1 hnd).2
    cases s2 with
    | nil =>
      unfold Linked at hl ⊢
      refine ⟨?_, ?_⟩
      · rw [hn p hpx]
        simp [last_or, head_or]
      · rw [hp e hex]
        simp [last_or, head_or]
    | cons z zs =>
      unfold Linked at hl ⊢
      have hzx : z ≠ x := fun h =>
        (List.nodup_cons.1 hnd2).1 (h ▸ List.mem_cons_self _ _)
      refine ⟨?_, ?_, linked_congr zs z e ?_ ?_ hl.2.2.2.2⟩
      · rw [hn p hpx]
        simp [last_or, head_or]
      · rw [hp z hzx]
        simp [last_or, head_or]
      · intro y hy
        have hyx : y ≠ x := fun h => (List.nodup_cons.1 hnd2).1 (h ▸ hy)
        have hyp : y ≠ p := fun h =>
          (List.nodup_cons.1 hnd).1 (h ▸ List.mem_cons_of_mem _ hy)
        rw [hn y hyx]
        simp [last_or, hyp]
      · intro y hy
        have hyz : y ≠ z := by
          intro h
          subst h
          rcases List.mem_append.1 hy with h1 | h1
          · exact (List.nodup_cons.1 (List.nodup_cons.1 hnd2).2).1 h1
          · rw [List.mem_singleton] at h1
            exact he (h1 ▸ List.mem_cons_of_mem _ (List.mem_cons_self _ _))
        have hyx : y ≠ x := by
          intro h
          subst h
          rcases List.mem_append.1 hy with h1 | h1
          · exact (List.nodup_cons.1 hnd2).1 (List.mem_cons_of_mem _ h1)
          · rw [List.mem_singleton] at h1
            exact hex h1.symm
        rw [hp y hyx]
        simp [head_or, hyz]
  | y :: ys, p, hl, hnd, he, hn, hp => by
    simp only [List.cons_append] at *
    unfold Linked at hl ⊢
    have hnd1 : (y :: (ys ++ x :: s2)).Nodup := (List.nodup_cons.1 hnd).2
    have hp_notin : p ∉ y :: (ys ++ x :: s2) := (List.nodup_cons.1 hnd).1
    have hpx : p ≠ x := fun h => hp_notin (h ▸ by simp)
    have hyx : y ≠ x := fun h => (List.nodup_cons.1 hnd1).1 (h ▸ by simp)
    have hpl : p ≠ last_or y ys := by
      intro heq
      have := last_or_mem y ys
      rw [← heq] at this
      exact hp_notin (by
        rcases List.mem_cons.1 this with h1 | h1
        · exact h1 ▸ List.mem_cons_self _ _
        · exact List.mem_cons_of_mem _ (List.mem_append_left _ h1))
    have hyh : y ≠ head_or s2 e := by
      intro heq
      have := head_or_mem s2 e
      rw [← heq] at this
      rcases List.mem_append.1 this with h1 | h1
      · exact (List.nodup_cons.1 hnd1).1 (by simp [h1])
      · rw [List.mem_singleton] at h1
        exact he (h1 ▸ List.mem_cons_self _ _)
    refine ⟨?_, ?_, linked_remove x e s2 ys y hl.2.2 hnd1
      (fun h => he (List.mem_cons_of_mem _ h)) hn hp⟩
    · rw [hn p hpx]
      simp only [last_or, hpl, if_false]
      exact hl.1
    · rw [hp y hyx]
      simp only [hyh, if_false]
      exact hl.2.1

/-- The client loop over a chain visits its hooks in order and stops at the end. -/
theorem walk_linked {m : Hooks} {l : IntrusiveList} : ∀ (s : List Nat) (p fuel : Nat),
    Linked m p s l.anchor_ → l.anchor_ ∉ s → s.length < fuel →
    IntrusiveList.walk m l fuel (m.next_ p) = s
  | [], p, fuel, hl, _, hf => by
    unfold Linked at hl
    cases fuel with
    | zero => cases hf
    | succ n =>
      unfold IntrusiveList.walk
      simp [hl.1, IntrusiveList.terminator]
  | x :: xs, p, fuel, hl, ha, hf => by
    unfold Linked at hl
    cases fuel with
    | zero => cases hf
    | succ n =>
      unfold IntrusiveList.walk
      have hxa : x ≠ l.anchor_ := fun h => ha (h ▸ List.mem_cons_self _ _)
      rw [hl.1]
      simp only [IntrusiveList.terminator, hxa, if_false]
      rw [walk_linked xs x n hl.2.2 (fun h => ha (List.mem_cons_of_mem _ h))
        (Nat.lt_of_succ_lt_succ hf)]

end c10

namespace c10

theorem attached_iff (m : Hooks) (x : Nat) : m.attached x = true ↔ m.next_ x ≠ x := by
  simp [Hooks.attached]

/-- The memory that `insertbefore` leaves when the hook is detached and not `this`. -/
theorem insertbefore_run (m : Hooks) (this x : Nat) (hx : m.next_ x = x) (hxt : x ≠ this) :
    ∃ m1, IntrusiveListHook.insertbefore m this x = (Except.ok (), m1) ∧
      (∀ y, m1.next_ y = if y = m.prev_ this then x else if y = x then this else m.next_ y) ∧
      (∀ y, m1.prev_ y = if y = this then x else if y = x then m.prev_ this else m.prev_ y) := by
  have ha : m.attached x = false := by simp [Hooks.attached, hx]
  have htx : this ≠ x := fun h => hxt h.symm
  refine ⟨(IntrusiveListHook.insertbefore m this x).2, ?_, ?_, ?_⟩
  · simp only [IntrusiveListHook.insertbefore, ha, Bool.false_eq_true, if_false]
  · intro y
    simp [IntrusiveListHook.insertbefore, ha, htx]
  · intro y
    simp [IntrusiveListHook.insertbefore, ha]

/-- The memory that `remove` leaves when the hook is attached. -/
theorem remove_run (m : Hooks) (x : Nat) (hx : m.next_ x ≠ x) :
    ∃ m1, IntrusiveListHook.remove m x = (true, m1) ∧
      m1.next_ x = x ∧ m1.prev_ x = x ∧
      (∀ y, y ≠ x → m1.next_ y = if y = m.prev_ x then m.next_ x else m.next_ y) ∧
      (∀ y, y ≠ x → m1.prev_ y = if y = m.next_ x then m.prev_ x else m.prev_ y) := by
  have ha : m.attached x = true := (attached_iff m x).2 hx
  refine ⟨(IntrusiveListHook.remove m x).2, ?_, ?_, ?_, ?_, ?_⟩
  · simp only [IntrusiveListHook.remove, ha, Bool.not_true, Bool.false_eq_true, if_false]
  · simp [IntrusiveListHook.remove, ha]
  · simp [IntrusiveListHook.remove, ha]
  · intro y hy
    simp [IntrusiveListHook.remove, ha, hy]
  · intro y hy
    simp only [IntrusiveListHook.remove, ha, Bool.not_true, Bool.false_eq_true, if_false,
      set_next_prev, set_prev_prev, set_next_next, hy]
    by_cases hxp : x = m.prev_ x
    · simp [← hxp]
    · simp [hxp]

theorem rep_attached {m : Hooks} {a : Nat} {s : List Nat} (hr : ListRep m a s) {x : Nat}
    (hxa : x ≠ a) : m.attached x = true ↔ x ∈ s := by
  rw [attached_iff]
  constructor
  · intro hne
    by_contra hns
    exact hne (hr.rest x hxa hns).1
  · intro hm
    obtain ⟨s1, s2, rfl⟩ := List.append_of_mem hm
    rw [(linked_mid x s2 s1 a a hr.linked).2]
    intro heq
    have hmem := head_or_mem s2 a
    rw [heq] at hmem
    have hnd := (List.nodup_cons.1 hr.nodup).2
    rcases List.mem_append.1 hmem with h1 | h1
    · have := (List.nodup_append.1 hnd).2.1
      exact (List.nodup_cons.1 this).1 h1
    · rw [List.mem_singleton] at h1
      exact hxa h1

theorem rep_fresh (a : Nat) : ListRep Hooks.fresh a [] :=
  { linked := by unfold Linked; exact ⟨rfl, rfl⟩
    nodup := by simp
    rest := fun _ _ _ => ⟨rfl, rfl⟩ }

/-- Inserting a detached hook before the anchor appends it to the sequence. -/
theorem rep_append {m : Hooks} {a : Nat} {s : List Nat} (hr : ListRep m a s) {x : Nat}
    (hxa : x ≠ a) (hxs : x ∉ s) :
    (IntrusiveListHook.insertbefore m a x).1 = Except.ok () ∧
    ListRep (IntrusiveListHook.insertbefore m a x).2 a (s ++ [x]) := by
  obtain ⟨m1, hrun, hn, hp⟩ := insertbefore_run m a x (hr.rest x hxa hxs).1 hxa
  rw [hrun]
  refine ⟨rfl, ?_⟩
  have hprev : m.prev_ a = last_or a s := (linked_ends s a a hr.linked).2
  have hxl : x ≠ last_or a s := by
    intro heq
    have := last_or_mem a s
    rw [← heq] at this
    rcases List.mem_cons.1 this with h1 | h1
    · exact hxa h1
    · exact hxs h1
  have hnd := List.nodup_cons.1 hr.nodup
  exact
  { linked := by
      refine linked_snoc x a s a hr.linked hr.nodup ?_ ?_ ?_ ?_ ?_ ?_
      · rw [hn, hprev]
        simp
      · rw [hp, hprev]
        simp [hxa]
      · rw [hn, hprev]
        simp [hxl]
      · rw [hp]
        simp
      · intro y hy hyl
        have hyx : y ≠ x := by
          intro h
          subst h
          rcases List.mem_cons.1 hy with h1 | h1
          · exact hxa h1
          · exact hxs h1
        rw [hn, hprev]
        simp [hyl, hyx]
      · intro y hy
        have hya : y ≠ a := fun h => hnd.1 (h ▸ hy)
        have hyx : y ≠ x := fun h => hxs (h ▸ hy)
        rw [hp]
        simp [hya, hyx]
    nodup := by
      rw [List.nodup_cons]
      refine ⟨?_, ?_⟩
      · intro hmem
        rcases List.mem_append.1 hmem with h1 | h1
        · exact hnd.1 h1
        · rw [List.mem_singleton] at h1
          exact hxa h1.symm
      · rw [List.nodup_append]
        refine ⟨hnd.2, by simp, ?_⟩
        intro z hz1 hz2
        rw [List.mem_singleton] at hz2
        exact hxs (hz2 ▸ hz1)
    rest := by
      intro y hya hys
      have hys1 : y ∉ s := fun h => hys (List.mem_append_left _ h)
      have hyx : y ≠ x := fun h => hys (by simp [h])
      have hyl : y ≠ last_or a s := by
        intro heq
        have := last_or_mem a s
        rw [← heq] at this
        rcases List.mem_cons.1 this with h1 | h1
        · exact hya h1
        · exact hys1 h1
      rw [hn, hp, hprev]
      simp only [hyl, hyx, hya, if_false]
      exact hr.rest y hya hys1 }

/-- Inserting a detached hook before the head puts it in front of the sequence. -/
theorem rep_prepend {m : Hooks} {a : Nat} {s : List Nat} (hr : ListRep m a s) {x : Nat}
    (hxa : x ≠ a) (hxs : x ∉ s) :
    (IntrusiveListHook.insertbefore m (m.next_ a) x).1 = Except.ok () ∧
    ListRep (IntrusiveListHook.insertbefore m (m.next_ a) x).2 a (x :: s) := by
  cases s with
  | nil =>
    have hl := hr.linked
    unfold Linked at hl
    rw [hl.1]
    exact rep_append hr hxa hxs
  | cons z zs =>
    have hl := hr.linked
    unfold Linked at hl
    obtain ⟨hna, hpz, hrest⟩ := hl
    have hnd := List.nodup_cons.1 hr.nodup
    have hnd2 := List.nodup_cons.1 hnd.2
    have hxz : x ≠ z := fun h => hxs (h ▸ List.mem_cons_self _ _)
    have hza : z ≠ a := fun h => hnd.1 (h ▸ List.mem_cons_self _ _)
    obtain ⟨m1, hrun, hn, hp⟩ := insertbefore_run m z x (hr.rest x hxa hxs).1 hxz
    rw [hna, hrun]
    refine ⟨rfl, ?_⟩
    exact
    { linked := by
        unfold Linked
        refine ⟨?_, ?_, ?_⟩
        · rw [hn, hpz]
          simp
        · rw [hp, hpz]
          simp [hxz]
        · unfold Linked
          refine ⟨?_, ?_, linked_congr zs z a ?_ ?_ hrest⟩
          · rw [hn, hpz]
            simp [hxa]
          · rw [hp]
            simp
          · intro y hy
            have hya : y ≠ a := fun h => hnd.1 (h ▸ hy)
            have hyx : y ≠ x := fun h => hxs (h ▸ hy)
            rw [hn, hpz]
            simp [hya, hyx]
          · intro y hy
            have hyz : y ≠ z := by
              intro h
              subst h
              rcases List.mem_append.1 hy with h1 | h1
              · exact hnd2.1 h1
              · rw [List.mem_singleton] at h1
                exact hza h1
            have hyx : y ≠ x := by
              intro h
              subst h
              rcases List.mem_append.1 hy with h1 | h1
              · exact hxs (List.mem_cons_of_mem _ h1)
              · rw [List.mem_singleton] at h1
                exact hxa h1
            rw [hp]
            simp [hyz, hyx]
      nodup := by
        rw [List.nodup_cons]
        refine ⟨?_, List.nodup_cons.2 ⟨hxs, hnd.2⟩⟩
        intro hmem
        rcases List.mem_cons.1 hmem with h1 | h1
        · exact hxa h1.symm
        · exact hnd.1 h1
      rest := by
        intro y hya hys
        have hyx : y ≠ x := fun h => hys (h ▸ List.mem_cons_self _ _)
        have hys1 : y ∉ z :: zs := fun h => hys (List.mem_cons_of_mem _ h)
        have hyz : y ≠ z := fun h => hys1 (h ▸ List.mem_cons_self _ _)
        rw [hn, hp, hpz]
        simp only [hya, hyx, hyz, if_false]
        exact hr.rest y hya hys1 }

/-- Removing an attached hook deletes it from the sequence. -/
theorem rep_remove {m : Hooks} {a : Nat} {s : List Nat} (hr : ListRep m a s) {x : Nat}
    (hxa : x ≠ a) (hxs : x ∈ s) :
    (IntrusiveListHook.remove m x).1 = true ∧
    ListRep (IntrusiveListHook.remove m x).2 a (s.erase x) := by
  obtain ⟨m1, hrun, hnx, hpx, hn, hp⟩ :=
    remove_run m x ((attached_iff m x).1 ((rep_attached hr hxa).2 hxs))
  rw [hrun]
  refine ⟨rfl, ?_⟩
  obtain ⟨s1, s2, rfl⟩ := List.append_of_mem hxs
  have hnd := List.nodup_cons.1 hr.nodup
  have hnda := List.nodup_append.1 hnd.2
  have hx1 : x ∉ s1 := fun h => hnda.2.2 h (List.mem_cons_self _ _)
  have hx2 : x ∉ s2 := (List.nodup_cons.1 hnda.2.1).1
  have herase : (s1 ++ x :: s2).erase x = s1 ++ s2 := by
    rw [List.erase_append_right _ hx1, List.erase_cons_head]
  obtain ⟨hmp, hmn⟩ := linked_mid x s2 s1 a a hr.linked
  rw [herase]
  have hsub : ∀ y, y ∈ s1 ++ s2 → y ∈ s1 ++ x :: s2 := by
    intro y hy
    rcases List.mem_append.1 hy with h1 | h1
    · exact List.mem_append_left _ h1
    · exact List.mem_append_right _ (List.mem_cons_of_mem _ h1)
  exact
  { linked := by
      refine linked_remove x a s2 s1 a hr.linked hr.nodup hnd.1 ?_ ?_
      · intro y hy
        rw [hn y hy, hmp, hmn]
      · intro y hy
        rw [hp y hy, hmp, hmn]
    nodup := by
      rw [List.nodup_cons]
      refine ⟨fun h => hnd.1 (hsub a h), ?_⟩
      rw [List.nodup_append]
      exact ⟨hnda.1, (List.nodup_cons.1 hnda.2.1).2,
        fun z hz1 hz2 => hnda.2.2 hz1 (List.mem_cons_of_mem _ hz2)⟩
    rest := by
      intro y hya hys
      by_cases hyx : y = x
      · rw [hyx]
        exact ⟨hnx, hpx⟩
      · have hys1 : y ∉ s1 ++ x :: s2 := by
          intro h
          rcases List.mem_append.1 h with h1 | h1
          · exact hys (List.mem_append_left _ h1)
          · rcases List.mem_cons.1 h1 with h2 | h2
            · exact hyx h2
            · exact hys (List.mem_append_right _ h2)
        have hyl : y ≠ last_or a s1 := by
          intro heq
          have := last_or_mem a s1
          rw [← heq] at this
          rcases List.mem_cons.1 this with h1 | h1
          · exact hya h1
          · exact hys (List.mem_append_left _ h1)
        have hyh : y ≠ head_or s2 a := by
          intro heq
          have := head_or_mem s2 a
          rw [← heq] at this
          rcases List.mem_append.1 this with h1 | h1
          · exact hys (List.mem_append_right _ h1)
          · rw [List.mem_singleton] at h1
            exact hya h1
        rw [hn y hyx, hp y hyx, hmp, hmn]
        simp only [hyl, hyh, if_false]
        exact hr.rest y hya hys1 }

/-- Every call on a list keeps the memory a representation of the abstract sequence. -/
theorem rep_step {m : Hooks} {l : IntrusiveList} {s : List Nat} (hr : ListRep m l.anchor_ s)
    (o : ListOp) (ho : o.hook ≠ l.anchor_) : ListRep (o.run l m) l.anchor_ (o.abs s) := by
  cases o with
  | append x =>
    have hxa : x ≠ l.anchor_ := ho
    show ListRep (IntrusiveListHook.insertbefore m l.anchor_ x).2 l.anchor_
      (if x ∈ s then s else s ++ [x])
    by_cases hxs : x ∈ s
    · have ha := (rep_attached hr hxa).2 hxs
      simp only [hxs, if_true, IntrusiveListHook.insertbefore, ha]
      exact hr
    · simp only [hxs, if_false]
      exact (rep_append hr hxa hxs).2
  | prepend x =>
    have hxa : x ≠ l.anchor_ := ho
    show ListRep (IntrusiveListHook.insertbefore m (m.next_ l.anchor_) x).2 l.anchor_
      (if x ∈ s then s else x :: s)
    by_cases hxs : x ∈ s
    · have ha := (rep_attached hr hxa).2 hxs
      simp only [hxs, if_true, IntrusiveListHook.insertbefore, ha]
      exact hr
    · simp only [hxs, if_false]
      exact (rep_prepend hr hxa hxs).2
  | remove x =>
    have hxa : x ≠ l.anchor_ := ho
    show ListRep (IntrusiveListHook.remove m x).2 l.anchor_ (s.erase x)
    by_cases hxs : x ∈ s
    · exact (rep_remove hr hxa hxs).2
    · have ha : m.attached x = false := by
        cases h : m.attached x with
        | false => rfl
        | true => exact (hxs ((rep_attached hr hxa).1 h)).elim
      rw [List.erase_of_not_mem hxs]
      simp only [IntrusiveListHook.remove, ha, Bool.not_false, if_true]
      exact hr

theorem rep_run {l : IntrusiveList} : ∀ (ops : List ListOp) (m : Hooks) (s : List Nat),
    ListRep m l.anchor_ s → (∀ o ∈ ops, o.hook ≠ l.anchor_) →
    ListRep (run_list_ops l ops m) l.anchor_ (abs_list_ops ops s)
  | [], _, _, hr, _ => hr
  | o :: rest, m, s, hr, ho =>
    rep_run rest (o.run l m) (o.abs s) (rep_step hr o (ho o (List.mem_cons_self _ _)))
      (fun o1 ho1 => ho o1 (List.mem_cons_of_mem _ ho1))

end c10

namespace c10

/-- C26: `insertbefore`, and with it `append` and `prepend`, throws when the hook to be
inserted is attached, and then no `next_` or `prev_` link of the memory has changed; it
returns normally when the hook is detached. -/
theorem C26_double_insertion (m : Hooks) (l : IntrusiveList) (this x : Nat) :
    (m.attached x = true →
      IntrusiveListHook.insertbefore m this x = (Except.error ListError.double_insertion, m) ∧
      l.append m x = (Except.error ListError.double_insertion, m) ∧
      l.prepend m x = (Except.error ListError.double_insertion, m)) ∧
    (m.attached x = false →
      (IntrusiveListHook.insertbefore m this x).1 = Except.ok () ∧
      (l.append m x).1 = Except.ok () ∧ (l.prepend m x).1 = Except.ok ()) := by
  constructor
  · intro ha
    simp [IntrusiveList.append, IntrusiveList.prepend, IntrusiveListHook.insertbefore, ha]
  · intro ha
    simp [IntrusiveList.append, IntrusiveList.prepend, IntrusiveListHook.insertbefore, ha]

/-- C26 at a concrete input: in the list that holds the hook 1, a second `append` or
`prepend` of the hook 1 throws, and `append` of the detached hook 2 returns. -/
theorem C26_double_insertion_witness :
    hooks_1.attached 1 = true ∧ hooks_1.attached 2 = false ∧
    (list0.append hooks_1 1).1 = Except.error ListError.double_insertion ∧
    (list0.prepend hooks_1 1).1 = Except.error ListError.double_insertion ∧
    (list0.append hooks_1 2).1 = Except.ok () :=
  ⟨by decide, by decide,
    congrArg Prod.fst ((C26_double_insertion hooks_1 list0 0 1).1 (by decide)).2.1,
    congrArg Prod.fst ((C26_double_insertion hooks_1 list0 0 1).1 (by decide)).2.2,
    ((C26_double_insertion hooks_1 list0 0 2).2 (by decide)).2.1⟩

/-- C30: after any sequence of `append`, `prepend` and `remove` on a list, starting from
hooks that are all detached and none of which is the anchor, the traversal from `head()`
through `next()` up to `terminator()` (with more turns allowed than the sequence is long)
is the abstract sequence built by push-back, push-front and deletion, where an insertion
of a hook that is already in the sequence throws and changes nothing; `empty()` holds
exactly when that sequence is empty; `tail()` is its last element (the terminator when it
is empty); a hook is attached exactly when it is in the sequence; `remove()` returns true
exactly when the hook is attached, and leaves the hook detached in every case. -/
theorem C30_list_refinement (l : IntrusiveList) (ops : List ListOp)
    (hne : ∀ o ∈ ops, o.hook ≠ l.anchor_) :
    (∀ fuel, (abs_list_ops ops []).length < fuel →
      l.traverse (run_list_ops l ops Hooks.fresh) fuel = abs_list_ops ops []) ∧
    (l.empty (run_list_ops l ops Hooks.fresh) = true ↔ abs_list_ops ops [] = []) ∧
    l.tail (run_list_ops l ops Hooks.fresh) = (abs_list_ops ops []).getLast?.getD l.terminator ∧
    (∀ x, x ≠ l.anchor_ →
      ((run_list_ops l ops Hooks.fresh).attached x = true ↔ x ∈ abs_list_ops ops [])) ∧
    (∀ x, ((IntrusiveListHook.remove (run_list_ops l ops Hooks.fresh) x).1 = true ↔
        (run_list_ops l ops Hooks.fresh).attached x = true) ∧
      (IntrusiveListHook.remove (run_list_ops l ops Hooks.fresh) x).2.detached x = true) := by
  have hr := rep_run ops Hooks.fresh [] (rep_fresh l.anchor_) hne
  generalize run_list_ops l ops Hooks.fresh = m at hr ⊢
  generalize abs_list_ops ops [] = s at hr ⊢
  have hnd := List.nodup_cons.1 hr.nodup
  obtain ⟨hhead, hlast⟩ := linked_ends s l.anchor_ l.anchor_ hr.linked
  refine ⟨?_, ?_, ?_, ?_, ?_⟩
  · intro fuel hf
    exact walk_linked s l.anchor_ fuel hr.linked hnd.1 hf
  · unfold IntrusiveList.empty Hooks.detached
    rw [hhead]
    cases s with
    | nil => simp [head_or]
    | cons x xs =>
      have hxa : x ≠ l.anchor_ := fun h => hnd.1 (h ▸ List.mem_cons_self _ _)
      simp [head_or, hxa]
  · unfold IntrusiveList.tail IntrusiveList.terminator
    rw [hlast]
    exact last_or_eq _ s
  · intro x hxa
    exact rep_attached hr hxa
  · intro x
    cases ha : m.attached x with
    | false =>
      simp only [IntrusiveListHook.remove, ha, Bool.not_false, if_true, Bool.false_eq_true]
      refine ⟨trivial, ?_⟩
      simpa [Hooks.attached, Hooks.detached] using ha
    | true =>
      obtain ⟨m1, hrun, hnx, _⟩ := remove_run m x ((attached_iff m x).1 ha)
      rw [hrun]
      refine ⟨⟨fun _ => rfl, fun _ => rfl⟩, ?_⟩
      simp [Hooks.detached, hnx]

/-- C30 at a concrete input: append 1, append 2, prepend 3, append 2 again (throws),
remove 2, remove 5 (detached) on the list with anchor 0 leave the sequence 3, 1. -/
theorem C30_list_refinement_witness :
    (∀ o ∈ ops_sample, o.hook ≠ list0.anchor_) ∧
    abs_list_ops ops_sample [] = [3, 1] ∧
    list0.traverse (run_list_ops list0 ops_sample Hooks.fresh) 3 = abs_list_ops ops_sample [] ∧
    list0.tail (run_list_ops list0 ops_sample Hooks.fresh) = 1 ∧
    list0.empty (run_list_ops list0 ops_sample Hooks.fresh) = false :=
  ⟨by decide, by decide,
    (C30_list_refinement list0 ops_sample (by decide)).1 3 (by decide), by decide, by decide⟩

end c10

namespace c10
namespace cuda

theorem unique_step (k : QueueKind) (s : QueueSystem) (e : QueueEvent)
    (hs : s.UniqueWorker) : (s.step k e).UniqueWorker := by
  obtain ⟨hle, hiff⟩ := hs
  cases e with
  | start_actions =>
    have hq : (k.start_actions s.q).1.unique_flag_ = s.q.unique_flag_ := by
      cases k <;>
        simp only [QueueKind.start_actions, CudaEntityEvictQueue.start_actions,
          CudaEntityFetchQueue.start_actions] <;> split <;> rfl
    exact ⟨hle, by
      show (k.start_actions s.q).1.unique_flag_ = true ↔ s.in_loop = 1
      rw [hq]
      exact hiff⟩
  | worker_entry =>
    unfold QueueSystem.step
    by_cases hsp : s.spawned = 0
    · simp only [hsp, if_true]
      exact ⟨hle, hiff⟩
    · simp only [hsp, if_false, CudaEntityTransferQueue.worker_entry]
      by_cases hu : s.q.unique_flag_ = true
      · simp only [hu, if_true, Bool.false_eq_true, if_false]
        exact ⟨hle, hiff⟩
      · simp only [hu, if_false, if_true]
        have h0 : s.in_loop = 0 := by
          have : ¬ s.in_loop = 1 := fun h => hu (hiff.2 h)
          omega
        exact ⟨by show s.in_loop + 1 ≤ 1; omega, by
          show true = true ↔ s.in_loop + 1 = 1
          simp [h0]⟩
  | worker_exit =>
    unfold QueueSystem.step
    by_cases hc : (s.in_loop = 0 || s.q.active_flag_) = true
    · simp only [hc, if_true]
      exact ⟨hle, hiff⟩
    · simp only [hc, if_false]
      have h1 : s.in_loop = 1 := by
        simp at hc
        omega
      exact ⟨by show s.in_loop - 1 ≤ 1; omega, by
        show false = true ↔ s.in_loop - 1 = 1
        simp [h1]⟩
  | worker_dequeue =>
    unfold QueueSystem.step
    by_cases hc : s.in_loop = 0
    · simp only [hc, if_true]
      exact ⟨hle, hiff⟩
    · simp only [hc, if_false]
      refine ⟨hle, ?_⟩
      show s.q.dequeue.2.unique_flag_ = true ↔ s.in_loop = 1
      have : s.q.dequeue.2.unique_flag_ = s.q.unique_flag_ := by
        unfold CudaEntityTransferQueue.dequeue
        split <;> rfl
      rw [this]
      exact hiff
  | enqueue impl =>
    refine ⟨hle, ?_⟩
    show (s.q.enqueue impl).unique_flag_ = true ↔ s.in_loop = 1
    have : (s.q.enqueue impl).unique_flag_ = s.q.unique_flag_ := by
      unfold CudaEntityTransferQueue.enqueue
      split <;> rfl
    rw [this]
    exact hiff
  | enable_queue =>
    cases k with
    | evict => exact ⟨hle, hiff⟩
    | fetch => exact ⟨hle, hiff⟩
  | wait_actions left =>
    refine ⟨hle, ?_⟩
    show (s.q.wait_actions left).unique_flag_ = true ↔ s.in_loop = 1
    have : (s.q.wait_actions left).unique_flag_ = s.q.unique_flag_ := by
      unfold CudaEntityTransferQueue.wait_actions
      simp only
      split
      · rfl
      · split <;> rfl
    rw [this]
    exact hiff
  | wait_and_stop_actions left =>
    refine ⟨hle, ?_⟩
    show (s.q.wait_and_stop_actions left).unique_flag_ = true ↔ s.in_loop = 1
    have : (s.q.wait_and_stop_actions left).unique_flag_ = s.q.unique_flag_ := by
      unfold CudaEntityTransferQueue.wait_and_stop_actions
      simp only
      split
      · rfl
      · split <;> rfl
    rw [this]
    exact hiff

theorem unique_run (k : QueueKind) : ∀ (es : List QueueEvent) (s : QueueSystem),
    s.UniqueWorker → (s.run k es).UniqueWorker
  | [], _, hs => hs
  | e :: rest, s, hs => unique_run k rest (s.step k e) (unique_step k s e hs)

/-- C25: for the evict and for the fetch queue, in every state that a sequence of
`start_actions`, thread starts, worker exits, `wait_actions`, `wait_and_stop_actions` (and
enqueues, dequeues by the worker, `enable_queue`) reaches from the constructed queue, at
most one worker is inside the service loop and `unique_flag_` is set exactly when one is;
and a thread that starts while `unique_flag_` is set returns at once: it does not enter
the loop and leaves the queue as it is. -/
theorem C25_unique_worker (k : QueueKind) (es : List QueueEvent) :
    (QueueSystem.init.run k es).in_loop ≤ 1 ∧
    ((QueueSystem.init.run k es).q.unique_flag_ = true ↔
      (QueueSystem.init.run k es).in_loop = 1) ∧
    (∀ q : CudaEntityTransferQueue, q.unique_flag_ = true → q.worker_entry = (q, false)) ∧
    ((QueueSystem.init.run k es).q.unique_flag_ = true →
      ((QueueSystem.init.run k es).step k QueueEvent.worker_entry).in_loop
        = (QueueSystem.init.run k es).in_loop ∧
      ((QueueSystem.init.run k es).step k QueueEvent.worker_entry).q
        = (QueueSystem.init.run k es).q) := by
  have hu := unique_run k es QueueSystem.init ⟨Nat.zero_le _, by decide⟩
  refine ⟨hu.1, hu.2, ?_, ?_⟩
  · intro q hq
    simp [CudaEntityTransferQueue.worker_entry, hq]
  · intro hq
    generalize QueueSystem.init.run k es = s at hq ⊢
    unfold QueueSystem.step
    by_cases hsp : s.spawned = 0
    · simp [hsp]
    · simp [hsp, CudaEntityTransferQueue.worker_entry, hq]

/-- C25 on a run of the evict queue with a restart: two threads start after the first
`start_actions`, only one enters the loop; after the stop and the worker's exit the flag is
clear, and the restart brings one worker in again. -/
theorem C25_unique_worker_witness :
    (QueueSystem.init.run QueueKind.evict (events_restart.take 5)).in_loop = 1 ∧
    (QueueSystem.init.run QueueKind.evict (events_restart.take 5)).q.unique_flag_ = true ∧
    (QueueSystem.init.run QueueKind.evict (events_restart.take 7)).in_loop = 0 ∧
    (QueueSystem.init.run QueueKind.evict (events_restart.take 7)).q.unique_flag_ = false ∧
    (QueueSystem.init.run QueueKind.evict events_restart).in_loop = 1 ∧
    (QueueSystem.init.run QueueKind.evict events_restart).in_loop ≤ 1 :=
  ⟨by decide, by decide, by decide, by decide, by decide,
    (C25_unique_worker QueueKind.evict events_restart).1⟩

end cuda
end c10

namespace ATen

/-! ## Invariants of all calls, from their steps -/

theorem keeps_make_raw_of {P : Heap → Prop} (hr : ReplayKeeps P) (ha : AllocKeeps P)
    (fuel : Nat) (f : RematFunc_t) (inputs : List Nat) : Keeps P (make_raw fuel f inputs) := by
  have hout : ∀ (remat : Nat) (raw : Tensors) (dt : Nat) (t : Tensor),
      Keeps P (make_raw_output remat inputs raw dt t) := by
    intro remat raw dt t
    unfold make_raw_output
    refine keeps_bind ?_ (fun alias_pool => ?_)
    · unfold pool_for_output
      split
      · exact keeps_bind keeps_clock_now (fun now => ha.new_pool _ _ _)
      · unfold alias_pool_of_input
        refine keeps_bind (keeps_read _ (fun h => ?_)) (fun s => ?_)
        · cases inputs.get? (get_alias raw t).toNat <;> rfl
        refine keeps_bind (keeps_cell_at _) (fun cell => ?_)
        refine keeps_bind (keeps_pool_at _) (fun p => ?_)
        cases p.head_remat_ with
        | none => exact keeps_pure _
        | some hr1 =>
          refine keeps_bind (keeps_remat_at _) (fun rm => ?_)
          exact keeps_bind (ha.set_remat _ _) (fun _ => keeps_pure _)
    refine keeps_bind (ha.from_parts _ _ _) (fun e => ?_)
    refine keeps_bind (keeps_external_at _) (fun ext => ?_)
    refine keeps_bind (keeps_deref _) (fun c => ?_)
    exact ha.push alias_pool c _ _
  have houts : ∀ (remat : Nat) (raw : Tensors) (dt : Nat) (ts : Tensors),
      Keeps P (make_raw_outputs remat inputs raw dt ts) := by
    intro remat raw dt ts
    induction ts with
    | nil => exact keeps_pure _
    | cons t rest ih =>
      unfold make_raw_outputs
      refine keeps_bind (hout _ _ _ t) (fun ea => ?_)
      refine keeps_bind (keeps_external_at _) (fun ext => ?_)
      refine keeps_bind (keeps_deref _) (fun c => ?_)
      exact keeps_bind ih (fun r => keeps_pure _)
  unfold make_raw
  refine keeps_bind (keeps_lock_inputs hr.lock _) (fun _ => ?_)
  refine keeps_bind (keeps_uncheckpoint_with (fun c => keeps_get hr fuel c) _) (fun raw => ?_)
  refine keeps_bind keeps_clock_now (fun pre => ?_)
  refine keeps_bind (hr.call _ _) (fun outs => ?_)
  refine keeps_bind keeps_clock_now (fun post => ?_)
  refine keeps_bind (ha.new_remat _) (fun remat => ?_)
  refine keeps_bind (houts _ _ _ _) (fun r => ?_)
  refine keeps_bind (keeps_remat_at _) (fun rm => ?_)
  refine keeps_bind (ha.set_remat _ _) (fun _ => ?_)
  refine keeps_bind (keeps_unlock_inputs hr.unlock _) (fun _ => ?_)
  exact keeps_pure _

theorem keeps_checkpoint_of {P : Heap → Prop} (hp : CallKeeps P) (t : Tensor) :
    Keeps P (native.checkpoint t) := by
  unfold native.checkpoint EntityTensorImpl.from_tensor
  refine keeps_bind (hp.from_tensor t) (fun e => ?_)
  unfold EntityTensorImpl.from_external
  exact keeps_bind (hp.new_ref _) (fun ref => hp.from_ref ref)

theorem keeps_try_checkpoint_of {P : Heap → Prop} (hp : CallKeeps P) (t : Tensor) :
    Keeps P (native.try_checkpoint t) := by
  unfold native.try_checkpoint
  split
  · exact keeps_pure t
  · exact keeps_checkpoint_of hp t

theorem keeps_try_checkpoint_all_of {P : Heap → Prop} (hp : CallKeeps P) :
    ∀ ts : Tensors, Keeps P (try_checkpoint_all ts)
  | [] => keeps_pure _
  | t :: rest => by
    unfold try_checkpoint_all
    refine keeps_bind (keeps_try_checkpoint_of hp t) (fun _ => ?_)
    exact keeps_bind (keeps_try_checkpoint_all_of hp rest) (fun _ => keeps_pure _)

theorem keeps_wrap_outputs_of {P : Heap → Prop} (hp : CallKeeps P) :
    ∀ es : List Nat, Keeps P (wrap_outputs es)
  | [] => keeps_pure _
  | e :: rest => by
    unfold wrap_outputs
    refine keeps_bind ?_ (fun _ => ?_)
    · unfold EntityTensorImpl.from_external
      exact keeps_bind (hp.new_ref _) (fun ref => hp.from_ref ref)
    · exact keeps_bind (keeps_wrap_outputs_of hp rest) (fun _ => keeps_pure _)

theorem keeps_reseat_of {P : Heap → Prop} (hp : CallKeeps P) (inputs : Tensors)
    (modified : List Nat) : ∀ idx : List Nat, Keeps P (reseat inputs modified idx)
  | [] => keeps_pure _
  | i :: rest => by
    unfold reseat
    refine keeps_bind (keeps_liftE _) (fun t => ?_)
    refine keeps_bind (keeps_liftE _) (fun m => ?_)
    refine keeps_bind (keeps_get_cell_from_tensor _) (fun ref => ?_)
    intro h hs
    rw [wp_bind, wp_ref_at]
    cases hsl : h.refs ref with
    | none => exact hs
    | some slot =>
      dsimp only
      rw [wp_bind, wp_set_ref]
      exact keeps_bind (keeps_drop_handle hp.release _ _)
        (fun _ => keeps_reseat_of hp inputs modified rest) _ (hp.set_ref ref _ slot h hs hsl)

/-- A property that the steps keep is kept by every call; for `pin`, which is not
composed of the other steps, this is asked for separately. -/
theorem keeps_run_of {P : Heap → Prop} (hp : CallKeeps P) (o : Op)
    (hpin : ∀ fuel c, o = Op.cell_pin fuel c → Keeps P (EntityTensorCell.pin fuel c))
    (h : Heap) (hs : P h) : P (o.run h) := by
  cases o with
  | checkpoint t => exact wp_snd (keeps_checkpoint_of hp t h hs)
  | try_checkpoint t => exact wp_snd (keeps_try_checkpoint_of hp t h hs)
  | uncheckpoint fuel t => exact wp_snd (keeps_ref_tensor hp.replay fuel t h hs)
  | decheckpoint fuel t =>
    refine wp_snd (?_ : wp (native.decheckpoint fuel t) (fun _ => P) P h)
    unfold native.decheckpoint
    split
    · exact keeps_ref_tensor hp.replay fuel t h hs
    · exact keeps_pure t h hs
  | evict_checkpoint t =>
    refine wp_snd (?_ : wp (native.evict_checkpoint t) (fun _ => P) P h)
    unfold native.evict_checkpoint
    split
    · exact keeps_pure _ h hs
    · exact keeps_bind (keeps_strong_of t)
        (fun c => keeps_bind (hp.cell_evict c) (fun _ => keeps_pure _)) h hs
  | remat_checkpoint fuel t =>
    refine wp_snd (?_ : wp (native.remat_checkpoint fuel t) (fun _ => P) P h)
    unfold native.remat_checkpoint
    split
    · exact keeps_ref_tensor hp.replay fuel t h hs
    · exact keeps_pure t h hs
  | make fuel f inputs =>
    refine wp_snd (?_ : wp (EntityTensorImpl.make fuel f inputs) (fun _ => P) P h)
    unfold EntityTensorImpl.make
    exact keeps_bind (keeps_try_checkpoint_all_of hp _) (fun cps =>
      keeps_bind (keeps_input_values_of _) (fun vals =>
        keeps_bind (hp.make_raw _ _ _) (fun ret => keeps_wrap_outputs_of hp _))) h hs
  | mutate fuel f inputs idx =>
    refine wp_snd (?_ : wp (EntityTensorImpl.mutate fuel f inputs idx) (fun _ => P) P h)
    unfold EntityTensorImpl.mutate
    exact keeps_bind (keeps_try_checkpoint_all_of hp _) (fun cps =>
      keeps_bind (keeps_input_values_of _) (fun vals =>
        keeps_bind (hp.make_raw _ _ _) (fun ret =>
          keeps_with_cleanup (keeps_reseat_of hp _ _ _)
            (keeps_drop_externals hp.release _)))) h hs
  | shallow_copy_and_detach t =>
    refine wp_snd (?_ : wp (EntityTensorImpl.shallow_copy_and_detach t) (fun _ => P) P h)
    unfold EntityTensorImpl.shallow_copy_and_detach
    exact keeps_bind (keeps_get_entity_tensor_impl t) (fun eti => hp.from_ref _) h hs
  | shallow_copy_from self impl =>
    refine wp_snd (?_ : wp (EntityTensorImpl.shallow_copy_from self impl) (fun _ => P) P h)
    unfold EntityTensorImpl.shallow_copy_from
    exact keeps_bind (keeps_get_entity_tensor_impl _) (fun me =>
      keeps_bind (keeps_deref _) (fun i =>
        keeps_bind (keeps_impl_at _) (fun eti =>
          keeps_bind (keeps_ref_at _) (fun src => fun h1 hs1 => by
            rw [wp_bind, wp_ref_at]
            cases hsl : h1.refs me.ref with
            | none => exact hs1
            | some dst =>
              dsimp only
              rw [wp_bind, wp_set_ref]
              exact keeps_drop_handle hp.release _ _ _
                (hp.set_ref me.ref _ dst h1 hs1 hsl))))) h hs
  | external_from_tensor t => exact wp_snd (hp.from_tensor t h hs)
  | external_release e => exact wp_snd (hp.release e h hs)
  | make_raw fuel f inputs => exact wp_snd (hp.make_raw fuel f inputs h hs)
  | cell_get fuel c => exact wp_snd (keeps_get hp.replay fuel c h hs)
  | cell_fill c t => exact wp_snd (hp.cell_fill c t h hs)
  | cell_evict c => exact wp_snd (hp.cell_evict c h hs)
  | cell_pin fuel c => exact wp_snd (hpin fuel c rfl h hs)
  | remat fuel r => exact wp_snd (keeps_remat hp.replay fuel r h hs)

theorem keeps_run_ops_of {P : Heap → Prop} (hp : CallKeeps P)
    (hpin : ∀ fuel c, Keeps P (EntityTensorCell.pin fuel c)) :
    ∀ (ops : List Op) (h : Heap), P h → P (run_ops ops h)
  | [], _, hs => hs
  | o :: rest, h, hs =>
    keeps_run_ops_of hp hpin rest (o.run h) (keeps_run_of hp o (fun f c _ => hpin f c) h hs)

theorem keeps_run_ops_no_pin {P : Heap → Prop} (hp : CallKeeps P) :
    ∀ (ops : List Op) (h : Heap), (∀ o ∈ ops, o.is_pin = false) → P h → P (run_ops ops h)
  | [], _, _, hs => hs
  | o :: rest, h, hall, hs =>
    keeps_run_ops_no_pin hp rest (o.run h)
      (fun o1 ho1 => hall o1 (List.mem_cons_of_mem _ ho1))
      (keeps_run_of hp o (fun f c ho => by
        have := hall o (List.mem_cons_self _ _)
        rw [ho] at this
        cases this) h hs)

end ATen

namespace ATen

/-! ## At most one external handle per cell -/

theorem one_same {h h1 : Heap} (hs : OneExternal h) (he : h1.externals = h.externals)
    (hn : h.next_cell ≤ h1.next_cell) : OneExternal h1 := by
  constructor
  · intro e x c hx hv
    rw [he] at hx
    exact Nat.lt_of_lt_of_le (hs.1 e x c hx hv) hn
  · intro e1 e2 x1 x2 c h1x h2x
    rw [he] at h1x h2x
    exact hs.2 e1 e2 x1 x2 c h1x h2x

theorem keeps_one_grows {α : Type} (m : M α) (hm : ∀ h, Grows h (m h).2) :
    Keeps OneExternal m := by
  intro h hs
  exact wp_of_snd (one_same hs (hm h).externals (Nat.le_of_eq (hm h).next_cell.symm))

theorem keeps_one_same {α : Type} (m : M α)
    (hm : ∀ h, (m h).2.externals = h.externals ∧ (m h).2.next_cell = h.next_cell) :
    Keeps OneExternal m := by
  intro h hs
  exact wp_of_snd (one_same hs (hm h).1 (Nat.le_of_eq (hm h).2.symm))

theorem replayKeeps_one : ReplayKeeps OneExternal :=
  { lock := fun s => keeps_one_grows _ (lock_pool_of_grows s)
    unlock := fun s => keeps_one_grows _ (unlock_pool_of_grows s)
    fill := fun o t => keeps_one_grows _ (fill_output_grows o t)
    call := fun f ts => keeps_one_grows _ (call_grows f ts)
    tail := fun c => keeps_one_grows _ (get_tail_grows c) }

/-- A new handle for a cell allocated in the same step. -/
theorem one_new {h : Heap} (hs : OneExternal h) (y : EntityTensorCell)
    (pools : Nat → Option AliasPool) (np : Nat) :
    OneExternal
      { h with
        pools := pools
        next_pool := np
        cells := upd h.cells h.next_cell y
        next_cell := h.next_cell + 1
        externals := upd h.externals h.next_external { value := some h.next_cell }
        next_external := h.next_external + 1 } := by
  constructor
  · intro e x c hx hv
    rcases upd_cases hx with ⟨_, rfl⟩ | ⟨_, h0⟩
    · cases hv
      exact Nat.lt_succ_self _
    · exact Nat.lt_succ_of_lt (hs.1 e x c h0 hv)
  · intro e1 e2 x1 x2 c h1x h2x hv1 hv2
    rcases upd_cases h1x with ⟨he1, rfl⟩ | ⟨_, h10⟩
    · rcases upd_cases h2x with ⟨he2, _⟩ | ⟨_, h20⟩
      · rw [he1, he2]
      · cases hv1
        exact absurd (hs.1 e2 x2 _ h20 hv2) (Nat.lt_irrefl _)
    · rcases upd_cases h2x with ⟨_, rfl⟩ | ⟨_, h20⟩
      · cases hv2
        exact absurd (hs.1 e1 x1 _ h10 hv1) (Nat.lt_irrefl _)
      · exact hs.2 e1 e2 x1 x2 c h10 h20 hv1 hv2

theorem keeps_one_from_parts (t : Tensor) (pool : Nat) (remat : Option Nat) :
    Keeps OneExternal (External.from_parts t pool remat) := by
  intro h hs
  unfold External.from_parts External.from_strong
  simp only [wp_bind, wp_new_cell, wp_new_external]
  exact one_new hs _ h.pools h.next_pool

theorem keeps_one_from_tensor (t : Tensor) : Keeps OneExternal (External.from_tensor t) := by
  intro h hs
  unfold External.from_tensor External.from_strong
  simp only [wp_bind, wp_clock_now, wp_new_pool, wp_new_cell, wp_new_external]
  exact one_new hs _ _ _

theorem keeps_one_release (e : Nat) : Keeps OneExternal (External.release_resources e) := by
  unfold External.release_resources
  refine keeps_bind (keeps_external_at e) (fun ext => ?_)
  refine keeps_bind (keeps_deref _) (fun c => ?_)
  refine keeps_bind (keeps_cell_at c) (fun cell => ?_)
  refine keeps_bind (keeps_pool_at _) (fun p => ?_)
  refine keeps_bind (keeps_liftE _) (fun p1 => ?_)
  refine keeps_bind (keeps_one_same _ (fun _ => ⟨rfl, rfl⟩)) (fun _ => ?_)
  intro h hs
  rw [wp_set_external]
  constructor
  · intro e1 x c1 hx hv
    rcases upd_cases hx with ⟨_, rfl⟩ | ⟨_, h0⟩
    · cases hv
    · exact hs.1 e1 x c1 h0 hv
  · intro e1 e2 x1 x2 c1 h1x h2x hv1 hv2
    rcases upd_cases h1x with ⟨_, rfl⟩ | ⟨_, h10⟩
    · cases hv1
    · rcases upd_cases h2x with ⟨_, rfl⟩ | ⟨_, h20⟩
      · cases hv2
      · exact hs.2 e1 e2 x1 x2 c1 h10 h20 hv1 hv2

theorem keeps_one_cell_fill (c : Nat) (t : Tensor) : Keeps OneExternal (cell_fill c t) := by
  unfold cell_fill
  exact keeps_bind (keeps_cell_at c) (fun _ => keeps_one_same _ (fun _ => ⟨rfl, rfl⟩))

theorem keeps_one_cell_evict (c : Nat) : Keeps OneExternal (cell_evict c) := by
  unfold cell_evict
  refine keeps_bind (keeps_cell_at c) (fun _ => ?_)
  exact keeps_bind (keeps_liftE _) (fun _ => keeps_one_same _ (fun _ => ⟨rfl, rfl⟩))

theorem keeps_one_pin (fuel c : Nat) : Keeps OneExternal (EntityTensorCell.pin fuel c) := by
  unfold EntityTensorCell.pin
  refine keeps_bind (keeps_get replayKeeps_one fuel c) (fun _ => ?_)
  refine keeps_bind (keeps_cell_at c) (fun _ => ?_)
  refine keeps_bind (keeps_pool_at _) (fun _ => ?_)
  exact keeps_bind (keeps_one_same _ (fun _ => ⟨rfl, rfl⟩))
    (fun _ => keeps_one_same _ (fun _ => ⟨rfl, rfl⟩))

theorem keeps_one_from_ref (ref : Nat) : Keeps OneExternal (EntityTensorImpl.from_ref ref) := by
  unfold EntityTensorImpl.from_ref
  refine keeps_bind (keeps_ref_at _) (fun slot => ?_)
  refine keeps_bind (keeps_deref _) (fun e => ?_)
  refine keeps_bind (keeps_external_at _) (fun ext => ?_)
  refine keeps_bind (keeps_deref _) (fun c => ?_)
  refine keeps_bind (keeps_cell_at _) (fun cell => ?_)
  refine keeps_bind (keeps_liftE _) (fun ks0 => ?_)
  refine keeps_bind (keeps_liftE _) (fun ks => ?_)
  refine keeps_bind (keeps_liftE _) (fun dtype => ?_)
  refine keeps_bind (keeps_liftE _) (fun dev => ?_)
  refine keeps_bind (keeps_one_same _ (fun _ => ⟨rfl, rfl⟩)) (fun eti => ?_)
  exact keeps_pure _

theorem allocKeeps_one : AllocKeeps OneExternal :=
  { new_remat := fun _ => keeps_one_same _ (fun _ => ⟨rfl, rfl⟩)
    set_remat := fun _ _ => keeps_one_same _ (fun _ => ⟨rfl, rfl⟩)
    new_pool := fun _ _ _ => keeps_one_same _ (fun _ => ⟨rfl, rfl⟩)
    push := fun _ _ _ _ => keeps_bind (keeps_pool_at _)
      (fun _ => keeps_bind (keeps_one_same _ (fun _ => ⟨rfl, rfl⟩)) (fun _ => keeps_pure _))
    from_parts := keeps_one_from_parts }

theorem callKeeps_one : CallKeeps OneExternal :=
  { replay := replayKeeps_one
    cell_fill := keeps_one_cell_fill
    cell_evict := keeps_one_cell_evict
    from_tensor := keeps_one_from_tensor
    release := keeps_one_release
    new_ref := fun _ => keeps_one_same _ (fun _ => ⟨rfl, rfl⟩)
    set_ref := fun r x _ h hs _ => keeps_one_same (set_ref r x) (fun _ => ⟨rfl, rfl⟩) h hs
    from_ref := keeps_one_from_ref
    make_raw := keeps_make_raw_of replayKeeps_one allocKeeps_one }

theorem one_empty : OneExternal Heap.empty := by
  constructor
  · intro e x c hx
    cases hx
  · intro e1 e2 x1 x2 c hx
    cases hx

theorem reachable_abv : Reachable heap_abv :=
  ⟨[Op.checkpoint ones4, Op.make 2 add_op [tensor_a, tensor_a], Op.make 3 view_op [tensor_b]],
    rfl⟩

/-- C23: in every heap that a sequence of calls builds from the empty heap (`checkpoint`,
`make`, `mutate`, `shallow_copy_and_detach`, `shallow_copy_from`, and every other call of
the model), no two `External` handles refer to the same cell: a handle is only ever
created together with the cell it refers to. -/
theorem C23_one_external_per_cell (h : Heap) (hr : Reachable h) : AtMostOneExternal h := by
  obtain ⟨ops, rfl⟩ := hr
  have hs := keeps_run_ops_of callKeeps_one keeps_one_pin ops Heap.empty one_empty
  intro e1 e2 c h1 h2
  exact hs.2 e1 e2 _ _ c h1 h2 rfl rfl

/-- C23 at a concrete heap: after `a = checkpoint(ones(4)); b = make(add, [a, a]);
v = make(view, [b])` the three handles refer to three cells. -/
theorem C23_one_external_per_cell_witness :
    Reachable heap_abv ∧ AtMostOneExternal heap_abv ∧
    heap_abv.externals 0 = some { value := some 0 } ∧
    heap_abv.externals 1 = some { value := some 1 } ∧
    heap_abv.externals 2 = some { value := some 2 } :=
  ⟨reachable_abv, C23_one_external_per_cell heap_abv reachable_abv,
    by decide!, by decide!, by decide!⟩

end ATen

namespace ATen

/-! ## Cells below the allocation counter -/

theorem below_upd {h : Heap} (hs : CellsBelow h) {c : Nat} {x : EntityTensorCell}
    (hx : h.cells c = some x) (y : EntityTensorCell) (h1 : Heap)
    (hc : h1.cells = upd h.cells c y) (hn : h1.next_cell = h.next_cell) : CellsBelow h1 := by
  intro c1 x1 hx1
  rw [hc] at hx1
  rw [hn]
  rcases upd_cases hx1 with ⟨rfl, _⟩ | ⟨_, h0⟩
  · exact hs _ x hx
  · exact hs c1 x1 h0

theorem below_same {h h1 : Heap} (hs : CellsBelow h) (hc : h1.cells = h.cells)
    (hn : h.next_cell ≤ h1.next_cell) : CellsBelow h1 := by
  intro c x hx
  rw [hc] at hx
  exact Nat.lt_of_lt_of_le (hs c x hx) hn

theorem keeps_below_same {α : Type} (m : M α)
    (hm : ∀ h, (m h).2.cells = h.cells ∧ (m h).2.next_cell = h.next_cell) :
    Keeps CellsBelow m := by
  intro h hs
  exact wp_of_snd (below_same hs (hm h).1 (Nat.le_of_eq (hm h).2.symm))

theorem keeps_below_grows {α : Type} (m : M α) (hm : ∀ h, Grows h (m h).2) :
    Keeps CellsBelow m := by
  intro h hs
  refine wp_of_snd ?_
  intro c x hx
  rw [(hm h).next_cell]
  cases hc : h.cells c with
  | none =>
    rw [(hm h).cells_none c hc] at hx
    cases hx
  | some y => exact hs c y hc

theorem replayKeeps_below : ReplayKeeps CellsBelow :=
  { lock := fun s => keeps_below_grows _ (lock_pool_of_grows s)
    unlock := fun s => keeps_below_grows _ (unlock_pool_of_grows s)
    fill := fun o t => keeps_below_grows _ (fill_output_grows o t)
    call := fun f ts => keeps_below_grows _ (call_grows f ts)
    tail := fun c => keeps_below_grows _ (get_tail_grows c) }

theorem below_new {h : Heap} (hs : CellsBelow h) (y : EntityTensorCell) (h1 : Heap)
    (hc : h1.cells = upd h.cells h.next_cell y) (hn : h1.next_cell = h.next_cell + 1) :
    CellsBelow h1 := by
  intro c1 x1 hx1
  rw [hc] at hx1
  rw [hn]
  rcases upd_cases hx1 with ⟨rfl, _⟩ | ⟨_, h0⟩
  · exact Nat.lt_succ_self _
  · exact Nat.lt_succ_of_lt (hs c1 x1 h0)

theorem keeps_below_from_parts (t : Tensor) (pool : Nat) (remat : Option Nat) :
    Keeps CellsBelow (External.from_parts t pool remat) := by
  intro h hs
  unfold External.from_parts External.from_strong
  simp only [wp_bind, wp_new_cell, wp_new_external]
  exact below_new hs _ _ rfl rfl

theorem keeps_below_from_tensor (t : Tensor) : Keeps CellsBelow (External.from_tensor t) := by
  intro h hs
  unfold External.from_tensor External.from_strong
  simp only [wp_bind, wp_clock_now, wp_new_pool, wp_new_cell, wp_new_external]
  exact below_new hs _ _ rfl rfl

theorem keeps_below_release (e : Nat) : Keeps CellsBelow (External.release_resources e) := by
  unfold External.release_resources
  refine keeps_bind (keeps_external_at e) (fun ext => ?_)
  refine keeps_bind (keeps_deref _) (fun c => ?_)
  refine keeps_bind (keeps_cell_at c) (fun cell => ?_)
  refine keeps_bind (keeps_pool_at _) (fun p => ?_)
  refine keeps_bind (keeps_liftE _) (fun p1 => ?_)
  exact keeps_bind (keeps_below_same _ (fun _ => ⟨rfl, rfl⟩))
    (fun _ => keeps_below_same _ (fun _ => ⟨rfl, rfl⟩))

theorem keeps_below_cell_fill (c : Nat) (t : Tensor) : Keeps CellsBelow (cell_fill c t) := by
  intro h hs
  unfold cell_fill
  simp only [wp_bind, wp_cell_at, wp_set_cell]
  split
  · rename_i x hx
    exact below_upd hs hx _ _ rfl rfl
  · exact hs

theorem keeps_below_cell_evict (c : Nat) : Keeps CellsBelow (cell_evict c) := by
  intro h hs
  unfold cell_evict
  simp only [wp_bind, wp_cell_at, wp_liftE]
  split
  · rename_i x hx
    split
    · simp only [wp_set_cell]
      exact below_upd hs hx _ _ rfl rfl
    · exact hs
  · exact hs

theorem keeps_below_pin (fuel c : Nat) : Keeps CellsBelow (EntityTensorCell.pin fuel c) := by
  unfold EntityTensorCell.pin
  refine keeps_bind (keeps_get replayKeeps_below fuel c) (fun _ => ?_)
  intro h hs
  simp only [wp_bind, wp_cell_at, wp_pool_at, wp_set_pool, wp_set_cell]
  split
  · rename_i x hx
    split
    · exact below_upd hs hx _ _ rfl rfl
    · exact hs
  · exact hs

theorem keeps_below_from_ref (ref : Nat) : Keeps CellsBelow (EntityTensorImpl.from_ref ref) := by
  unfold EntityTensorImpl.from_ref
  refine keeps_bind (keeps_ref_at _) (fun slot => ?_)
  refine keeps_bind (keeps_deref _) (fun e => ?_)
  refine keeps_bind (keeps_external_at _) (fun ext => ?_)
  refine keeps_bind (keeps_deref _) (fun c => ?_)
  refine keeps_bind (keeps_cell_at _) (fun cell => ?_)
  refine keeps_bind (keeps_liftE _) (fun ks0 => ?_)
  refine keeps_bind (keeps_liftE _) (fun ks => ?_)
  refine keeps_bind (keeps_liftE _) (fun dtype => ?_)
  refine keeps_bind (keeps_liftE _) (fun dev => ?_)
  refine keeps_bind (keeps_below_same _ (fun _ => ⟨rfl, rfl⟩)) (fun eti => ?_)
  exact keeps_pure _

theorem allocKeeps_below : AllocKeeps CellsBelow :=
  { new_remat := fun _ => keeps_below_same _ (fun _ => ⟨rfl, rfl⟩)
    set_remat := fun _ _ => keeps_below_same _ (fun _ => ⟨rfl, rfl⟩)
    new_pool := fun _ _ _ => keeps_below_same _ (fun _ => ⟨rfl, rfl⟩)
    push := fun _ _ _ _ => keeps_bind (keeps_pool_at _)
      (fun _ => keeps_bind (keeps_below_same _ (fun _ => ⟨rfl, rfl⟩)) (fun _ => keeps_pure _))
    from_parts := keeps_below_from_parts }

theorem callKeeps_below : CallKeeps CellsBelow :=
  { replay := replayKeeps_below
    cell_fill := keeps_below_cell_fill
    cell_evict := keeps_below_cell_evict
    from_tensor := keeps_below_from_tensor
    release := keeps_below_release
    new_ref := fun _ => keeps_below_same _ (fun _ => ⟨rfl, rfl⟩)
    set_ref := fun r x _ h hs _ => keeps_below_same (set_ref r x) (fun _ => ⟨rfl, rfl⟩) h hs
    from_ref := keeps_below_from_ref
    make_raw := keeps_make_raw_of replayKeeps_below allocKeeps_below }

theorem below_of_reachable {h : Heap} (hr : Reachable h) : CellsBelow h := by
  obtain ⟨ops, rfl⟩ := hr
  exact keeps_run_ops_of callKeeps_below keeps_below_pin ops Heap.empty
    (fun _ _ hx => by cases hx)

/-! ## A root that holds a value stays so -/

theorem rooted_same {c : Nat} {v : Tensor} {h h1 : Heap} (hs : Rooted c v h)
    (hc : h1.cells = h.cells) (hn : h.next_cell ≤ h1.next_cell) : Rooted c v h1 := by
  obtain ⟨hlt, x, hx, hv, hr⟩ := hs
  exact ⟨Nat.lt_of_lt_of_le hlt hn, x, by rw [hc]; exact hx, hv, hr⟩

theorem keeps_rooted_same {α : Type} (c : Nat) (v : Tensor) (m : M α)
    (hm : ∀ h, (m h).2.cells = h.cells ∧ (m h).2.next_cell = h.next_cell) :
    Keeps (Rooted c v) m := by
  intro h hs
  exact wp_of_snd (rooted_same hs (hm h).1 (Nat.le_of_eq (hm h).2.symm))

theorem keeps_rooted_grows {α : Type} (c : Nat) (v : Tensor) (m : M α)
    (hm : ∀ h, Grows h (m h).2) : Keeps (Rooted c v) m := by
  intro h hs
  refine wp_of_snd ?_
  obtain ⟨hlt, x, hx, hv, hr⟩ := hs
  exact ⟨by rw [(hm h).next_cell]; exact hlt, x, held_of_grows (hm h) hx hv, hv, hr⟩

theorem replayKeeps_rooted (c : Nat) (v : Tensor) : ReplayKeeps (Rooted c v) :=
  { lock := fun s => keeps_rooted_grows c v _ (lock_pool_of_grows s)
    unlock := fun s => keeps_rooted_grows c v _ (unlock_pool_of_grows s)
    fill := fun o t => keeps_rooted_grows c v _ (fill_output_grows o t)
    call := fun f ts => keeps_rooted_grows c v _ (call_grows f ts)
    tail := fun c1 => keeps_rooted_grows c v _ (get_tail_grows c1) }

/-- Writing a cell keeps the root when the write is elsewhere, or keeps value and absence
of the rematerializer. -/
theorem rooted_upd {c : Nat} {v : Tensor} {h : Heap} (hs : Rooted c v h) (c1 : Nat)
    (y : EntityTensorCell)
    (hy : ∀ x, h.cells c = some x → c1 = c → y.t_ = x.t_ ∧ (x.remat_ = none → y.remat_ = none))
    (h1 : Heap) (hc : h1.cells = upd h.cells c1 y) (hn : h.next_cell ≤ h1.next_cell) :
    Rooted c v h1 := by
  obtain ⟨hlt, x, hx, hv, hr⟩ := hs
  refine ⟨Nat.lt_of_lt_of_le hlt hn, ?_⟩
  rw [hc]
  by_cases hcc : c1 = c
  · obtain ⟨ht, hrm⟩ := hy x hx hcc
    refine ⟨y, by rw [hcc]; exact upd_same _ _ _, by rw [ht]; exact hv, hrm hr⟩
  · exact ⟨x, by rw [upd_other _ _ _ _ (fun h => hcc h.symm)]; exact hx, hv, hr⟩

theorem rooted_new {c : Nat} {v : Tensor} {h : Heap} (hs : Rooted c v h) (y : EntityTensorCell)
    (h1 : Heap) (hc : h1.cells = upd h.cells h.next_cell y)
    (hn : h1.next_cell = h.next_cell + 1) : Rooted c v h1 := by
  obtain ⟨hlt, x, hx, hv, hr⟩ := hs
  refine ⟨by rw [hn]; exact Nat.lt_succ_of_lt hlt, x, ?_, hv, hr⟩
  rw [hc, upd_other _ _ _ _ (Nat.ne_of_lt hlt)]
  exact hx

theorem keeps_rooted_from_parts (c : Nat) (v : Tensor) (t : Tensor) (pool : Nat)
    (remat : Option Nat) : Keeps (Rooted c v) (External.from_parts t pool remat) := by
  intro h hs
  unfold External.from_parts External.from_strong
  simp only [wp_bind, wp_new_cell, wp_new_external]
  exact rooted_new hs _ _ rfl rfl

theorem keeps_rooted_from_tensor (c : Nat) (v : Tensor) (t : Tensor) :
    Keeps (Rooted c v) (External.from_tensor t) := by
  intro h hs
  unfold External.from_tensor External.from_strong
  simp only [wp_bind, wp_clock_now, wp_new_pool, wp_new_cell, wp_new_external]
  exact rooted_new hs _ _ rfl rfl

theorem keeps_rooted_release (c : Nat) (v : Tensor) (e : Nat) :
    Keeps (Rooted c v) (External.release_resources e) := by
  unfold External.release_resources
  refine keeps_bind (keeps_external_at e) (fun ext => ?_)
  refine keeps_bind (keeps_deref _) (fun c1 => ?_)
  refine keeps_bind (keeps_cell_at c1) (fun cell => ?_)
  refine keeps_bind (keeps_pool_at _) (fun p => ?_)
  refine keeps_bind (keeps_liftE _) (fun p1 => ?_)
  exact keeps_bind (keeps_rooted_same c v _ (fun _ => ⟨rfl, rfl⟩))
    (fun _ => keeps_rooted_same c v _ (fun _ => ⟨rfl, rfl⟩))

theorem keeps_rooted_cell_fill (c : Nat) (v : Tensor) (c1 : Nat) (t : Tensor) :
    Keeps (Rooted c v) (cell_fill c1 t) := by
  intro h hs
  unfold cell_fill
  simp only [wp_bind, wp_cell_at, wp_set_cell]
  split
  · rename_i x1 hx1
    refine rooted_upd hs c1 _ ?_ _ rfl (Nat.le_refl _)
    intro x hx hcc
    have hxx : x = x1 := by
      rw [hcc, hx] at hx1
      exact Option.some.inj hx1
    obtain ⟨_, x2, hx2, hv2, _⟩ := hs
    have hx2x : x2 = x := by
      rw [hx] at hx2
      exact (Option.some.inj hx2).symm
    rw [← hxx]
    refine ⟨?_, fun hr => by rw [fill_remat]; exact hr⟩
    rw [fill_of_some x t (by rw [← hx2x, hv2]; rfl)]
  · exact hs

theorem keeps_rooted_cell_evict (c : Nat) (v : Tensor) (c1 : Nat) :
    Keeps (Rooted c v) (cell_evict c1) := by
  intro h hs
  unfold cell_evict
  simp only [wp_bind, wp_cell_at, wp_liftE]
  split
  · rename_i x1 hx1
    cases hr1 : x1.remat_ with
    | none =>
      simp only [EntityTensorCell.evict, hr1, Option.isSome_none]
      exact hs
    | some r =>
      simp only [EntityTensorCell.evict, hr1, Option.isSome_some, if_true, wp_set_cell]
      refine rooted_upd hs c1 _ ?_ _ rfl (Nat.le_refl _)
      intro x hx hcc
      exfalso
      obtain ⟨_, x2, hx2, _, hr2⟩ := hs
      rw [hcc, hx2] at hx1
      cases hx1
      rw [hr2] at hr1
      cases hr1
  · exact hs

theorem keeps_rooted_pin (c : Nat) (v : Tensor) (fuel c1 : Nat) :
    Keeps (Rooted c v) (EntityTensorCell.pin fuel c1) := by
  unfold EntityTensorCell.pin
  refine keeps_bind (keeps_get (replayKeeps_rooted c v) fuel c1) (fun _ => ?_)
  intro h hs
  simp only [wp_bind, wp_cell_at, wp_pool_at, wp_set_pool, wp_set_cell]
  split
  · rename_i x1 hx1
    split
    · refine rooted_upd hs c1 _ ?_ _ rfl (Nat.le_refl _)
      intro x hx hcc
      rw [hcc, hx] at hx1
      cases hx1
      exact ⟨rfl, fun _ => rfl⟩
    · exact hs
  · exact hs

theorem keeps_rooted_from_ref (c : Nat) (v : Tensor) (ref : Nat) :
    Keeps (Rooted c v) (EntityTensorImpl.from_ref ref) := by
  unfold EntityTensorImpl.from_ref
  refine keeps_bind (keeps_ref_at _) (fun slot => ?_)
  refine keeps_bind (keeps_deref _) (fun e => ?_)
  refine keeps_bind (keeps_external_at _) (fun ext => ?_)
  refine keeps_bind (keeps_deref _) (fun c1 => ?_)
  refine keeps_bind (keeps_cell_at _) (fun cell => ?_)
  refine keeps_bind (keeps_liftE _) (fun ks0 => ?_)
  refine keeps_bind (keeps_liftE _) (fun ks => ?_)
  refine keeps_bind (keeps_liftE _) (fun dtype => ?_)
  refine keeps_bind (keeps_liftE _) (fun dev => ?_)
  refine keeps_bind (keeps_rooted_same c v _ (fun _ => ⟨rfl, rfl⟩)) (fun eti => ?_)
  exact keeps_pure _

theorem allocKeeps_rooted (c : Nat) (v : Tensor) : AllocKeeps (Rooted c v) :=
  { new_remat := fun _ => keeps_rooted_same c v _ (fun _ => ⟨rfl, rfl⟩)
    set_remat := fun _ _ => keeps_rooted_same c v _ (fun _ => ⟨rfl, rfl⟩)
    new_pool := fun _ _ _ => keeps_rooted_same c v _ (fun _ => ⟨rfl, rfl⟩)
    push := fun _ _ _ _ => keeps_bind (keeps_pool_at _)
      (fun _ => keeps_bind (keeps_rooted_same c v _ (fun _ => ⟨rfl, rfl⟩)) (fun _ => keeps_pure _))
    from_parts := keeps_rooted_from_parts c v }

theorem callKeeps_rooted (c : Nat) (v : Tensor) : CallKeeps (Rooted c v) :=
  { replay := replayKeeps_rooted c v
    cell_fill := keeps_rooted_cell_fill c v
    cell_evict := keeps_rooted_cell_evict c v
    from_tensor := keeps_rooted_from_tensor c v
    release := keeps_rooted_release c v
    new_ref := fun _ => keeps_rooted_same c v _ (fun _ => ⟨rfl, rfl⟩)
    set_ref := fun r x _ h hs _ => keeps_rooted_same c v (set_ref r x) (fun _ => ⟨rfl, rfl⟩) h hs
    from_ref := keeps_rooted_from_ref c v
    make_raw := keeps_make_raw_of (replayKeeps_rooted c v) (allocKeeps_rooted c v) }

/-- The call `evict()` on a root throws and leaves the heap as it is. -/
theorem evict_of_rooted {c : Nat} {v : Tensor} {h : Heap} (hs : Rooted c v h) :
    cell_evict c h = (Except.error (Err.check 168), h) := by
  obtain ⟨_, x, hx, _, hr⟩ := hs
  unfold cell_evict
  rw [bind_ok (cell_at_ok hx)]
  have h2 : liftE x.evict h = (Except.error (Err.check 168), h) := by
    simp [liftE, EntityTensorCell.evict, hr]
  rw [bind_error h2]

theorem reachable_ab : Reachable heap_ab :=
  ⟨[Op.checkpoint ones4, Op.make 2 add_op [tensor_a, tensor_a]], rfl⟩

/-- C21: when `pin()` returns on a cell of a heap built by calls, the cell holds a value
`v`, the cell has no rematerializer and its pool no `head_remat_`, so the pool's
`evictable()` is false whatever its lock count; and after any further sequence of calls
the cell still holds `v` without rematerializer, and `evict()` on it throws
(`TORCH_CHECK(remat_)`) leaving the heap as it is. -/
theorem C21_pin (h : Heap) (fuel c : Nat) (hr : Reachable h)
    (hpin : (EntityTensorCell.pin fuel c h).1 = Except.ok ()) :
    ∃ x p v, (EntityTensorCell.pin fuel c h).2.cells c = some x ∧ x.t_ = some v ∧
      x.remat_ = none ∧ (EntityTensorCell.pin fuel c h).2.pools x.pool_ = some p ∧
      p.head_remat_ = none ∧
      (∀ n, ({ p with lock_count_ := n } : AliasPool).evictable = false) ∧
      ∀ ops : List Op, ∃ y,
        (run_ops ops (EntityTensorCell.pin fuel c h).2).cells c = some y ∧
        y.t_ = some v ∧ y.remat_ = none ∧
        cell_evict c (run_ops ops (EntityTensorCell.pin fuel c h).2)
          = (Except.error (Err.check 168), run_ops ops (EntityTensorCell.pin fuel c h).2) := by
  have hb := below_of_reachable hr
  have hw : wp (EntityTensorCell.pin fuel c)
      (fun _ h1 => ∃ x p v, h1.cells c = some x ∧ x.t_ = some v ∧ x.remat_ = none ∧
        h1.pools x.pool_ = some p ∧ p.head_remat_ = none ∧ Rooted c v h1)
      (fun _ => True) h := by
    unfold EntityTensorCell.pin
    rw [wp_bind]
    refine wp_mono (wp_and (get_returns_held fuel c h)
      (keeps_get replayKeeps_below fuel c h hb)) ?_ (fun _ _ => trivial)
    intro v h2 ⟨⟨x, hx, hv⟩, hb2⟩
    simp only [wp_bind, wp_cell_at, hx, wp_pool_at, wp_set_pool, wp_set_cell]
    split
    · rename_i p hp
      refine ⟨{ x with remat_ := none }, { p with head_remat_ := none }, v, upd_same _ _ _, hv,
        rfl, upd_same _ _ _, rfl, hb2 c x hx, _, upd_same _ _ _, hv, rfl⟩
    · trivial
  obtain ⟨x, p, v, hx, hv, hrm, hp, hhd, hroot⟩ := wp_ok hw (run_eq hpin)
  refine ⟨x, p, v, hx, hv, hrm, hp, hhd, ?_, ?_⟩
  · intro n
    simp [AliasPool.evictable, hhd]
  · intro ops
    have hro := keeps_run_ops_of (callKeeps_rooted c v) (keeps_rooted_pin c v) ops _ hroot
    have hev := evict_of_rooted hro
    obtain ⟨_, y, hy, hyv, hyr⟩ := hro
    exact ⟨y, hy, hyv, hyr, hev⟩

/-- C21 at a concrete input: `pin` on the cell of `b = make(add, [a, a])`. -/
theorem C21_pin_witness :
    Reachable heap_ab ∧ (EntityTensorCell.pin 2 1 heap_ab).1 = Except.ok () ∧
    (heap_ab_pinned.cells 1).map (fun x => (x.t_, x.remat_)) = some (some twos4, none) ∧
    (heap_ab_pinned.pools 1).map (fun p => (p.head_remat_, p.evictable)) = some (none, false) ∧
    (cell_evict 1 heap_ab_pinned).1 = Except.error (Err.check 168) ∧
    ∃ x p v, (EntityTensorCell.pin 2 1 heap_ab).2.cells 1 = some x ∧ x.t_ = some v ∧
      x.remat_ = none ∧ (EntityTensorCell.pin 2 1 heap_ab).2.pools x.pool_ = some p ∧
      p.head_remat_ = none ∧
      (∀ n, ({ p with lock_count_ := n } : AliasPool).evictable = false) ∧
      ∀ ops : List Op, ∃ y,
        (run_ops ops (EntityTensorCell.pin 2 1 heap_ab).2).cells 1 = some y ∧
        y.t_ = some v ∧ y.remat_ = none ∧
        cell_evict 1 (run_ops ops (EntityTensorCell.pin 2 1 heap_ab).2)
          = (Except.error (Err.check 168), run_ops ops (EntityTensorCell.pin 2 1 heap_ab).2) :=
  ⟨reachable_ab, by decide!, by decide!, by decide!, by decide!,
    C21_pin heap_ab 2 1 reachable_ab (by decide!)⟩

end ATen

namespace ATen

/-! ## The outputs of a rematerializer are its own cells -/

/-- A step that leaves the rematerializers alone and keeps, for every allocated cell, the
cell and its owner. -/
theorem owned_step {b : Bool} {h h1 : Heap} (hs : Owned b h) (hr : h1.remats = h.remats)
    (hn : h.next_cell ≤ h1.next_cell)
    (hc : ∀ o x, o < h.next_cell → h.cells o = some x →
      ∃ y, h1.cells o = some y ∧ ∀ r, OwnedBy b r x → OwnedBy b r y) : Owned b h1 := by
  intro r rm hrm
  rw [hr] at hrm
  obtain ⟨hrange, hall⟩ := hs r rm hrm
  refine ⟨hrange, fun o ho => ?_⟩
  obtain ⟨hlt, x, hx, hown⟩ := hall o ho
  obtain ⟨y, hy, hyo⟩ := hc o x hlt hx
  exact ⟨Nat.lt_of_lt_of_le hlt hn, y, hy, hyo r hown⟩

theorem owned_same {b : Bool} {h h1 : Heap} (hs : Owned b h) (hr : h1.remats = h.remats)
    (hc : h1.cells = h.cells) (hn : h.next_cell ≤ h1.next_cell) : Owned b h1 :=
  owned_step hs hr hn (fun o x _ hx => ⟨x, by rw [hc]; exact hx, fun _ ho => ho⟩)

theorem keeps_owned_same {α : Type} (b : Bool) (m : M α)
    (hm : ∀ h, (m h).2.remats = h.remats ∧ (m h).2.cells = h.cells ∧
      (m h).2.next_cell = h.next_cell) : Keeps (Owned b) m := by
  intro h hs
  exact wp_of_snd (owned_same hs (hm h).1 (hm h).2.1 (Nat.le_of_eq (hm h).2.2.symm))

theorem ownedBy_fill {b : Bool} {r : Nat} {x : EntityTensorCell} (t : Tensor)
    (ho : OwnedBy b r x) : OwnedBy b r (x.fill t) := by
  rcases ho with ho | ⟨hb, hn, _⟩
  · exact Or.inl (by rw [fill_remat]; exact ho)
  · exact Or.inr ⟨hb, by rw [fill_remat]; exact hn, fill_holds x t⟩

theorem keeps_owned_grows {α : Type} (b : Bool) (m : M α) (hm : ∀ h, Grows h (m h).2) :
    Keeps (Owned b) m := by
  intro h hs
  refine wp_of_snd (owned_step hs (hm h).remats (Nat.le_of_eq (hm h).next_cell.symm) ?_)
  intro o x _ hx
  rcases (hm h).cells_some o x hx with h1 | ⟨_, t, h1⟩
  · exact ⟨x, h1, fun _ ho => ho⟩
  · exact ⟨_, h1, fun _ ho => ownedBy_fill t ho⟩

theorem replayKeeps_owned (b : Bool) : ReplayKeeps (Owned b) :=
  { lock := fun s => keeps_owned_grows b _ (lock_pool_of_grows s)
    unlock := fun s => keeps_owned_grows b _ (unlock_pool_of_grows s)
    fill := fun o t => keeps_owned_grows b _ (fill_output_grows o t)
    call := fun f ts => keeps_owned_grows b _ (call_grows f ts)
    tail := fun c => keeps_owned_grows b _ (get_tail_grows c) }

/-- Writing one cell, keeping its owner. -/
theorem owned_upd_cell {b : Bool} {h : Heap} (hs : Owned b h) (c : Nat)
    (x y : EntityTensorCell) (hx : h.cells c = some x)
    (hy : ∀ r, OwnedBy b r x → OwnedBy b r y) (h1 : Heap) (hr : h1.remats = h.remats)
    (hc : h1.cells = upd h.cells c y) (hn : h1.next_cell = h.next_cell) : Owned b h1 := by
  refine owned_step hs hr (Nat.le_of_eq hn.symm) ?_
  intro o x1 _ hx1
  rw [hc]
  by_cases hoc : o = c
  · rw [hoc] at hx1 ⊢
    rw [hx] at hx1
    cases hx1
    exact ⟨y, upd_same _ _ _, hy⟩
  · exact ⟨x1, by rw [upd_other _ _ _ _ hoc]; exact hx1, fun _ ho => ho⟩

/-- Allocating a cell. -/
theorem owned_new_cell {b : Bool} {h : Heap} (hs : Owned b h) (y : EntityTensorCell)
    (h1 : Heap) (hr : h1.remats = h.remats) (hc : h1.cells = upd h.cells h.next_cell y)
    (hn : h1.next_cell = h.next_cell + 1) : Owned b h1 := by
  refine owned_step hs hr (by omega) ?_
  intro o x hlt hx
  rw [hc]
  exact ⟨x, by rw [upd_other _ _ _ _ (Nat.ne_of_lt hlt)]; exact hx, fun _ ho => ho⟩

/-- Writing a rematerializer whose outputs are its own cells. -/
theorem owned_upd_remat {b : Bool} {h : Heap} (hs : Owned b h) (r : Nat) (y : Rematerializer)
    (hrange : ∃ n, y.outputs = List.range' n y.outputs.length)
    (hy : ∀ o ∈ y.outputs, o < h.next_cell ∧ ∃ x, h.cells o = some x ∧ OwnedBy b r x)
    (h1 : Heap) (hr : h1.remats = upd h.remats r y) (hc : h1.cells = h.cells)
    (hn : h1.next_cell = h.next_cell) : Owned b h1 := by
  intro r1 rm hrm
  rw [hr] at hrm
  rw [hc, hn]
  rcases upd_cases hrm with ⟨rfl, rfl⟩ | ⟨_, h0⟩
  · exact ⟨hrange, hy⟩
  · exact hs r1 rm h0

theorem keeps_owned_cell_fill (b : Bool) (c : Nat) (t : Tensor) :
    Keeps (Owned b) (cell_fill c t) := by
  intro h hs
  unfold cell_fill
  simp only [wp_bind, wp_cell_at, wp_set_cell]
  split
  · rename_i x hx
    exact owned_upd_cell hs c x _ hx (fun _ ho => ownedBy_fill t ho) _ rfl rfl rfl
  · exact hs

theorem keeps_owned_cell_evict (b : Bool) (c : Nat) : Keeps (Owned b) (cell_evict c) := by
  intro h hs
  unfold cell_evict
  simp only [wp_bind, wp_cell_at, wp_liftE]
  split
  · rename_i x hx
    cases hr1 : x.remat_ with
    | none =>
      simp only [EntityTensorCell.evict, hr1, Option.isSome_none]
      exact hs
    | some r =>
      simp only [EntityTensorCell.evict, hr1, Option.isSome_some, if_true, wp_set_cell]
      refine owned_upd_cell hs c x _ hx ?_ _ rfl rfl rfl
      intro r2 ho
      rcases ho with ho | ⟨_, hn, _⟩
      · exact Or.inl (hr1.symm.trans ho)
      · rw [hr1] at hn
        cases hn
  · exact hs

theorem keeps_owned_pin (fuel c : Nat) : Keeps (Owned true) (EntityTensorCell.pin fuel c) := by
  intro h hs
  unfold EntityTensorCell.pin
  rw [wp_bind]
  refine wp_mono (wp_and (keeps_get (replayKeeps_owned true) fuel c h hs)
    (get_returns_held fuel c h)) ?_ (fun _ hq => hq.1)
  intro v h2 ⟨hs2, x, hx, hv⟩
  simp only [wp_bind, wp_cell_at, hx, wp_pool_at, wp_set_pool, wp_set_cell]
  split
  · refine owned_upd_cell hs2 c x _ hx ?_ _ rfl rfl rfl
    intro r _
    exact Or.inr ⟨rfl, rfl, by simp [hv]⟩
  · exact hs2

theorem keeps_owned_from_parts (b : Bool) (t : Tensor) (pool : Nat) (remat : Option Nat) :
    Keeps (Owned b) (External.from_parts t pool remat) := by
  intro h hs
  unfold External.from_parts External.from_strong
  simp only [wp_bind, wp_new_cell, wp_new_external]
  exact owned_new_cell hs _ _ rfl rfl rfl

theorem keeps_owned_from_tensor (b : Bool) (t : Tensor) :
    Keeps (Owned b) (External.from_tensor t) := by
  intro h hs
  unfold External.from_tensor External.from_strong
  simp only [wp_bind, wp_clock_now, wp_new_pool, wp_new_cell, wp_new_external]
  exact owned_new_cell hs _ _ rfl rfl rfl

theorem keeps_owned_release (b : Bool) (e : Nat) :
    Keeps (Owned b) (External.release_resources e) := by
  unfold External.release_resources
  refine keeps_bind (keeps_external_at e) (fun ext => ?_)
  refine keeps_bind (keeps_deref _) (fun c1 => ?_)
  refine keeps_bind (keeps_cell_at c1) (fun cell => ?_)
  refine keeps_bind (keeps_pool_at _) (fun p => ?_)
  refine keeps_bind (keeps_liftE _) (fun p1 => ?_)
  exact keeps_bind (keeps_owned_same b _ (fun _ => ⟨rfl, rfl, rfl⟩))
    (fun _ => keeps_owned_same b _ (fun _ => ⟨rfl, rfl, rfl⟩))

theorem keeps_owned_from_ref (b : Bool) (ref : Nat) :
    Keeps (Owned b) (EntityTensorImpl.from_ref ref) := by
  unfold EntityTensorImpl.from_ref
  refine keeps_bind (keeps_ref_at _) (fun slot => ?_)
  refine keeps_bind (keeps_deref _) (fun e => ?_)
  refine keeps_bind (keeps_external_at _) (fun ext => ?_)
  refine keeps_bind (keeps_deref _) (fun c1 => ?_)
  refine keeps_bind (keeps_cell_at _) (fun cell => ?_)
  refine keeps_bind (keeps_liftE _) (fun ks0 => ?_)
  refine keeps_bind (keeps_liftE _) (fun ks => ?_)
  refine keeps_bind (keeps_liftE _) (fun dtype => ?_)
  refine keeps_bind (keeps_liftE _) (fun dev => ?_)
  refine keeps_bind (keeps_owned_same b _ (fun _ => ⟨rfl, rfl, rfl⟩)) (fun eti => ?_)
  exact keeps_pure _

/-- The choice of the pool for an output writes no cell and at most the cost of a
rematerializer. -/
theorem pool_for_output_owned (b : Bool) (remat : Nat) (inputs : List Nat) (a : Int)
    (dt : Nat) (h : Heap) (hs : Owned b h) :
    wp (pool_for_output remat inputs a dt)
      (fun _ h1 => Owned b h1 ∧ h1.cells = h.cells ∧ h1.next_cell = h.next_cell ∧
        h1.externals = h.externals ∧ h1.next_external = h.next_external)
      (Owned b) h := by
  unfold pool_for_output
  split
  · rw [wp_bind, wp_clock_now, wp_new_pool]
    exact ⟨owned_same hs rfl rfl (Nat.le_refl _), rfl, rfl, rfl, rfl⟩
  · unfold alias_pool_of_input
    rw [wp_bind]
    cases hg : inputs.get? a.toNat with
    | none =>
      show Owned b h
      exact hs
    | some s =>
      change wp (pure s : M Nat) _ _ h
      simp only [wp_pure, wp_bind, wp_cell_at, wp_pool_at]
      split
      · split
        · rename_i p hp
          cases hhd : p.head_remat_ with
          | none =>
            simp only [wp_pure]
            exact ⟨hs, trivial, trivial, trivial, trivial⟩
          | some hr1 =>
            simp only [wp_bind, wp_remat_at, wp_set_remat, wp_pure]
            split
            · rename_i rm hrm
              obtain ⟨hrange, hall⟩ := hs hr1 rm hrm
              exact ⟨owned_upd_remat hs hr1
                { rm with compute_cost := rm.compute_cost + dt } hrange hall _ rfl rfl rfl,
                trivial, trivial, trivial, trivial⟩
            · exact hs
        · exact hs
      · exact hs

end ATen

namespace ATen

/-- One turn of the loop of `make_raw`: it allocates the next cell, with the new
rematerializer, and a handle to it; it writes no cell that existed. -/
theorem make_raw_output_owned (b : Bool) (remat : Nat) (inputs : List Nat) (raw : Tensors)
    (dt : Nat) (t : Tensor) (h : Heap) (hs : Owned b h) :
    wp (make_raw_output remat inputs raw dt t)
      (fun ea h1 => Owned b h1 ∧ h1.next_cell = h.next_cell + 1 ∧
        h1.externals ea.1 = some { value := some h.next_cell } ∧
        (∃ x, h1.cells h.next_cell = some x ∧ x.remat_ = some remat) ∧
        (∀ c, c < h.next_cell → h1.cells c = h.cells c))
      (Owned b) h := by
  unfold make_raw_output
  rw [wp_bind]
  refine wp_mono (pool_for_output_owned b remat inputs (get_alias raw t) dt h hs) ?_
    (fun _ hq => hq)
  intro p h1 ⟨hs1, hc, hn, _, _⟩
  unfold External.from_parts External.from_strong
  simp only [wp_bind, wp_new_cell, wp_new_external, wp_external_at, upd_same, wp_deref,
    wp_pool_at]
  have hown := owned_new_cell hs1 (EntityTensorCell.make t p (some remat))
  split
  · simp only [wp_set_pool, wp_pure]
    refine ⟨hown _ rfl rfl rfl, by show h1.next_cell + 1 = _; rw [hn], ?_, ?_, ?_⟩
    · show upd h1.externals h1.next_external _ h1.next_external = _
      rw [upd_same, hn]
    · refine ⟨EntityTensorCell.make t p (some remat), ?_, make_remat _ _ _⟩
      show upd h1.cells h1.next_cell _ h.next_cell = _
      rw [← hn, upd_same]
    · intro c hlt
      show upd h1.cells h1.next_cell _ c = _
      rw [upd_other _ _ _ _ (by omega), hc]
  · exact hown _ rfl rfl rfl

/-- The loop of `make_raw`: the cells it allocates are the next ones in order, each with
the new rematerializer. -/
theorem make_raw_outputs_owned (b : Bool) (remat : Nat) (inputs : List Nat) (raw : Tensors)
    (dt : Nat) : ∀ (ts : Tensors) (h : Heap), Owned b h →
    wp (make_raw_outputs remat inputs raw dt ts)
      (fun r h1 => Owned b h1 ∧ h1.next_cell = h.next_cell + ts.length ∧
        r.2.2 = List.range' h.next_cell ts.length ∧
        (∀ c ∈ r.2.2, ∃ x, h1.cells c = some x ∧ x.remat_ = some remat) ∧
        (∀ c, c < h.next_cell → h1.cells c = h.cells c))
      (Owned b) h
  | [], h, hs => by
    unfold make_raw_outputs
    refine ⟨hs, rfl, rfl, ?_, fun _ _ => rfl⟩
    intro c hc
    cases hc
  | t :: rest, h, hs => by
    unfold make_raw_outputs
    rw [wp_bind]
    refine wp_mono (make_raw_output_owned b remat inputs raw dt t h hs) ?_ (fun _ hq => hq)
    intro ea h1 ⟨hs1, hn1, hext, ⟨x, hx, hxr⟩, hfr⟩
    rcases ea with ⟨e, al⟩
    simp only [wp_bind, wp_external_at, hext, wp_deref]
    refine wp_mono (make_raw_outputs_owned b remat inputs raw dt rest h1 hs1) ?_
      (fun _ hq => hq)
    intro r h2 ⟨hs2, hn2, hws, hall, hfr2⟩
    rcases r with ⟨es, as, ws⟩
    have hws1 : ws = List.range' h1.next_cell rest.length := hws
    simp only [wp_pure]
    refine ⟨hs2, ?_, ?_, ?_, ?_⟩
    · rw [hn2, hn1, List.length_cons]
      omega
    · show h.next_cell :: ws = _
      rw [hws1, hn1, List.length_cons, List.range'_succ]
    · intro c hc
      rcases List.mem_cons.1 hc with rfl | hm
      · exact ⟨x, by rw [hfr2 _ (by omega)]; exact hx, hxr⟩
      · exact hall c hm
    · intro c hlt
      rw [hfr2 c (by omega), hfr c hlt]

theorem keeps_owned_make_raw (b : Bool) (fuel : Nat) (f : RematFunc_t) (inputs : List Nat) :
    Keeps (Owned b) (make_raw fuel f inputs) := by
  unfold make_raw
  refine keeps_bind (keeps_lock_inputs (replayKeeps_owned b).lock _) (fun _ => ?_)
  refine keeps_bind
    (keeps_uncheckpoint_with (fun c => keeps_get (replayKeeps_owned b) fuel c) _) (fun raw => ?_)
  refine keeps_bind keeps_clock_now (fun pre => ?_)
  refine keeps_bind ((replayKeeps_owned b).call _ _) (fun outs => ?_)
  refine keeps_bind keeps_clock_now (fun post => ?_)
  intro h hs
  simp only [wp_bind, wp_new_remat]
  have hs1 := owned_upd_remat hs h.next_remat
    { func := f, inputs := inputs, outputs := [], compute_cost := post - pre } ⟨0, rfl⟩
    (fun o ho => by cases ho)
    { h with
      remats := upd h.remats h.next_remat
        { func := f, inputs := inputs, outputs := [], compute_cost := post - pre }
      next_remat := h.next_remat + 1 } rfl rfl rfl
  refine wp_mono (make_raw_outputs_owned b _ inputs raw _ outs _ hs1) ?_ (fun _ hq => hq)
  intro r h1 ⟨hs2, hn2, hws, hall, _⟩
  rcases r with ⟨es, as, ws⟩
  have hws1 : ws = List.range' h.next_cell outs.length := hws
  simp only [wp_remat_at]
  split
  · rename_i rm hrm
    simp only [wp_set_remat]
    have hs3 := owned_upd_remat hs2 h.next_remat { rm with outputs := ws }
      ⟨h.next_cell, by
        show ws = List.range' h.next_cell ws.length
        rw [hws1, List.length_range']⟩
      (by
        intro o ho
        have ho1 : o ∈ ws := ho
        refine ⟨?_, ?_⟩
        · rw [hws1] at ho1
          have := (List.mem_range'_1.1 ho1).2
          rw [hn2]
          exact this
        · obtain ⟨x, hx, hxr⟩ := hall o ho1
          exact ⟨x, hx, Or.inl hxr⟩)
      { h1 with remats := upd h1.remats h.next_remat { rm with outputs := ws } } rfl rfl rfl
    exact wp_mono (keeps_unlock_inputs (replayKeeps_owned b).unlock inputs _ hs3)
      (fun _ _ hq => hq) (fun _ hq => hq)
  · exact hs2

theorem callKeeps_owned (b : Bool) : CallKeeps (Owned b) :=
  { replay := replayKeeps_owned b
    cell_fill := keeps_owned_cell_fill b
    cell_evict := keeps_owned_cell_evict b
    from_tensor := keeps_owned_from_tensor b
    release := keeps_owned_release b
    new_ref := fun _ => keeps_owned_same b _ (fun _ => ⟨rfl, rfl, rfl⟩)
    set_ref := fun r x _ h hs _ =>
      keeps_owned_same b (set_ref r x) (fun _ => ⟨rfl, rfl, rfl⟩) h hs
    from_ref := keeps_owned_from_ref b
    make_raw := keeps_owned_make_raw b }

theorem owned_empty (b : Bool) : Owned b Heap.empty := by
  intro r rm hrm
  cases hrm

/-- C22, as stated, fails: after `External(ones(4))`, `make_raw(split, [cell 0])`, whose
rematerializer 0 has the two outputs cell 1 and cell 2, and `pin()` on cell 1, the
rematerializer 0 is still there (cell 2 and its pool refer to it) and its `outputs[0]`
still refers to cell 1, but cell 1 has no rematerializer any more. -/
theorem C22_pinned_output_has_no_remat :
    (EntityTensorCell.pin 1 1 (run_ops (ops_split_pinned.take 2) Heap.empty)).1
      = Except.ok () ∧
    (heap_split_pinned.remats 0).map (fun r => r.outputs) = some [1, 2] ∧
    (heap_split_pinned.cells 1).map (fun x => x.remat_) = some none ∧
    (heap_split_pinned.cells 2).map (fun x => x.remat_) = some (some 0) ∧
    (heap_split_pinned.pools 2).map (fun p => p.head_remat_) = some (some 0) := by
  decide!

/-- C22, amended: in every heap that a sequence of calls builds from the empty heap
(`make_raw`, `mutate`, `evict`, `get`, `pin`, `remat` and every other call of the model),
the outputs of every rematerializer `r` are cells allocated one after the other, so that
`outputs[i]` is the `i`-th of them; each of these cells exists, and its rematerializer is
`r` or, as `pin` leaves it, absent, in which case the cell holds a value.  When no call of
the sequence is `pin`, the rematerializer of each output cell of `r` is `r`. -/
theorem C22_outputs_owned (ops : List Op) :
    Owned true (run_ops ops Heap.empty) ∧
    ((∀ o ∈ ops, o.is_pin = false) → Owned false (run_ops ops Heap.empty)) :=
  ⟨keeps_run_ops_of (callKeeps_owned true) keeps_owned_pin ops Heap.empty (owned_empty true),
    fun hall => keeps_run_ops_no_pin (callKeeps_owned false) ops Heap.empty hall
      (owned_empty false)⟩

/-- C22 at concrete runs: with the `pin` the outputs of the rematerializer are owned up
to pinning, without it they are owned strictly. -/
theorem C22_outputs_owned_witness :
    (∀ o ∈ ops_split_pinned.take 2, o.is_pin = false) ∧
    Owned true heap_split_pinned ∧
    Owned false (run_ops (ops_split_pinned.take 2) Heap.empty) ∧
    ((run_ops (ops_split_pinned.take 2) Heap.empty).remats 0).map (fun r => r.outputs)
      = some [1, 2] ∧
    ((run_ops (ops_split_pinned.take 2) Heap.empty).cells 1).map (fun x => x.remat_)
      = some (some 0) :=
  ⟨by decide, (C22_outputs_owned ops_split_pinned).1,
    (C22_outputs_owned (ops_split_pinned.take 2)).2 (by decide), by decide!, by decide!⟩

end ATen

namespace ATen

/-! ## Pools below the allocation counter, lock counts in the range of `size_t` -/

theorem size_t_inc_lt (n : Nat) : size_t_inc n < SIZE_T_RANGE := by
  unfold size_t_inc SIZE_T_RANGE
  omega

theorem size_t_dec_lt {n : Nat} (hn : n < SIZE_T_RANGE) : size_t_dec n < SIZE_T_RANGE := by
  unfold size_t_dec
  unfold SIZE_T_RANGE at *
  split <;> omega

theorem pools_ok_same {h h1 : Heap} (hs : PoolsOk h) (hp : h1.pools = h.pools)
    (hn : h.next_pool ≤ h1.next_pool) : PoolsOk h1 := by
  intro p x hx
  rw [hp] at hx
  exact ⟨Nat.lt_of_lt_of_le (hs p x hx).1 hn, (hs p x hx).2⟩

theorem keeps_pools_same {α : Type} (m : M α)
    (hm : ∀ h, (m h).2.pools = h.pools ∧ (m h).2.next_pool = h.next_pool) :
    Keeps PoolsOk m := by
  intro h hs
  exact wp_of_snd (pools_ok_same hs (hm h).1 (Nat.le_of_eq (hm h).2.symm))

/-- Writing a pool that exists, with a lock count in range. -/
theorem pools_ok_upd {h : Heap} (hs : PoolsOk h) {p : Nat} {x : AliasPool}
    (hx : h.pools p = some x) (y : AliasPool) (hy : y.lock_count_ < SIZE_T_RANGE) (h1 : Heap)
    (hp : h1.pools = upd h.pools p y) (hn : h1.next_pool = h.next_pool) : PoolsOk h1 := by
  intro q z hz
  rw [hp] at hz
  rw [hn]
  rcases upd_cases hz with ⟨rfl, rfl⟩ | ⟨_, h0⟩
  · exact ⟨(hs _ x hx).1, hy⟩
  · exact hs q z h0

theorem pools_ok_new {h : Heap} (hs : PoolsOk h) (y : AliasPool)
    (hy : y.lock_count_ < SIZE_T_RANGE) (h1 : Heap)
    (hp : h1.pools = upd h.pools h.next_pool y) (hn : h1.next_pool = h.next_pool + 1) :
    PoolsOk h1 := by
  intro q z hz
  rw [hp] at hz
  rw [hn]
  rcases upd_cases hz with ⟨rfl, rfl⟩ | ⟨_, h0⟩
  · exact ⟨Nat.lt_succ_self _, hy⟩
  · exact ⟨Nat.lt_succ_of_lt (hs q z h0).1, (hs q z h0).2⟩

theorem make_lock_lt (r : Option Nat) (m now : Nat) :
    (AliasPool.make r m now).lock_count_ < SIZE_T_RANGE := by
  show 0 < SIZE_T_RANGE
  unfold SIZE_T_RANGE
  omega

theorem keeps_pools_lock (s : Nat) : Keeps PoolsOk (lock_pool_of s) := by
  intro h hs
  unfold lock_pool_of
  simp only [wp_bind, wp_cell_at, wp_pool_at, wp_set_pool]
  split
  · split
    · rename_i p hp
      exact pools_ok_upd hs hp _ (size_t_inc_lt _) _ rfl rfl
    · exact hs
  · exact hs

theorem keeps_pools_unlock (s : Nat) : Keeps PoolsOk (unlock_pool_of s) := by
  intro h hs
  unfold unlock_pool_of
  simp only [wp_bind, wp_cell_at, wp_pool_at, wp_set_pool]
  split
  · split
    · rename_i p hp
      exact pools_ok_upd hs hp _ (size_t_dec_lt (hs _ p hp).2) _ rfl rfl
    · exact hs
  · exact hs

theorem keeps_pools_tail (c : Nat) : Keeps PoolsOk (get_tail c) := by
  intro h hs
  unfold get_tail
  simp only [wp_bind, wp_cell_at]
  split
  · rename_i x hx
    cases hv : x.t_ with
    | none => exact hs
    | some v =>
      simp only [wp_bind, wp_pool_at, wp_clock_now, wp_set_pool, wp_pure]
      split
      · rename_i p hp
        exact pools_ok_upd hs hp (p.update_last_used h.now) (hs _ p hp).2 _ rfl rfl
      · exact hs
  · exact hs

theorem fill_output_pools (o : Nat) (t : Tensor) (h : Heap) :
    (fill_output o t h).2.pools = h.pools ∧ (fill_output o t h).2.next_pool = h.next_pool := by
  unfold fill_output
  cases h.cells o <;> exact ⟨rfl, rfl⟩

theorem replayKeeps_pools : ReplayKeeps PoolsOk :=
  { lock := keeps_pools_lock
    unlock := keeps_pools_unlock
    fill := fun o t => keeps_pools_same _ (fill_output_pools o t)
    call := fun _ _ => keeps_pools_same _ (fun _ => ⟨rfl, rfl⟩)
    tail := keeps_pools_tail }

theorem release_external_lock (p p1 : AliasPool) (hp : p.release_external = Except.ok p1) :
    p1.lock_count_ = p.lock_count_ := by
  unfold AliasPool.release_external at hp
  simp only at hp
  split at hp
  · split at hp
    · cases hp
      rfl
    · split at hp
      · cases hp
        rfl
      · cases hp
  · cases hp
    rfl

theorem keeps_pools_release (e : Nat) : Keeps PoolsOk (External.release_resources e) := by
  unfold External.release_resources
  refine keeps_bind (keeps_external_at e) (fun ext => ?_)
  refine keeps_bind (keeps_deref _) (fun c => ?_)
  refine keeps_bind (keeps_cell_at c) (fun cell => ?_)
  intro h hs
  simp only [wp_bind, wp_pool_at, wp_liftE]
  split
  · rename_i p hp
    split
    · rename_i p1 hp1
      simp only [wp_set_pool, wp_set_external]
      exact pools_ok_upd hs hp p1 (by rw [release_external_lock p p1 hp1]; exact (hs _ p hp).2)
        _ rfl rfl
    · exact hs
  · exact hs

theorem keeps_pools_cell_fill (c : Nat) (t : Tensor) : Keeps PoolsOk (cell_fill c t) := by
  unfold cell_fill
  exact keeps_bind (keeps_cell_at c) (fun _ => keeps_pools_same _ (fun _ => ⟨rfl, rfl⟩))

theorem keeps_pools_cell_evict (c : Nat) : Keeps PoolsOk (cell_evict c) := by
  unfold cell_evict
  refine keeps_bind (keeps_cell_at c) (fun _ => ?_)
  exact keeps_bind (keeps_liftE _) (fun _ => keeps_pools_same _ (fun _ => ⟨rfl, rfl⟩))

theorem keeps_pools_pin (fuel c : Nat) : Keeps PoolsOk (EntityTensorCell.pin fuel c) := by
  unfold EntityTensorCell.pin
  refine keeps_bind (keeps_get replayKeeps_pools fuel c) (fun _ => ?_)
  refine keeps_bind (keeps_cell_at c) (fun cell => ?_)
  intro h hs
  simp only [wp_bind, wp_pool_at, wp_set_pool, wp_set_cell]
  split
  · rename_i p hp
    exact pools_ok_upd hs hp { p with head_remat_ := none } (hs _ p hp).2 _ rfl rfl
  · exact hs

theorem keeps_pools_from_parts (t : Tensor) (pool : Nat) (remat : Option Nat) :
    Keeps PoolsOk (External.from_parts t pool remat) := by
  unfold External.from_parts External.from_strong
  exact keeps_bind (keeps_pools_same _ (fun _ => ⟨rfl, rfl⟩))
    (fun _ => keeps_pools_same _ (fun _ => ⟨rfl, rfl⟩))

theorem keeps_pools_new_pool (r : Option Nat) (m now : Nat) :
    Keeps PoolsOk (new_pool (AliasPool.make r m now)) := by
  intro h hs
  rw [wp_new_pool]
  exact pools_ok_new hs _ (make_lock_lt r m now) _ rfl rfl

theorem keeps_pools_from_tensor (t : Tensor) : Keeps PoolsOk (External.from_tensor t) := by
  unfold External.from_tensor External.from_strong
  refine keeps_bind keeps_clock_now (fun now => ?_)
  refine keeps_bind (keeps_pools_new_pool _ _ _) (fun pool => ?_)
  exact keeps_bind (keeps_pools_same _ (fun _ => ⟨rfl, rfl⟩))
    (fun _ => keeps_pools_same _ (fun _ => ⟨rfl, rfl⟩))

theorem keeps_pools_from_ref (ref : Nat) : Keeps PoolsOk (EntityTensorImpl.from_ref ref) := by
  unfold EntityTensorImpl.from_ref
  refine keeps_bind (keeps_ref_at _) (fun slot => ?_)
  refine keeps_bind (keeps_deref _) (fun e => ?_)
  refine keeps_bind (keeps_external_at _) (fun ext => ?_)
  refine keeps_bind (keeps_deref _) (fun c => ?_)
  refine keeps_bind (keeps_cell_at _) (fun cell => ?_)
  refine keeps_bind (keeps_liftE _) (fun ks0 => ?_)
  refine keeps_bind (keeps_liftE _) (fun ks => ?_)
  refine keeps_bind (keeps_liftE _) (fun dtype => ?_)
  refine keeps_bind (keeps_liftE _) (fun dev => ?_)
  refine keeps_bind (keeps_pools_same _ (fun _ => ⟨rfl, rfl⟩)) (fun eti => ?_)
  exact keeps_pure _

theorem keeps_pools_push (alias_pool c : Nat) (α : Type) (a : α) :
    Keeps PoolsOk (do
      let p ← pool_at alias_pool
      set_pool alias_pool { p with tensors_ := p.tensors_ ++ [c] }
      pure a) := by
  intro h hs
  simp only [wp_bind, wp_pool_at, wp_set_pool, wp_pure]
  split
  · rename_i p hp
    exact pools_ok_upd hs hp { p with tensors_ := p.tensors_ ++ [c] } (hs _ p hp).2 _ rfl rfl
  · exact hs

theorem allocKeeps_pools : AllocKeeps PoolsOk :=
  { new_remat := fun _ => keeps_pools_same _ (fun _ => ⟨rfl, rfl⟩)
    set_remat := fun _ _ => keeps_pools_same _ (fun _ => ⟨rfl, rfl⟩)
    new_pool := keeps_pools_new_pool
    push := keeps_pools_push
    from_parts := keeps_pools_from_parts }

theorem callKeeps_pools : CallKeeps PoolsOk :=
  { replay := replayKeeps_pools
    cell_fill := keeps_pools_cell_fill
    cell_evict := keeps_pools_cell_evict
    from_tensor := keeps_pools_from_tensor
    release := keeps_pools_release
    new_ref := fun _ => keeps_pools_same _ (fun _ => ⟨rfl, rfl⟩)
    set_ref := fun r x _ h hs _ => keeps_pools_same (set_ref r x) (fun _ => ⟨rfl, rfl⟩) h hs
    from_ref := keeps_pools_from_ref
    make_raw := keeps_make_raw_of replayKeeps_pools allocKeeps_pools }

theorem pools_ok_of_reachable {h : Heap} (hr : Reachable h) : PoolsOk h := by
  obtain ⟨ops, rfl⟩ := hr
  exact keeps_run_ops_of callKeeps_pools keeps_pools_pin ops Heap.empty
    (fun _ _ hx => by cases hx)

end ATen

namespace ATen

/-! ## Lock counts: what `lock`, `unlock` and a replay do to them -/

theorem shifted_refl (h : Heap) : Shifted (fun _ => 0) h h := by
  intro p x hx
  exact ⟨x, hx, by simp⟩

theorem shifted_of_pools {h h1 : Heap} (hp : h1.pools = h.pools) : Shifted (fun _ => 0) h h1 := by
  intro p x hx
  rw [← hp] at hx
  exact ⟨x, hx, by simp⟩

theorem shifted_trans {d1 d2 d : Nat → Int} {h h1 h2 : Heap} (a : Shifted d1 h h1)
    (b : Shifted d2 h1 h2) (hd : ∀ p, d p = d1 p + d2 p) : Shifted d h h2 := by
  intro p x hx
  obtain ⟨y, hy, e1⟩ := a p x hx
  obtain ⟨z, hz, e2⟩ := b p y hy
  refine ⟨z, hz, ?_⟩
  rw [hd p]
  omega

/-- Writing one pool that exists, with a lock count that differs by `k`. -/
theorem shifted_upd {h h1 : Heap} {q : Nat} {x0 : AliasPool} (hq : h.pools q = some x0)
    (y : AliasPool) (k : Int)
    (hy : (y.lock_count_ : Int) % 18446744073709551616
      = ((x0.lock_count_ : Int) + k) % 18446744073709551616)
    (hp : h1.pools = upd h.pools q y) :
    Shifted (fun p => if q = p then k else 0) h h1 := by
  intro p x hx
  by_cases hpq : q = p
  · subst hpq
    rw [hq] at hx
    cases hx
    refine ⟨y, by rw [hp]; exact upd_same _ _ _, ?_⟩
    simp only [if_true]
    exact hy
  · refine ⟨x, by rw [hp, upd_other _ _ _ _ (Ne.symm hpq)]; exact hx, ?_⟩
    simp [hpq]

theorem lock_shift (p : AliasPool) :
    (p.lock.lock_count_ : Int) % 18446744073709551616
      = ((p.lock_count_ : Int) + 1) % 18446744073709551616 := by
  show ((size_t_inc p.lock_count_ : Nat) : Int) % 18446744073709551616 = _
  unfold size_t_inc SIZE_T_RANGE
  omega

theorem unlock_shift (p : AliasPool) :
    (p.unlock.lock_count_ : Int) % 18446744073709551616
      = ((p.lock_count_ : Int) + (-1)) % 18446744073709551616 := by
  show ((size_t_dec p.lock_count_ : Nat) : Int) % 18446744073709551616 = _
  unfold size_t_dec SIZE_T_RANGE
  split <;> omega

theorem pool_of_cells {h h1 : Heap} (hc : h1.cells = h.cells) (s : Nat) :
    pool_of h1 s = pool_of h s := by
  unfold pool_of
  rw [hc]

theorem lock_times_cons (h : Heap) (s : Nat) (rest : List Nat) (p : Nat) :
    lock_times h (s :: rest) p
      = (if pool_of h s = some p then 1 else 0) + lock_times h rest p := rfl

theorem lock_times_cells {h h1 : Heap} (hc : h1.cells = h.cells) (l : List Nat) (p : Nat) :
    lock_times h1 l p = lock_times h l p := by
  induction l with
  | nil => rfl
  | cons s rest ih =>
    unfold lock_times
    rw [ih, pool_of_cells hc]

theorem lock_times_kept {h h1 : Heap} (hk : PoolKept h h1) (p : Nat) : ∀ (l : List Nat),
    (∀ s ∈ l, ∃ x, h.cells s = some x) → lock_times h1 l p = lock_times h l p
  | [], _ => rfl
  | s :: rest, hl => by
    unfold lock_times
    obtain ⟨x, hx⟩ := hl s (List.mem_cons_self _ _)
    have h0 : pool_of h s = some x.pool_ := by
      unfold pool_of
      rw [hx]
      rfl
    rw [lock_times_kept hk p rest (fun s1 hs1 => hl s1 (List.mem_cons_of_mem _ hs1)),
      hk s _ h0, h0]

theorem poolKept_refl (h : Heap) : PoolKept h h := fun _ _ hs => hs

theorem poolKept_trans {h h1 h2 : Heap} (a : PoolKept h h1) (b : PoolKept h1 h2) :
    PoolKept h h2 := fun s q hs => b s q (a s q hs)

theorem poolKept_of_cells {h h1 : Heap} (hc : h1.cells = h.cells) : PoolKept h h1 := by
  intro s q hs
  rw [pool_of_cells hc]
  exact hs

theorem poolKept_of_grows {h h1 : Heap} (g : Grows h h1) : PoolKept h h1 := by
  intro s q hs
  unfold pool_of at *
  cases hx : h.cells s with
  | none =>
    rw [hx] at hs
    cases hs
  | some x =>
    rw [hx] at hs
    rcases g.cells_some s x hx with h1c | ⟨_, t, h1c⟩
    · rw [h1c]
      exact hs
    · rw [h1c]
      simp only [Option.map_some', fill_pool]
      exact hs

/-- One `lock()`: on normal return the pool of the cell has one lock more. -/
theorem lock_pool_of_shifted (s : Nat) (h h1 : Heap)
    (hm : lock_pool_of s h = (Except.ok (), h1)) :
    Shifted (fun p => if pool_of h s = some p then 1 else 0) h h1 ∧ h1.cells = h.cells ∧
      ∃ x, h.cells s = some x := by
  have hw : wp (lock_pool_of s) (fun _ h1 =>
      Shifted (fun p => if pool_of h s = some p then 1 else 0) h h1 ∧ h1.cells = h.cells ∧
        ∃ x, h.cells s = some x) (fun _ => True) h := by
    unfold lock_pool_of
    simp only [wp_bind, wp_cell_at, wp_pool_at, wp_set_pool]
    split
    · rename_i x hx
      split
      · rename_i p hp
        refine ⟨?_, trivial, x, hx⟩
        have hs : Shifted (fun q => if x.pool_ = q then (1 : Int) else 0) h
            { h with pools := upd h.pools x.pool_ p.lock } :=
          shifted_upd hp p.lock 1 (lock_shift p) rfl
        intro q z hz
        obtain ⟨y, hy, e⟩ := hs q z hz
        refine ⟨y, hy, ?_⟩
        rw [e]
        simp [pool_of, hx]
      · trivial
    · trivial
  exact wp_ok hw hm

/-- One `unlock()`: on normal return the pool of the cell has one lock less. -/
theorem unlock_pool_of_shifted (s : Nat) (h h1 : Heap)
    (hm : unlock_pool_of s h = (Except.ok (), h1)) :
    Shifted (fun p => -(if pool_of h s = some p then 1 else 0)) h h1 ∧ h1.cells = h.cells := by
  have hw : wp (unlock_pool_of s) (fun _ h1 =>
      Shifted (fun p => -(if pool_of h s = some p then 1 else 0)) h h1 ∧ h1.cells = h.cells)
      (fun _ => True) h := by
    unfold unlock_pool_of
    simp only [wp_bind, wp_cell_at, wp_pool_at, wp_set_pool]
    split
    · rename_i x hx
      split
      · rename_i p hp
        refine ⟨?_, trivial⟩
        have hs : Shifted (fun q => if x.pool_ = q then (-1 : Int) else 0) h
            { h with pools := upd h.pools x.pool_ p.unlock } :=
          shifted_upd hp p.unlock (-1) (unlock_shift p) rfl
        intro q z hz
        obtain ⟨y, hy, e⟩ := hs q z hz
        refine ⟨y, hy, ?_⟩
        rw [e]
        by_cases hq : x.pool_ = q <;> simp [pool_of, hx, hq]
      · trivial
    · trivial
  exact wp_ok hw hm

/-- The loop of `lock()` calls: each pool gets as many locks as entries of the list are
cells of it. -/
theorem lock_inputs_shifted : ∀ (l : List Nat) (h h1 : Heap),
    lock_inputs l h = (Except.ok (), h1) →
    Shifted (fun p => (lock_times h l p : Int)) h h1 ∧ h1.cells = h.cells ∧
      ∀ s ∈ l, ∃ x, h.cells s = some x
  | [], h, h1, hm => by
    unfold lock_inputs at hm
    cases hm
    exact ⟨shifted_refl h, rfl, fun _ hs => by cases hs⟩
  | s :: rest, h, h1, hm => by
    unfold lock_inputs at hm
    obtain ⟨_, h2, hs, hrest⟩ := bind_inv hm
    obtain ⟨a, hc, hx⟩ := lock_pool_of_shifted s h h2 hs
    obtain ⟨b, hc1, hl⟩ := lock_inputs_shifted rest h2 h1 hrest
    refine ⟨shifted_trans a b ?_, hc1.trans hc, ?_⟩
    · intro p
      rw [lock_times_cells hc]
      rw [lock_times_cons]
      split <;> simp
    · intro s1 hs1
      rcases List.mem_cons.mp hs1 with rfl | hin
      · exact hx
      · rw [← hc]
        exact hl s1 hin

/-- The loop of `unlock()` calls: each pool loses as many locks as entries of the list are
cells of it. -/
theorem unlock_inputs_shifted : ∀ (l : List Nat) (h h1 : Heap),
    unlock_inputs l h = (Except.ok (), h1) →
    Shifted (fun p => -(lock_times h l p : Int)) h h1 ∧ h1.cells = h.cells
  | [], h, h1, hm => by
    unfold unlock_inputs at hm
    cases hm
    refine ⟨?_, rfl⟩
    intro p x hx
    exact ⟨x, hx, by simp [lock_times]⟩
  | s :: rest, h, h1, hm => by
    unfold unlock_inputs at hm
    obtain ⟨_, h2, hs, hrest⟩ := bind_inv hm
    obtain ⟨a, hc⟩ := unlock_pool_of_shifted s h h2 hs
    obtain ⟨b, hc1⟩ := unlock_inputs_shifted rest h2 h1 hrest
    refine ⟨shifted_trans a b ?_, hc1.trans hc⟩
    intro p
    rw [lock_times_cells hc]
    rw [lock_times_cons]
    split
    · simp
      omega
    · simp

theorem run_snd {α : Type} {m : M α} {h h1 : Heap} {r : Except Err α} (hm : m h = (r, h1)) :
    (m h).2 = h1 := by
  rw [hm]

theorem fill_outputs_pools : ∀ (os : List Nat) (ts : Tensors) (h : Heap),
    (fill_outputs os ts h).2.pools = h.pools
  | [], _, _ => rfl
  | _ :: _, [], _ => rfl
  | o :: os, t :: ts, h => by
    unfold fill_outputs
    rcases hf : fill_output o t h with ⟨r, h2⟩
    have hp := (fill_output_pools o t h).1
    rw [hf] at hp
    cases r with
    | error e =>
      rw [bind_error hf]
      exact hp
    | ok a =>
      rw [bind_ok hf]
      exact (fill_outputs_pools os ts h2).trans hp

theorem get_tail_shifted (c : Nat) (h : Heap) :
    wp (get_tail c) (fun _ h1 => Shifted (fun _ => 0) h h1) (fun _ => True) h := by
  unfold get_tail
  simp only [wp_bind, wp_cell_at]
  split
  · rename_i x hx
    cases hv : x.t_ with
    | none => simp [wp_fail]
    | some v =>
      simp only [wp_bind, wp_pool_at, wp_clock_now, wp_set_pool, wp_pure]
      split
      · rename_i p hp
        have hs : Shifted (fun q => if x.pool_ = q then (0 : Int) else 0) h
            { h with pools := upd h.pools x.pool_ (p.update_last_used h.now) } :=
          shifted_upd hp (p.update_last_used h.now) 0
            (by show ((p.lock_count_ : Nat) : Int) % _ = _; simp) rfl
        intro q z hz
        obtain ⟨y, hy, e⟩ := hs q z hz
        refine ⟨y, hy, ?_⟩
        rw [e]
        by_cases hq : x.pool_ = q <;> simp [hq]
      · trivial
  · trivial

theorem uncheckpoint_with_shifted {g : Nat → M Tensor}
    (hg : ∀ c h t h1, g c h = (Except.ok t, h1) → Shifted (fun _ => 0) h h1) :
    ∀ (l : List Nat) (h h1 : Heap) (ts : Tensors),
    uncheckpoint_with g l h = (Except.ok ts, h1) → Shifted (fun _ => 0) h h1
  | [], h, h1, ts, hm => by
    unfold uncheckpoint_with at hm
    cases hm
    exact shifted_refl h
  | c :: rest, h, h1, ts, hm => by
    unfold uncheckpoint_with at hm
    obtain ⟨t, h2, hs, hrest⟩ := bind_inv hm
    obtain ⟨ts1, h3, hrec, hp⟩ := bind_inv hrest
    cases hp
    exact shifted_trans (hg c h t h2 hs) (uncheckpoint_with_shifted hg rest h2 _ ts1 hrec)
      (fun _ => by simp)

/-- A replay through `remat`: on normal return every lock count is what it was, when the
same holds of the `get` of the cells. -/
theorem remat_with_shifted {g : Nat → M Tensor} (hgg : ∀ c h, Grows h (g c h).2)
    (hg : ∀ c h t h1, g c h = (Except.ok t, h1) → Shifted (fun _ => 0) h h1)
    (r : Nat) (h h1 : Heap) (hm : remat_with g r h = (Except.ok (), h1)) :
    Shifted (fun _ => 0) h h1 := by
  unfold remat_with at hm
  obtain ⟨rm, ha, e1, hm1⟩ := bind_inv hm
  clear hm
  have hah : ha = h := by
    have := run_snd e1
    unfold remat_at at this
    split at this <;> exact this.symm
  subst hah
  obtain ⟨_, hb, e2, hm2⟩ := bind_inv hm1
  obtain ⟨ts, hc, e3, hm3⟩ := bind_inv hm2
  obtain ⟨_, hd, e4, hm4⟩ := bind_inv hm3
  obtain ⟨ret, he, e5, hm5⟩ := bind_inv hm4
  obtain ⟨_, hf, e6, hm6⟩ := bind_inv hm5
  obtain ⟨_, hg1, e7, hm7⟩ := bind_inv hm6
  obtain ⟨_, hh, e8, hm8⟩ := bind_inv hm7
  clear hm1 hm2 hm3 hm4 hm5 hm6 hm7
  obtain ⟨s1, hc1, hlive⟩ := lock_inputs_shifted _ _ _ e2
  have s2 := uncheckpoint_with_shifted hg _ _ _ _ e3
  have g2 : Grows ha hc := by
    have a := lock_inputs_grows rm.inputs ha
    rw [run_snd e2] at a
    have b := uncheckpoint_with_grows hgg rm.inputs hb
    rw [run_snd e3] at b
    exact a.trans b
  have hdc : hd = hc := by
    have := run_snd e4
    exact this.symm
  subst hdc
  have g3 : Grows hd he := by
    have a := call_grows rm.func ts hd
    rw [run_snd e5] at a
    exact a
  have p3 : he.pools = hd.pools := by
    have a : (rm.func.call ts hd).2.pools = hd.pools := rfl
    rw [run_snd e5] at a
    exact a
  have hfe : hf = he := by
    have := run_snd e6
    exact this.symm
  subst hfe
  have hgf : hg1 = hf := by
    have := run_snd e7
    unfold torch_check at this
    split at this <;> exact this.symm
  subst hgf
  have g4 : Grows hg1 hh := by
    have a := fill_outputs_grows rm.outputs ret hg1
    rw [run_snd e8] at a
    exact a
  have p4 : hh.pools = hg1.pools := by
    have a := fill_outputs_pools rm.outputs ret hg1
    rw [run_snd e8] at a
    exact a
  obtain ⟨s5, _⟩ := unlock_inputs_shifted _ _ _ hm8
  have hk : PoolKept ha hh := poolKept_of_grows ((g2.trans g3).trans g4)
  have s34 : Shifted (fun _ => 0) hd hh := shifted_of_pools (p4.trans p3)
  refine shifted_trans (shifted_trans (shifted_trans s1 s2 (fun _ => rfl)) s34 (fun _ => rfl))
    s5 ?_
  intro p
  rw [lock_times_kept hk p rm.inputs hlive]
  simp

/-- Materializing a cell, nested replays included: on normal return every lock count is
what it was. -/
theorem get_shifted : ∀ (fuel c : Nat) (h : Heap) (t : Tensor) (h1 : Heap),
    EntityTensorCell.get fuel c h = (Except.ok t, h1) → Shifted (fun _ => 0) h h1
  | 0, c, h, t, h1, hm => by
    unfold EntityTensorCell.get at hm
    cases hm
  | fuel + 1, c, h, t, h1, hm => by
    unfold EntityTensorCell.get at hm
    obtain ⟨cell, ha, e1, hm1⟩ := bind_inv hm
    clear hm
    have hah : ha = h := by
      have := run_snd e1
      unfold cell_at at this
      split at this <;> exact this.symm
    subst hah
    cases hv : cell.t_ with
    | some v =>
      simp only [hv] at hm1
      exact wp_ok (Q := fun _ h2 => Shifted (fun _ => 0) ha h2) (get_tail_shifted c ha) hm1
    | none =>
      simp only [hv] at hm1
      cases hr : cell.remat_ with
      | none =>
        simp only [hr] at hm1
        cases hm1
      | some r =>
        simp only [hr] at hm1
        obtain ⟨_, hb, e2, hm2⟩ := bind_inv hm1
        have s2 : Shifted (fun _ => 0) hb h1 :=
          wp_ok (Q := fun _ h2 => Shifted (fun _ => 0) hb h2) (get_tail_shifted c hb) hm2
        exact shifted_trans
          (remat_with_shifted (get_grows fuel) (get_shifted fuel) r ha hb e2) s2
          (fun _ => by simp)

theorem lockSame_of_shifted {h h1 : Heap} (s : Shifted (fun _ => 0) h h1) (a : PoolsOk h)
    (b : PoolsOk h1) : LockSame h h1 := by
  intro p x hx
  obtain ⟨y, hy, e⟩ := s p x hx
  refine ⟨y, hy, ?_⟩
  have hx1 := (a p x hx).2
  have hy1 := (b p y hy).2
  have e1 : (y.lock_count_ : Int) % 18446744073709551616
      = (x.lock_count_ : Int) % 18446744073709551616 := by simpa using e
  unfold SIZE_T_RANGE at hx1 hy1
  omega

end ATen

namespace ATen

/-! ## Lock counts across `make_raw` -/

theorem keeps_make_raw_outputs_of {P : Heap → Prop} (ha : AllocKeeps P) (remat : Nat)
    (inputs : List Nat) (raw : Tensors) (dt : Nat) :
    ∀ ts : Tensors, Keeps P (make_raw_outputs remat inputs raw dt ts) := by
  have hout : ∀ (t : Tensor), Keeps P (make_raw_output remat inputs raw dt t) := by
    intro t
    unfold make_raw_output
    refine keeps_bind ?_ (fun alias_pool => ?_)
    · unfold pool_for_output
      split
      · exact keeps_bind keeps_clock_now (fun now => ha.new_pool _ _ _)
      · unfold alias_pool_of_input
        refine keeps_bind (keeps_read _ (fun h => ?_)) (fun s => ?_)
        · cases inputs.get? (get_alias raw t).toNat <;> rfl
        refine keeps_bind (keeps_cell_at _) (fun cell => ?_)
        refine keeps_bind (keeps_pool_at _) (fun p => ?_)
        cases p.head_remat_ with
        | none => exact keeps_pure _
        | some hr1 =>
          refine keeps_bind (keeps_remat_at _) (fun rm => ?_)
          exact keeps_bind (ha.set_remat _ _) (fun _ => keeps_pure _)
    refine keeps_bind (ha.from_parts _ _ _) (fun e => ?_)
    refine keeps_bind (keeps_external_at _) (fun ext => ?_)
    refine keeps_bind (keeps_deref _) (fun c => ?_)
    exact ha.push alias_pool c _ _
  intro ts
  induction ts with
  | nil => exact keeps_pure _
  | cons t rest ih =>
    unfold make_raw_outputs
    refine keeps_bind (hout t) (fun ea => ?_)
    refine keeps_bind (keeps_external_at _) (fun ext => ?_)
    refine keeps_bind (keeps_deref _) (fun c => ?_)
    exact keeps_bind ih (fun r => keeps_pure _)

theorem framed_refl {h : Heap} (hc : CellsBelow h) (hp : PoolsOk h) : Framed h h :=
  ⟨hc, hp, shifted_refl h, poolKept_refl h⟩

theorem framed_same {h0 h h1 : Heap} (hf : Framed h0 h) (hc : h1.cells = h.cells)
    (hp : h1.pools = h.pools) (hnc : h1.next_cell = h.next_cell)
    (hnp : h1.next_pool = h.next_pool) : Framed h0 h1 :=
  ⟨below_same hf.1 hc (Nat.le_of_eq hnc.symm), pools_ok_same hf.2.1 hp (Nat.le_of_eq hnp.symm),
    shifted_trans hf.2.2.1 (shifted_of_pools hp) (fun _ => rfl),
    poolKept_trans hf.2.2.2 (poolKept_of_cells hc)⟩

theorem keeps_framed_same {α : Type} (h0 : Heap) (m : M α)
    (hm : ∀ h, (m h).2.cells = h.cells ∧ (m h).2.pools = h.pools ∧
      (m h).2.next_cell = h.next_cell ∧ (m h).2.next_pool = h.next_pool) :
    Keeps (Framed h0) m := by
  intro h hs
  exact wp_of_snd (framed_same hs (hm h).1 (hm h).2.1 (hm h).2.2.1 (hm h).2.2.2)

/-- Writing a pool that exists, with the lock count it has. -/
theorem framed_upd_pool {h0 h h1 : Heap} (hf : Framed h0 h) {q : Nat} {p : AliasPool}
    (hq : h.pools q = some p) (y : AliasPool) (hy : y.lock_count_ = p.lock_count_)
    (hc : h1.cells = h.cells) (hp : h1.pools = upd h.pools q y)
    (hnc : h1.next_cell = h.next_cell) (hnp : h1.next_pool = h.next_pool) : Framed h0 h1 := by
  refine ⟨below_same hf.1 hc (Nat.le_of_eq hnc.symm),
    pools_ok_upd hf.2.1 hq y (by rw [hy]; exact (hf.2.1 _ p hq).2) h1 hp hnp, ?_,
    poolKept_trans hf.2.2.2 (poolKept_of_cells hc)⟩
  have hs := shifted_upd hq y 0 (by rw [hy]; simp) hp
  refine shifted_trans hf.2.2.1 hs ?_
  intro r
  by_cases hr : q = r <;> simp [hr]

/-- A new pool, at the next free address. -/
theorem framed_new_pool {h0 h h1 : Heap} (hf : Framed h0 h) (y : AliasPool)
    (hy : y.lock_count_ < SIZE_T_RANGE) (hc : h1.cells = h.cells)
    (hp : h1.pools = upd h.pools h.next_pool y) (hnc : h1.next_cell = h.next_cell)
    (hnp : h1.next_pool = h.next_pool + 1) : Framed h0 h1 := by
  refine ⟨below_same hf.1 hc (Nat.le_of_eq hnc.symm), pools_ok_new hf.2.1 y hy h1 hp hnp, ?_,
    poolKept_trans hf.2.2.2 (poolKept_of_cells hc)⟩
  have hz : Shifted (fun _ => 0) h h1 := by
    intro r x hx
    refine ⟨x, ?_, by simp⟩
    rw [hp, upd_other _ _ _ _ (Nat.ne_of_lt (hf.2.1 r x hx).1)]
    exact hx
  exact shifted_trans hf.2.2.1 hz (fun _ => rfl)

/-- A new cell, at the next free address. -/
theorem framed_new_cell {h0 h h1 : Heap} (hf : Framed h0 h) (y : EntityTensorCell)
    (hc : h1.cells = upd h.cells h.next_cell y) (hp : h1.pools = h.pools)
    (hnc : h1.next_cell = h.next_cell + 1) (hnp : h1.next_pool = h.next_pool) :
    Framed h0 h1 := by
  refine ⟨below_new hf.1 y h1 hc hnc, pools_ok_same hf.2.1 hp (Nat.le_of_eq hnp.symm),
    shifted_trans hf.2.2.1 (shifted_of_pools hp) (fun _ => rfl), ?_⟩
  refine poolKept_trans hf.2.2.2 ?_
  intro s q hs
  unfold pool_of at *
  cases hx : h.cells s with
  | none =>
    rw [hx] at hs
    cases hs
  | some x =>
    rw [hc, upd_other _ _ _ _ (Nat.ne_of_lt (hf.1 s x hx))]
    exact hs

theorem keeps_framed_new_cell (h0 : Heap) (x : EntityTensorCell) :
    Keeps (Framed h0) (new_cell x) := by
  intro h hs
  rw [wp_new_cell]
  exact framed_new_cell hs x rfl rfl rfl rfl

theorem keeps_framed_from_parts (h0 : Heap) (t : Tensor) (pool : Nat) (remat : Option Nat) :
    Keeps (Framed h0) (External.from_parts t pool remat) := by
  unfold External.from_parts External.from_strong
  exact keeps_bind (keeps_framed_new_cell h0 _)
    (fun _ => keeps_framed_same h0 _ (fun _ => ⟨rfl, rfl, rfl, rfl⟩))

theorem keeps_framed_new_pool (h0 : Heap) (r : Option Nat) (m now : Nat) :
    Keeps (Framed h0) (new_pool (AliasPool.make r m now)) := by
  intro h hs
  rw [wp_new_pool]
  exact framed_new_pool hs _ (make_lock_lt r m now) rfl rfl rfl rfl

theorem keeps_framed_push (h0 : Heap) (alias_pool c : Nat) (α : Type) (a : α) :
    Keeps (Framed h0) (do
      let p ← pool_at alias_pool
      set_pool alias_pool { p with tensors_ := p.tensors_ ++ [c] }
      pure a) := by
  intro h hs
  simp only [wp_bind, wp_pool_at, wp_set_pool, wp_pure]
  split
  · rename_i p hp
    exact framed_upd_pool hs hp { p with tensors_ := p.tensors_ ++ [c] } rfl rfl rfl rfl rfl
  · exact hs

theorem allocKeeps_framed (h0 : Heap) : AllocKeeps (Framed h0) :=
  { new_remat := fun _ => keeps_framed_same h0 _ (fun _ => ⟨rfl, rfl, rfl, rfl⟩)
    set_remat := fun _ _ => keeps_framed_same h0 _ (fun _ => ⟨rfl, rfl, rfl, rfl⟩)
    new_pool := keeps_framed_new_pool h0
    push := keeps_framed_push h0
    from_parts := keeps_framed_from_parts h0 }

/-- The `make_raw` call: on normal return, from a heap whose cells and pools are below the
allocation counters, every lock count is what it was modulo `2^64`. -/
theorem make_raw_shifted (fuel : Nat) (f : RematFunc_t) (inputs : List Nat) (h h1 : Heap)
    (R : MakeRawResult) (hcb : CellsBelow h) (hpo : PoolsOk h)
    (hm : make_raw fuel f inputs h = (Except.ok R, h1)) : Shifted (fun _ => 0) h h1 := by
  unfold make_raw uncheckpoint_strongs at hm
  obtain ⟨_, hb, e1, hm1⟩ := bind_inv hm
  obtain ⟨raw, hc, e2, hm2⟩ := bind_inv hm1
  obtain ⟨pre, hd, e3, hm3⟩ := bind_inv hm2
  obtain ⟨outs, he, e4, hm4⟩ := bind_inv hm3
  obtain ⟨post, hf, e5, hm5⟩ := bind_inv hm4
  obtain ⟨remat, hg, e6, hm6⟩ := bind_inv hm5
  obtain ⟨⟨os, as, ws⟩, hi, e7, hm7⟩ := bind_inv hm6
  obtain ⟨rm, hj, e8, hm8⟩ := bind_inv hm7
  obtain ⟨_, hk, e9, hm9⟩ := bind_inv hm8
  obtain ⟨_, hl, e10, hm10⟩ := bind_inv hm9
  clear hm hm1 hm2 hm3 hm4 hm5 hm6 hm7 hm8 hm9
  have hl1 : hl = h1 := by
    have := run_snd hm10
    exact this
  subst hl1
  obtain ⟨s1, hc1, hlive⟩ := lock_inputs_shifted _ _ _ e1
  have s2 := uncheckpoint_with_shifted (get_shifted fuel) _ _ _ _ e2
  have g2 : Grows h hc := by
    have a := lock_inputs_grows inputs h
    rw [run_snd e1] at a
    have b := uncheckpoint_with_grows (get_grows fuel) inputs hb
    rw [run_snd e2] at b
    exact a.trans b
  have hdc : hd = hc := (run_snd e3).symm
  subst hdc
  have g3 : Grows hd he := by
    have a := call_grows f raw hd
    rw [run_snd e4] at a
    exact a
  have p3 : he.pools = hd.pools := by
    have a : (f.call raw hd).2.pools = hd.pools := rfl
    rw [run_snd e4] at a
    exact a
  have hfe : hf = he := (run_snd e5).symm
  subst hfe
  have cb : CellsBelow hf := by
    intro c x hx
    have g := g2.trans g3
    cases hx0 : h.cells c with
    | none =>
      rw [g.cells_none c hx0] at hx
      cases hx
    | some x0 =>
      rw [g.next_cell]
      exact hcb c x0 hx0
  have po : PoolsOk hf := by
    have a : PoolsOk hb := wp_ok (Q := fun _ => PoolsOk)
      (keeps_lock_inputs replayKeeps_pools.lock inputs h hpo) e1
    have b : PoolsOk hd := wp_ok (Q := fun _ => PoolsOk)
      (keeps_uncheckpoint_with (fun c => keeps_get replayKeeps_pools fuel c) inputs hb a) e2
    exact wp_ok (Q := fun _ => PoolsOk) (replayKeeps_pools.call f raw hd b) e4
  have fr0 : Framed hf hf := framed_refl cb po
  have fr1 : Framed hf hg :=
    wp_ok (Q := fun _ => Framed hf) ((allocKeeps_framed hf).new_remat _ hf fr0) e6
  have fr2 : Framed hf hi :=
    wp_ok (Q := fun _ => Framed hf)
      (keeps_make_raw_outputs_of (allocKeeps_framed hf) _ _ _ _ _ hg fr1) e7
  have fr3 : Framed hf hj :=
    wp_ok (Q := fun _ => Framed hf) (keeps_remat_at (P := Framed hf) remat hi fr2) e8
  have fr4 : Framed hf hk :=
    wp_ok (Q := fun _ => Framed hf) ((allocKeeps_framed hf).set_remat _ _ hj fr3) e9
  obtain ⟨s5, _⟩ := unlock_inputs_shifted _ _ _ e10
  have hkept : PoolKept h hk :=
    poolKept_trans (poolKept_of_grows (g2.trans g3)) fr4.2.2.2
  refine shifted_trans (shifted_trans (shifted_trans (shifted_trans s1 s2 (fun _ => rfl))
    (shifted_of_pools p3) (fun _ => rfl)) fr4.2.2.1 (fun _ => rfl)) s5 ?_
  intro p
  rw [lock_times_kept hkept p inputs hlive]
  simp

end ATen

namespace ATen

/-- C28: on a heap that calls of the interface build from the empty heap, when `remat()`
returns normally every alias pool that existed before the call still exists and has the
`lock_count_` it had, and so for `make_raw()`.  The inputs are any list of cells (the same
cell or pool may occur several times) and the materialization of the inputs may replay
other rematerializers to any depth. -/
theorem C28_lock_balance (h : Heap) (hr : Reachable h) :
    (∀ (fuel r : Nat), (Rematerializer.remat fuel r h).1 = Except.ok () →
      LockSame h (Rematerializer.remat fuel r h).2) ∧
    (∀ (fuel : Nat) (f : RematFunc_t) (inputs : List Nat) (R : MakeRawResult),
      (make_raw fuel f inputs h).1 = Except.ok R →
      LockSame h (make_raw fuel f inputs h).2) := by
  have hpo := pools_ok_of_reachable hr
  have hcb := below_of_reachable hr
  constructor
  · intro fuel r hm
    have hrun := run_eq hm
    refine lockSame_of_shifted
      (remat_with_shifted (get_grows fuel) (get_shifted fuel) r h _ hrun) hpo ?_
    exact wp_snd (keeps_remat_with replayKeeps_pools
      (fun c => keeps_get replayKeeps_pools fuel c) r h hpo)
  · intro fuel f inputs R hm
    have hrun := run_eq hm
    refine lockSame_of_shifted (make_raw_shifted fuel f inputs h _ R hcb hpo hrun) hpo ?_
    exact wp_snd (callKeeps_pools.make_raw fuel f inputs h hpo)

/-- C28 at a concrete input: the rematerializer 1 of `heap_chain_evicted` has the evicted
cell 1 as both of its inputs, so its replay locks the pool 1 twice and replays the
rematerializer 0 (whose inputs are the cell 0 twice) in between; and a `make_raw` on the
evicted cells 2 and 1. -/
theorem C28_lock_balance_witness :
    Reachable heap_chain_evicted ∧
    (heap_chain_evicted.remats 1).map (fun x => x.inputs) = some [1, 1] ∧
    (heap_chain_evicted.cells 1).map (fun x => (x.t_.isSome, x.pool_, x.remat_))
      = some (false, 1, some 0) ∧
    (Rematerializer.remat 3 1 heap_chain_evicted).1 = Except.ok () ∧
    LockSame heap_chain_evicted (Rematerializer.remat 3 1 heap_chain_evicted).2 ∧
    ((Rematerializer.remat 3 1 heap_chain_evicted).2.pools 1).map (fun p => p.lock_count_)
      = some 0 ∧
    (make_raw 3 add_op [2, 1] heap_chain_evicted).1
      = Except.ok { outputs := [3], aliases := [-1], time := 5, rematerializer := 2 } ∧
    LockSame heap_chain_evicted (make_raw 3 add_op [2, 1] heap_chain_evicted).2 :=
  ⟨⟨ops_chain_evicted, rfl⟩, by decide!, by decide!, by decide!,
    (C28_lock_balance heap_chain_evicted ⟨ops_chain_evicted, rfl⟩).1 3 1 (by decide!),
    by decide!, by decide!,
    (C28_lock_balance heap_chain_evicted ⟨ops_chain_evicted, rfl⟩).2 3 add_op [2, 1]
      { outputs := [3], aliases := [-1], time := 5, rematerializer := 2 } (by decide!)⟩

end ATen

namespace ATen

/-! ## Slots below the allocation counter -/

theorem slot_count_pos {h : Heap} {e : Nat} :
    0 < slot_count h e ↔ ∃ r s, r < h.next_ref ∧ h.refs r = some s ∧ s.value = some e := by
  unfold slot_count
  rw [List.length_pos_iff_exists_mem]
  constructor
  · rintro ⟨r, hr⟩
    rw [List.mem_filter, List.mem_range] at hr
    obtain ⟨hlt, hb⟩ := hr
    cases hs : h.refs r with
    | none => simp [hs] at hb
    | some s =>
      simp only [hs, beq_iff_eq] at hb
      exact ⟨r, s, hlt, hs, hb⟩
  · rintro ⟨r, s, hlt, hs, hv⟩
    refine ⟨r, ?_⟩
    rw [List.mem_filter, List.mem_range]
    refine ⟨hlt, ?_⟩
    simp [hs, hv]

theorem slot_count_zero {h : Heap} {e : Nat} (hz : slot_count h e = 0) {r : Nat} {s : RefCell}
    (hlt : r < h.next_ref) (hs : h.refs r = some s) : s.value ≠ some e := by
  intro hv
  have := slot_count_pos.2 ⟨r, s, hlt, hs, hv⟩
  omega

end ATen

namespace ATen

/-! ## Giving up a handle -/

end ATen

namespace ATen

/-! ## The loop of `mutate` over `mutate_idx` -/

end ATen

namespace ATen

end ATen
